import Mathlib

/-!
# tsp-solver: a shallow embedding of `tspsolver.cpp` and `bruteforcetspsolver.cpp`

The two solver classes are embedded as pure state-passing functions.

* A C++ `int` is an `Int`; every `int` addition and subtraction of the source goes
  through `wrapInt`, the 32-bit two's complement wraparound.
* A `std::vector` is a `List`.  A read inside a loop that runs over the indices of the
  vector is the total lookup `at1` / `at2`; the reads whose index is *data*
  (`pOptTarget[start]`, `pOriginalCosts[i][pOptTarget[i]]`) are checked, and an index
  outside the vector is the fault `indexOutOfRange`.
* `ArcInfo(INT_MIN)` leaves `row` and `col` without a value: they are `Option`s, and
  reading them while they are `none` is the fault `uninitialisedArc`.
* The recursion of `Solver::solve` and the `while` loop of `findGroup` take a fuel
  argument; running out of it is the fault `fuelExhausted`.
-/

namespace TspSolver

/-! ## Machine integers -/

/-- The constant `INT_MAX` of `<climits>` for a 32-bit `int`. -/
def INT_MAX : Int := 2147483647

/-- The constant `INT_MIN` of `<climits>` for a 32-bit `int`. -/
def INT_MIN : Int := -2147483648

/-- Reduction of an integer into the range of a 32-bit two's complement `int`. -/
def wrapInt (x : Int) : Int := (x + 2147483648) % 4294967296 - 2147483648

/-- The sentinel `const int TspSolver::NIL = INT_MAX >> 8`. -/
def NIL : Int := INT_MAX >>> 8

/-- The member `const int pMaxCost = INT_MAX >> 16` of both solver classes. -/
def pMaxCost : Int := INT_MAX >>> 16

/-- The member `const int pMinCost = 0` of both solver classes. -/
def pMinCost : Int := 0

/-- Value of `size - 1` computed in the unsigned 64-bit type `size_t`. -/
def sizeMinusOne (size : Nat) : Nat := (size + 18446744073709551615) % 18446744073709551616

/-! ## Vectors -/

/-- Read `v[i]` for an index that a loop bound keeps inside the vector. -/
def at1 (v : List Int) (i : Nat) : Int := v.getD i 0

/-- Read `m[i][j]` for indices that loop bounds keep inside the matrix. -/
def at2 (m : List (List Int)) (i j : Nat) : Int := (m.getD i []).getD j 0

/-- Write `m[i][j] = v`. -/
def setCell (m : List (List Int)) (i j : Nat) (v : Int) : List (List Int) :=
  m.set i ((m.getD i []).set j v)

/-- Read `v[k]` where the index `k` is an `int` taken from the data: `none` when the
index lies outside the vector. -/
def atInt {α : Type} (v : List α) (k : Int) : Option α :=
  if 0 ≤ k then v[k.toNat]? else none

/-- The helper `range(size)`: the vector `0, 1, ..., size - 1`. -/
def range (size : Nat) : List Int := (List.range size).map (fun (i : Nat) => (i : Int))

/-! ## Failures -/

/-- The four message macros of the two source files. -/
inductive Msg
  | MSG_ERR_IRR_ARG
  | MSG_ERR_IRR_COST
  | MSG_ERR_COST_TOO_LARGE
  | MSG_ERR_COST_TOO_SMALL
  deriving DecidableEq, Repr

/-- The exceptions thrown by `assertCosts`: the class and the message. -/
inductive Exception
  | invalid_argument (what : Msg)
  | out_of_range (what : Msg)
  deriving DecidableEq, Repr

/-- The ways in which a call does not return an answer. -/
inductive Fault
  | threw (e : Exception)
  | uninitialisedArc
  | indexOutOfRange
  | fuelExhausted
  deriving DecidableEq, Repr

/-- Outcome of a computation that may fail. -/
inductive Outcome (α : Type)
  | ok (a : α)
  | fail (f : Fault)
  deriving DecidableEq, Repr

/-- Sequencing of outcomes. -/
def Outcome.andThen {α β : Type} (x : Outcome α) (f : α → Outcome β) : Outcome β :=
  match x with
  | .ok a => f a
  | .fail e => .fail e

/-- Outcome of an optional value, with the fault to report when it is absent. -/
def Outcome.ofOption {α : Type} (f : Fault) : Option α → Outcome α
  | some a => .ok a
  | none => .fail f

/-- The three outputs of `TspSolver::solve` and `TspSolver::bruteForceSolve`. -/
structure Answer where
  status : Int
  cyclePath : List Int
  cost : Int
  deriving DecidableEq, Repr

/-! ## Validation -/

/-- Body of the inner loop of `assertCosts` for one entry. -/
def assertCell (c : Int) : Except Exception Unit :=
  if c = NIL then .ok ()
  else if c > pMaxCost then .error (.out_of_range .MSG_ERR_COST_TOO_LARGE)
  else if c < pMinCost then .error (.out_of_range .MSG_ERR_COST_TOO_SMALL)
  else .ok ()

/-- The inner loop of `assertCosts` over the entries `costs[i][j]` of one row. -/
def assertRow : List Int → Except Exception Unit
  | [] => .ok ()
  | c :: rest =>
    match assertCell c with
    | .ok _ => assertRow rest
    | .error e => .error e

/-- The outer loop of `assertCosts` from row `i` on; `size` is `costs.size()`. -/
def assertRows (size : Nat) : Nat → List (List Int) → Except Exception Unit
  | _, [] => .ok ()
  | i, row :: rest =>
    if row.length ≠ size then .error (.invalid_argument .MSG_ERR_IRR_ARG)
    else if at1 row i ≠ NIL then .error (.invalid_argument .MSG_ERR_IRR_COST)
    else
      match assertRow row with
      | .ok _ => assertRows size (i + 1) rest
      | .error e => .error e

/-! ## Walking the best assignment (the same code in both classes) -/

/-- The loop of `isValid` over the remaining indices `i`. -/
def isValidLoop (pOriginalCosts : List (List Int)) (pOptTarget : List Int) :
    List Nat → Option Bool
  | [] => some true
  | i :: rest =>
    match atInt (pOriginalCosts.getD i []) (at1 pOptTarget i) with
    | none => none
    | some c => if c = NIL then some false else isValidLoop pOriginalCosts pOptTarget rest

/-- The loop of `getCycle`: `k` entries remain to be written, `start` is the next one. -/
def getCycleLoop (pOptTarget : List Int) : Nat → Int → Option (List Int)
  | 0, _ => some []
  | k + 1, start =>
    match atInt pOptTarget start with
    | none => none
    | some next =>
      match getCycleLoop pOptTarget k next with
      | none => none
      | some rest => some (start :: rest)

/-! ## The class `BruteForceSolver` -/

/-- The data members of `BruteForceSolver`. -/
structure BruteForceSolver where
  pUpperBound : Int
  pOriginalCosts : List (List Int)
  pOptTarget : List Int
  pCurrOptTarget : List Int
  deriving DecidableEq, Repr

namespace BruteForceSolver

/-- `BruteForceSolver::assertCosts`: no check of the size, then the scan of the rows. -/
def assertCosts (costs : List (List Int)) : Except Exception Unit :=
  assertRows costs.length 0 costs

/-- `BruteForceSolver::initOptPath`, on a solver whose `pUpperBound` has its initial
value `INT_MAX`. -/
def initOptPath (costs : List (List Int)) : BruteForceSolver :=
  { pUpperBound := INT_MAX
    pOriginalCosts := costs
    pOptTarget := List.replicate costs.length NIL
    pCurrOptTarget := List.replicate costs.length NIL }

/-- The leaf of `BruteForceSolver::solve`: close the path at node 0 and keep the
cycle when it is cheaper than the best one. -/
def solveLeaf (s : BruteForceSolver) (from_ : Nat) (lowerBound : Int) : BruteForceSolver :=
  if wrapInt (lowerBound + at2 s.pOriginalCosts from_ 0) < s.pUpperBound then
    { s with
      pUpperBound := wrapInt (lowerBound + at2 s.pOriginalCosts from_ 0)
      pOptTarget := s.pCurrOptTarget.set from_ 0 }
  else s

/-- The `for` loop of `BruteForceSolver::solve` over the remaining candidates `to`;
`recurse` is the recursive call. -/
def solveLoop (recurse : BruteForceSolver → Nat → Int → Nat → Option BruteForceSolver)
    (from_ : Nat) (lowerBound : Int) (pathLength : Nat) :
    List Nat → BruteForceSolver → Option BruteForceSolver
  | [], s => some s
  | to_ :: rest, s =>
    if to_ = from_ then solveLoop recurse from_ lowerBound pathLength rest s
    else if at1 s.pCurrOptTarget to_ ≠ NIL then
      solveLoop recurse from_ lowerBound pathLength rest s
    else
      match recurse { s with pCurrOptTarget := s.pCurrOptTarget.set from_ (to_ : Int) } to_
          (wrapInt (lowerBound + at2 s.pOriginalCosts from_ to_)) (pathLength + 1) with
      | none => none
      | some s2 =>
        solveLoop recurse from_ lowerBound pathLength rest
          { s2 with pCurrOptTarget := s2.pCurrOptTarget.set from_ NIL }

/-- `BruteForceSolver::solve(from, lowerBound, pathLength)`; `none` when the fuel does
not cover the depth of the recursion. -/
def solve : Nat → BruteForceSolver → Nat → Int → Nat → Option BruteForceSolver
  | 0, _, _, _, _ => none
  | fuel + 1, s, from_, lowerBound, pathLength =>
    if lowerBound ≥ s.pUpperBound then some s
    else if pathLength = sizeMinusOne s.pCurrOptTarget.length then
      some (solveLeaf s from_ lowerBound)
    else
      solveLoop (solve fuel) from_ lowerBound pathLength
        (List.range s.pCurrOptTarget.length) s

/-- The constructor of `BruteForceSolver`: validate, initialise, search.  The depth of
the recursion is at most the number of nodes. -/
def construct (costs : List (List Int)) : Outcome BruteForceSolver :=
  match assertCosts costs with
  | .error e => .fail (.threw e)
  | .ok _ => Outcome.ofOption .fuelExhausted (solve (costs.length + 1) (initOptPath costs) 0 0 0)

/-- `BruteForceSolver::getCost`. -/
def getCost (s : BruteForceSolver) : Int := s.pUpperBound

/-- `BruteForceSolver::isValid`. -/
def isValid (s : BruteForceSolver) : Option Bool :=
  isValidLoop s.pOriginalCosts s.pOptTarget (List.range s.pOptTarget.length)

/-- `BruteForceSolver::getCycle`. -/
def getCycle (s : BruteForceSolver) : Option (List Int) :=
  getCycleLoop s.pOptTarget (s.pOptTarget.length + 1) 0

end BruteForceSolver

/-! ## The class `Solver` (branch and bound) -/

/-- The struct `Solver::Arc`. -/
structure Arc where
  row : Nat
  col : Nat
  deriving DecidableEq, Repr

/-- The struct `Solver::ArcInfo`; the one-argument constructor sets `opportunityCost`
only, so `row` and `col` may be without a value. -/
structure ArcInfo where
  row : Option Nat
  col : Option Nat
  opportunityCost : Int
  deriving DecidableEq, Repr

/-- The data members of `Solver`. -/
structure Solver where
  pUpperBound : Int
  pOriginalCosts : List (List Int)
  pOptTarget : List Int
  pCurrOptTarget : List Int
  pCurrGroup : List Int
  zeroCostArcs : List Arc
  deriving DecidableEq, Repr

/-- The matrix, the candidate list and the local `lowerBound` during
`Solver::extractLowerBound`. -/
structure Reduction where
  costs : List (List Int)
  zeroCostArcs : List Arc
  lowerBound : Int
  deriving DecidableEq, Repr

namespace Solver

/-- `Solver::assertCosts`: the check of the size, then the scan of the rows. -/
def assertCosts (costs : List (List Int)) : Except Exception Unit :=
  if costs.length ≤ 1 then .error (.invalid_argument .MSG_ERR_IRR_COST)
  else assertRows costs.length 0 costs

/-- `Solver::initOptPath`, on a solver whose other members have their initial values. -/
def initOptPath (costs : List (List Int)) : Solver :=
  { pUpperBound := INT_MAX
    pOriginalCosts := costs
    pOptTarget := List.replicate costs.length NIL
    pCurrOptTarget := List.replicate costs.length NIL
    pCurrGroup := []
    zeroCostArcs := [] }

/-- First inner loop of the row pass of `extractLowerBound` for row `i`: record the
zero entries and find the minimum. -/
def rowScan (costs : List (List Int)) (size i : Nat) (zeroCostArcs : List Arc) :
    List Arc × Int :=
  (List.range size).foldl
    (fun acc j =>
      (if at2 costs i j = 0 then acc.1 ++ [Arc.mk i j] else acc.1,
       if at2 costs i j < acc.2 then at2 costs i j else acc.2))
    (zeroCostArcs, INT_MAX)

/-- Second inner loop of the row pass for row `i`: record the entries equal to the
minimum and subtract it. -/
def rowSubtract (size i : Nat) (minCost : Int) (costs : List (List Int))
    (zeroCostArcs : List Arc) : List (List Int) × List Arc :=
  (List.range size).foldl
    (fun acc j =>
      (setCell acc.1 i j (wrapInt (at2 acc.1 i j - minCost)),
       if at2 acc.1 i j = minCost then acc.2 ++ [Arc.mk i j] else acc.2))
    (costs, zeroCostArcs)

/-- Body of the row pass of `extractLowerBound` for row `i`. -/
def reduceRow (size : Nat) (st : Reduction) (i : Nat) : Reduction :=
  let scan := rowScan st.costs size i st.zeroCostArcs
  if scan.2 = 0 then { st with zeroCostArcs := scan.1 }
  else
    let sub := rowSubtract size i scan.2 st.costs scan.1
    { costs := sub.1, zeroCostArcs := sub.2, lowerBound := wrapInt (st.lowerBound + scan.2) }

/-- First inner loop of the column pass for column `j`: find the minimum. -/
def colScan (costs : List (List Int)) (size j : Nat) : Int :=
  (List.range size).foldl
    (fun minCost i => if at2 costs i j < minCost then at2 costs i j else minCost) INT_MAX

/-- Second inner loop of the column pass for column `j`: record the entries equal to
the minimum and subtract it. -/
def colSubtract (size j : Nat) (minCost : Int) (costs : List (List Int))
    (zeroCostArcs : List Arc) : List (List Int) × List Arc :=
  (List.range size).foldl
    (fun acc i =>
      (setCell acc.1 i j (wrapInt (at2 acc.1 i j - minCost)),
       if at2 acc.1 i j = minCost then acc.2 ++ [Arc.mk i j] else acc.2))
    (costs, zeroCostArcs)

/-- Body of the column pass of `extractLowerBound` for column `j`. -/
def reduceCol (size : Nat) (st : Reduction) (j : Nat) : Reduction :=
  let minCost := colScan st.costs size j
  if minCost = 0 then st
  else
    let sub := colSubtract size j minCost st.costs st.zeroCostArcs
    { costs := sub.1, zeroCostArcs := sub.2, lowerBound := wrapInt (st.lowerBound + minCost) }

/-- `Solver::extractLowerBound`: the reduced matrix, the list `zeroCostArcs` (cleared
at the start) and the returned bound. -/
def extractLowerBound (costs : List (List Int)) : Reduction :=
  (List.range costs.length).foldl (reduceCol costs.length)
    ((List.range costs.length).foldl (reduceRow costs.length)
      { costs := costs, zeroCostArcs := [], lowerBound := 0 })

/-- The loop of `searchBestAdvantageArc` computing `minColCost` for `arc`. -/
def minColCost (costs : List (List Int)) (size : Nat) (arc : Arc) : Int :=
  (List.range size).foldl
    (fun m i =>
      if i = arc.row then m
      else if at2 costs i arc.col > pMaxCost then m
      else if at2 costs i arc.col < m then at2 costs i arc.col else m)
    INT_MAX

/-- The loop of `searchBestAdvantageArc` computing `minRowCost` for `arc`. -/
def minRowCost (costs : List (List Int)) (size : Nat) (arc : Arc) : Int :=
  (List.range size).foldl
    (fun m j =>
      if j = arc.col then m
      else if at2 costs arc.row j > pMaxCost then m
      else if at2 costs arc.row j < m then at2 costs arc.row j else m)
    INT_MAX

/-- `Solver::searchBestAdvantageArc` over the candidate list `zeroCostArcs`. -/
def searchBestAdvantageArc (costs : List (List Int)) (zeroCostArcs : List Arc) : ArcInfo :=
  zeroCostArcs.foldl
    (fun bestArcInfo arc =>
      if wrapInt (minColCost costs costs.length arc + minRowCost costs costs.length arc)
          > bestArcInfo.opportunityCost then
        { row := some arc.row
          col := some arc.col
          opportunityCost :=
            wrapInt (minColCost costs costs.length arc + minRowCost costs costs.length arc) }
      else bestArcInfo)
    { row := none, col := none, opportunityCost := INT_MIN }

/-- The vector that `chooseArc` fills from `title` by skipping index `skip`. -/
def chooseArcTitle (title : List Int) (size skip : Nat) : List Int :=
  ((List.range size).filter (fun i => i ≠ skip)).map (fun i => at1 title i)

/-- The matrix that `chooseArc` fills by skipping row `row` and column `col`. -/
def chooseArcCosts (costs : List (List Int)) (row col : Nat) : List (List Int) :=
  ((List.range costs.length).filter (fun i => i ≠ row)).map
    (fun i => ((List.range costs.length).filter (fun j => j ≠ col)).map (fun j => at2 costs i j))

/-- The `while` loop of `Solver::findGroup`; `none` when no root is reached. -/
def findGroupLoop (pCurrGroup : List Int) : Nat → Int → Option Int
  | 0, _ => none
  | fuel + 1, index =>
    if at1 pCurrGroup index.toNat ≠ index then
      findGroupLoop pCurrGroup fuel (at1 pCurrGroup index.toNat)
    else some index

/-- `Solver::findGroup`; a chain without a cycle has at most `size` links. -/
def findGroup (pCurrGroup : List Int) (index : Int) : Option Int :=
  findGroupLoop pCurrGroup (pCurrGroup.length + 1) index

/-- Body of the loop of `setCurrGroup` for node `i`. -/
def setCurrGroupStep (pCurrOptTarget : List Int) (pCurrGroup : List Int) (i : Nat) :
    Option (List Int) :=
  if at1 pCurrOptTarget i = NIL then some pCurrGroup
  else
    match findGroup pCurrGroup (min (i : Int) (at1 pCurrOptTarget i)),
          findGroup pCurrGroup (max (i : Int) (at1 pCurrOptTarget i)) with
    | some minGroup, some maxGroup =>
      if minGroup > maxGroup then some (pCurrGroup.set minGroup.toNat maxGroup)
      else some (pCurrGroup.set maxGroup.toNat minGroup)
    | _, _ => none

/-- The loop of `setCurrGroup` over the remaining nodes. -/
def setCurrGroupLoop (pCurrOptTarget : List Int) : List Nat → List Int → Option (List Int)
  | [], pCurrGroup => some pCurrGroup
  | i :: rest, pCurrGroup =>
    match setCurrGroupStep pCurrOptTarget pCurrGroup i with
    | none => none
    | some g => setCurrGroupLoop pCurrOptTarget rest g

/-- `Solver::setCurrGroup`: the new value of `pCurrGroup`. -/
def setCurrGroup (pCurrOptTarget : List Int) : Option (List Int) :=
  setCurrGroupLoop pCurrOptTarget (List.range pCurrOptTarget.length)
    (range pCurrOptTarget.length)

/-- `Solver::isArcSelectable`. -/
def isArcSelectable (s : Solver) (from_ to_ : Int) : Option Bool :=
  if at1 s.pCurrOptTarget from_.toNat ≠ NIL then some false
  else if s.pCurrOptTarget.any (fun t => t = to_) then some false
  else
    match findGroup s.pCurrGroup from_, findGroup s.pCurrGroup to_ with
    | some a, some b => some (a ≠ b)
    | _, _ => none

/-- The vector `group` of `isArcSkippable`: `findGroup(i)` for the listed nodes. -/
def groupTable (pCurrGroup : List Int) : List Nat → Option (List Int)
  | [] => some []
  | i :: rest =>
    match findGroup pCurrGroup (i : Int), groupTable pCurrGroup rest with
    | some g, some gs => some (g :: gs)
    | _, _ => none

/-- `Solver::isArcSkippable`. -/
def isArcSkippable (s : Solver) (from_ to_ : Int) : Option Bool :=
  match groupTable s.pCurrGroup (List.range s.pCurrOptTarget.length) with
  | none => none
  | some group =>
    some ((List.range s.pCurrOptTarget.length).any (fun i =>
      (i : Int) ≠ from_ ∧ (i : Int) ≠ to_ ∧
      at1 group i ≠ at1 group from_.toNat ∧ at1 group i ≠ at1 group to_.toNat))

/-- The leaf of `Solver::solve`: the submatrix left by `chooseArc` has one cell. -/
def solveLeaf (s : Solver) (from_ to_ : Int) (lastFrom lastTo : Int) (lastCost : Int)
    (lowerBound : Int) : Solver :=
  if wrapInt (lowerBound + lastCost) ≥ s.pUpperBound then s
  else
    { s with
      pUpperBound := wrapInt (lowerBound + lastCost)
      pOptTarget := (s.pCurrOptTarget.set from_.toNat to_).set lastFrom.toNat lastTo }

/-- The exclude branch of `Solver::solve`; `recurse` is the recursive call. -/
def solveExclude
    (recurse : Solver → List Int → List Int → List (List Int) → Int →
      Outcome (Solver × List (List Int)))
    (arcSkippable : Bool) (s : Solver) (rowTitle colTitle : List Int)
    (costs : List (List Int)) (row col : Nat) (lowerBound : Int) :
    Outcome (Solver × List (List Int)) :=
  if arcSkippable then
    (recurse s rowTitle colTitle (setCell costs row col NIL) lowerBound).andThen fun r =>
    .ok (r.1, setCell r.2 row col (at2 costs row col))
  else .ok (s, costs)

/-- `Solver::solve(rowTitle, colTitle, costs, lowerBound)`: the solver and the matrix
`costs` (passed by reference) after the call. -/
def solve : Nat → Solver → List Int → List Int → List (List Int) → Int →
    Outcome (Solver × List (List Int))
  | 0, _, _, _, _, _ => .fail .fuelExhausted
  | fuel + 1, s, rowTitle, colTitle, costs, lowerBound =>
    if lowerBound ≥ s.pUpperBound then .ok (s, costs)
    else
      let red := extractLowerBound costs
      let s1 := { s with zeroCostArcs := red.zeroCostArcs }
      let lb := wrapInt (lowerBound + red.lowerBound)
      if lb ≥ s1.pUpperBound then .ok (s1, red.costs)
      else
        let bestArcInfo := searchBestAdvantageArc red.costs red.zeroCostArcs
        (Outcome.ofOption .fuelExhausted (setCurrGroup s1.pCurrOptTarget)).andThen fun g =>
        let s2 := { s1 with pCurrGroup := g }
        (Outcome.ofOption .uninitialisedArc bestArcInfo.row).andThen fun row =>
        (Outcome.ofOption .uninitialisedArc bestArcInfo.col).andThen fun col =>
        let from_ := at1 rowTitle row
        let to_ := at1 colTitle col
        (Outcome.ofOption .fuelExhausted (isArcSelectable s2 from_ to_)).andThen
        fun arcSelectable =>
        (Outcome.ofOption .fuelExhausted (isArcSkippable s2 from_ to_)).andThen
        fun arcSkippable =>
        if arcSelectable then
          let chooseArcRowTitle := chooseArcTitle rowTitle red.costs.length row
          let chooseArcColTitle := chooseArcTitle colTitle red.costs.length col
          let chosen := chooseArcCosts red.costs row col
          if chosen.length = 1 then
            .ok (solveLeaf s2 from_ to_ (at1 chooseArcRowTitle 0) (at1 chooseArcColTitle 0)
              (at2 chosen 0 0) lb, red.costs)
          else
            (solve fuel { s2 with pCurrOptTarget := s2.pCurrOptTarget.set from_.toNat to_ }
              chooseArcRowTitle chooseArcColTitle chosen lb).andThen fun r =>
            solveExclude (solve fuel) arcSkippable
              { r.1 with pCurrOptTarget := r.1.pCurrOptTarget.set from_.toNat NIL }
              rowTitle colTitle red.costs row col lb
        else
          solveExclude (solve fuel) arcSkippable s2 rowTitle colTitle red.costs row col lb

/-- The constructor of `Solver`: validate, initialise, search from the full matrix. -/
def construct (fuel : Nat) (costs : List (List Int)) : Outcome Solver :=
  match assertCosts costs with
  | .error e => .fail (.threw e)
  | .ok _ =>
    (solve fuel (initOptPath costs) (range costs.length) (range costs.length) costs 0).andThen
      fun r => .ok r.1

/-- `Solver::getCost`. -/
def getCost (s : Solver) : Int := s.pUpperBound

/-- `Solver::isValid`. -/
def isValid (s : Solver) : Option Bool :=
  isValidLoop s.pOriginalCosts s.pOptTarget (List.range s.pOptTarget.length)

/-- `Solver::getCycle`. -/
def getCycle (s : Solver) : Option (List Int) :=
  getCycleLoop s.pOptTarget (s.pOptTarget.length + 1) 0

end Solver

/-- `TspSolver::solve`: the cycle, the cost and the status, in the order in which the
source computes them; `fuel` bounds the depth of the recursion of `Solver::solve`. -/
def solve (fuel : Nat) (costs : List (List Int)) : Outcome Answer :=
  (Solver.construct fuel costs).andThen fun solver =>
  (Outcome.ofOption .indexOutOfRange (Solver.getCycle solver)).andThen fun cyclePath =>
  (Outcome.ofOption .indexOutOfRange (Solver.isValid solver)).andThen fun valid =>
  .ok { status := if valid then 0 else -1, cyclePath := cyclePath, cost := solver.getCost }

/-- `TspSolver::bruteForceSolve`: the cycle, the cost and the status, in the order in
which the source computes them. -/
def bruteForceSolve (costs : List (List Int)) : Outcome Answer :=
  (BruteForceSolver.construct costs).andThen fun solver =>
  (Outcome.ofOption .indexOutOfRange (BruteForceSolver.getCycle solver)).andThen fun cyclePath =>
  (Outcome.ofOption .indexOutOfRange (BruteForceSolver.isValid solver)).andThen fun valid =>
  .ok { status := if valid then 0 else -1, cyclePath := cyclePath, cost := solver.getCost }

/-! ## Vocabulary of the specification -/

/-- The input contract: more than one node, square, the sentinel on the diagonal, and
every other entry the sentinel or a cost between 0 and 30000. -/
def ValidMatrix (costs : List (List Int)) : Prop :=
  1 < costs.length ∧
  (∀ row ∈ costs, row.length = costs.length) ∧
  (∀ i < costs.length, at2 costs i i = NIL) ∧
  (∀ i < costs.length, ∀ j < costs.length, i ≠ j →
    at2 costs i j = NIL ∨ (0 ≤ at2 costs i j ∧ at2 costs i j ≤ 30000))

instance (costs : List (List Int)) : Decidable (ValidMatrix costs) := by
  unfold ValidMatrix; infer_instance

/-- The failure kinds of validation named by the specification. -/
inductive FailureKind
  | InvalidSize
  | InvalidShape
  | InvalidDiagonal
  | CostTooLarge
  | CostNegative
  deriving DecidableEq, Repr

/-- The exception that the `throw` statement of each failure kind raises in
`assertCosts`. -/
def FailureKind.thrown : FailureKind → Exception
  | .InvalidSize => .invalid_argument .MSG_ERR_IRR_COST
  | .InvalidShape => .invalid_argument .MSG_ERR_IRR_ARG
  | .InvalidDiagonal => .invalid_argument .MSG_ERR_IRR_COST
  | .CostTooLarge => .out_of_range .MSG_ERR_COST_TOO_LARGE
  | .CostNegative => .out_of_range .MSG_ERR_COST_TOO_SMALL

/-- In the words of the specification: the offence of row `i` of a matrix of size
`size`, if it has one.  A wrong length comes first, then a diagonal entry that is not
the sentinel, then the first entry of the row that is not the sentinel and lies outside
the range from 0 to 30000, too large when it exceeds 30000 and negative otherwise. -/
def rowOffence (size : Nat) (costs : List (List Int)) (i : Nat) : Option FailureKind :=
  if (costs.getD i []).length ≠ size then some .InvalidShape
  else if at2 costs i i ≠ NIL then some .InvalidDiagonal
  else
    match (costs.getD i []).find? (fun c => c ≠ NIL ∧ (c > 30000 ∨ c < 0)) with
    | some c => if c > 30000 then some .CostTooLarge else some .CostNegative
    | none => none

/-- In the words of the specification: the first offending condition in scan order for
the branch and bound solver, if there is one: a size of at most 1, then the offence of
the first row that has one. -/
def firstOffence (costs : List (List Int)) : Option FailureKind :=
  if costs.length ≤ 1 then some .InvalidSize
  else (List.range costs.length).findSome? (rowOffence costs.length costs)

/-- In the words of the specification: the first offending condition in scan order for
the brute force solver, which has no condition on the size: the offence of the first row
that has one. -/
def firstOffenceBruteForce (costs : List (List Int)) : Option FailureKind :=
  (List.range costs.length).findSome? (rowOffence costs.length costs)

/-- Sum of the matrix entries along a walk through the listed nodes. -/
def walkCost (costs : List (List Int)) : List Nat → Int
  | [] => 0
  | [_] => 0
  | a :: b :: rest => at2 costs a b + walkCost costs (b :: rest)

/-- Every edge of the walk through the listed nodes has a cost other than the sentinel. -/
def walkFinite (costs : List (List Int)) : List Nat → Bool
  | [] => true
  | [_] => true
  | a :: b :: rest => decide (at2 costs a b ≠ NIL) && walkFinite costs (b :: rest)

/-- The Hamiltonian cycles of the graph on the nodes `0 .. n - 1`, each given by the
order `q` in which it visits the nodes other than 0 after leaving node 0. -/
def IsTour (n : Nat) (q : List Nat) : Prop :=
  q.Nodup ∧ ∀ x, x ∈ q ↔ (0 < x ∧ x < n)

instance (n : Nat) (q : List Nat) : Decidable (IsTour n q) :=
  decidable_of_iff (q.Nodup ∧ (∀ x ∈ q, 0 < x ∧ x < n) ∧ ∀ x < n, 0 < x → x ∈ q)
    ⟨fun h => ⟨h.1, fun x => ⟨h.2.1 x, fun hx => h.2.2 x hx.2 hx.1⟩⟩,
     fun h => ⟨h.1, fun x hx => (h.2 x).1 hx, fun x hx h0 => (h.2 x).2 ⟨h0, hx⟩⟩⟩

/-- The closed walk of the Hamiltonian cycle with visiting order `q`. -/
def tourNodes (q : List Nat) : List Nat := 0 :: (q ++ [0])

/-- Total cost in the original matrix of the Hamiltonian cycle with visiting order `q`. -/
def tourCost (costs : List (List Int)) (q : List Nat) : Int := walkCost costs (tourNodes q)

/-- The Hamiltonian cycle with visiting order `q` uses no sentinel edge. -/
def FeasibleTour (costs : List (List Int)) (q : List Nat) : Prop :=
  walkFinite costs (tourNodes q) = true

instance (costs : List (List Int)) (q : List Nat) : Decidable (FeasibleTour costs q) := by
  unfold FeasibleTour; infer_instance

/-- Sum of the original entries `costs[cycle[k]][cycle[k+1]]` along a reported cycle. -/
def cycleCost (costs : List (List Int)) (cyclePath : List Int) : Int :=
  walkCost costs (cyclePath.map Int.toNat)

/-- The shape of a reported cycle: `n + 1` entries, the first and the last one 0, and
each of the nodes `1 .. n - 1` exactly once. -/
def IsCyclePath (n : Nat) (cyclePath : List Int) : Prop :=
  cyclePath.length = n + 1 ∧ cyclePath.head? = some 0 ∧ cyclePath.getLast? = some 0 ∧
  ∀ v < n, 0 < v → cyclePath.count (v : Int) = 1

instance (n : Nat) (cyclePath : List Int) : Decidable (IsCyclePath n cyclePath) := by
  unfold IsCyclePath; infer_instance

/-- The status of an outcome, when it is an answer. -/
def Outcome.status? : Outcome Answer → Option Int
  | .ok a => some a.status
  | .fail _ => none

/-- The cost of an outcome, when it is an answer. -/
def Outcome.cost? : Outcome Answer → Option Int
  | .ok a => some a.cost
  | .fail _ => none

/-! ## Auxiliary definitions for the brute force search -/

namespace BruteForceSolver

/-- The nodes that the loop of `solve` still accepts as successor of `from_`. -/
def unvisited (n : Nat) (curr : List Int) (from_ : Nat) : List Nat :=
  (List.range n).filter (fun x => x ≠ from_ ∧ at1 curr x = NIL)

/-- An order `q` in which the nodes not yet on the path can be visited. -/
def IsCompletion (n : Nat) (curr : List Int) (from_ : Nat) (q : List Nat) : Prop :=
  q.Nodup ∧ ∀ x, x ∈ q ↔ x ∈ unvisited n curr from_

/-- The assignment recorded at the leaf reached from `from_` through the nodes `q`. -/
def assignTour (curr : List Int) (from_ : Nat) : List Nat → List Int
  | [] => curr.set from_ 0
  | x :: q => assignTour (curr.set from_ (x : Int)) x q

end BruteForceSolver

end TspSolver

namespace TspSolver

namespace BruteForceSolver

/-- Cost of the walk that leaves `from_`, visits `q` in order and returns to node 0. -/
def closeCost (costs : List (List Int)) (from_ : Nat) (q : List Nat) : Int :=
  walkCost costs (from_ :: (q ++ [0]))

/-- What a call `solve(from_, lowerBound, ..)` started in state `s` guarantees about the
state `s2` it returns: the path is restored, the best cost does not exceed the cost of
any completion of the path, and the best cycle is the old one or a completion whose
cost is the new best cost. -/
def SolvePost (n : Nat) (s s2 : BruteForceSolver) (from_ : Nat) (lowerBound : Int) : Prop :=
  s2.pCurrOptTarget = s.pCurrOptTarget ∧ s2.pOriginalCosts = s.pOriginalCosts ∧
  s2.pUpperBound ≤ s.pUpperBound ∧
  (∀ q, IsCompletion n s.pCurrOptTarget from_ q →
    s2.pUpperBound ≤ lowerBound + closeCost s.pOriginalCosts from_ q) ∧
  ((s2.pUpperBound = s.pUpperBound ∧ s2.pOptTarget = s.pOptTarget) ∨
    ∃ q, IsCompletion n s.pCurrOptTarget from_ q ∧
      s2.pUpperBound = lowerBound + closeCost s.pOriginalCosts from_ q ∧
      s2.pOptTarget = assignTour s.pCurrOptTarget from_ q)

end BruteForceSolver

end TspSolver

namespace TspSolver

/-! ## Concrete matrices -/

/-- The four-node example of the specification. -/
def sampleCosts : List (List Int) :=
  [[NIL, 10, 15, 20], [5, NIL, 9, 10], [6, 13, NIL, 12], [8, 8, 9, NIL]]

/-- Three nodes on a ring: cost 0 one way round, cost 1 the other way. -/
def ringCosts : List (List Int) :=
  [[NIL, 1, 0], [0, NIL, 1], [1, 0, NIL]]

/-- Four nodes, every pair joined in both directions by a positive cost. -/
def denseCosts : List (List Int) :=
  [[NIL, 7, 9, 8], [2, NIL, 8, 9], [9, 1, NIL, 6], [8, 5, 4, NIL]]

/-- Four nodes, every pair joined in both directions by a cost between 0 and 3. -/
def smallCosts : List (List Int) :=
  [[NIL, 3, 2, 1], [0, NIL, 3, 3], [3, 1, NIL, 2], [3, 2, 0, NIL]]

/-- Four nodes with the free cycle 0, 1, 2, 3 and two more edges of cost 1. -/
def sparseCosts : List (List Int) :=
  [[NIL, 0, 1, NIL], [NIL, NIL, 0, NIL], [1, NIL, NIL, 0], [0, NIL, NIL, NIL]]

/-- Two nodes joined by edges of cost 30001. -/
def overLimitCosts : List (List Int) :=
  [[NIL, 30001], [30001, NIL]]

/-- Two nodes: an edge of cost 30001 in row 0 and an edge of cost -1 in row 1. -/
def mixedCosts : List (List Int) :=
  [[NIL, 30001], [-1, NIL]]

/-- Two nodes without any edge. -/
def unreachableCosts : List (List Int) :=
  [[NIL, NIL], [NIL, NIL]]

end TspSolver

namespace TspSolver

/-- A matrix of 257 nodes: the edges from `i + 1` to `i` and from 0 to 256 cost 1, every
other entry is the sentinel. -/
def longRingCosts : List (List Int) :=
  (List.range 257).map fun i => (List.range 257).map fun j =>
    if i = j + 1 ∨ (i = 0 ∧ j = 256) then 1 else NIL

/-- The visiting order 256, 255, ..., 1 of the only Hamiltonian cycle of `longRingCosts`
without a sentinel edge. -/
def longRingTour : List Nat := (List.range' 1 256).reverse

end TspSolver

namespace TspSolver

/-! ## Auxiliary definitions for the branch and bound search -/

/-- A matrix of `k` rows, each of length `k`. -/
def Square (k : Nat) (W : List (List Int)) : Prop :=
  W.length = k ∧ ∀ row ∈ W, row.length = k

/-- Every entry of the leading `k` by `k` block lies between 0 and the sentinel. -/
def Bounded (k : Nat) (W : List (List Int)) : Prop :=
  ∀ i < k, ∀ j < k, 0 ≤ at2 W i j ∧ at2 W i j ≤ NIL

/-- Sum of `g 0, ..., g (k - 1)`. -/
def sumTo (k : Nat) (g : Nat → Int) : Int := ((List.range k).map g).sum

end TspSolver

namespace TspSolver

/-- The matrix of `n` nodes in which every edge between two different nodes costs `c`. -/
def uniformCosts (n : Nat) (c : Int) : List (List Int) :=
  (List.range n).map fun i => (List.range n).map fun j => if i = j then NIL else c

end TspSolver

namespace TspSolver

/-! ## Partial assignments as systems of paths -/

/-- Node `b` is reached from node `a` along the arcs `u → v` with `f u = some v`. -/
def Reach (f : Nat → Option Nat) (a b : Nat) : Prop :=
  Relation.ReflTransGen (fun u v => f u = some v) a b

/-- The arcs of `f` form node-disjoint paths on the nodes below `n`: the arcs stay
below `n`, no node has two predecessors, every node reaches a node without successor
and is reached from a node without predecessor. -/
def PathSys (n : Nat) (f : Nat → Option Nat) : Prop :=
  (∀ a b, f a = some b → a < n ∧ b < n) ∧
  (∀ a a' b, f a = some b → f a' = some b → a = a') ∧
  (∀ a, ∃ x, Reach f a x ∧ f x = none) ∧
  (∀ b, ∃ y, Reach f y b ∧ ∀ a, f a ≠ some y)

/-- The successor function `σ` is a Hamiltonian cycle on the nodes below `n`. -/
def Ham (n : Nat) (σ : Nat → Nat) : Prop :=
  (∀ a < n, σ a < n) ∧ (∀ a < n, ∀ b < n, σ a = σ b → a = b) ∧
  (∀ a < n, ∀ b < n, ∃ m, σ^[m] a = b)

/-- The successor function `σ` contains every arc of `f`. -/
def Ext (f : Nat → Option Nat) (σ : Nat → Nat) : Prop := ∀ a b, f a = some b → σ a = b

/-- The partial assignment `f` with the arc `x → y` added. -/
def addArc (f : Nat → Option Nat) (x y : Nat) : Nat → Option Nat :=
  fun a => if a = x then some y else f a

end TspSolver

namespace TspSolver

/-! ## The group table as a forest -/

/-- The parent of node `z` in the group table `g`; a node outside the table is its own
parent. -/
def par (g : List Int) (z : Nat) : Nat := if z < g.length then (at1 g z).toNat else z

/-- The node reached from `z` after at most `fuel` parent links, stopping at a root. -/
def rootOf (g : List Int) : Nat → Nat → Nat
  | 0, z => z
  | fuel + 1, z => if par g z = z then z else rootOf g fuel (par g z)

/-- The root of node `z` in a group table whose parent links never increase. -/
def rt (g : List Int) (z : Nat) : Nat := rootOf g z z

/-- Every entry of the group table is a node not above its index. -/
def GroupOK (g : List Int) : Prop := ∀ z < g.length, ∃ p : Nat, p ≤ z ∧ at1 g z = (p : Int)

/-- The partial assignment stored in `pCurrOptTarget`: the successor of node `a`, if
the entry is not the sentinel. -/
def nx (curr : List Int) (a : Nat) : Option Nat :=
  if a < curr.length ∧ at1 curr a ≠ NIL then some (at1 curr a).toNat else none

end TspSolver

namespace TspSolver

/-- The vector `pCurrOptTarget` during the search: `n` entries, each the sentinel or a
node below `n`, whose arcs form node-disjoint paths. -/
def CurrOK (n : Nat) (curr : List Int) : Prop :=
  curr.length = n ∧ (∀ i < n, at1 curr i = NIL ∨ ∃ v < n, at1 curr i = (v : Int)) ∧
  PathSys n (nx curr)

end TspSolver

namespace TspSolver

/-- The index in a vector of the entry that has index `i` after the entry `r` has been
removed. -/
def skipIdx (r i : Nat) : Nat := if i < r then i else i + 1

/-- Sum of the original entries along the arcs `a → σ a` of the nodes below `n`. -/
def trueCost (W : List (List Int)) (n : Nat) (σ : Nat → Nat) : Int :=
  sumTo n (fun a => at2 W a (σ a))

/-- The bound plus the entries of the working matrix `G`, with row titles `RN` and
column titles `CN`, at the arcs that `σ` gives to the nodes without arc. -/
def V (G : List (List Int)) (RN CN : List Nat) (lb : Int) (σ : Nat → Nat) : Int :=
  lb + sumTo RN.length (fun i => at2 G i (CN.indexOf (σ (RN.getD i 0))))

/-- The successor function stored in a complete assignment vector. -/
def succOf (opt : List Int) (a : Nat) : Nat := (at1 opt a).toNat

/-- The best solution so far: the vector `opt` is a Hamiltonian cycle and `ub` is the
sum of the original entries along it. -/
def BestOK (n : Nat) (W : List (List Int)) (opt : List Int) (ub : Int) : Prop :=
  opt.length = n ∧ (∀ a < n, ∃ b < n, at1 opt a = (b : Int)) ∧ Ham n (succOf opt) ∧
  ub = trueCost W n (succOf opt)

/-- The state at a call of `Solver::solve` with row titles `RN`, column titles `CN`,
working matrix `G` and bound `lb`, where `curr`, `ub` and `opt` are the values of
`pCurrOptTarget`, `pUpperBound` and `pOptTarget`: the titles list the nodes without
successor and without predecessor, and for every Hamiltonian cycle `σ` through the arcs
of `curr` the value `V` is at least the cost of `σ`, and equal to it unless `σ` costs
at least `ub`. -/
structure Frame (n : Nat) (W : List (List Int)) (curr : List Int) (ub : Int) (opt : List Int)
    (RN CN : List Nat) (G : List (List Int)) (lb : Int) : Prop where
  ok : CurrOK n curr
  rnd : RN.Nodup
  cnd : CN.Nodup
  rmem : ∀ a, a ∈ RN ↔ a < n ∧ nx curr a = none
  cmem : ∀ b, b ∈ CN ↔ b < n ∧ ∀ a, nx curr a ≠ some b
  clen : CN.length = RN.length
  sq : Square RN.length G
  bd : Bounded RN.length G
  two : 2 ≤ RN.length
  lb0 : 0 ≤ lb
  best : ub = INT_MAX ∨ BestOK n W opt ub
  inv : ∀ σ, Ham n σ → Ext (nx curr) σ →
    trueCost W n σ ≤ V G RN CN lb σ ∧ (V G RN CN lb σ = trueCost W n σ ∨ ub ≤ trueCost W n σ)

/-- What a call of `Solver::solve` started with `pCurrOptTarget = curr` and
`pUpperBound = ub` guarantees about the state `s2` it returns: the path is restored, the
best cost has not grown, it is the cost of the recorded Hamiltonian cycle, and no
Hamiltonian cycle through the arcs of `curr` is cheaper. -/
structure Post (n : Nat) (W : List (List Int)) (curr : List Int) (ub : Int) (s2 : Solver) :
    Prop where
  restored : s2.pCurrOptTarget = curr
  le : s2.pUpperBound ≤ ub
  best : s2.pUpperBound = INT_MAX ∨ BestOK n W s2.pOptTarget s2.pUpperBound
  all : ∀ σ, Ham n σ → Ext (nx curr) σ → s2.pUpperBound ≤ trueCost W n σ

end TspSolver

namespace TspSolver

/-- The visiting order of the Hamiltonian cycle with successor function `σ`. -/
def orderOf (n : Nat) (σ : Nat → Nat) : List Nat := (List.range (n - 1)).map (fun i => σ^[i + 1] 0)

/-- The successor function of the Hamiltonian cycle with visiting order `q`. -/
def succOfOrder (n : Nat) (q : List Nat) (a : Nat) : Nat :=
  (0 :: q).getD (((0 :: q).indexOf a + 1) % n) 0

end TspSolver

namespace TspSolver

/-- The submatrix left in the second call of `Solver::solve` on `ringCosts`: rows 1, 2
and columns 0, 1 of the reduced matrix. -/
def tailCosts : List (List Int) :=
  [[0, NIL], [1, 0]]

/-- Three nodes on a ring: cost 0 round 0, 1, 2 and cost 1 the other way. -/
def backRingCosts : List (List Int) :=
  [[NIL, 0, 1], [1, NIL, 0], [0, 1, NIL]]

/-- The valid matrix of 257 nodes without any edge: every entry is the sentinel. -/
def sentinelCosts : List (List Int) := uniformCosts 257 NIL

/-- The matrix with one node; its only entry is the sentinel on the diagonal. -/
def singleCosts : List (List Int) :=
  [[NIL]]

end TspSolver

namespace TspSolver

/-- Every entry of the leading `k` by `k` block is a non-negative `int`. -/
def NonNegative (k : Nat) (W : List (List Int)) : Prop :=
  ∀ i < k, ∀ j < k, 0 ≤ at2 W i j ∧ at2 W i j ≤ INT_MAX

end TspSolver

namespace TspSolver

/-- In the words of the specification: the nodes `a` and `b` are connected by assigned
edges of the partial assignment `curr`, taken as undirected. -/
def Connected (curr : List Int) (a b : Nat) : Prop :=
  Relation.EqvGen (fun u v => nx curr u = some v) a b

end TspSolver

namespace TspSolver

/-! ## Constants and machine arithmetic -/

theorem NIL_eq : NIL = 8388607 := by decide

theorem pMaxCost_eq : pMaxCost = 32767 := by decide

theorem pMinCost_eq : pMinCost = 0 := rfl

theorem INT_MAX_eq : INT_MAX = 2147483647 := rfl

theorem wrapInt_eq {x : Int} (h1 : -2147483648 ≤ x) (h2 : x ≤ 2147483647) : wrapInt x = x := by
  unfold wrapInt; omega

/-! ## Validation -/

theorem assertRow_eq (row : List Int) :
    assertRow row =
      match row.find? (fun c => c ≠ NIL ∧ (c > pMaxCost ∨ c < pMinCost)) with
      | some c =>
        if c > pMaxCost then .error (FailureKind.thrown .CostTooLarge)
        else .error (FailureKind.thrown .CostNegative)
      | none => .ok () := by
  induction row with
  | nil => rfl
  | cons c rest ih =>
    rw [assertRow, List.find?_cons]
    by_cases h1 : c = NIL
    · simp [assertCell, h1, ih]
    · by_cases h2 : c > pMaxCost
      · simp [assertCell, h1, h2, FailureKind.thrown]
      · by_cases h3 : c < pMinCost
        · simp [assertCell, h1, h2, h3, FailureKind.thrown]
        · simp [assertCell, h1, h2, h3, ih]

theorem find?_congr_mem {α : Type} {p q : α → Bool} :
    ∀ {l : List α}, (∀ x ∈ l, p x = q x) → l.find? p = l.find? q
  | [], _ => rfl
  | a :: l, h => by
    rw [List.find?_cons, List.find?_cons, h a (List.mem_cons_self _ _),
      find?_congr_mem (fun x hx => h x (List.mem_cons_of_mem _ hx))]

/-- The scan of a row that has no entry from 30001 to 32767, in the terms of the
specification. -/
theorem assertRow_eq_spec (row : List Int) (hgap : ∀ c ∈ row, c ≤ 30000 ∨ 32767 < c) :
    assertRow row =
      match row.find? (fun c => c ≠ NIL ∧ (c > 30000 ∨ c < 0)) with
      | some c =>
        if c > 30000 then .error (FailureKind.thrown .CostTooLarge)
        else .error (FailureKind.thrown .CostNegative)
      | none => .ok () := by
  have hfind : row.find? (fun c => c ≠ NIL ∧ (c > pMaxCost ∨ c < pMinCost))
      = row.find? (fun c => c ≠ NIL ∧ (c > 30000 ∨ c < 0)) := by
    apply find?_congr_mem
    intro c hc
    have := hgap c hc
    rw [pMaxCost_eq, pMinCost_eq]
    simp only [decide_eq_decide]
    constructor
    · rintro ⟨h1, h2⟩; exact ⟨h1, by omega⟩
    · rintro ⟨h1, h2⟩; exact ⟨h1, by omega⟩
  rw [assertRow_eq, hfind]
  cases hf : row.find? (fun c => c ≠ NIL ∧ (c > 30000 ∨ c < 0)) with
  | none => rfl
  | some c =>
    have hc := hgap c (List.mem_of_find?_eq_some hf)
    dsimp only
    rw [pMaxCost_eq]
    by_cases h3 : c > 30000
    · rw [if_pos h3, if_pos (by omega)]
    · rw [if_neg h3, if_neg (by omega)]

theorem assertRows_eq (size : Nat) (costs : List (List Int)) :
    ∀ (rows : List (List Int)) (i : Nat), rows = costs.drop i →
      (∀ row ∈ rows, ∀ c ∈ row, c ≤ 30000 ∨ 32767 < c) →
      assertRows size i rows =
        match (List.range' i rows.length).findSome? (rowOffence size costs) with
        | some k => .error k.thrown
        | none => .ok () := by
  intro rows
  induction rows with
  | nil => intro i _ _; rfl
  | cons row rest ih =>
    intro i hdrop hgap
    have hrow : costs.getD i [] = row := by
      have h := congrArg (fun l => l.getD 0 []) hdrop
      simp only [List.getD_cons_zero] at h
      rw [h]
      simp [List.getD_eq_getElem?_getD, List.getElem?_drop]
    have hrest : rest = costs.drop (i + 1) := by
      have h := congrArg List.tail hdrop
      simpa [List.drop_drop, Nat.add_comm] using h
    have ih1 := ih (i + 1) hrest (fun r hr => hgap r (List.mem_cons_of_mem _ hr))
    rw [assertRows, List.length_cons, List.range'_succ, List.findSome?_cons]
    unfold rowOffence at *
    rw [hrow]
    by_cases h1 : row.length ≠ size
    · simp [h1, FailureKind.thrown]
    · by_cases h2 : at1 row i ≠ NIL
      · have h2' : at2 costs i i ≠ NIL := by unfold at2; rw [hrow]; exact h2
        simp [h1, h2, h2', FailureKind.thrown]
      · have h2' : ¬ at2 costs i i ≠ NIL := by unfold at2; rw [hrow]; exact h2
        rw [if_neg h1, if_neg h2, if_neg h1, if_neg h2',
          assertRow_eq_spec row (hgap row (List.mem_cons_self _ _))]
        cases hf : row.find? (fun c => c ≠ NIL ∧ (c > 30000 ∨ c < 0)) with
        | some c =>
          by_cases h3 : c > 30000 <;> simp [h3]
        | none => simp [ih1]

end TspSolver

namespace TspSolver

/-! ## Lists as vectors -/

theorem at1_set (l : List Int) (i j : Nat) (v : Int) :
    at1 (l.set i v) j = if i = j ∧ i < l.length then v else at1 l j := by
  unfold at1
  rw [List.getD_eq_getElem?_getD, List.getD_eq_getElem?_getD, List.getElem?_set]
  by_cases h : i = j
  · subst h
    by_cases h2 : i < l.length
    · simp [h2]
    · simp [h2, List.getElem?_eq_none (Nat.le_of_not_lt h2)]
  · simp [h]

theorem at1_set_self (l : List Int) (i : Nat) (v : Int) (h : i < l.length) :
    at1 (l.set i v) i = v := by
  rw [at1_set]; simp [h]

theorem at1_set_ne (l : List Int) (i j : Nat) (v : Int) (h : i ≠ j) :
    at1 (l.set i v) j = at1 l j := by
  rw [at1_set]; simp [h]

theorem set_set_restore (l : List Int) (i : Nat) (v w : Int) (h : at1 l i = w) :
    (l.set i v).set i w = l := by
  rw [List.set_set]
  apply List.ext_getElem?
  intro k
  rw [List.getElem?_set]
  by_cases hk : i = k
  · subst hk
    by_cases hl : i < l.length
    · simp only [hl, if_true]
      unfold at1 at h
      rw [List.getD_eq_getElem?_getD] at h
      rw [List.getElem?_eq_getElem hl] at h ⊢
      simp at h
      simp [h]
    · simp [hl, List.getElem?_eq_none (Nat.le_of_not_lt hl)]
  · simp [hk]

end TspSolver

namespace TspSolver

/-- Entries of a valid matrix lie between 0 and the sentinel. -/
theorem ValidMatrix.entry_bounds {costs : List (List Int)} (hv : ValidMatrix costs)
    {i j : Nat} (hi : i < costs.length) (hj : j < costs.length) :
    0 ≤ at2 costs i j ∧ at2 costs i j ≤ NIL := by
  obtain ⟨_, _, hd, he⟩ := hv
  by_cases hij : i = j
  · subst hij
    rw [hd i hi, NIL_eq]; omega
  · rcases he i hi j hj hij with h | ⟨h1, h2⟩
    · rw [h, NIL_eq]; omega
    · rw [NIL_eq]; omega

namespace BruteForceSolver

theorem mem_unvisited {n : Nat} {curr : List Int} {from_ x : Nat} :
    x ∈ unvisited n curr from_ ↔ x < n ∧ x ≠ from_ ∧ at1 curr x = NIL := by
  simp [unvisited, List.mem_filter, List.mem_range]

theorem unvisited_nodup (n : Nat) (curr : List Int) (from_ : Nat) :
    (unvisited n curr from_).Nodup :=
  List.Nodup.filter _ (List.nodup_range n)

theorem unvisited_step {n : Nat} {curr : List Int} {from_ to_ : Nat}
    (hlen : curr.length = n) (hfrom : from_ < n) (hto : (to_ : Int) ≠ NIL) :
    unvisited n (curr.set from_ (to_ : Int)) to_
      = (unvisited n curr from_).filter (fun x => x ≠ to_) := by
  unfold unvisited
  rw [List.filter_filter]
  apply List.filter_congr
  intro x _
  by_cases hx : x = from_
  · subst hx
    have : at1 (curr.set x (to_ : Int)) x = Int.ofNat to_ :=
      at1_set_self _ _ _ (by omega)
    simp [this, hto]
  · have : at1 (curr.set from_ (to_ : Int)) x = at1 curr x :=
      at1_set_ne _ _ _ _ (fun h => hx h.symm)
    simp [this, hx, Bool.and_comm]

theorem length_filter_ne {l : List Nat} (hl : l.Nodup) {a : Nat} (ha : a ∈ l) :
    (l.filter (fun x => x ≠ a)).length + 1 = l.length := by
  induction l with
  | nil => cases ha
  | cons b l ih =>
    rw [List.nodup_cons] at hl
    by_cases hb : b = a
    · subst hb
      have h1 : ∀ x ∈ l, ¬ x = b := fun x hx h => hl.1 (h ▸ hx)
      have : l.filter (fun x => x ≠ b) = l :=
        List.filter_eq_self.2 (fun x hx => by simpa using h1 x hx)
      rw [List.filter_cons]
      simp only [ne_eq, not_true_eq_false, decide_False, Bool.false_eq_true, if_false,
        List.length_cons]
      exact congrArg (· + 1) (congrArg List.length this)
    · have ha' : a ∈ l := by
        rcases List.mem_cons.1 ha with h | h
        · exact absurd h.symm hb
        · exact h
      have := ih hl.2 ha'
      rw [List.filter_cons]
      simp only [ne_eq, hb, not_false_eq_true, decide_True, if_true, List.length_cons]
      simp only [ne_eq] at this
      omega

theorem IsCompletion.completion_length {n : Nat} {curr : List Int} {from_ : Nat} {q : List Nat}
    (h : IsCompletion n curr from_ q) : q.length = (unvisited n curr from_).length :=
  List.Perm.length_eq ((List.perm_ext_iff_of_nodup h.1 (unvisited_nodup n curr from_)).2 h.2)

theorem isCompletion_cons {n : Nat} {curr : List Int} {from_ to_ : Nat} {q : List Nat}
    (hlen : curr.length = n) (hfrom : from_ < n) (hto : (to_ : Int) ≠ NIL) :
    IsCompletion n curr from_ (to_ :: q) ↔
      to_ ∈ unvisited n curr from_ ∧ IsCompletion n (curr.set from_ (to_ : Int)) to_ q := by
  unfold IsCompletion
  rw [unvisited_step hlen hfrom hto]
  constructor
  · rintro ⟨hnd, hmem⟩
    rw [List.nodup_cons] at hnd
    refine ⟨(hmem to_).1 (List.mem_cons_self _ _), hnd.2, fun x => ?_⟩
    rw [List.mem_filter]
    constructor
    · intro hx
      refine ⟨(hmem x).1 (List.mem_cons_of_mem _ hx), ?_⟩
      have : x ≠ to_ := fun h => hnd.1 (h ▸ hx)
      simpa using this
    · rintro ⟨hx, hne⟩
      have hne' : x ≠ to_ := by simpa using hne
      rcases List.mem_cons.1 ((hmem x).2 hx) with h | h
      · exact absurd h hne'
      · exact h
  · rintro ⟨hto_mem, hnd, hmem⟩
    refine ⟨List.nodup_cons.2 ⟨fun h => ?_, hnd⟩, fun x => ?_⟩
    · have := (hmem to_).1 h
      rw [List.mem_filter] at this
      simpa using this.2
    · rw [List.mem_cons]
      constructor
      · rintro (h | h)
        · exact h ▸ hto_mem
        · exact (List.mem_filter.1 ((hmem x).1 h)).1
      · intro hx
        by_cases hxt : x = to_
        · exact Or.inl hxt
        · exact Or.inr ((hmem x).2 (List.mem_filter.2 ⟨hx, by simpa using hxt⟩))

theorem closeCost_nil (costs : List (List Int)) (from_ : Nat) :
    closeCost costs from_ [] = at2 costs from_ 0 := by
  simp [closeCost, walkCost]

theorem closeCost_cons (costs : List (List Int)) (from_ to_ : Nat) (q : List Nat) :
    closeCost costs from_ (to_ :: q) = at2 costs from_ to_ + closeCost costs to_ q := by
  simp [closeCost, walkCost]

theorem closeCost_bounds {costs : List (List Int)} (hv : ValidMatrix costs) :
    ∀ (q : List Nat) (from_ : Nat), from_ < costs.length → (∀ x ∈ q, x < costs.length) →
      0 ≤ closeCost costs from_ q ∧ closeCost costs from_ q ≤ (q.length + 1) * NIL := by
  intro q
  induction q with
  | nil =>
    intro from_ hf _
    rw [closeCost_nil]
    have := hv.entry_bounds hf (by have := hv.1; omega : 0 < costs.length)
    simp only [List.length_nil]
    omega
  | cons x q ih =>
    intro from_ hf hq
    rw [closeCost_cons]
    have hx : x < costs.length := hq x (List.mem_cons_self _ _)
    have h1 := hv.entry_bounds hf hx
    have h2 := ih x hx (fun y hy => hq y (List.mem_cons_of_mem _ hy))
    simp only [List.length_cons]
    push_cast
    constructor
    · omega
    · have : (0:Int) ≤ NIL := by rw [NIL_eq]; omega
      nlinarith [h1.2, h2.2]

end BruteForceSolver

end TspSolver

namespace TspSolver

namespace BruteForceSolver

theorem solveLoop_spec {costs : List (List Int)} (hv : ValidMatrix costs) {n : Nat}
    (hn : n = costs.length)
    (recurse : BruteForceSolver → Nat → Int → Nat → Option BruteForceSolver)
    (from_ : Nat) (lb : Int) (pl : Nat) (curr : List Int)
    (hfrom : from_ < n) (hfromNIL : at1 curr from_ = NIL)
    (hlb0 : 0 ≤ lb) (hlb : lb + NIL ≤ INT_MAX)
    (hrec : ∀ to_ ∈ unvisited n curr from_, ∀ s1 : BruteForceSolver,
      s1.pCurrOptTarget = curr.set from_ (to_ : Int) → s1.pOriginalCosts = costs →
      ∃ s2, recurse s1 to_ (lb + at2 costs from_ to_) (pl + 1) = some s2 ∧
        SolvePost n s1 s2 to_ (lb + at2 costs from_ to_)) :
    ∀ (cands : List Nat), (∀ x ∈ cands, x < n) → ∀ s : BruteForceSolver,
      s.pCurrOptTarget = curr → s.pOriginalCosts = costs →
      ∃ s', solveLoop recurse from_ lb pl cands s = some s' ∧
        s'.pCurrOptTarget = curr ∧ s'.pOriginalCosts = costs ∧
        s'.pUpperBound ≤ s.pUpperBound ∧
        (∀ to_ ∈ cands, to_ ∈ unvisited n curr from_ →
          ∀ q, IsCompletion n (curr.set from_ (to_ : Int)) to_ q →
            s'.pUpperBound ≤ lb + at2 costs from_ to_ + closeCost costs to_ q) ∧
        ((s'.pUpperBound = s.pUpperBound ∧ s'.pOptTarget = s.pOptTarget) ∨
          ∃ to_ q, to_ ∈ unvisited n curr from_ ∧
            IsCompletion n (curr.set from_ (to_ : Int)) to_ q ∧
            s'.pUpperBound = lb + at2 costs from_ to_ + closeCost costs to_ q ∧
            s'.pOptTarget = assignTour (curr.set from_ (to_ : Int)) to_ q) := by
  intro cands
  induction cands with
  | nil =>
    intro _ s hc ho
    exact ⟨s, rfl, hc, ho, le_refl _, fun _ h => absurd h (List.not_mem_nil _), Or.inl ⟨rfl, rfl⟩⟩
  | cons to_ rest ih =>
    intro hcands s hc ho
    have hrest : ∀ x ∈ rest, x < n := fun x hx => hcands x (List.mem_cons_of_mem _ hx)
    have hto_lt : to_ < n := hcands to_ (List.mem_cons_self _ _)
    rw [solveLoop]
    by_cases h1 : to_ = from_
    · rw [if_pos h1]
      obtain ⟨s', hs', hc', ho', hub, hall, hdisj⟩ := ih hrest s hc ho
      refine ⟨s', hs', hc', ho', hub, ?_, hdisj⟩
      intro t ht htu
      rcases List.mem_cons.1 ht with h | h
      · subst h
        exact absurd h1 (mem_unvisited.1 htu).2.1
      · exact hall t h htu
    · rw [if_neg h1]
      by_cases h2 : at1 s.pCurrOptTarget to_ ≠ NIL
      · rw [if_pos h2]
        obtain ⟨s', hs', hc', ho', hub, hall, hdisj⟩ := ih hrest s hc ho
        refine ⟨s', hs', hc', ho', hub, ?_, hdisj⟩
        intro t ht htu
        rcases List.mem_cons.1 ht with h | h
        · subst h
          rw [hc] at h2
          exact absurd (mem_unvisited.1 htu).2.2 h2
        · exact hall t h htu
      · rw [if_neg h2]
        have h2' : at1 curr to_ = NIL := by
          rw [hc] at h2
          exact not_not.1 h2
        have htu : to_ ∈ unvisited n curr from_ := mem_unvisited.2 ⟨hto_lt, h1, h2'⟩
        have hcb := hv.entry_bounds (hn ▸ hfrom) (hn ▸ hto_lt)
        have hwrap : wrapInt (lb + at2 s.pOriginalCosts from_ to_) = lb + at2 costs from_ to_ := by
          rw [ho]
          apply wrapInt_eq
          · omega
          · rw [INT_MAX_eq] at hlb; omega
        rw [hwrap]
        obtain ⟨s2, hs2, hp1, hp2, hp3, hp4, hp5⟩ :=
          hrec to_ htu { s with pCurrOptTarget := s.pCurrOptTarget.set from_ (to_ : Int) }
            (by simp [hc]) ho
        rw [hs2]
        simp only at hp1 hp2 hp3 hp4 hp5
        have hc3 : s2.pCurrOptTarget.set from_ NIL = curr := by
          rw [hp1, hc]
          exact set_set_restore _ _ _ _ hfromNIL
        obtain ⟨s', hs', hc', ho', hub, hall, hdisj⟩ :=
          ih hrest { s2 with pCurrOptTarget := s2.pCurrOptTarget.set from_ NIL } hc3
            (by simp [hp2, ho])
        simp only at hub hdisj
        refine ⟨s', hs', hc', ho', le_trans hub hp3, ?_, ?_⟩
        · intro t ht htu' q hq
          rcases List.mem_cons.1 ht with h | h
          · subst h
            have := hp4 q (by rw [hc]; exact hq)
            rw [ho] at this
            exact le_trans hub this
          · exact hall t h htu' q hq
        · rcases hdisj with ⟨e1, e2⟩ | h
          · rcases hp5 with ⟨e3, e4⟩ | ⟨q, hq1, hq2, hq3⟩
            · exact Or.inl ⟨e1.trans e3, e2.trans e4⟩
            · refine Or.inr ⟨to_, q, htu, ?_, ?_, ?_⟩
              · rw [← hc]; exact hq1
              · rw [e1, hq2, ho]
              · rw [e2, hq3, hc]
          · exact Or.inr h

end BruteForceSolver

end TspSolver

namespace TspSolver

namespace BruteForceSolver

theorem sizeMinusOne_pos {n : Nat} (h1 : 0 < n) (h2 : n ≤ 256) : sizeMinusOne n = n - 1 := by
  unfold sizeMinusOne; omega

theorem IsCompletion.lt {n : Nat} {curr : List Int} {from_ : Nat} {q : List Nat}
    (h : IsCompletion n curr from_ q) : ∀ x ∈ q, x < n :=
  fun x hx => (mem_unvisited.1 ((h.2 x).1 hx)).1

theorem solve_spec {costs : List (List Int)} (hv : ValidMatrix costs) {n : Nat}
    (hn : n = costs.length) (hn256 : n ≤ 256) :
    ∀ (fuel : Nat) (s : BruteForceSolver) (from_ : Nat) (lb : Int) (pl : Nat),
      s.pOriginalCosts = costs → s.pCurrOptTarget.length = n → from_ < n →
      at1 s.pCurrOptTarget from_ = NIL →
      pl + (unvisited n s.pCurrOptTarget from_).length + 1 = n →
      (unvisited n s.pCurrOptTarget from_).length < fuel →
      0 ≤ lb → lb + ((unvisited n s.pCurrOptTarget from_).length + 1) * NIL ≤ INT_MAX →
      ∃ s2, solve fuel s from_ lb pl = some s2 ∧ SolvePost n s s2 from_ lb := by
  intro fuel
  induction fuel with
  | zero => intro s from_ lb pl _ _ _ _ _ hf; omega
  | succ fuel ih =>
    intro s from_ lb pl ho hlen hfrom hfromNIL hpl hfuel hlb0 hlb
    have hNIL : (0 : Int) ≤ NIL := by rw [NIL_eq]; omega
    have hlb1 : lb + NIL ≤ INT_MAX := by
      have : (0:Int) ≤ ((unvisited n s.pCurrOptTarget from_).length : Int) * NIL :=
        mul_nonneg (by omega) hNIL
      linarith
    rw [solve]
    by_cases h1 : lb ≥ s.pUpperBound
    · rw [if_pos h1]
      refine ⟨s, rfl, rfl, rfl, le_refl _, ?_, Or.inl ⟨rfl, rfl⟩⟩
      intro q hq
      have := (closeCost_bounds hv q from_ (hn ▸ hfrom) (fun x hx => hn ▸ hq.lt x hx)).1
      rw [ho]
      omega
    · rw [if_neg h1]
      have hn0 : 0 < n := by omega
      rw [hlen, sizeMinusOne_pos hn0 hn256]
      by_cases h2 : pl = n - 1
      · rw [if_pos h2]
        have hm : (unvisited n s.pCurrOptTarget from_).length = 0 := by omega
        have hq_nil : ∀ q, IsCompletion n s.pCurrOptTarget from_ q → q = [] := fun q hq =>
          List.length_eq_zero.1 (hq.completion_length.trans hm)
        have hcb := hv.entry_bounds (hn ▸ hfrom) (hn ▸ hn0 : 0 < costs.length)
        have hwrap : wrapInt (lb + at2 s.pOriginalCosts from_ 0) = lb + at2 costs from_ 0 := by
          rw [ho]
          apply wrapInt_eq
          · omega
          · rw [INT_MAX_eq] at hlb1; omega
        refine ⟨solveLeaf s from_ lb, rfl, ?_⟩
        unfold solveLeaf
        rw [hwrap]
        by_cases h3 : lb + at2 costs from_ 0 < s.pUpperBound
        · rw [if_pos h3]
          refine ⟨rfl, rfl, le_of_lt h3, ?_, Or.inr ⟨[], ?_, ?_, rfl⟩⟩
          · intro q hq
            rw [hq_nil q hq, closeCost_nil, ho]
          · refine ⟨List.nodup_nil, fun x => ?_⟩
            rw [List.length_eq_zero.1 hm]
          · simp only
            rw [closeCost_nil, ho]
        · rw [if_neg h3]
          refine ⟨rfl, rfl, le_refl _, ?_, Or.inl ⟨rfl, rfl⟩⟩
          intro q hq
          rw [hq_nil q hq, closeCost_nil, ho]
          omega
      · rw [if_neg h2]
        have hm : 0 < (unvisited n s.pCurrOptTarget from_).length := by omega
        have hrec : ∀ to_ ∈ unvisited n s.pCurrOptTarget from_, ∀ s1 : BruteForceSolver,
            s1.pCurrOptTarget = s.pCurrOptTarget.set from_ (to_ : Int) →
            s1.pOriginalCosts = costs →
            ∃ s2, solve fuel s1 to_ (lb + at2 costs from_ to_) (pl + 1) = some s2 ∧
              SolvePost n s1 s2 to_ (lb + at2 costs from_ to_) := by
          intro to_ htu s1 hc1 ho1
          have hto := mem_unvisited.1 htu
          have htoNIL : (to_ : Int) ≠ NIL := by rw [NIL_eq]; omega
          have hcb := hv.entry_bounds (hn ▸ hfrom) (hn ▸ hto.1)
          have hstep : (unvisited n s1.pCurrOptTarget to_).length + 1
              = (unvisited n s.pCurrOptTarget from_).length := by
            rw [hc1, unvisited_step hlen hfrom htoNIL]
            exact length_filter_ne (unvisited_nodup _ _ _) htu
          apply ih s1 to_ _ (pl + 1) ho1
          · rw [hc1, List.length_set]; exact hlen
          · exact hto.1
          · rw [hc1, at1_set_ne _ _ _ _ (fun h => hto.2.1 h.symm)]
            exact hto.2.2
          · omega
          · omega
          · omega
          · have e : (((unvisited n s.pCurrOptTarget from_).length : Nat) : Int)
                = ((unvisited n s1.pCurrOptTarget to_).length : Int) + 1 := by
              rw [← hstep]; push_cast; ring
            rw [e] at hlb
            nlinarith [hcb.2, hlb]
        obtain ⟨s', hs', hc', ho', hub, hall, hdisj⟩ :=
          solveLoop_spec hv hn (solve fuel) from_ lb pl s.pCurrOptTarget hfrom hfromNIL hlb0 hlb1
            hrec (List.range n) (fun x hx => List.mem_range.1 hx) s rfl ho
        have hfromNIL' : ∀ to_ ∈ unvisited n s.pCurrOptTarget from_, (to_ : Int) ≠ NIL := by
          intro to_ htu
          have := (mem_unvisited.1 htu).1
          rw [NIL_eq]; omega
        refine ⟨s', hs', hc', ho'.trans ho.symm, hub, ?_, ?_⟩
        · intro q hq
          cases q with
          | nil =>
            have := hq.completion_length
            simp at this
            omega
          | cons to_ q =>
            have htu : to_ ∈ unvisited n s.pCurrOptTarget from_ :=
              (hq.2 to_).1 (List.mem_cons_self _ _)
            have hq' := (isCompletion_cons hlen hfrom (hfromNIL' to_ htu)).1 hq
            have := hall to_ (List.mem_range.2 (mem_unvisited.1 htu).1) htu q hq'.2
            rw [closeCost_cons, ho]
            omega
        · rcases hdisj with h | ⟨to_, q, htu, hq1, hq2, hq3⟩
          · exact Or.inl h
          · refine Or.inr ⟨to_ :: q, ?_, ?_, ?_⟩
            · exact (isCompletion_cons hlen hfrom (hfromNIL' to_ htu)).2 ⟨htu, hq1⟩
            · rw [closeCost_cons, ho, hq2]; ring
            · rw [hq3]; rfl

end BruteForceSolver

end TspSolver

namespace TspSolver

/-! ## Valid matrices pass validation -/

theorem ValidMatrix.row_length {costs : List (List Int)} (hv : ValidMatrix costs) (i : Nat)
    (hi : i < costs.length) : (costs.getD i []).length = costs.length := by
  apply hv.2.1
  rw [List.getD_eq_getElem?_getD, List.getElem?_eq_getElem hi]
  exact List.getElem_mem _

theorem ValidMatrix.rowOffence_none {costs : List (List Int)} (hv : ValidMatrix costs) (i : Nat)
    (hi : i < costs.length) : rowOffence costs.length costs i = none := by
  unfold rowOffence
  rw [if_neg (fun h => h (hv.row_length i hi)), if_neg (fun h => h (hv.2.2.1 i hi))]
  have : (costs.getD i []).find? (fun c => c ≠ NIL ∧ (c > 30000 ∨ c < 0)) = none := by
    rw [List.find?_eq_none]
    intro c hc
    obtain ⟨j, hj, rfl⟩ := List.getElem_of_mem hc
    have hj' : j < costs.length := by rw [← hv.row_length i hi]; exact hj
    have hc2 : at2 costs i j = (costs.getD i [])[j] := by
      unfold at2
      rw [List.getD_eq_getElem?_getD (l := costs.getD i []), List.getElem?_eq_getElem hj]
      rfl
    rw [← hc2]
    by_cases hij : i = j
    · subst hij
      simp [hv.2.2.1 i hi]
    · rcases hv.2.2.2 i hi j hj' hij with h | ⟨h1, h2⟩
      · simp [h]
      · simp only [decide_eq_true_eq]
        omega
  rw [this]

theorem ValidMatrix.firstOffence_none {costs : List (List Int)} (hv : ValidMatrix costs) :
    firstOffence costs = none := by
  unfold firstOffence
  rw [if_neg (by have := hv.1; omega)]
  rw [List.findSome?_eq_none_iff]
  intro i hi
  exact hv.rowOffence_none i (List.mem_range.1 hi)

/-- A valid matrix has no entry from 30001 to 32767. -/
theorem ValidMatrix.no_gap {costs : List (List Int)} (hv : ValidMatrix costs) :
    ∀ row ∈ costs, ∀ c ∈ row, c ≤ 30000 ∨ 32767 < c := by
  intro row hrow c hc
  obtain ⟨i, hi, rfl⟩ := List.getElem_of_mem hrow
  obtain ⟨j, hj, rfl⟩ := List.getElem_of_mem hc
  have hlen : costs[i].length = costs.length := hv.2.1 _ hrow
  have hc2 : at2 costs i j = costs[i][j] := by
    have e1 : costs.getD i [] = costs[i] := by
      rw [List.getD_eq_getElem?_getD, List.getElem?_eq_getElem hi, Option.getD_some]
    unfold at2
    rw [e1, List.getD_eq_getElem?_getD, List.getElem?_eq_getElem hj, Option.getD_some]
  rw [← hc2]
  by_cases hij : i = j
  · subst hij
    rw [hv.2.2.1 i hi, NIL_eq]
    omega
  · rcases hv.2.2.2 i hi j (by rw [← hlen]; exact hj) hij with h | ⟨_, h2⟩
    · rw [h, NIL_eq]; omega
    · exact Or.inl h2

/-- On a matrix without an entry from 30001 to 32767 the validation of the branch and
bound solver fails with the kind of the first offending condition of the
specification, and succeeds when there is none. -/
theorem Solver.assertCosts_eq (costs : List (List Int))
    (hgap : ∀ row ∈ costs, ∀ c ∈ row, c ≤ 30000 ∨ 32767 < c) :
    Solver.assertCosts costs =
      match firstOffence costs with
      | some k => .error k.thrown
      | none => .ok () := by
  unfold Solver.assertCosts firstOffence
  by_cases h : costs.length ≤ 1
  · simp [h, FailureKind.thrown]
  · rw [if_neg h, if_neg h, assertRows_eq costs.length costs costs 0 rfl hgap,
      List.range_eq_range']

/-- On a matrix without an entry from 30001 to 32767 the validation of the brute force
solver fails with the kind of the first offending condition of the specification, and
succeeds when there is none. -/
theorem BruteForceSolver.validation_eq (costs : List (List Int))
    (hgap : ∀ row ∈ costs, ∀ c ∈ row, c ≤ 30000 ∨ 32767 < c) :
    BruteForceSolver.assertCosts costs =
      match firstOffenceBruteForce costs with
      | some k => .error k.thrown
      | none => .ok () := by
  unfold BruteForceSolver.assertCosts firstOffenceBruteForce
  rw [assertRows_eq costs.length costs costs 0 rfl hgap, List.range_eq_range']

theorem ValidMatrix.assertCosts_ok {costs : List (List Int)} (hv : ValidMatrix costs) :
    Solver.assertCosts costs = .ok () := by
  rw [Solver.assertCosts_eq costs hv.no_gap, hv.firstOffence_none]

theorem ValidMatrix.bruteForce_assertCosts_ok {costs : List (List Int)} (hv : ValidMatrix costs) :
    BruteForceSolver.assertCosts costs = .ok () := by
  have h := hv.assertCosts_ok
  unfold Solver.assertCosts at h
  rw [if_neg (by have := hv.1; omega)] at h
  exact h

end TspSolver

namespace TspSolver

theorem atInt_cast (v : List Int) (x : Nat) (hx : x < v.length) :
    atInt v (x : Int) = some (at1 v x) := by
  unfold atInt at1
  rw [if_pos (by omega), Int.toNat_ofNat, List.getElem?_eq_getElem hx,
    List.getD_eq_getElem?_getD, List.getElem?_eq_getElem hx]
  rfl

namespace BruteForceSolver

theorem assignTour_length (q : List Nat) :
    ∀ (curr : List Int) (from_ : Nat), (assignTour curr from_ q).length = curr.length := by
  induction q with
  | nil => intro curr from_; simp [assignTour]
  | cons x q ih => intro curr from_; rw [assignTour, ih, List.length_set]

theorem assignTour_outside (q : List Nat) :
    ∀ (curr : List Int) (from_ y : Nat), y ≠ from_ → y ∉ q →
      at1 (assignTour curr from_ q) y = at1 curr y := by
  induction q with
  | nil =>
    intro curr from_ y hy _
    rw [assignTour, at1_set_ne _ _ _ _ (fun h => hy h.symm)]
  | cons x q ih =>
    intro curr from_ y hy hyq
    rw [assignTour, ih _ _ _ (fun h => hyq (by rw [h]; exact List.mem_cons_self _ _))
      (fun h => hyq (List.mem_cons_of_mem _ h)),
      at1_set_ne _ _ _ _ (fun h => hy h.symm)]

theorem assignTour_head (q : List Nat) (curr : List Int) (from_ : Nat)
    (hnd : (from_ :: q).Nodup) (hfrom : from_ < curr.length) :
    at1 (assignTour curr from_ q) from_ = ((q ++ [0]).head!  : Nat) := by
  cases q with
  | nil => rw [assignTour, at1_set_self _ _ _ hfrom]; rfl
  | cons x q =>
    rw [List.nodup_cons] at hnd
    have h1 : from_ ≠ x := fun h => hnd.1 (by rw [h]; exact List.mem_cons_self _ _)
    rw [assignTour, assignTour_outside q _ _ _ h1
      (fun h => hnd.1 (List.mem_cons_of_mem _ h)), at1_set_self _ _ _ hfrom]
    rfl

theorem getCycleLoop_assignTour (q : List Nat) :
    ∀ (curr : List Int) (from_ : Nat), (from_ :: q).Nodup → (∀ x ∈ from_ :: q, x < curr.length) →
      getCycleLoop (assignTour curr from_ q) (q.length + 2) (from_ : Int)
        = some ((from_ :: (q ++ [0])).map (fun (x : Nat) => (x : Int))) := by
  induction q with
  | nil =>
    intro curr from_ _ hlt
    have hf : from_ < curr.length := hlt from_ (List.mem_cons_self _ _)
    have h0 : 0 < (curr.set from_ 0).length := by rw [List.length_set]; omega
    have hf' : from_ < (curr.set from_ 0).length := by rw [List.length_set]; omega
    have := atInt_cast (curr.set from_ 0) 0 h0
    simp only [Nat.cast_zero] at this
    simp only [assignTour, List.length_nil, Nat.zero_add, getCycleLoop]
    rw [atInt_cast _ _ hf', at1_set_self _ _ _ hf]
    simp only [this]
    rfl
  | cons x q ih =>
    intro curr from_ hnd hlt
    have hf : from_ < curr.length := hlt from_ (List.mem_cons_self _ _)
    have hlen := assignTour_length (x :: q) curr from_
    have hhead := assignTour_head (x :: q) curr from_ hnd hf
    rw [List.nodup_cons] at hnd
    have ih' := ih (curr.set from_ (x : Int)) x hnd.2 (fun y hy => by
      rw [List.length_set]; exact hlt y (List.mem_cons_of_mem _ hy))
    rw [show (x :: q).length + 2 = (q.length + 2) + 1 from rfl, getCycleLoop,
      atInt_cast _ _ (by rw [hlen]; exact hf), hhead]
    simp only [List.cons_append, List.head!_cons]
    rw [assignTour, ih']
    rfl

theorem walkFinite_assignTour (costs : List (List Int)) (q : List Nat) :
    ∀ (curr : List Int) (from_ : Nat), (from_ :: q).Nodup → (∀ x ∈ from_ :: q, x < curr.length) →
      walkFinite costs (from_ :: (q ++ [0]))
        = (from_ :: q).all
            (fun x => decide (at2 costs x (at1 (assignTour curr from_ q) x).toNat ≠ NIL)) := by
  induction q with
  | nil =>
    intro curr from_ _ hlt
    have hf : from_ < curr.length := hlt from_ (List.mem_cons_self _ _)
    simp [walkFinite, assignTour, at1_set_self _ _ _ hf]
  | cons x q ih =>
    intro curr from_ hnd hlt
    have hf : from_ < curr.length := hlt from_ (List.mem_cons_self _ _)
    have hhead := assignTour_head (x :: q) curr from_ hnd hf
    rw [List.nodup_cons] at hnd
    have ih' := ih (curr.set from_ (x : Int)) x hnd.2 (fun y hy => by
      rw [List.length_set]; exact hlt y (List.mem_cons_of_mem _ hy))
    rw [List.cons_append, walkFinite, List.all_cons (a := from_), hhead, ih']
    simp only [List.cons_append, List.head!_cons, Int.toNat_ofNat]
    rfl

theorem assignTour_node (q : List Nat) :
    ∀ (curr : List Int) (from_ : Nat), (from_ :: q).Nodup → (∀ x ∈ from_ :: q, x < curr.length) →
      0 < curr.length →
      ∀ x ∈ from_ :: q, ∃ y : Nat, y < curr.length ∧ at1 (assignTour curr from_ q) x = (y : Int) := by
  induction q with
  | nil =>
    intro curr from_ _ hlt h0 x hx
    have hf : from_ < curr.length := hlt from_ (List.mem_cons_self _ _)
    have : x = from_ := by simpa using hx
    subst this
    exact ⟨0, h0, by rw [assignTour, at1_set_self _ _ _ hf]; rfl⟩
  | cons z q ih =>
    intro curr from_ hnd hlt h0 x hx
    have hf : from_ < curr.length := hlt from_ (List.mem_cons_self _ _)
    have hhead := assignTour_head (z :: q) curr from_ hnd hf
    rcases List.mem_cons.1 hx with h | h
    · subst h
      exact ⟨z, hlt z (List.mem_cons_of_mem _ (List.mem_cons_self _ _)), by rw [hhead]; rfl⟩
    · rw [List.nodup_cons] at hnd
      have := ih (curr.set from_ (z : Int)) z hnd.2 (fun y hy => by
        rw [List.length_set]; exact hlt y (List.mem_cons_of_mem _ hy))
        (by rw [List.length_set]; exact h0) x h
      rw [List.length_set] at this
      exact this

end BruteForceSolver

theorem isValidLoop_eq (costs : List (List Int)) (opt : List Int) (n : Nat)
    (hrows : ∀ i < n, (costs.getD i []).length = n) :
    ∀ (l : List Nat), (∀ i ∈ l, i < n ∧ ∃ y : Nat, y < n ∧ at1 opt i = (y : Int)) →
      isValidLoop costs opt l
        = some (l.all (fun x => decide (at2 costs x (at1 opt x).toNat ≠ NIL))) := by
  intro l
  induction l with
  | nil => intro _; rfl
  | cons i l ih =>
    intro h
    obtain ⟨hi, y, hy, hyi⟩ := h i (List.mem_cons_self _ _)
    rw [isValidLoop, hyi, atInt_cast _ _ (by rw [hrows i hi]; exact hy)]
    simp only [List.all_cons, hyi, Int.toNat_ofNat]
    have e : at1 (costs.getD i []) y = at2 costs i y := rfl
    rw [e]
    by_cases hc : at2 costs i y = NIL
    · simp [hc]
    · rw [if_neg hc, ih (fun j hj => h j (List.mem_cons_of_mem _ hj))]
      simp [hc]

end TspSolver

namespace TspSolver

namespace BruteForceSolver

theorem at1_replicate_NIL (n x : Nat) (hx : x < n) : at1 (List.replicate n NIL) x = NIL := by
  unfold at1
  rw [List.getD_eq_getElem?_getD, List.getElem?_replicate]
  simp [hx]

theorem isCompletion_init (n : Nat) (q : List Nat) :
    IsCompletion n (List.replicate n NIL) 0 q ↔ IsTour n q := by
  unfold IsCompletion IsTour
  constructor
  · rintro ⟨h1, h2⟩
    refine ⟨h1, fun x => ?_⟩
    rw [h2, mem_unvisited]
    constructor
    · rintro ⟨a, b, _⟩; exact ⟨Nat.pos_of_ne_zero b, a⟩
    · rintro ⟨a, b⟩; exact ⟨b, Nat.pos_iff_ne_zero.1 a, at1_replicate_NIL n x b⟩
  · rintro ⟨h1, h2⟩
    refine ⟨h1, fun x => ?_⟩
    rw [h2, mem_unvisited]
    constructor
    · rintro ⟨a, b⟩; exact ⟨b, Nat.pos_iff_ne_zero.1 a, at1_replicate_NIL n x b⟩
    · rintro ⟨a, b, _⟩; exact ⟨Nat.pos_of_ne_zero b, a⟩

end BruteForceSolver

theorem isTour_range (n : Nat) : IsTour n (List.range' 1 (n - 1)) := by
  refine ⟨List.nodup_range' _ _, fun x => ?_⟩
  rw [List.mem_range'_1]
  omega

theorem IsTour.tour_length {n : Nat} {q : List Nat} (h : IsTour n q) : q.length = n - 1 := by
  have h1 := ((BruteForceSolver.isCompletion_init n q).2 h).completion_length
  have h2 := ((BruteForceSolver.isCompletion_init n _).2 (isTour_range n)).completion_length
  rw [h1, ← h2, List.length_range']

theorem IsTour.nodup_cons {n : Nat} {q : List Nat} (h : IsTour n q) : (0 :: q).Nodup :=
  List.nodup_cons.2 ⟨fun h0 => absurd ((h.2 0).1 h0).1 (lt_irrefl 0), h.1⟩

theorem IsTour.mem_cons {n : Nat} {q : List Nat} (h : IsTour n q) (hn : 0 < n) (x : Nat) :
    x ∈ 0 :: q ↔ x < n := by
  rw [List.mem_cons, h.2]
  omega

namespace BruteForceSolver

theorem search_spec {costs : List (List Int)} (hv : ValidMatrix costs)
    (hn256 : costs.length ≤ 256) :
    ∃ s2 q, solve (costs.length + 1) (initOptPath costs) 0 0 0 = some s2 ∧
      IsTour costs.length q ∧
      (∀ p, IsTour costs.length p → tourCost costs q ≤ tourCost costs p) ∧
      s2.pUpperBound = tourCost costs q ∧
      s2.pOptTarget = assignTour (List.replicate costs.length NIL) 0 q ∧
      s2.pOriginalCosts = costs := by
  have hn1 := hv.1
  have hm : (unvisited costs.length (List.replicate costs.length NIL) 0).length
      = costs.length - 1 := by
    rw [← ((isCompletion_init _ _).2 (isTour_range costs.length)).completion_length, List.length_range']
  obtain ⟨s2, hs2, _, hp2, _, hp4, hp5⟩ :=
    solve_spec hv rfl hn256 (costs.length + 1) (initOptPath costs) 0 0 0 rfl
      (by simp [initOptPath]) (by omega)
      (at1_replicate_NIL _ _ (by omega))
      (by show 0 + (unvisited _ (List.replicate costs.length NIL) 0).length + 1 = _
          rw [hm]; omega)
      (by show (unvisited _ (List.replicate costs.length NIL) 0).length < _
          rw [hm]; omega)
      (le_refl _)
      (by show 0 + (((unvisited _ (List.replicate costs.length NIL) 0).length : Int) + 1) * NIL ≤ _
          rw [hm, NIL_eq, INT_MAX_eq]; omega)
  have hp4' : ∀ p, IsTour costs.length p → s2.pUpperBound ≤ tourCost costs p := by
    intro p hp
    have := hp4 p ((isCompletion_init _ _).2 hp)
    simpa [initOptPath, tourCost, tourNodes, closeCost] using this
  rcases hp5 with ⟨e1, _⟩ | ⟨q, hq1, hq2, hq3⟩
  · exfalso
    have h1 := hp4' _ (isTour_range costs.length)
    have h2 := (closeCost_bounds hv (List.range' 1 (costs.length - 1)) 0 (by omega)
      (fun x hx => by rw [List.mem_range'_1] at hx; omega)).2
    rw [List.length_range'] at h2
    have h3 : s2.pUpperBound = INT_MAX := e1
    rw [h3, INT_MAX_eq] at h1
    rw [NIL_eq] at h2
    simp only [tourCost, tourNodes] at h1
    simp only [closeCost] at h2
    have : ((costs.length - 1 : Nat) : Int) + 1 ≤ 256 := by omega
    nlinarith
  · have hq := (isCompletion_init _ _).1 hq1
    have e : s2.pUpperBound = tourCost costs q := by
      simpa [initOptPath, tourCost, tourNodes, closeCost] using hq2
    refine ⟨s2, q, hs2, hq, ?_, e, hq3, hp2⟩
    intro p hp
    rw [← e]
    exact hp4' p hp

end BruteForceSolver

end TspSolver

namespace TspSolver

/-- For a valid matrix of at most 256 nodes the brute force search returns a Hamiltonian
cycle of minimum total cost (sentinel entries counted with their value), its cost, and
status 0 exactly when that cycle has no sentinel edge. -/
theorem bruteForceSolve_spec {costs : List (List Int)} (hv : ValidMatrix costs)
    (hn256 : costs.length ≤ 256) :
    ∃ q, IsTour costs.length q ∧
      (∀ p, IsTour costs.length p → tourCost costs q ≤ tourCost costs p) ∧
      bruteForceSolve costs = .ok
        { status := if walkFinite costs (tourNodes q) then 0 else -1
          cyclePath := (tourNodes q).map (fun (x : Nat) => (x : Int))
          cost := tourCost costs q } := by
  obtain ⟨s2, q, hs2, hq, hmin, hub, hopt, hcosts⟩ := BruteForceSolver.search_spec hv hn256
  refine ⟨q, hq, hmin, ?_⟩
  have hn1 := hv.1
  have hlen : s2.pOptTarget.length = costs.length := by
    rw [hopt, BruteForceSolver.assignTour_length, List.length_replicate]
  have hlt : ∀ x ∈ 0 :: q, x < (List.replicate costs.length NIL).length := by
    intro x hx
    rw [List.length_replicate]
    exact (hq.mem_cons (by omega) x).1 hx
  have hcycle : BruteForceSolver.getCycle s2
      = some ((tourNodes q).map (fun (x : Nat) => (x : Int))) := by
    unfold BruteForceSolver.getCycle
    rw [hlen, hopt]
    have := BruteForceSolver.getCycleLoop_assignTour q (List.replicate costs.length NIL) 0
      hq.nodup_cons hlt
    rw [hq.tour_length] at this
    rw [show costs.length + 1 = costs.length - 1 + 2 by omega]
    exact this
  have hvalid : BruteForceSolver.isValid s2 = some (walkFinite costs (tourNodes q)) := by
    unfold BruteForceSolver.isValid
    rw [hlen, hcosts, isValidLoop_eq costs s2.pOptTarget costs.length
      (fun i hi => hv.row_length i hi) (List.range costs.length)]
    · refine congrArg some ?_
      unfold tourNodes
      rw [BruteForceSolver.walkFinite_assignTour costs q (List.replicate costs.length NIL) 0
        hq.nodup_cons hlt, ← hopt, Bool.eq_iff_iff, List.all_eq_true, List.all_eq_true]
      constructor
      · intro h x hx
        exact h x (List.mem_range.2 ((hq.mem_cons (by omega) x).1 hx))
      · intro h x hx
        exact h x ((hq.mem_cons (by omega) x).2 (List.mem_range.1 hx))
    · intro i hi
      have hi' := List.mem_range.1 hi
      refine ⟨hi', ?_⟩
      have := BruteForceSolver.assignTour_node q (List.replicate costs.length NIL) 0
        hq.nodup_cons hlt (by rw [List.length_replicate]; omega) i
        ((hq.mem_cons (by omega) i).2 hi')
      rw [List.length_replicate, ← hopt] at this
      exact this
  unfold bruteForceSolve BruteForceSolver.construct
  rw [hv.bruteForce_assertCosts_ok, hs2]
  simp only [Outcome.ofOption, Outcome.andThen, hcycle, hvalid, BruteForceSolver.getCost, hub]

end TspSolver

namespace TspSolver

/-! ## Costs of walks in a valid matrix -/

theorem walkCost_nonneg {costs : List (List Int)} (hv : ValidMatrix costs) :
    ∀ (w : List Nat), (∀ x ∈ w, x < costs.length) → 0 ≤ walkCost costs w := by
  intro w
  induction w with
  | nil => intro _; simp [walkCost]
  | cons a w ih =>
    intro h
    cases w with
    | nil => simp [walkCost]
    | cons b w =>
      rw [walkCost]
      have h1 := hv.entry_bounds (h a (List.mem_cons_self _ _))
        (h b (List.mem_cons_of_mem _ (List.mem_cons_self _ _)))
      have h2 := ih (fun x hx => h x (List.mem_cons_of_mem _ hx))
      omega

theorem walkCost_finite_le {costs : List (List Int)} (hv : ValidMatrix costs) :
    ∀ (w : List Nat), (∀ x ∈ w, x < costs.length) → walkFinite costs w = true →
      walkCost costs w ≤ 30000 * ((w.length : Int) - 1) ∨ w = [] := by
  intro w
  induction w with
  | nil => intro _ _; exact Or.inr rfl
  | cons a w ih =>
    intro h hf
    left
    cases w with
    | nil => simp [walkCost]
    | cons b w =>
      rw [walkFinite, Bool.and_eq_true, decide_eq_true_eq] at hf
      have ha := h a (List.mem_cons_self _ _)
      have hb := h b (List.mem_cons_of_mem _ (List.mem_cons_self _ _))
      have hab : a ≠ b := fun e => hf.1 (e ▸ hv.2.2.1 a ha)
      have h1 : at2 costs a b ≤ 30000 := by
        rcases hv.2.2.2 a ha b hb hab with h | h
        · exact absurd h hf.1
        · exact h.2
      rcases ih (fun x hx => h x (List.mem_cons_of_mem _ hx)) hf.2 with h2 | h2
      · rw [walkCost]
        simp only [List.length_cons] at h2 ⊢
        push_cast at h2 ⊢
        omega
      · cases h2

theorem walkCost_infinite_ge {costs : List (List Int)} (hv : ValidMatrix costs) :
    ∀ (w : List Nat), (∀ x ∈ w, x < costs.length) → walkFinite costs w = false →
      NIL ≤ walkCost costs w := by
  intro w
  induction w with
  | nil => intro _ hf; simp [walkFinite] at hf
  | cons a w ih =>
    intro h hf
    cases w with
    | nil => simp [walkFinite] at hf
    | cons b w =>
      rw [walkFinite, Bool.and_eq_false_iff, decide_eq_false_iff_not, not_not] at hf
      rw [walkCost]
      have h1 := hv.entry_bounds (h a (List.mem_cons_self _ _))
        (h b (List.mem_cons_of_mem _ (List.mem_cons_self _ _)))
      have h2 := walkCost_nonneg hv (b :: w) (fun x hx => h x (List.mem_cons_of_mem _ hx))
      rcases hf with hf | hf
      · rw [hf]; omega
      · have := ih (fun x hx => h x (List.mem_cons_of_mem _ hx)) hf
        omega

theorem IsTour.tourNodes_lt {n : Nat} {q : List Nat} (h : IsTour n q) (hn : 0 < n) :
    ∀ x ∈ tourNodes q, x < n := by
  intro x hx
  unfold tourNodes at hx
  rcases List.mem_cons.1 hx with h0 | h0
  · omega
  · rcases List.mem_append.1 h0 with h1 | h1
    · exact ((h.2 x).1 h1).2
    · have : x = 0 := by simpa using h1
      omega

theorem IsTour.tourNodes_length {n : Nat} {q : List Nat} (h : IsTour n q) (hn : 0 < n) :
    (tourNodes q).length = n + 1 := by
  unfold tourNodes
  rw [List.length_cons, List.length_append, h.tour_length]
  simp
  omega

theorem cycleCost_tourNodes (costs : List (List Int)) (q : List Nat) :
    cycleCost costs ((tourNodes q).map (fun (x : Nat) => (x : Int))) = tourCost costs q := by
  unfold cycleCost tourCost
  rw [List.map_map]
  have : (Int.toNat ∘ fun (x : Nat) => (x : Int)) = id := by
    funext x; simp
  rw [this, List.map_id]

theorem IsTour.isCyclePath {n : Nat} {q : List Nat} (h : IsTour n q) (hn : 0 < n) :
    IsCyclePath n ((tourNodes q).map (fun (x : Nat) => (x : Int))) := by
  refine ⟨by rw [List.length_map, h.tourNodes_length hn], rfl, ?_, ?_⟩
  · unfold tourNodes
    rw [List.map_cons, List.map_append, ← List.cons_append, List.map_cons, List.map_nil,
      List.getLast?_append]
    rfl
  · intro v hv h0
    have hinj : Function.Injective (fun (x : Nat) => (x : Int)) := fun a b hab => by
      simpa using hab
    rw [List.count_map_of_injective _ _ hinj]
    unfold tourNodes
    rw [List.count_cons, List.count_append, List.count_cons, List.count_nil]
    have hv0 : ¬ (0 = v) := by omega
    have : List.count v q = 1 := List.count_eq_one_of_mem h.1 ((h.2 v).2 ⟨h0, hv⟩)
    simp [hv0, this]

end TspSolver

namespace TspSolver

/-! ## The brute force search on `longRingCosts` -/

theorem getD_map_range {α : Type} (n i : Nat) (f : Nat → α) (d : α) (h : i < n) :
    ((List.range n).map f).getD i d = f i := by
  simp [List.getD_eq_getElem?_getD, List.getElem?_range h]

theorem longRingCosts_at2 (i j : Nat) (hi : i < 257) (hj : j < 257) :
    at2 longRingCosts i j = if i = j + 1 ∨ (i = 0 ∧ j = 256) then 1 else NIL := by
  unfold at2 longRingCosts
  rw [getD_map_range 257 i _ _ hi, getD_map_range 257 j _ _ hj]

theorem longRingCosts_length : longRingCosts.length = 257 := by
  simp [longRingCosts]

theorem longRingCosts_valid : ValidMatrix longRingCosts := by
  refine ⟨by rw [longRingCosts_length]; omega, ?_, ?_, ?_⟩
  · intro row hrow
    rw [longRingCosts_length]
    unfold longRingCosts at hrow
    rw [List.mem_map] at hrow
    obtain ⟨i, _, rfl⟩ := hrow
    simp
  · intro i hi
    rw [longRingCosts_length] at hi
    rw [longRingCosts_at2 i i hi hi, if_neg (by omega)]
  · intro i hi j hj _
    rw [longRingCosts_length] at hi hj
    rw [longRingCosts_at2 i j hi hj]
    by_cases h : i = j + 1 ∨ (i = 0 ∧ j = 256)
    · rw [if_pos h]; right; omega
    · rw [if_neg h]; left; rfl

namespace BruteForceSolver

theorem solveLoop_skip (recurse : BruteForceSolver → Nat → Int → Nat → Option BruteForceSolver)
    (from_ : Nat) (lb : Int) (pl : Nat) (s : BruteForceSolver) :
    ∀ (cands rest : List Nat), (∀ x ∈ cands, x = from_ ∨ at1 s.pCurrOptTarget x ≠ NIL) →
      solveLoop recurse from_ lb pl (cands ++ rest) s = solveLoop recurse from_ lb pl rest s := by
  intro cands
  induction cands with
  | nil => intro rest _; rfl
  | cons x cands ih =>
    intro rest h
    rw [List.cons_append, solveLoop]
    rcases h x (List.mem_cons_self _ _) with h1 | h1
    · rw [if_pos h1]
      exact ih rest (fun y hy => h y (List.mem_cons_of_mem _ hy))
    · by_cases h0 : x = from_
      · rw [if_pos h0]
        exact ih rest (fun y hy => h y (List.mem_cons_of_mem _ hy))
      · rw [if_neg h0, if_pos h1]
        exact ih rest (fun y hy => h y (List.mem_cons_of_mem _ hy))

theorem solve_pruned (fuel : Nat) (s : BruteForceSolver) (from_ : Nat) (lb : Int) (pl : Nat)
    (h : lb ≥ s.pUpperBound) : solve (fuel + 1) s from_ lb pl = some s := by
  rw [solve, if_pos h]

theorem solveLoop_pruned (fuel : Nat) (from_ : Nat) (lb : Int) (pl : Nat)
    (s : BruteForceSolver) (hfrom : at1 s.pCurrOptTarget from_ = NIL) :
    ∀ (cands : List Nat),
      (∀ x ∈ cands, x ≠ from_ → wrapInt (lb + at2 s.pOriginalCosts from_ x) ≥ s.pUpperBound) →
      solveLoop (solve (fuel + 1)) from_ lb pl cands s = some s := by
  intro cands
  induction cands with
  | nil => intro _; rfl
  | cons x cands ih =>
    intro hub
    have ih' := ih (fun y hy => hub y (List.mem_cons_of_mem _ hy))
    rw [solveLoop]
    by_cases h0 : x = from_
    · rw [if_pos h0]; exact ih'
    · rw [if_neg h0]
      by_cases h1 : at1 s.pCurrOptTarget x ≠ NIL
      · rw [if_pos h1]; exact ih'
      · rw [if_neg h1, solve_pruned fuel
          { s with pCurrOptTarget := s.pCurrOptTarget.set from_ (x : Int) } x _ (pl + 1)
          (hub x (List.mem_cons_self _ _) h0)]
        simp only
        rw [set_set_restore _ _ _ _ hfrom]
        exact ih'

theorem longRing_descent :
    ∀ (j k fuel : Nat) (s : BruteForceSolver), k + j = 256 → s.pOriginalCosts = longRingCosts →
      s.pCurrOptTarget.length = 257 →
      (∀ i < k, at1 s.pCurrOptTarget i ≠ NIL) →
      (∀ i, k ≤ i → i < 257 → at1 s.pCurrOptTarget i = NIL) →
      s.pUpperBound = INT_MAX → j + 1 ≤ fuel →
      solve fuel s k ((k : Int) * NIL) k =
        some { s with
          pUpperBound := -2139095297
          pOptTarget := assignTour s.pCurrOptTarget k (List.range' (k + 1) j) } := by
  intro j
  induction j with
  | zero =>
    intro k fuel s hk hc hlen _ _ hub hfuel
    have hk' : k = 256 := by omega
    subst hk'
    obtain ⟨fuel, rfl⟩ : ∃ f, fuel = f + 1 := ⟨fuel - 1, by omega⟩
    have h1 : ¬ (((256 : Nat) : Int) * NIL ≥ s.pUpperBound) := by
      rw [hub, INT_MAX_eq, NIL_eq]; omega
    have h2 : (256 : Nat) = sizeMinusOne s.pCurrOptTarget.length := by
      rw [hlen]; rfl
    have h3 : wrapInt (((256 : Nat) : Int) * NIL + at2 s.pOriginalCosts 256 0) = -2139095297 := by
      rw [hc, longRingCosts_at2 256 0 (by omega) (by omega), if_neg (by omega), NIL_eq]
      rfl
    rw [solve, if_neg h1, if_pos h2]
    unfold solveLeaf
    rw [h3, if_pos (by rw [hub, INT_MAX_eq]; omega)]
    rfl
  | succ j ih =>
    intro k fuel s hk hc hlen hlow hhigh hub hfuel
    obtain ⟨fuel, rfl⟩ : ∃ f, fuel = f + 1 := ⟨fuel - 1, by omega⟩
    obtain ⟨fuel, rfl⟩ : ∃ f, fuel = f + 1 := ⟨fuel - 1, by omega⟩
    have h1 : ¬ ((k : Int) * NIL ≥ s.pUpperBound) := by
      rw [hub, INT_MAX_eq, NIL_eq]; omega
    have h2 : ¬ (k = sizeMinusOne s.pCurrOptTarget.length) := by
      rw [hlen]
      have : sizeMinusOne 257 = 256 := rfl
      rw [this]; omega
    rw [solve, if_neg h1, if_neg h2, hlen]
    have hsplit : List.range 257
        = List.range (k + 1) ++ ((k + 1) :: List.range' (k + 2) (255 - k)) := by
      rw [List.range_eq_range', List.range_eq_range']
      have : (k + 1) :: List.range' (k + 2) (255 - k)
          = List.range' (0 + (k + 1)) (255 - k + 1) := by
        rw [List.range'_succ]; simp
      rw [this, List.range'_append_1]
      congr 1; omega
    rw [hsplit, solveLoop_skip _ _ _ _ _ _ _ (fun x hx => by
      have hx' := List.mem_range.1 hx
      by_cases hxk : x = k
      · exact Or.inl hxk
      · exact Or.inr (hlow x (by omega))), solveLoop]
    rw [if_neg (by omega : ¬ (k + 1 = k)), if_neg (by rw [not_not]; exact hhigh (k + 1) (by omega) (by omega))]
    have hlb : wrapInt ((k : Int) * NIL + at2 s.pOriginalCosts k (k + 1))
        = ((k + 1 : Nat) : Int) * NIL := by
      rw [hc, longRingCosts_at2 k (k + 1) (by omega) (by omega), if_neg (by omega)]
      rw [wrapInt_eq]
      · push_cast; ring
      · rw [NIL_eq]; omega
      · rw [NIL_eq]; omega
    rw [hlb]
    have hk1 : (((k + 1 : Nat) : Int)) ≠ NIL := by rw [NIL_eq]; omega
    have hrec := ih (k + 1) (fuel + 1)
      { s with pCurrOptTarget := s.pCurrOptTarget.set k ((k + 1 : Nat) : Int) }
      (by omega) hc (by simp [hlen])
      (fun i hi => by
        show at1 (s.pCurrOptTarget.set k ((k + 1 : Nat) : Int)) i ≠ NIL
        by_cases hik : i = k
        · subst hik
          rw [at1_set_self _ _ _ (by omega)]
          exact hk1
        · rw [at1_set_ne _ _ _ _ (fun h => hik h.symm)]
          exact hlow i (by omega))
      (fun i hi hi2 => by
        show at1 (s.pCurrOptTarget.set k ((k + 1 : Nat) : Int)) i = NIL
        rw [at1_set_ne _ _ _ _ (by omega)]
        exact hhigh i (by omega) hi2)
      hub (by omega)
    rw [hrec]
    simp only
    rw [set_set_restore _ _ _ _ (hhigh k (le_refl _) (by omega))]
    have hp := solveLoop_pruned fuel k ((k : Int) * NIL) k
      { pUpperBound := -2139095297, pOriginalCosts := s.pOriginalCosts,
        pOptTarget := assignTour (s.pCurrOptTarget.set k ((k + 1 : Nat) : Int)) (k + 1)
          (List.range' (k + 1 + 1) j),
        pCurrOptTarget := s.pCurrOptTarget }
      (hhigh k (le_refl _) (by omega))
      (List.range' (k + 2) (255 - k))
      (fun x hx _ => by
        show wrapInt ((k : Int) * NIL + at2 s.pOriginalCosts k x) ≥ -2139095297
        rw [List.mem_range'_1] at hx
        rw [hc, longRingCosts_at2 k x (by omega) (by omega)]
        by_cases hcond : k = x + 1 ∨ (k = 0 ∧ x = 256)
        · rw [if_pos hcond, wrapInt_eq] <;> rw [NIL_eq] <;> omega
        · rw [if_neg hcond, wrapInt_eq] <;> rw [NIL_eq] <;> omega)
    rw [hp, List.range'_succ (k + 1) j]
    rfl

end BruteForceSolver

end TspSolver

namespace TspSolver

theorem longRingTour_isTour : IsTour 257 longRingTour := by
  unfold longRingTour
  refine ⟨List.nodup_reverse.2 (List.nodup_range' _ _), fun x => ?_⟩
  rw [List.mem_reverse, List.mem_range'_1]
  omega

theorem longRing_down (k : Nat) (hk : k ≤ 256) :
    walkCost longRingCosts (List.range (k + 1)).reverse = k ∧
      walkFinite longRingCosts (List.range (k + 1)).reverse = true := by
  induction k with
  | zero => exact ⟨rfl, rfl⟩
  | succ k ih =>
    have ih' := ih (by omega)
    have e : (List.range (k + 1 + 1)).reverse = (k + 1) :: k :: (List.range k).reverse := by
      rw [List.range_succ, List.reverse_append, List.range_succ, List.reverse_append]
      rfl
    have e' : (List.range (k + 1)).reverse = k :: (List.range k).reverse := by
      rw [List.range_succ, List.reverse_append]
      rfl
    rw [e' ] at ih'
    have hc : at2 longRingCosts (k + 1) k = 1 := by
      rw [longRingCosts_at2 (k + 1) k (by omega) (by omega), if_pos (Or.inl rfl)]
    rw [e, walkCost, walkFinite, hc, ih'.1, ih'.2]
    refine ⟨by push_cast; ring, ?_⟩
    rw [NIL_eq]
    rfl

theorem longRing_tourNodes : tourNodes longRingTour = 0 :: (List.range (256 + 1)).reverse := by
  unfold tourNodes longRingTour
  have e : List.range (256 + 1) = 0 :: List.range' 1 256 := by
    rw [List.range_eq_range']
    exact List.range'_succ 0 256 1
  rw [e, List.reverse_cons]

theorem longRingTour_feasible : FeasibleTour longRingCosts longRingTour := by
  unfold FeasibleTour
  have h := longRing_down 256 (le_refl _)
  have e : (List.range (256 + 1)).reverse = 256 :: (List.range 256).reverse := by
    rw [List.range_succ, List.reverse_append]
    rfl
  rw [longRing_tourNodes]
  rw [e] at h ⊢
  have hc : at2 longRingCosts 0 256 = 1 := by
    rw [longRingCosts_at2 0 256 (by omega) (by omega), if_pos (Or.inr ⟨rfl, rfl⟩)]
  rw [walkFinite, hc, h.2, NIL_eq]
  rfl

theorem longRingTour_cost : tourCost longRingCosts longRingTour = 257 := by
  unfold tourCost
  have h := longRing_down 256 (le_refl _)
  have e : (List.range (256 + 1)).reverse = 256 :: (List.range 256).reverse := by
    rw [List.range_succ, List.reverse_append]
    rfl
  rw [longRing_tourNodes]
  rw [e] at h ⊢
  have hc : at2 longRingCosts 0 256 = 1 := by
    rw [longRingCosts_at2 0 256 (by omega) (by omega), if_pos (Or.inr ⟨rfl, rfl⟩)]
  rw [walkCost, hc, h.1]
  rfl

theorem longRing_search_from (curr0 : List Int) (h0 : curr0.length = 257)
    (h1 : ∀ i < 257, at1 curr0 i = NIL) (opt0 : List Int) (fuel : Nat) (hf : fuel = 258) :
    BruteForceSolver.solve fuel
        { pUpperBound := INT_MAX, pOriginalCosts := longRingCosts, pOptTarget := opt0,
          pCurrOptTarget := curr0 } 0 0 0 =
      some
        { pUpperBound := -2139095297, pOriginalCosts := longRingCosts,
          pOptTarget := BruteForceSolver.assignTour curr0 0 (List.range' 1 256),
          pCurrOptTarget := curr0 } := by
  have h := BruteForceSolver.longRing_descent 256 0 fuel
    { pUpperBound := INT_MAX, pOriginalCosts := longRingCosts, pOptTarget := opt0,
      pCurrOptTarget := curr0 } (by omega) rfl h0
    (fun i hi => absurd hi (Nat.not_lt_zero i))
    (fun i _ hi => h1 i hi)
    rfl (by omega)
  have e : ((0 : Nat) : Int) * NIL = 0 := by rw [Nat.cast_zero, zero_mul]
  rw [e] at h
  exact h

theorem longRing_walk (curr0 : List Int) (h0 : curr0.length = 257) :
    getCycleLoop (BruteForceSolver.assignTour curr0 0 (List.range' 1 256)) (257 + 1) 0
        = some ((tourNodes (List.range' 1 256)).map (fun (x : Nat) => (x : Int))) ∧
      isValidLoop longRingCosts (BruteForceSolver.assignTour curr0 0 (List.range' 1 256))
        (List.range 257) = some false := by
  have hnd : (0 :: List.range' 1 256).Nodup := (isTour_range 257).nodup_cons
  have hlt : ∀ x ∈ 0 :: List.range' 1 256, x < curr0.length := by
    intro x hx
    rw [h0]
    exact ((isTour_range 257).mem_cons (by omega) x).1 hx
  have hcycle := BruteForceSolver.getCycleLoop_assignTour (List.range' 1 256) curr0 0 hnd hlt
  have hhead := BruteForceSolver.assignTour_head (List.range' 1 256) curr0 0 hnd
    (by rw [h0]; omega)
  have hq : (List.range' 1 256 ++ [0]).head! = 1 := by
    rw [List.range'_succ]; rfl
  rw [hq] at hhead
  rw [List.length_range', Nat.cast_zero] at hcycle
  refine ⟨hcycle, ?_⟩
  have e2 : List.range 257 = 0 :: List.range' 1 256 := by
    rw [List.range_eq_range', List.range'_succ]
  have e3 : atInt (longRingCosts.getD 0 []) ((1 : Nat) : Int) = some NIL := by
    have := atInt_cast (longRingCosts.getD 0 []) 1
      (by rw [longRingCosts_valid.row_length 0 (by rw [longRingCosts_length]; omega),
            longRingCosts_length]; omega)
    rw [show at1 (longRingCosts.getD 0 []) 1 = at2 longRingCosts 0 1 from rfl,
      longRingCosts_at2 0 1 (by omega) (by omega), if_neg (by omega)] at this
    exact this
  rw [e2, isValidLoop, hhead, e3]
  rfl

theorem bruteForceSolve_of_search {costs : List (List Int)} {s2 : BruteForceSolver}
    {cyclePath : List Int} {valid : Bool}
    (h1 : BruteForceSolver.assertCosts costs = .ok ())
    (h2 : BruteForceSolver.solve (costs.length + 1) (BruteForceSolver.initOptPath costs) 0 0 0
      = some s2)
    (h3 : BruteForceSolver.getCycle s2 = some cyclePath)
    (h4 : BruteForceSolver.isValid s2 = some valid) :
    bruteForceSolve costs = .ok
      { status := if valid then 0 else -1, cyclePath := cyclePath, cost := s2.pUpperBound } := by
  unfold bruteForceSolve BruteForceSolver.construct
  rw [h1, h2]
  simp only [Outcome.ofOption, Outcome.andThen, h3, h4, BruteForceSolver.getCost]

/-- On `longRingCosts` the brute force solver reports a negative cost and status -1. -/
theorem longRing_answer :
    bruteForceSolve longRingCosts = .ok
      { status := -1
        cyclePath := (tourNodes (List.range' 1 256)).map (fun (x : Nat) => (x : Int))
        cost := -2139095297 } := by
  have hl := longRingCosts_length
  have h0 : (List.replicate longRingCosts.length NIL).length = 257 := by
    rw [List.length_replicate, hl]
  have hs := longRing_search_from (List.replicate longRingCosts.length NIL) h0
    (fun i hi => BruteForceSolver.at1_replicate_NIL _ i (by rw [hl]; exact hi))
    (List.replicate longRingCosts.length NIL) (longRingCosts.length + 1) (by rw [hl])
  have hw := longRing_walk (List.replicate longRingCosts.length NIL) h0
  have hlen := BruteForceSolver.assignTour_length (List.range' 1 256)
    (List.replicate longRingCosts.length NIL) 0
  rw [h0] at hlen
  have h3 : BruteForceSolver.getCycle
      { pUpperBound := -2139095297, pOriginalCosts := longRingCosts,
        pOptTarget := BruteForceSolver.assignTour (List.replicate longRingCosts.length NIL) 0
          (List.range' 1 256),
        pCurrOptTarget := List.replicate longRingCosts.length NIL }
      = some ((tourNodes (List.range' 1 256)).map (fun (x : Nat) => (x : Int))) := by
    unfold BruteForceSolver.getCycle
    dsimp only
    rw [hlen]
    exact hw.1
  have h4 : BruteForceSolver.isValid
      { pUpperBound := -2139095297, pOriginalCosts := longRingCosts,
        pOptTarget := BruteForceSolver.assignTour (List.replicate longRingCosts.length NIL) 0
          (List.range' 1 256),
        pCurrOptTarget := List.replicate longRingCosts.length NIL }
      = some false := by
    unfold BruteForceSolver.isValid
    dsimp only
    rw [hlen]
    exact hw.2
  exact bruteForceSolve_of_search longRingCosts_valid.bruteForce_assertCosts_ok hs h3 h4

end TspSolver

namespace TspSolver

/-! ## Matrices as vectors of vectors -/

theorem Square.getD_length {k : Nat} {W : List (List Int)} (h : Square k W) {i : Nat}
    (hi : i < k) : (W.getD i []).length = k := by
  apply h.2
  rw [List.getD_eq_getElem?_getD, List.getElem?_eq_getElem (by rw [h.1]; exact hi)]
  exact List.getElem_mem _

theorem Square.setCell {k : Nat} {W : List (List Int)} (h : Square k W) (i j : Nat) (v : Int) :
    Square k (setCell W i j v) := by
  unfold TspSolver.setCell
  refine ⟨by rw [List.length_set]; exact h.1, ?_⟩
  intro row hrow
  by_cases hi : i < k
  · rcases List.mem_or_eq_of_mem_set hrow with h1 | h1
    · exact h.2 row h1
    · rw [h1, List.length_set]
      exact h.getD_length hi
  · rw [List.set_eq_of_length_le (by rw [h.1]; omega)] at hrow
    exact h.2 row hrow

theorem at2_setCell {k : Nat} {W : List (List Int)} (h : Square k W) {i j : Nat}
    (hi : i < k) (hj : j < k) (v : Int) (i' j' : Nat) :
    at2 (setCell W i j v) i' j' = if i' = i ∧ j' = j then v else at2 W i' j' := by
  unfold TspSolver.setCell at2
  by_cases h1 : i' = i
  · subst h1
    have e : (W.set i' ((W.getD i' []).set j v)).getD i' [] = (W.getD i' []).set j v := by
      rw [List.getD_eq_getElem?_getD, List.getElem?_set]
      simp [h.1, hi]
    rw [e]
    by_cases h2 : j' = j
    · subst h2
      have := at1_set_self (W.getD i' []) j' v (by rw [h.getD_length hi]; exact hj)
      unfold at1 at this
      rw [this]
      simp
    · have := at1_set_ne (W.getD i' []) j j' v (fun e => h2 e.symm)
      unfold at1 at this
      rw [this]
      simp [h2]
  · have e : (W.set i ((W.getD i []).set j v)).getD i' [] = W.getD i' [] := by
      have h1' : ¬ i = i' := fun e => h1 e.symm
      rw [List.getD_eq_getElem?_getD, List.getElem?_set, List.getD_eq_getElem?_getD]
      simp [h1']
    rw [e]
    simp [h1]

theorem sumTo_succ (k : Nat) (g : Nat → Int) : sumTo (k + 1) g = sumTo k g + g k := by
  unfold sumTo
  rw [List.range_succ, List.map_append, List.sum_append]
  simp

theorem sumTo_zero (g : Nat → Int) : sumTo 0 g = 0 := rfl

theorem sumTo_congr (k : Nat) (g g' : Nat → Int) (h : ∀ i < k, g i = g' i) :
    sumTo k g = sumTo k g' := by
  induction k with
  | zero => rfl
  | succ k ih =>
    rw [sumTo_succ, sumTo_succ, ih (fun i hi => h i (by omega)), h k (by omega)]

theorem sumTo_nonneg (k : Nat) (g : Nat → Int) (h : ∀ i < k, 0 ≤ g i) : 0 ≤ sumTo k g := by
  induction k with
  | zero => exact le_refl _
  | succ k ih =>
    rw [sumTo_succ]
    have := ih (fun i hi => h i (by omega))
    have := h k (by omega)
    omega

theorem sumTo_le (k : Nat) (g : Nat → Int) (b : Int) (h : ∀ i < k, g i ≤ b) :
    sumTo k g ≤ k * b := by
  induction k with
  | zero => simp [sumTo_zero]
  | succ k ih =>
    rw [sumTo_succ]
    have := ih (fun i hi => h i (by omega))
    have := h k (by omega)
    push_cast
    linarith

end TspSolver

namespace TspSolver

namespace Solver

/-! ## The reduction `extractLowerBound` -/

theorem rowScan_spec (costs : List (List Int)) (i : Nat) (zs : List Arc) (t : Nat) :
    ((rowScan costs t i zs).2 ≤ INT_MAX ∧ ∀ j < t, (rowScan costs t i zs).2 ≤ at2 costs i j) ∧
    ((rowScan costs t i zs).2 = INT_MAX ∨ ∃ j < t, (rowScan costs t i zs).2 = at2 costs i j) ∧
    (∀ a, a ∈ (rowScan costs t i zs).1 ↔
      a ∈ zs ∨ (a.row = i ∧ a.col < t ∧ at2 costs i a.col = 0)) := by
  induction t with
  | zero =>
    refine ⟨⟨le_refl _, fun j hj => absurd hj (Nat.not_lt_zero j)⟩, Or.inl rfl, fun a => ?_⟩
    show a ∈ zs ↔ _
    constructor
    · exact Or.inl
    · rintro (h | ⟨_, h, _⟩)
      · exact h
      · exact absurd h (Nat.not_lt_zero _)
  | succ t ih =>
    obtain ⟨⟨h1, h2⟩, h3, h4⟩ := ih
    have e : rowScan costs (t + 1) i zs
        = (if at2 costs i t = 0 then (rowScan costs t i zs).1 ++ [Arc.mk i t]
            else (rowScan costs t i zs).1,
           if at2 costs i t < (rowScan costs t i zs).2 then at2 costs i t
            else (rowScan costs t i zs).2) := by
      unfold rowScan
      rw [List.range_succ, List.foldl_append]
      rfl
    rw [e]
    refine ⟨⟨?_, ?_⟩, ?_, ?_⟩
    · dsimp only
      split <;> omega
    · intro j hj
      dsimp only
      by_cases hjt : j = t
      · subst hjt; split <;> omega
      · have := h2 j (by omega)
        split <;> omega
    · dsimp only
      by_cases hlt : at2 costs i t < (rowScan costs t i zs).2
      · rw [if_pos hlt]
        exact Or.inr ⟨t, by omega, rfl⟩
      · rw [if_neg hlt]
        rcases h3 with h3 | ⟨j, hj, h3⟩
        · exact Or.inl h3
        · exact Or.inr ⟨j, by omega, h3⟩
    · intro a
      dsimp only
      by_cases hz : at2 costs i t = 0
      · rw [if_pos hz, List.mem_append, h4 a, List.mem_singleton]
        constructor
        · rintro ((h | ⟨ha, hb, hc⟩) | h)
          · exact Or.inl h
          · exact Or.inr ⟨ha, by omega, hc⟩
          · subst h; exact Or.inr ⟨rfl, by simp, hz⟩
        · rintro (h | ⟨ha, hb, hc⟩)
          · exact Or.inl (Or.inl h)
          · by_cases hbt : a.col = t
            · right
              cases a
              simp only at ha hbt
              subst ha; subst hbt; rfl
            · exact Or.inl (Or.inr ⟨ha, by omega, hc⟩)
      · rw [if_neg hz, h4 a]
        constructor
        · rintro (h | ⟨ha, hb, hc⟩)
          · exact Or.inl h
          · exact Or.inr ⟨ha, by omega, hc⟩
        · rintro (h | ⟨ha, hb, hc⟩)
          · exact Or.inl h
          · by_cases hbt : a.col = t
            · rw [hbt] at hc; exact absurd hc hz
            · exact Or.inr ⟨ha, by omega, hc⟩

theorem rowSubtract_spec {k : Nat} {costs : List (List Int)} (hsq : Square k costs) {i : Nat}
    (hi : i < k) (m : Int) (zs : List Arc) (t : Nat) (ht : t ≤ k) :
    Square k (rowSubtract t i m costs zs).1 ∧
    (∀ i' j', at2 (rowSubtract t i m costs zs).1 i' j'
      = if i' = i ∧ j' < t then wrapInt (at2 costs i' j' - m) else at2 costs i' j') ∧
    (∀ a, a ∈ (rowSubtract t i m costs zs).2 ↔
      a ∈ zs ∨ (a.row = i ∧ a.col < t ∧ at2 costs i a.col = m)) := by
  induction t with
  | zero =>
    refine ⟨hsq, fun i' j' => ?_, fun a => ?_⟩
    · show at2 costs i' j' = _
      rw [if_neg (by omega)]
    · show a ∈ zs ↔ _
      constructor
      · exact Or.inl
      · rintro (h | ⟨_, h, _⟩)
        · exact h
        · exact absurd h (Nat.not_lt_zero _)
  | succ t ih =>
    obtain ⟨h1, h2, h3⟩ := ih (by omega)
    have e : rowSubtract (t + 1) i m costs zs
        = (setCell (rowSubtract t i m costs zs).1 i t
             (wrapInt (at2 (rowSubtract t i m costs zs).1 i t - m)),
           if at2 (rowSubtract t i m costs zs).1 i t = m
             then (rowSubtract t i m costs zs).2 ++ [Arc.mk i t]
             else (rowSubtract t i m costs zs).2) := by
      unfold rowSubtract
      rw [List.range_succ, List.foldl_append]
      rfl
    have hcur : at2 (rowSubtract t i m costs zs).1 i t = at2 costs i t := by
      rw [h2, if_neg (by omega)]
    rw [e, hcur]
    refine ⟨h1.setCell _ _ _, fun i' j' => ?_, fun a => ?_⟩
    · dsimp only
      rw [at2_setCell h1 hi (by omega), h2]
      by_cases hc : i' = i ∧ j' = t
      · rw [if_pos hc, if_pos ⟨hc.1, by omega⟩, hc.1, hc.2]
      · rw [if_neg hc]
        by_cases hc2 : i' = i ∧ j' < t
        · rw [if_pos hc2, if_pos ⟨hc2.1, by omega⟩]
        · rw [if_neg hc2, if_neg (fun h => by
            rcases h with ⟨ha, hb⟩
            by_cases hjt : j' = t
            · exact hc ⟨ha, hjt⟩
            · exact hc2 ⟨ha, by omega⟩)]
    · dsimp only
      by_cases hz : at2 costs i t = m
      · rw [if_pos hz, List.mem_append, h3 a, List.mem_singleton]
        constructor
        · rintro ((h | ⟨ha, hb, hc⟩) | h)
          · exact Or.inl h
          · exact Or.inr ⟨ha, by omega, hc⟩
          · subst h; exact Or.inr ⟨rfl, by simp, hz⟩
        · rintro (h | ⟨ha, hb, hc⟩)
          · exact Or.inl (Or.inl h)
          · by_cases hbt : a.col = t
            · right
              cases a
              simp only at ha hbt
              subst ha; subst hbt; rfl
            · exact Or.inl (Or.inr ⟨ha, by omega, hc⟩)
      · rw [if_neg hz, h3 a]
        constructor
        · rintro (h | ⟨ha, hb, hc⟩)
          · exact Or.inl h
          · exact Or.inr ⟨ha, by omega, hc⟩
        · rintro (h | ⟨ha, hb, hc⟩)
          · exact Or.inl h
          · by_cases hbt : a.col = t
            · rw [hbt] at hc; exact absurd hc hz
            · exact Or.inr ⟨ha, by omega, hc⟩

end Solver

end TspSolver

namespace TspSolver

namespace Solver

theorem colScan_spec (costs : List (List Int)) (j : Nat) (t : Nat) :
    (colScan costs t j ≤ INT_MAX ∧ ∀ i < t, colScan costs t j ≤ at2 costs i j) ∧
    (colScan costs t j = INT_MAX ∨ ∃ i < t, colScan costs t j = at2 costs i j) := by
  induction t with
  | zero => exact ⟨⟨le_refl _, fun i hi => absurd hi (Nat.not_lt_zero i)⟩, Or.inl rfl⟩
  | succ t ih =>
    obtain ⟨⟨h1, h2⟩, h3⟩ := ih
    have e : colScan costs (t + 1) j
        = if at2 costs t j < colScan costs t j then at2 costs t j else colScan costs t j := by
      unfold colScan
      rw [List.range_succ, List.foldl_append]
      rfl
    rw [e]
    refine ⟨⟨?_, ?_⟩, ?_⟩
    · split <;> omega
    · intro i hi
      by_cases hit : i = t
      · subst hit; split <;> omega
      · have := h2 i (by omega)
        split <;> omega
    · by_cases hlt : at2 costs t j < colScan costs t j
      · rw [if_pos hlt]
        exact Or.inr ⟨t, by omega, rfl⟩
      · rw [if_neg hlt]
        rcases h3 with h3 | ⟨i, hi, h3⟩
        · exact Or.inl h3
        · exact Or.inr ⟨i, by omega, h3⟩

theorem colSubtract_spec {k : Nat} {costs : List (List Int)} (hsq : Square k costs) {j : Nat}
    (hj : j < k) (m : Int) (zs : List Arc) (t : Nat) (ht : t ≤ k) :
    Square k (colSubtract t j m costs zs).1 ∧
    (∀ i' j', at2 (colSubtract t j m costs zs).1 i' j'
      = if i' < t ∧ j' = j then wrapInt (at2 costs i' j' - m) else at2 costs i' j') ∧
    (∀ a, a ∈ (colSubtract t j m costs zs).2 ↔
      a ∈ zs ∨ (a.col = j ∧ a.row < t ∧ at2 costs a.row j = m)) := by
  induction t with
  | zero =>
    refine ⟨hsq, fun i' j' => ?_, fun a => ?_⟩
    · show at2 costs i' j' = _
      rw [if_neg (by omega)]
    · show a ∈ zs ↔ _
      constructor
      · exact Or.inl
      · rintro (h | ⟨_, h, _⟩)
        · exact h
        · exact absurd h (Nat.not_lt_zero _)
  | succ t ih =>
    obtain ⟨h1, h2, h3⟩ := ih (by omega)
    have e : colSubtract (t + 1) j m costs zs
        = (setCell (colSubtract t j m costs zs).1 t j
             (wrapInt (at2 (colSubtract t j m costs zs).1 t j - m)),
           if at2 (colSubtract t j m costs zs).1 t j = m
             then (colSubtract t j m costs zs).2 ++ [Arc.mk t j]
             else (colSubtract t j m costs zs).2) := by
      unfold colSubtract
      rw [List.range_succ, List.foldl_append]
      rfl
    have hcur : at2 (colSubtract t j m costs zs).1 t j = at2 costs t j := by
      rw [h2, if_neg (by omega)]
    rw [e, hcur]
    refine ⟨h1.setCell _ _ _, fun i' j' => ?_, fun a => ?_⟩
    · dsimp only
      rw [at2_setCell h1 (by omega) hj, h2]
      by_cases hc : i' = t ∧ j' = j
      · rw [if_pos hc, if_pos ⟨by omega, hc.2⟩, hc.1, hc.2]
      · rw [if_neg hc]
        by_cases hc2 : i' < t ∧ j' = j
        · rw [if_pos hc2, if_pos ⟨by omega, hc2.2⟩]
        · rw [if_neg hc2, if_neg (fun h => by
            rcases h with ⟨ha, hb⟩
            by_cases hit : i' = t
            · exact hc ⟨hit, hb⟩
            · exact hc2 ⟨by omega, hb⟩)]
    · dsimp only
      by_cases hz : at2 costs t j = m
      · rw [if_pos hz, List.mem_append, h3 a, List.mem_singleton]
        constructor
        · rintro ((h | ⟨ha, hb, hc⟩) | h)
          · exact Or.inl h
          · exact Or.inr ⟨ha, by omega, hc⟩
          · subst h; exact Or.inr ⟨rfl, by simp, hz⟩
        · rintro (h | ⟨ha, hb, hc⟩)
          · exact Or.inl (Or.inl h)
          · by_cases hbt : a.row = t
            · right
              cases a
              simp only at ha hbt
              subst ha; subst hbt; rfl
            · exact Or.inl (Or.inr ⟨ha, by omega, hc⟩)
      · rw [if_neg hz, h3 a]
        constructor
        · rintro (h | ⟨ha, hb, hc⟩)
          · exact Or.inl h
          · exact Or.inr ⟨ha, by omega, hc⟩
        · rintro (h | ⟨ha, hb, hc⟩)
          · exact Or.inl h
          · by_cases hbt : a.row = t
            · rw [hbt] at hc; exact absurd hc hz
            · exact Or.inr ⟨ha, by omega, hc⟩

/-- The effect of the body of the row pass on a matrix with entries between 0 and the
sentinel: the minimum of row `i` is subtracted from that row and added to the bound, and
the zero entries of the reduced row are recorded. -/
theorem reduceRow_spec {k : Nat} {st : Reduction} (hsq : Square k st.costs)
    (hb : Bounded k st.costs) {i : Nat} (hi : i < k)
    (hlb0 : 0 ≤ st.lowerBound) (hlb : st.lowerBound + NIL ≤ INT_MAX) :
    ∃ m : Int, 0 ≤ m ∧ m ≤ NIL ∧ (∀ j < k, m ≤ at2 st.costs i j) ∧
      Square k (reduceRow k st i).costs ∧
      (∀ i' j', j' < k → at2 (reduceRow k st i).costs i' j'
        = at2 st.costs i' j' - (if i' = i then m else 0)) ∧
      (reduceRow k st i).lowerBound = st.lowerBound + m ∧
      (∀ a, a ∈ (reduceRow k st i).zeroCostArcs ↔
        a ∈ st.zeroCostArcs ∨
          (a.row = i ∧ a.col < k ∧ at2 (reduceRow k st i).costs i a.col = 0)) := by
  obtain ⟨⟨_, h2⟩, h3, h4⟩ := rowScan_spec st.costs i st.zeroCostArcs k
  have hk : 0 < k := by omega
  have hNIL := NIL_eq
  have hm_le : (rowScan st.costs k i st.zeroCostArcs).2 ≤ NIL :=
    le_trans (h2 0 hk) (hb i hi 0 hk).2
  have hm_ge : 0 ≤ (rowScan st.costs k i st.zeroCostArcs).2 := by
    rcases h3 with h3 | ⟨j, hj, h3⟩
    · rw [h3, INT_MAX_eq]; omega
    · rw [h3]; exact (hb i hi j hj).1
  refine ⟨(rowScan st.costs k i st.zeroCostArcs).2, hm_ge, hm_le, h2, ?_⟩
  unfold reduceRow
  by_cases hz : (rowScan st.costs k i st.zeroCostArcs).2 = 0
  · simp only [hz, if_true]
    refine ⟨hsq, fun i' j' _ => by split <;> omega, by omega, fun a => ?_⟩
    rw [h4 a]
  · simp only [hz, if_false]
    obtain ⟨g1, g2, g3⟩ := rowSubtract_spec hsq hi (rowScan st.costs k i st.zeroCostArcs).2
      (rowScan st.costs k i st.zeroCostArcs).1 k (le_refl _)
    have hcell : ∀ i' j', j' < k → at2 (rowSubtract k i (rowScan st.costs k i st.zeroCostArcs).2
        st.costs (rowScan st.costs k i st.zeroCostArcs).1).1 i' j'
        = at2 st.costs i' j' - (if i' = i then (rowScan st.costs k i st.zeroCostArcs).2 else 0) := by
      intro i' j' hj'
      rw [g2]
      by_cases hii : i' = i
      · subst hii
        rw [if_pos ⟨rfl, hj'⟩, if_pos rfl]
        have := hb i' hi j' hj'
        apply wrapInt_eq <;> omega
      · rw [if_neg (fun h => hii h.1), if_neg hii]
        omega
    refine ⟨g1, hcell, ?_, fun a => ?_⟩
    · apply wrapInt_eq
      · omega
      · rw [INT_MAX_eq] at hlb; omega
    · rw [g3 a, h4 a]
      constructor
      · rintro ((h | ⟨ha, hb', hc⟩) | ⟨ha, hb', hc⟩)
        · exact Or.inl h
        · exfalso
          have := h2 a.col hb'
          omega
        · refine Or.inr ⟨ha, hb', ?_⟩
          rw [hcell i a.col hb', if_pos rfl, hc]
          omega
      · rintro (h | ⟨ha, hb', hc⟩)
        · exact Or.inl (Or.inl h)
        · refine Or.inr ⟨ha, hb', ?_⟩
          rw [hcell i a.col hb', if_pos rfl] at hc
          omega

/-- The effect of the body of the column pass: the minimum of column `j` is subtracted
from that column and added to the bound, and the entries that become zero are recorded. -/
theorem reduceCol_spec {k : Nat} {st : Reduction} (hsq : Square k st.costs)
    (hb : Bounded k st.costs) {j : Nat} (hj : j < k)
    (hlb0 : 0 ≤ st.lowerBound) (hlb : st.lowerBound + NIL ≤ INT_MAX) :
    ∃ m : Int, 0 ≤ m ∧ m ≤ NIL ∧ (∀ i < k, m ≤ at2 st.costs i j) ∧
      Square k (reduceCol k st j).costs ∧
      (∀ i' j', i' < k → at2 (reduceCol k st j).costs i' j'
        = at2 st.costs i' j' - (if j' = j then m else 0)) ∧
      (reduceCol k st j).lowerBound = st.lowerBound + m ∧
      (∀ a, a ∈ (reduceCol k st j).zeroCostArcs ↔
        a ∈ st.zeroCostArcs ∨
          (0 < m ∧ a.col = j ∧ a.row < k ∧ at2 (reduceCol k st j).costs a.row j = 0)) := by
  obtain ⟨⟨_, h2⟩, h3⟩ := colScan_spec st.costs j k
  have hk : 0 < k := by omega
  have hNIL := NIL_eq
  have hm_le : colScan st.costs k j ≤ NIL := le_trans (h2 0 hk) (hb 0 hk j hj).2
  have hm_ge : 0 ≤ colScan st.costs k j := by
    rcases h3 with h3 | ⟨i, hi, h3⟩
    · rw [h3, INT_MAX_eq]; omega
    · rw [h3]; exact (hb i hi j hj).1
  refine ⟨colScan st.costs k j, hm_ge, hm_le, h2, ?_⟩
  unfold reduceCol
  by_cases hz : colScan st.costs k j = 0
  · simp only [hz, if_true]
    refine ⟨hsq, fun i' j' _ => by split <;> omega, by omega, fun a => ?_⟩
    constructor
    · exact Or.inl
    · rintro (h | ⟨h, _⟩)
      · exact h
      · omega
  · simp only [hz, if_false]
    obtain ⟨g1, g2, g3⟩ := colSubtract_spec hsq hj (colScan st.costs k j) st.zeroCostArcs k
      (le_refl _)
    have hcell : ∀ i' j', i' < k → at2 (colSubtract k j (colScan st.costs k j)
        st.costs st.zeroCostArcs).1 i' j'
        = at2 st.costs i' j' - (if j' = j then colScan st.costs k j else 0) := by
      intro i' j' hi'
      rw [g2]
      by_cases hjj : j' = j
      · subst hjj
        rw [if_pos ⟨hi', rfl⟩, if_pos rfl]
        have := hb i' hi' j' hj
        apply wrapInt_eq <;> omega
      · rw [if_neg (fun h => hjj h.2), if_neg hjj]
        omega
    refine ⟨g1, hcell, ?_, fun a => ?_⟩
    · apply wrapInt_eq
      · omega
      · rw [INT_MAX_eq] at hlb; omega
    · rw [g3 a]
      constructor
      · rintro (h | ⟨ha, hb', hc⟩)
        · exact Or.inl h
        · refine Or.inr ⟨by omega, ha, hb', ?_⟩
          rw [hcell a.row j hb', if_pos rfl, hc]
          omega
      · rintro (h | ⟨_, ha, hb', hc⟩)
        · exact Or.inl h
        · refine Or.inr ⟨ha, hb', ?_⟩
          rw [hcell a.row j hb', if_pos rfl] at hc
          omega

end Solver

end TspSolver

namespace TspSolver

/-! ## The brute force search on a matrix with equal costs -/

theorem uniformCosts_at2 (n : Nat) (c : Int) (i j : Nat) (hi : i < n) (hj : j < n) :
    at2 (uniformCosts n c) i j = if i = j then NIL else c := by
  unfold at2 uniformCosts
  rw [getD_map_range n i _ _ hi, getD_map_range n j _ _ hj]

theorem uniformCosts_length (n : Nat) (c : Int) : (uniformCosts n c).length = n := by
  simp [uniformCosts]

theorem sizeMinusOne_small {n : Nat} (h1 : 0 < n) (h2 : n ≤ 8388607) :
    sizeMinusOne n = n - 1 := by
  unfold sizeMinusOne; omega

namespace BruteForceSolver

end BruteForceSolver

end TspSolver

namespace TspSolver

/-- The answer of `bruteForceSolve` when the search ends with the assignment of the
Hamiltonian cycle with visiting order `q`. -/
theorem bruteForceSolve_of_tour {costs : List (List Int)} (hv : ValidMatrix costs)
    {s2 : BruteForceSolver} {q : List Nat}
    (hs2 : BruteForceSolver.solve (costs.length + 1) (BruteForceSolver.initOptPath costs) 0 0 0
      = some s2)
    (hq : IsTour costs.length q)
    (hopt : s2.pOptTarget = BruteForceSolver.assignTour (List.replicate costs.length NIL) 0 q)
    (hcosts : s2.pOriginalCosts = costs) :
    bruteForceSolve costs = .ok
      { status := if walkFinite costs (tourNodes q) then 0 else -1
        cyclePath := (tourNodes q).map (fun (x : Nat) => (x : Int))
        cost := s2.pUpperBound } := by
  have hn1 := hv.1
  have hlen : s2.pOptTarget.length = costs.length := by
    rw [hopt, BruteForceSolver.assignTour_length, List.length_replicate]
  have hlt : ∀ x ∈ 0 :: q, x < (List.replicate costs.length NIL).length := by
    intro x hx
    rw [List.length_replicate]
    exact (hq.mem_cons (by omega) x).1 hx
  have hcycle : BruteForceSolver.getCycle s2
      = some ((tourNodes q).map (fun (x : Nat) => (x : Int))) := by
    unfold BruteForceSolver.getCycle
    rw [hlen, hopt]
    have := BruteForceSolver.getCycleLoop_assignTour q (List.replicate costs.length NIL) 0
      hq.nodup_cons hlt
    rw [hq.tour_length] at this
    rw [show costs.length + 1 = costs.length - 1 + 2 by omega]
    exact this
  have hvalid : BruteForceSolver.isValid s2 = some (walkFinite costs (tourNodes q)) := by
    unfold BruteForceSolver.isValid
    rw [hlen, hcosts, isValidLoop_eq costs s2.pOptTarget costs.length
      (fun i hi => hv.row_length i hi) (List.range costs.length)]
    · refine congrArg some ?_
      unfold tourNodes
      rw [BruteForceSolver.walkFinite_assignTour costs q (List.replicate costs.length NIL) 0
        hq.nodup_cons hlt, ← hopt, Bool.eq_iff_iff, List.all_eq_true, List.all_eq_true]
      constructor
      · intro h x hx
        exact h x (List.mem_range.2 ((hq.mem_cons (by omega) x).1 hx))
      · intro h x hx
        exact h x ((hq.mem_cons (by omega) x).2 (List.mem_range.1 hx))
    · intro i hi
      have hi' := List.mem_range.1 hi
      refine ⟨hi', ?_⟩
      have := BruteForceSolver.assignTour_node q (List.replicate costs.length NIL) 0
        hq.nodup_cons hlt (by rw [List.length_replicate]; omega) i
        ((hq.mem_cons (by omega) i).2 hi')
      rw [List.length_replicate, ← hopt] at this
      exact this
  unfold bruteForceSolve BruteForceSolver.construct
  rw [hv.bruteForce_assertCosts_ok, hs2]
  simp only [Outcome.ofOption, Outcome.andThen, hcycle, hvalid, BruteForceSolver.getCost]

end TspSolver

namespace TspSolver

namespace Solver

/-- The row pass of `extractLowerBound` after `t` rows. -/
theorem rowPass_spec {k : Nat} {G : List (List Int)} (hsq : Square k G) (hb : Bounded k G)
    (hk : k ≤ 128) :
    ∀ t ≤ k, ∃ ρ : Nat → Int, (∀ i, 0 ≤ ρ i ∧ ρ i ≤ NIL) ∧
      Square k ((List.range t).foldl (reduceRow k) ⟨G, [], 0⟩).costs ∧
      (∀ i' j', j' < k →
        at2 ((List.range t).foldl (reduceRow k) ⟨G, [], 0⟩).costs i' j'
          = at2 G i' j' - (if i' < t then ρ i' else 0)) ∧
      (∀ i < t, ∀ j < k, ρ i ≤ at2 G i j) ∧
      ((List.range t).foldl (reduceRow k) ⟨G, [], 0⟩).lowerBound = sumTo t ρ ∧
      (∀ a, a ∈ ((List.range t).foldl (reduceRow k) ⟨G, [], 0⟩).zeroCostArcs ↔
        a.row < t ∧ a.col < k ∧
          at2 ((List.range t).foldl (reduceRow k) ⟨G, [], 0⟩).costs a.row a.col = 0) := by
  intro t
  induction t with
  | zero =>
    intro _
    refine ⟨fun _ => 0, fun _ => ⟨le_refl _, by show (0 : Int) ≤ NIL; rw [NIL_eq]; omega⟩, hsq, ?_, ?_, rfl, ?_⟩
    · intro i' j' _
      show at2 G i' j' = _
      simp
    · intro i hi
      exact absurd hi (Nat.not_lt_zero i)
    · intro a
      show a ∈ ([] : List Arc) ↔ _
      simp
  | succ t ih =>
    intro ht
    obtain ⟨ρ, hρ, h1, h2, h3, h4, h5⟩ := ih (by omega)
    rw [List.range_succ, List.foldl_append]
    generalize (List.range t).foldl (reduceRow k) ⟨G, [], 0⟩ = st at h1 h2 h3 h4 h5 ⊢
    have hbst : Bounded k st.costs := by
      intro i hi j hj
      rw [h2 i j hj]
      have := hb i hi j hj
      by_cases hit : i < t
      · rw [if_pos hit]
        have := h3 i hit j hj
        have := hρ i
        omega
      · rw [if_neg hit]; omega
    have hlb0 : 0 ≤ st.lowerBound := by
      rw [h4]; exact sumTo_nonneg _ _ (fun i _ => (hρ i).1)
    have hlb1 : st.lowerBound + NIL ≤ INT_MAX := by
      rw [h4]
      have := sumTo_le t ρ NIL (fun i _ => (hρ i).2)
      rw [NIL_eq] at this ⊢
      rw [INT_MAX_eq]
      have : (t : Int) ≤ 127 := by omega
      omega
    obtain ⟨m, hm0, hm1, hm2, g1, g2, g3, g4⟩ :=
      reduceRow_spec h1 hbst (show t < k by omega) hlb0 hlb1
    show ∃ ρ : Nat → Int, _ ∧ Square k (reduceRow k st t).costs ∧
      (∀ i' j', j' < k → at2 (reduceRow k st t).costs i' j' = _) ∧ _ ∧
      (reduceRow k st t).lowerBound = _ ∧
      (∀ a, a ∈ (reduceRow k st t).zeroCostArcs ↔
        a.row < t + 1 ∧ a.col < k ∧ at2 (reduceRow k st t).costs a.row a.col = 0)
    refine ⟨fun i => if i = t then m else ρ i, ?_, g1, ?_, ?_, ?_, ?_⟩
    · intro i
      by_cases hit : i = t
      · simp only [hit, if_true]; exact ⟨hm0, hm1⟩
      · simp only [hit, if_false]; exact hρ i
    · intro i' j' hj'
      rw [g2 i' j' hj', h2 i' j' hj']
      by_cases hit : i' = t
      · subst hit
        simp
      · simp only [hit, if_false]
        by_cases hlt : i' < t
        · rw [if_pos hlt, if_pos (by omega)]; omega
        · rw [if_neg hlt, if_neg (by omega)]; omega
    · intro i hi j hj
      by_cases hit : i = t
      · subst hit
        simp only [if_true]
        have := hm2 j hj
        rw [h2 i j hj, if_neg (by omega)] at this
        omega
      · simp only [hit, if_false]
        exact h3 i (by omega) j hj
    · rw [g3, h4, sumTo_succ]
      simp only [if_true]
      rw [sumTo_congr t (fun i => if i = t then m else ρ i) ρ
        (fun i hi => by simp only [show i ≠ t by omega, if_false])]
    · intro a
      rw [g4 a, h5 a]
      constructor
      · rintro (⟨ha, hb', hc⟩ | ⟨ha, hb', hc⟩)
        · refine ⟨by omega, hb', ?_⟩
          rw [g2 _ _ hb', if_neg (by omega), hc]; omega
        · refine ⟨by omega, hb', ?_⟩
          rw [ha]; exact hc
      · rintro ⟨ha, hb', hc⟩
        by_cases hat : a.row = t
        · right
          refine ⟨hat, hb', ?_⟩
          rw [hat] at hc; exact hc
        · left
          refine ⟨by omega, hb', ?_⟩
          rw [g2 _ _ hb', if_neg hat] at hc
          omega

/-- The column pass of `extractLowerBound` after `t` columns, started from the state
`st0` left by the row pass. -/
theorem colPass_spec {k : Nat} {st0 : Reduction} (hsq : Square k st0.costs)
    (hb : Bounded k st0.costs) (hk : k ≤ 128) (hlb0 : 0 ≤ st0.lowerBound)
    (hlb1 : st0.lowerBound ≤ k * NIL)
    (hz : ∀ a, a ∈ st0.zeroCostArcs ↔ a.row < k ∧ a.col < k ∧ at2 st0.costs a.row a.col = 0) :
    ∀ t ≤ k, ∃ γ : Nat → Int, (∀ j, 0 ≤ γ j ∧ γ j ≤ NIL) ∧
      Square k ((List.range t).foldl (reduceCol k) st0).costs ∧
      (∀ i' j', i' < k →
        at2 ((List.range t).foldl (reduceCol k) st0).costs i' j'
          = at2 st0.costs i' j' - (if j' < t then γ j' else 0)) ∧
      (∀ j < t, ∀ i < k, γ j ≤ at2 st0.costs i j) ∧
      ((List.range t).foldl (reduceCol k) st0).lowerBound = st0.lowerBound + sumTo t γ ∧
      (∀ a, a ∈ ((List.range t).foldl (reduceCol k) st0).zeroCostArcs ↔
        a.row < k ∧ a.col < k ∧ (at2 st0.costs a.row a.col = 0 ∨ (a.col < t ∧
          at2 ((List.range t).foldl (reduceCol k) st0).costs a.row a.col = 0))) := by
  intro t
  induction t with
  | zero =>
    intro _
    refine ⟨fun _ => 0, fun _ => ⟨le_refl _, by show (0 : Int) ≤ NIL; rw [NIL_eq]; omega⟩, hsq, ?_, ?_, ?_, ?_⟩
    · intro i' j' _
      show at2 st0.costs i' j' = _
      simp
    · intro i hi
      exact absurd hi (Nat.not_lt_zero i)
    · show st0.lowerBound = _
      rw [sumTo_zero]; omega
    · intro a
      show a ∈ st0.zeroCostArcs ↔ _
      rw [hz a]
      constructor
      · rintro ⟨h1, h2, h3⟩
        exact ⟨h1, h2, Or.inl h3⟩
      · rintro ⟨h1, h2, h3 | ⟨h3, _⟩⟩
        · exact ⟨h1, h2, h3⟩
        · exact absurd h3 (Nat.not_lt_zero _)
  | succ t ih =>
    intro ht
    obtain ⟨γ, hγ, h1, h2, h3, h4, h5⟩ := ih (by omega)
    rw [List.range_succ, List.foldl_append]
    generalize (List.range t).foldl (reduceCol k) st0 = st at h1 h2 h3 h4 h5 ⊢
    have hbst : Bounded k st.costs := by
      intro i hi j hj
      rw [h2 i j hi]
      have := hb i hi j hj
      by_cases hjt : j < t
      · rw [if_pos hjt]
        have := h3 j hjt i hi
        have := hγ j
        omega
      · rw [if_neg hjt]; omega
    have hs0 : 0 ≤ sumTo t γ := sumTo_nonneg _ _ (fun i _ => (hγ i).1)
    have hs1 := sumTo_le t γ NIL (fun i _ => (hγ i).2)
    have hlbst0 : 0 ≤ st.lowerBound := by rw [h4]; omega
    have hlbst1 : st.lowerBound + NIL ≤ INT_MAX := by
      rw [h4]
      rw [NIL_eq] at hs1 hlb1 ⊢
      rw [INT_MAX_eq]
      have : (t : Int) ≤ 127 := by omega
      have : (k : Int) ≤ 128 := by omega
      omega
    obtain ⟨m, hm0, hm1, hm2, g1, g2, g3, g4⟩ :=
      reduceCol_spec h1 hbst (show t < k by omega) hlbst0 hlbst1
    show ∃ γ : Nat → Int, _ ∧ Square k (reduceCol k st t).costs ∧
      (∀ i' j', i' < k → at2 (reduceCol k st t).costs i' j' = _) ∧ _ ∧
      (reduceCol k st t).lowerBound = _ ∧
      (∀ a, a ∈ (reduceCol k st t).zeroCostArcs ↔
        a.row < k ∧ a.col < k ∧ (at2 st0.costs a.row a.col = 0 ∨ (a.col < t + 1 ∧
          at2 (reduceCol k st t).costs a.row a.col = 0)))
    refine ⟨fun j => if j = t then m else γ j, ?_, g1, ?_, ?_, ?_, ?_⟩
    · intro j
      by_cases hjt : j = t
      · simp only [hjt, if_true]; exact ⟨hm0, hm1⟩
      · simp only [hjt, if_false]; exact hγ j
    · intro i' j' hi'
      rw [g2 i' j' hi', h2 i' j' hi']
      by_cases hjt : j' = t
      · subst hjt
        simp
      · simp only [hjt, if_false]
        by_cases hlt : j' < t
        · rw [if_pos hlt, if_pos (by omega)]; omega
        · rw [if_neg hlt, if_neg (by omega)]; omega
    · intro j hj i hi
      by_cases hjt : j = t
      · subst hjt
        simp only [if_true]
        have := hm2 i hi
        rw [h2 i j hi, if_neg (by omega)] at this
        omega
      · simp only [hjt, if_false]
        exact h3 j (by omega) i hi
    · rw [g3, h4, sumTo_succ]
      simp only [if_true]
      rw [sumTo_congr t (fun j => if j = t then m else γ j) γ
        (fun i hi => by simp only [show i ≠ t by omega, if_false])]
      omega
    · intro a
      rw [g4 a, h5 a]
      constructor
      · rintro (⟨ha, hb', hc | ⟨hc, hd⟩⟩ | ⟨_, ha, hb', hc⟩)
        · exact ⟨ha, hb', Or.inl hc⟩
        · refine ⟨ha, hb', Or.inr ⟨by omega, ?_⟩⟩
          rw [g2 _ _ ha, if_neg (by omega), hd]; omega
        · refine ⟨hb', by omega, Or.inr ⟨by omega, ?_⟩⟩
          rw [ha]; exact hc
      · rintro ⟨ha, hb', hc | ⟨hc, hd⟩⟩
        · exact Or.inl ⟨ha, hb', Or.inl hc⟩
        · by_cases hat : a.col = t
          · by_cases hm : 0 < m
            · right
              refine ⟨hm, hat, ha, ?_⟩
              rw [hat] at hd; exact hd
            · left
              refine ⟨ha, hb', Or.inl ?_⟩
              rw [g2 _ _ ha, if_pos hat, h2 _ _ ha, if_neg (by omega)] at hd
              omega
          · left
            refine ⟨ha, hb', Or.inr ⟨by omega, ?_⟩⟩
            rw [g2 _ _ ha, if_neg hat] at hd
            omega

/-- What `extractLowerBound` computes on a `k` by `k` matrix with entries between 0 and
the sentinel, `k ≤ 128`: every row `i` is lowered by some `ρ i ≥ 0` and every column
`j` by some `γ j ≥ 0`, no entry becomes negative, the returned bound is the sum of all
`ρ i` and `γ j`, and `zeroCostArcs` lists exactly the zero entries of the result. -/
theorem extractLowerBound_spec {k : Nat} {G : List (List Int)} (hsq : Square k G)
    (hb : Bounded k G) (hk : k ≤ 128) :
    ∃ ρ γ : Nat → Int, (∀ i, 0 ≤ ρ i) ∧ (∀ j, 0 ≤ γ j) ∧
      Square k (extractLowerBound G).costs ∧ Bounded k (extractLowerBound G).costs ∧
      (∀ i < k, ∀ j < k, at2 (extractLowerBound G).costs i j = at2 G i j - ρ i - γ j) ∧
      (extractLowerBound G).lowerBound = sumTo k ρ + sumTo k γ ∧
      (extractLowerBound G).lowerBound ≤ 2 * k * NIL ∧
      (∀ a, a ∈ (extractLowerBound G).zeroCostArcs ↔
        a.row < k ∧ a.col < k ∧ at2 (extractLowerBound G).costs a.row a.col = 0) := by
  obtain ⟨ρ, hρ, r1, r2, r3, r4, r5⟩ := rowPass_spec hsq hb hk k (le_refl _)
  unfold extractLowerBound
  rw [hsq.1]
  generalize (List.range k).foldl (reduceRow k) ⟨G, [], 0⟩ = st0 at r1 r2 r3 r4 r5 ⊢
  have hb0 : Bounded k st0.costs := by
    intro i hi j hj
    rw [r2 i j hj, if_pos hi]
    have := hb i hi j hj
    have := r3 i hi j hj
    have := hρ i
    omega
  have hρs0 : 0 ≤ sumTo k ρ := sumTo_nonneg _ _ (fun i _ => (hρ i).1)
  have hρs1 := sumTo_le k ρ NIL (fun i _ => (hρ i).2)
  obtain ⟨γ, hγ, c1, c2, c3, c4, c5⟩ := colPass_spec r1 hb0 hk (by rw [r4]; exact hρs0)
    (by rw [r4]; exact hρs1) r5 k (le_refl _)
  generalize (List.range k).foldl (reduceCol k) st0 = st at c1 c2 c3 c4 c5 ⊢
  have hγs1 := sumTo_le k γ NIL (fun i _ => (hγ i).2)
  have hcell : ∀ i < k, ∀ j < k, at2 st.costs i j = at2 G i j - ρ i - γ j := by
    intro i hi j hj
    rw [c2 i j hi, if_pos hj, r2 i j hj, if_pos hi]
  refine ⟨ρ, γ, fun i => (hρ i).1, fun j => (hγ j).1, c1, ?_, hcell, ?_, ?_, ?_⟩
  · intro i hi j hj
    rw [c2 i j hi, if_pos hj]
    have := hb0 i hi j hj
    have := c3 j hj i hi
    have := hγ j
    omega
  · rw [c4, r4]
  · rw [c4, r4]
    linarith
  · intro a
    rw [c5 a]
    constructor
    · rintro ⟨ha, hb', hc | ⟨_, hc⟩⟩
      · refine ⟨ha, hb', ?_⟩
        rw [c2 _ _ ha, if_pos hb', hc]
        have := c3 a.col hb' a.row ha
        have := hγ a.col
        omega
      · exact ⟨ha, hb', hc⟩
    · rintro ⟨ha, hb', hc⟩
      exact ⟨ha, hb', Or.inr ⟨hb', hc⟩⟩

end Solver

end TspSolver

namespace TspSolver

/-! ## Systems of paths and Hamiltonian cycles -/

theorem Reach.step {f : Nat → Option Nat} {a b c : Nat} (h : f a = some b) (h2 : Reach f b c) :
    Reach f a c :=
  Relation.ReflTransGen.head h h2

theorem Reach.append {f : Nat → Option Nat} {a b c : Nat} (h : Reach f a b) (h2 : Reach f b c) :
    Reach f a c :=
  Relation.ReflTransGen.trans h h2

theorem Reach.of_none {f : Nat → Option Nat} {a b : Nat} (h : Reach f a b) (ha : f a = none) :
    b = a := by
  rcases Relation.ReflTransGen.cases_head h with h1 | ⟨c, h1, _⟩
  · exact h1.symm
  · rw [ha] at h1; cases h1

theorem Reach.end_unique {f : Nat → Option Nat} {a x x' : Nat} (h : Reach f a x)
    (hx : f x = none) (h' : Reach f a x') (hx' : f x' = none) : x = x' := by
  induction h using Relation.ReflTransGen.head_induction_on with
  | refl => exact (h'.of_none hx).symm
  | head h1 _ ih =>
    rcases Relation.ReflTransGen.cases_head h' with h2 | ⟨c, h2, h3⟩
    · rw [h2] at h1; rw [hx'] at h1; cases h1
    · rw [h1] at h2
      cases h2
      exact ih h3

theorem Reach.below {n : Nat} {f : Nat → Option Nat} (hr : ∀ a b, f a = some b → a < n ∧ b < n)
    {a b : Nat} (h : Reach f a b) (ha : a < n) : b < n := by
  induction h using Relation.ReflTransGen.head_induction_on with
  | refl => exact ha
  | head h1 _ ih => exact ih (hr _ _ h1).2

theorem Reach.mono_add {f : Nat → Option Nat} {x : Nat} (y : Nat) (hx : f x = none) {a b : Nat}
    (h : Reach f a b) : Reach (addArc f x y) a b := by
  induction h using Relation.ReflTransGen.head_induction_on with
  | refl => exact Relation.ReflTransGen.refl
  | head h1 _ ih =>
    refine Reach.step ?_ ih
    unfold addArc
    rw [if_neg (fun e => by rw [e, hx] at h1; cases h1)]
    exact h1

theorem Reach.iterate {f : Nat → Option Nat} {σ : Nat → Nat} (he : Ext f σ) {a b : Nat}
    (h : Reach f a b) : ∃ m, σ^[m] a = b := by
  induction h using Relation.ReflTransGen.head_induction_on with
  | refl => exact ⟨0, rfl⟩
  | head h1 _ ih =>
    obtain ⟨m, hm⟩ := ih
    refine ⟨m + 1, ?_⟩
    rw [Function.iterate_succ_apply, he _ _ h1]
    exact hm

theorem Ext.of_addArc {f : Nat → Option Nat} {x y : Nat} {σ : Nat → Nat} (hx : f x = none)
    (h : Ext (addArc f x y) σ) : Ext f σ := by
  intro a b hab
  apply h
  unfold addArc
  rw [if_neg (fun e => by rw [e, hx] at hab; cases hab)]
  exact hab

theorem Ext.addArc_self {f : Nat → Option Nat} {x y : Nat} {σ : Nat → Nat}
    (h : Ext (addArc f x y) σ) : σ x = y :=
  h x y (by unfold addArc; rw [if_pos rfl])

theorem Ext.with_arc {f : Nat → Option Nat} {x y : Nat} {σ : Nat → Nat} (h : Ext f σ)
    (hxy : σ x = y) : Ext (addArc f x y) σ := by
  intro a b hab
  unfold addArc at hab
  by_cases hax : a = x
  · rw [if_pos hax] at hab
    cases hab
    rw [hax]; exact hxy
  · rw [if_neg hax] at hab
    exact h a b hab

/-- A set of nodes that is closed under the successor function of a Hamiltonian cycle
and contains one node contains every node. -/
theorem Ham.closed_set {n : Nat} {σ : Nat → Nat} (h : Ham n σ) (S : Nat → Prop)
    (hS : ∀ a < n, S a → S (σ a)) {a b : Nat} (ha : a < n) (hb : b < n) (hSa : S a) : S b := by
  obtain ⟨m, hm⟩ := h.2.2 a ha b hb
  have : ∀ m, σ^[m] a < n ∧ S (σ^[m] a) := by
    intro m
    induction m with
    | zero => exact ⟨ha, hSa⟩
    | succ m ih =>
      rw [Function.iterate_succ_apply']
      exact ⟨h.1 _ ih.1, hS _ ih.1 ih.2⟩
  rw [← hm]
  exact (this m).2

/-- A Hamiltonian cycle that contains the arcs of a system of at least two paths does
not join the last node of a path to a node of the same path. -/
theorem Ham.no_closing {n : Nat} {f : Nat → Option Nat} {σ : Nat → Nat} (h : Ham n σ)
    (he : Ext f σ) {x x2 : Nat} (hx : x < n) (hx2 : x2 < n) (hfx2 : f x2 = none)
    (hne : x2 ≠ x) : ¬ Reach f (σ x) x := by
  intro hr
  have hcl : ∀ a < n, Reach f a x → Reach f (σ a) x := by
    intro a _ ha
    rcases Relation.ReflTransGen.cases_head ha with h1 | ⟨c, h1, h2⟩
    · rw [h1]; exact hr
    · rw [he a c h1]; exact h2
  have := h.closed_set (fun a => Reach f a x) hcl hx hx2 Relation.ReflTransGen.refl
  exact hne (Reach.of_none this hfx2).symm

/-- The successor of a node without arc in a Hamiltonian cycle that contains the arcs of
`f` is a node without predecessor in `f`. -/
theorem Ham.col_of_row {n : Nat} {f : Nat → Option Nat} {σ : Nat → Nat} (h : Ham n σ)
    (hr : ∀ a b, f a = some b → a < n ∧ b < n) (he : Ext f σ) {x : Nat} (hx : x < n)
    (hfx : f x = none) : σ x < n ∧ ∀ a, f a ≠ some (σ x) := by
  refine ⟨h.1 x hx, fun a ha => ?_⟩
  have h1 := he a _ ha
  have h2 := h.2.1 a (hr _ _ ha).1 x hx h1
  rw [h2, hfx] at ha
  cases ha

/-- Adding an arc from the last node of one path to the first node of another path
gives a system of paths. -/
theorem PathSys.join {n : Nat} {f : Nat → Option Nat} (h : PathSys n f) {x y : Nat}
    (hx : x < n) (hfx : f x = none) (hy : y < n) (hfy : ∀ a, f a ≠ some y)
    (hxy : ¬ Reach f y x) : PathSys n (addArc f x y) := by
  obtain ⟨h1, h2, h3, h4⟩ := h
  have hself : addArc f x y x = some y := by unfold addArc; rw [if_pos rfl]
  have hother : ∀ a, a ≠ x → addArc f x y a = f a := by
    intro a ha; unfold addArc; rw [if_neg ha]
  refine ⟨?_, ?_, ?_, ?_⟩
  · intro a b hab
    by_cases hax : a = x
    · rw [hax, hself] at hab
      cases hab
      rw [hax]; exact ⟨hx, hy⟩
    · rw [hother a hax] at hab
      exact h1 a b hab
  · intro a a' b hab hab'
    by_cases hax : a = x
    · by_cases hax' : a' = x
      · rw [hax, hax']
      · rw [hax, hself] at hab
        cases hab
        rw [hother a' hax'] at hab'
        exact absurd hab' (hfy a')
    · by_cases hax' : a' = x
      · rw [hax', hself] at hab'
        cases hab'
        rw [hother a hax] at hab
        exact absurd hab (hfy a)
      · rw [hother a hax] at hab
        rw [hother a' hax'] at hab'
        exact h2 a a' b hab hab'
  · intro a
    obtain ⟨x0, hx0, hfx0⟩ := h3 a
    by_cases hx0x : x0 = x
    · obtain ⟨x1, hx1, hfx1⟩ := h3 y
      have hne : x1 ≠ x := fun e => hxy (by rw [← e]; exact hx1)
      refine ⟨x1, ?_, by rw [hother x1 hne]; exact hfx1⟩
      rw [hx0x] at hx0
      exact (hx0.mono_add y hfx).append (Reach.step hself (hx1.mono_add y hfx))
    · exact ⟨x0, hx0.mono_add y hfx, by rw [hother x0 hx0x]; exact hfx0⟩
  · intro b
    obtain ⟨y0, hy0, hfy0⟩ := h4 b
    have hcol : ∀ z, z ≠ y → (∀ a, f a ≠ some z) → ∀ a, addArc f x y a ≠ some z := by
      intro z hz hfz a ha
      by_cases hax : a = x
      · rw [hax, hself] at ha
        cases ha
        exact hz rfl
      · rw [hother a hax] at ha
        exact hfz a ha
    by_cases hy0y : y0 = y
    · obtain ⟨y1, hy1, hfy1⟩ := h4 x
      have hne : y1 ≠ y := fun e => hxy (by rw [← e]; exact hy1)
      refine ⟨y1, ?_, hcol y1 hne hfy1⟩
      rw [hy0y] at hy0
      exact (hy1.mono_add y hfx).append (Reach.step hself (hy0.mono_add y hfx))
    · exact ⟨y0, hy0.mono_add y hfx, hcol y0 hy0y hfy0⟩

/-- Closing a single path: when `x` is the only node below `n` without successor and
`y` the only one without predecessor, every successor function that contains the arcs
of `f` and the arc from `x` to `y` is a Hamiltonian cycle. -/
theorem PathSys.close {n : Nat} {f : Nat → Option Nat} (h : PathSys n f) {x y : Nat}
    (hfx : f x = none) (hxu : ∀ a < n, f a = none → a = x)
    (hy : y < n) (hfy : ∀ a, f a ≠ some y) (hyu : ∀ b < n, (∀ a, f a ≠ some b) → b = y)
    {σ : Nat → Nat} (he : Ext (addArc f x y) σ) : Ham n σ := by
  obtain ⟨h1, h2, h3, h4⟩ := h
  have he0 : Ext f σ := he.of_addArc hfx
  have hσx : σ x = y := he.addArc_self
  have hval : ∀ a < n, a ≠ x → f a = some (σ a) := by
    intro a ha hax
    cases hfa : f a with
    | none => exact absurd (hxu a ha hfa) hax
    | some b => rw [he0 a b hfa]
  refine ⟨?_, ?_, ?_⟩
  · intro a ha
    by_cases hax : a = x
    · rw [hax, hσx]; exact hy
    · exact (h1 a _ (hval a ha hax)).2
  · intro a ha b hb hab
    by_cases hax : a = x
    · by_cases hbx : b = x
      · rw [hax, hbx]
      · rw [hax, hσx] at hab
        have := hval b hb hbx
        rw [← hab] at this
        exact absurd this (hfy b)
    · by_cases hbx : b = x
      · rw [hbx, hσx] at hab
        have := hval a ha hax
        rw [hab] at this
        exact absurd this (hfy a)
      · have e1 := hval a ha hax
        have e2 := hval b hb hbx
        rw [← hab] at e2
        exact h2 a b _ e1 e2
  · intro a ha b hb
    obtain ⟨x0, hx0, hfx0⟩ := h3 a
    have hx0x : x0 = x := hxu x0 (hx0.below h1 ha) hfx0
    obtain ⟨y0, hy0, hfy0⟩ := h4 b
    have hy0n : y0 < n := by
      rcases Relation.ReflTransGen.cases_head hy0 with e | ⟨c, e, _⟩
      · rw [e]; exact hb
      · exact (h1 _ _ e).1
    have hy0y : y0 = y := hyu y0 hy0n hfy0
    rw [hx0x] at hx0
    rw [hy0y] at hy0
    obtain ⟨m1, hm1⟩ := hx0.iterate he0
    obtain ⟨m2, hm2⟩ := hy0.iterate he0
    refine ⟨m2 + 1 + m1, ?_⟩
    rw [Function.iterate_add_apply, hm1, Function.iterate_succ_apply, hσx, hm2]

end TspSolver

namespace TspSolver

theorem exists_mem_ne {l : List Nat} (hnd : l.Nodup) (hlen : 2 ≤ l.length) (z : Nat) :
    ∃ x ∈ l, x ≠ z := by
  match l, hnd, hlen with
  | a :: b :: _, hnd, _ =>
    by_cases haz : a = z
    · refine ⟨b, by simp, fun hb => ?_⟩
      rw [List.nodup_cons] at hnd
      exact hnd.1 (by rw [haz, ← hb]; simp)
    · exact ⟨a, by simp, haz⟩

/-- Every system of at least one path is contained in a Hamiltonian cycle. -/
theorem PathSys.exists_completion {n : Nat} :
    ∀ (k : Nat) (f : Nat → Option Nat) (RN CN : List Nat), PathSys n f → RN.Nodup → CN.Nodup →
      (∀ a, a ∈ RN ↔ a < n ∧ f a = none) → (∀ b, b ∈ CN ↔ b < n ∧ ∀ a, f a ≠ some b) →
      RN.length = k + 1 → CN.length = k + 1 → ∃ σ, Ham n σ ∧ Ext f σ := by
  intro k
  induction k with
  | zero =>
    intro f RN CN h hR hC hRm hCm hRl hCl
    match RN, hRl, CN, hCl with
    | [x], _, [y], _ =>
      have hx := (hRm x).1 (by simp)
      have hy := (hCm y).1 (by simp)
      have he : Ext (addArc f x y) (fun a => (addArc f x y a).getD 0) := by
        intro a b hab
        show (addArc f x y a).getD 0 = b
        rw [hab]; rfl
      refine ⟨_, h.close hx.2 (fun a ha hfa => ?_) hy.1 hy.2 (fun b hb hfb => ?_) he,
        he.of_addArc hx.2⟩
      · simpa using (hRm a).2 ⟨ha, hfa⟩
      · simpa using (hCm b).2 ⟨hb, hfb⟩
  | succ k ih =>
    intro f RN CN h hR hC hRm hCm hRl hCl
    match CN, hCl with
    | y :: CN', hCl =>
      have hy := (hCm y).1 (by simp)
      obtain ⟨x1, hx1, hfx1⟩ := h.2.2.1 y
      obtain ⟨x, hxR, hxne⟩ := exists_mem_ne hR (by omega) x1
      have hx := (hRm x).1 hxR
      have hxy : ¬ Reach f y x := fun hr => hxne (hr.end_unique hx.2 hx1 hfx1)
      have hps := h.join hx.1 hx.2 hy.1 hy.2 hxy
      have hself : addArc f x y x = some y := by unfold addArc; rw [if_pos rfl]
      have hother : ∀ a, a ≠ x → addArc f x y a = f a := by
        intro a ha; unfold addArc; rw [if_neg ha]
      obtain ⟨σ, hσ, he⟩ := ih (addArc f x y) (RN.erase x) CN' hps (hR.erase x)
        (List.nodup_cons.1 hC).2
        (fun a => by
          rw [hR.mem_erase_iff, hRm a]
          constructor
          · rintro ⟨h1, h2, h3⟩
            exact ⟨h2, by rw [hother a h1]; exact h3⟩
          · rintro ⟨h1, h2⟩
            have hax : a ≠ x := fun e => by rw [e, hself] at h2; cases h2
            exact ⟨hax, h1, by rw [hother a hax] at h2; exact h2⟩)
        (fun b => by
          have hb0 := hCm b
          rw [List.mem_cons] at hb0
          constructor
          · intro hb
            have hby : b ≠ y := fun e => (List.nodup_cons.1 hC).1 (by rw [← e]; exact hb)
            have hb1 := hb0.1 (Or.inr hb)
            refine ⟨hb1.1, fun a ha => ?_⟩
            by_cases hax : a = x
            · rw [hax, hself] at ha
              cases ha
              exact hby rfl
            · rw [hother a hax] at ha
              exact hb1.2 a ha
          · rintro ⟨h1, h2⟩
            have hby : b ≠ y := fun e => h2 x (by rw [hself, e])
            have h3 : ∀ a, f a ≠ some b := by
              intro a ha
              have hax : a ≠ x := fun e => by rw [e, hx.2] at ha; cases ha
              exact h2 a (by rw [hother a hax]; exact ha)
            rcases hb0.2 ⟨h1, h3⟩ with e | e
            · exact absurd e hby
            · exact e)
        (by rw [List.length_erase_of_mem hxR, hRl]; rfl)
        (by simpa using hCl)
      exact ⟨σ, hσ, he.of_addArc hx.2⟩

/-- In a system of paths two nodes are joined by arcs, taken in either direction,
exactly when their paths end in the same node. -/
theorem PathSys.eqvGen_iff {n : Nat} {f : Nat → Option Nat} (h : PathSys n f) (a b : Nat) :
    Relation.EqvGen (fun u v => f u = some v) a b ↔
      ∃ x, Reach f a x ∧ Reach f b x ∧ f x = none := by
  constructor
  · intro hab
    induction hab with
    | rel u v huv =>
      obtain ⟨x, hx, hfx⟩ := h.2.2.1 v
      exact ⟨x, Reach.step huv hx, hx, hfx⟩
    | refl u =>
      obtain ⟨x, hx, hfx⟩ := h.2.2.1 u
      exact ⟨x, hx, hx, hfx⟩
    | symm u v _ ih =>
      obtain ⟨x, h1, h2, h3⟩ := ih
      exact ⟨x, h2, h1, h3⟩
    | trans u v w _ _ ih1 ih2 =>
      obtain ⟨x, h1, h2, h3⟩ := ih1
      obtain ⟨x', h1', h2', h3'⟩ := ih2
      have e : x = x' := h2.end_unique h3 h1' h3'
      rw [← e] at h2'
      exact ⟨x, h1, h2', h3⟩
  · rintro ⟨x, h1, h2, _⟩
    have key : ∀ {u v : Nat}, Reach f u v → Relation.EqvGen (fun u v => f u = some v) u v := by
      intro u v huv
      induction huv using Relation.ReflTransGen.head_induction_on with
      | refl => exact Relation.EqvGen.refl _
      | head h1 _ ih => exact Relation.EqvGen.trans _ _ _ (Relation.EqvGen.rel _ _ h1) ih
    exact Relation.EqvGen.trans _ _ _ (key h1) (Relation.EqvGen.symm _ _ (key h2))

end TspSolver

namespace TspSolver

/-! ## The group table of `setCurrGroup` -/

theorem par_le {g : List Int} (h : GroupOK g) (z : Nat) : par g z ≤ z := by
  unfold par
  by_cases hz : z < g.length
  · rw [if_pos hz]
    obtain ⟨p, hp, e⟩ := h z hz
    rw [e, Int.toNat_ofNat]
    exact hp
  · rw [if_neg hz]

theorem rootOf_fuel {g : List Int} (h : GroupOK g) :
    ∀ (fuel1 fuel2 z : Nat), z ≤ fuel1 → z ≤ fuel2 → rootOf g fuel1 z = rootOf g fuel2 z := by
  have h0 : ∀ fuel, rootOf g fuel 0 = 0 := by
    intro fuel
    cases fuel with
    | zero => rfl
    | succ fuel =>
      have := par_le h 0
      rw [rootOf, if_pos (by omega)]
  intro fuel1
  induction fuel1 with
  | zero =>
    intro fuel2 z hz _
    have : z = 0 := by omega
    rw [this, h0, h0]
  | succ fuel1 ih =>
    intro fuel2 z hz1 hz2
    cases fuel2 with
    | zero =>
      have : z = 0 := by omega
      rw [this, h0, h0]
    | succ fuel2 =>
      rw [rootOf, rootOf]
      by_cases hp : par g z = z
      · rw [if_pos hp, if_pos hp]
      · rw [if_neg hp, if_neg hp]
        have := par_le h z
        exact ih fuel2 (par g z) (by omega) (by omega)

theorem rt_of_fix {g : List Int} {z : Nat} (hp : par g z = z) : rt g z = z := by
  unfold rt
  cases z with
  | zero => rfl
  | succ z => rw [rootOf, if_pos hp]

theorem rt_par {g : List Int} (h : GroupOK g) (z : Nat) : rt g (par g z) = rt g z := by
  by_cases hp : par g z = z
  · rw [hp]
  · have hle := par_le h z
    unfold rt
    cases z with
    | zero => omega
    | succ z =>
      have e : rootOf g (z + 1) (z + 1) = rootOf g z (par g (z + 1)) := by
        rw [rootOf, if_neg hp]
      rw [e]
      exact rootOf_fuel h _ _ _ (le_refl _) (by omega)

theorem rt_fix {g : List Int} (h : GroupOK g) (z : Nat) : par g (rt g z) = rt g z := by
  induction z using Nat.strong_induction_on with
  | _ z ih =>
    by_cases hp : par g z = z
    · rw [rt_of_fix hp]; exact hp
    · have hle := par_le h z
      rw [← rt_par h z]
      exact ih (par g z) (by omega)

theorem rt_le {g : List Int} (h : GroupOK g) (z : Nat) : rt g z ≤ z := by
  induction z using Nat.strong_induction_on with
  | _ z ih =>
    by_cases hp : par g z = z
    · rw [rt_of_fix hp]
    · have hle := par_le h z
      rw [← rt_par h z]
      have := ih (par g z) (by omega)
      omega

theorem par_of_lt {g : List Int} {z p : Nat} (hz : z < g.length) (e : at1 g z = (p : Int)) :
    par g z = p := by
  unfold par
  rw [if_pos hz, e, Int.toNat_ofNat]

/-- The loop of `findGroup` returns the root of the node it starts from. -/
theorem findGroupLoop_eq {g : List Int} (h : GroupOK g) :
    ∀ (fuel z : Nat) (r : Int), z < g.length → Solver.findGroupLoop g fuel (z : Int) = some r →
      r = ((rt g z : Nat) : Int) := by
  intro fuel
  induction fuel with
  | zero => intro z r _ hr; cases hr
  | succ fuel ih =>
    intro z r hz hr
    obtain ⟨p, hp, e⟩ := h z hz
    rw [Solver.findGroupLoop, Int.toNat_ofNat, e] at hr
    by_cases hpz : (p : Int) ≠ (z : Int)
    · rw [if_pos hpz] at hr
      have := ih p r (by omega) hr
      rw [this, ← par_of_lt hz e, rt_par h z]
    · rw [if_neg hpz] at hr
      cases hr
      rw [not_not] at hpz
      have hpz' : p = z := by exact_mod_cast hpz
      rw [rt_of_fix (by rw [par_of_lt hz e, hpz'])]

theorem findGroup_eq {g : List Int} (h : GroupOK g) {z : Nat} {r : Int} (hz : z < g.length)
    (hr : Solver.findGroup g (z : Int) = some r) : r = ((rt g z : Nat) : Int) :=
  findGroupLoop_eq h _ z r hz hr

theorem par_set {g : List Int} {M : Nat} (hM : M < g.length) (m : Nat) (z : Nat) :
    par (g.set M (m : Int)) z = if z = M then m else par g z := by
  unfold par
  rw [List.length_set]
  by_cases hz : z = M
  · rw [if_pos hz, hz, if_pos hM, at1_set_self _ _ _ hM, Int.toNat_ofNat]
  · rw [if_neg hz, at1_set_ne _ _ _ _ (fun e => hz e.symm)]

theorem GroupOK.set {g : List Int} (h : GroupOK g) {m M : Nat} (hM : M < g.length)
    (hmM : m ≤ M) : GroupOK (g.set M (m : Int)) := by
  intro z hz
  rw [List.length_set] at hz
  by_cases hzM : z = M
  · rw [hzM, at1_set_self _ _ _ hM]
    exact ⟨m, hmM, rfl⟩
  · rw [at1_set_ne _ _ _ _ (fun e => hzM e.symm)]
    exact h z hz

/-- Linking the root `M` to the root `m ≤ M` moves the nodes of root `M` to `m`. -/
theorem rt_set {g : List Int} (h : GroupOK g) {m M : Nat} (hM : M < g.length) (hmM : m ≤ M)
    (hm : par g m = m) (hMr : par g M = M) (z : Nat) :
    rt (g.set M (m : Int)) z = if rt g z = M then m else rt g z := by
  have h' := h.set hM hmM
  induction z using Nat.strong_induction_on with
  | _ z ih =>
    by_cases hp : par (g.set M (m : Int)) z = z
    · rw [rt_of_fix hp]
      rw [par_set hM] at hp
      by_cases hzM : z = M
      · rw [if_pos hzM] at hp
        rw [hzM, rt_of_fix hMr, if_pos rfl]
        omega
      · rw [if_neg hzM] at hp
        rw [rt_of_fix hp, if_neg hzM]
    · have hle := par_le h' z
      rw [← rt_par h' z, ih _ (by omega)]
      rw [par_set hM] at hp ⊢
      by_cases hzM : z = M
      · rw [if_pos hzM, rt_of_fix hm, hzM, rt_of_fix hMr, if_pos rfl]
        rw [if_pos hzM] at hp
        rw [if_neg (by omega)]
      · rw [if_neg hzM, rt_par h z]

theorem rt_range (n z : Nat) : rt (range n) z = z := by
  apply rt_of_fix
  unfold par
  by_cases hz : z < (range n).length
  · rw [if_pos hz]
    unfold range at hz ⊢
    unfold at1
    rw [getD_map_range n z _ _ (by simpa using hz)]
    simp
  · rw [if_neg hz]

theorem groupOK_range (n : Nat) : GroupOK (range n) := by
  intro z hz
  refine ⟨z, le_refl _, ?_⟩
  unfold range at hz ⊢
  unfold at1
  rw [getD_map_range n z _ _ (by simpa using hz)]

theorem eqvGen_congr {E E' : Nat → Nat → Prop} (h : ∀ u v, E u v ↔ E' u v) (a b : Nat) :
    Relation.EqvGen E a b ↔ Relation.EqvGen E' a b :=
  ⟨fun hab => Relation.EqvGen.mono (fun u v huv => (h u v).1 huv) hab,
   fun hab => Relation.EqvGen.mono (fun u v huv => (h u v).2 huv) hab⟩

/-- Merging the classes of `p` and `q` in a class function `r` gives the class function
of the equivalence generated with the additional pair `(p, q)`. -/
theorem merge_classes {E : Nat → Nat → Prop} {r r' : Nat → Nat} {p q m M : Nat}
    (hr : ∀ a b, r a = r b ↔ Relation.EqvGen E a b)
    (hpq : (r p = m ∧ r q = M) ∨ (r p = M ∧ r q = m))
    (hr' : ∀ z, r' z = if r z = M then m else r z) (a b : Nat) :
    r' a = r' b ↔ Relation.EqvGen (fun u v => E u v ∨ (u = p ∧ v = q)) a b := by
  have hmono : ∀ {u v}, Relation.EqvGen E u v →
      Relation.EqvGen (fun u v => E u v ∨ (u = p ∧ v = q)) u v :=
    fun huv => Relation.EqvGen.mono (fun u v h => Or.inl h) huv
  have hpq' : Relation.EqvGen (fun u v => E u v ∨ (u = p ∧ v = q)) p q :=
    Relation.EqvGen.rel _ _ (Or.inr ⟨rfl, rfl⟩)
  have hMm : ∀ {u v}, r u = M → r v = m →
      Relation.EqvGen (fun u v => E u v ∨ (u = p ∧ v = q)) u v := by
    intro u v hu hv
    rcases hpq with ⟨h1, h2⟩ | ⟨h1, h2⟩
    · have e1 := hmono ((hr u q).1 (by rw [hu, h2]))
      have e2 := hmono ((hr p v).1 (by rw [hv, h1]))
      exact Relation.EqvGen.trans _ _ _ e1
        (Relation.EqvGen.trans _ _ _ (Relation.EqvGen.symm _ _ hpq') e2)
    · have e1 := hmono ((hr u p).1 (by rw [hu, h1]))
      have e2 := hmono ((hr q v).1 (by rw [hv, h2]))
      exact Relation.EqvGen.trans _ _ _ e1 (Relation.EqvGen.trans _ _ _ hpq' e2)
  constructor
  · intro hab
    rw [hr' a, hr' b] at hab
    by_cases ha : r a = M
    · by_cases hb : r b = M
      · exact hmono ((hr a b).1 (by rw [ha, hb]))
      · rw [if_pos ha, if_neg hb] at hab
        exact hMm ha hab.symm
    · by_cases hb : r b = M
      · rw [if_neg ha, if_pos hb] at hab
        exact Relation.EqvGen.symm _ _ (hMm hb hab)
      · rw [if_neg ha, if_neg hb] at hab
        exact hmono ((hr a b).1 hab)
  · intro hab
    induction hab with
    | rel u v huv =>
      rcases huv with huv | ⟨hu, hv⟩
      · have := (hr u v).2 (Relation.EqvGen.rel _ _ huv)
        rw [hr' u, hr' v, this]
      · rw [hr' u, hr' v, hu, hv]
        rcases hpq with ⟨h1, h2⟩ | ⟨h1, h2⟩
        · rw [h1, h2, if_pos rfl]
          by_cases hmM : m = M
          · rw [if_pos hmM]
          · rw [if_neg hmM]
        · rw [h1, h2, if_pos rfl]
          by_cases hmM : m = M
          · rw [if_pos hmM]
          · rw [if_neg hmM]
    | refl u => rfl
    | symm u v _ ih => exact ih.symm
    | trans u v w _ _ ih1 ih2 => exact ih1.trans ih2

end TspSolver

namespace TspSolver

namespace Solver

theorem nx_none {curr : List Int} {a : Nat} (h : at1 curr a = NIL) : nx curr a = none := by
  unfold nx
  rw [if_neg (fun e => e.2 h)]

theorem nx_some {curr : List Int} {a v : Nat} (ha : a < curr.length) (h : at1 curr a = (v : Int))
    (hv : (v : Int) ≠ NIL) : nx curr a = some v := by
  unfold nx
  rw [if_pos ⟨ha, by rw [h]; exact hv⟩, h, Int.toNat_ofNat]

/-- The entries of `pCurrOptTarget` are the sentinel or nodes below `n`. -/
theorem setCurrGroupStep_spec {n : Nat} {curr g g1 : List Int} {i : Nat}
    {E : Nat → Nat → Prop} (hg : GroupOK g) (hgl : g.length = n) (hi : i < n)
    (hcl : curr.length = n)
    (hent : at1 curr i = NIL ∨ ∃ v < n, at1 curr i = (v : Int))
    (hE : ∀ a b, rt g a = rt g b ↔ Relation.EqvGen E a b)
    (hs : setCurrGroupStep curr g i = some g1) :
    GroupOK g1 ∧ g1.length = n ∧
      ∀ a b, rt g1 a = rt g1 b ↔
        Relation.EqvGen (fun u v => E u v ∨ (u = i ∧ nx curr u = some v)) a b := by
  unfold setCurrGroupStep at hs
  by_cases hnil : at1 curr i = NIL
  · rw [if_pos hnil] at hs
    cases hs
    refine ⟨hg, hgl, fun a b => ?_⟩
    rw [hE a b]
    apply eqvGen_congr
    intro u v
    constructor
    · exact Or.inl
    · rintro (h | ⟨h1, h2⟩)
      · exact h
      · rw [h1, nx_none hnil] at h2; cases h2
  · rw [if_neg hnil] at hs
    rcases hent with e | ⟨v, hv, e⟩
    · exact absurd e hnil
    · have hvN : (v : Int) ≠ NIL := fun h => hnil (e.trans h)
      have hnx : nx curr i = some v := nx_some (by omega) e hvN
      rw [e, ← Nat.cast_min, ← Nat.cast_max] at hs
      cases h1 : findGroup g ((min i v : Nat) : Int) with
      | none => rw [h1] at hs; cases hs
      | some mg =>
        cases h2 : findGroup g ((max i v : Nat) : Int) with
        | none => rw [h1, h2] at hs; cases hs
        | some Mg =>
          rw [h1, h2] at hs
          have e1 := findGroup_eq hg (by omega) h1
          have e2 := findGroup_eq hg (by omega) h2
          have l1 := rt_le hg (min i v)
          have l2 := rt_le hg (max i v)
          have hrel : ∀ u w, (E u w ∨ (u = i ∧ w = v)) ↔ (E u w ∨ (u = i ∧ nx curr u = some w)) := by
            intro u w
            constructor
            · rintro (h | ⟨h, h'⟩)
              · exact Or.inl h
              · exact Or.inr ⟨h, by rw [h, hnx, h']⟩
            · rintro (h | ⟨h, h'⟩)
              · exact Or.inl h
              · rw [h, hnx] at h'
                cases h'
                exact Or.inr ⟨h, rfl⟩
          have hcases : (min i v = i ∧ max i v = v) ∨ (min i v = v ∧ max i v = i) := by
            by_cases hiv : i ≤ v
            · exact Or.inl ⟨Nat.min_eq_left hiv, Nat.max_eq_right hiv⟩
            · exact Or.inr ⟨Nat.min_eq_right (by omega), Nat.max_eq_left (by omega)⟩
          rw [e1, e2] at hs
          dsimp only at hs
          by_cases hgt : ((rt g (min i v) : Nat) : Int) > ((rt g (max i v) : Nat) : Int)
          · rw [if_pos hgt, Int.toNat_ofNat] at hs
            cases hs
            have hlt : rt g (max i v) ≤ rt g (min i v) := by omega
            have hM : rt g (min i v) < g.length := by omega
            refine ⟨hg.set hM hlt, by rw [List.length_set]; exact hgl, fun a b => ?_⟩
            rw [← eqvGen_congr hrel]
            apply merge_classes hE _ (rt_set hg hM hlt (rt_fix hg _) (rt_fix hg _))
            rcases hcases with ⟨c1, c2⟩ | ⟨c1, c2⟩
            · rw [c1, c2]; exact Or.inr ⟨rfl, rfl⟩
            · rw [c1, c2]; exact Or.inl ⟨rfl, rfl⟩
          · rw [if_neg hgt, Int.toNat_ofNat] at hs
            cases hs
            have hlt : rt g (min i v) ≤ rt g (max i v) := by omega
            have hM : rt g (max i v) < g.length := by omega
            refine ⟨hg.set hM hlt, by rw [List.length_set]; exact hgl, fun a b => ?_⟩
            rw [← eqvGen_congr hrel]
            apply merge_classes hE _ (rt_set hg hM hlt (rt_fix hg _) (rt_fix hg _))
            rcases hcases with ⟨c1, c2⟩ | ⟨c1, c2⟩
            · rw [c1, c2]; exact Or.inl ⟨rfl, rfl⟩
            · rw [c1, c2]; exact Or.inr ⟨rfl, rfl⟩

theorem setCurrGroupLoop_spec {n : Nat} {curr : List Int} (hcl : curr.length = n)
    (hent : ∀ i < n, at1 curr i = NIL ∨ ∃ v < n, at1 curr i = (v : Int)) :
    ∀ (l : List Nat) (g g1 : List Int) (E : Nat → Nat → Prop), GroupOK g → g.length = n →
      (∀ i ∈ l, i < n) → (∀ a b, rt g a = rt g b ↔ Relation.EqvGen E a b) →
      setCurrGroupLoop curr l g = some g1 →
      GroupOK g1 ∧ g1.length = n ∧
        ∀ a b, rt g1 a = rt g1 b ↔
          Relation.EqvGen (fun u v => E u v ∨ (u ∈ l ∧ nx curr u = some v)) a b := by
  intro l
  induction l with
  | nil =>
    intro g g1 E hg hgl _ hE hs
    rw [setCurrGroupLoop] at hs
    cases hs
    refine ⟨hg, hgl, fun a b => ?_⟩
    rw [hE a b]
    apply eqvGen_congr
    intro u v
    simp
  | cons i l ih =>
    intro g g1 E hg hgl hl hE hs
    rw [setCurrGroupLoop] at hs
    cases h1 : setCurrGroupStep curr g i with
    | none => rw [h1] at hs; cases hs
    | some g2 =>
      rw [h1] at hs
      have hi := hl i (List.mem_cons_self _ _)
      obtain ⟨s1, s2, s3⟩ := setCurrGroupStep_spec hg hgl hi hcl (hent i hi) hE h1
      obtain ⟨t1, t2, t3⟩ := ih g2 g1 _ s1 s2 (fun j hj => hl j (List.mem_cons_of_mem _ hj)) s3 hs
      refine ⟨t1, t2, fun a b => ?_⟩
      rw [t3 a b]
      apply eqvGen_congr
      intro u v
      rw [List.mem_cons]
      constructor
      · rintro ((h | ⟨h, h'⟩) | ⟨h, h'⟩)
        · exact Or.inl h
        · exact Or.inr ⟨Or.inl h, h'⟩
        · exact Or.inr ⟨Or.inr h, h'⟩
      · rintro (h | ⟨h | h, h'⟩)
        · exact Or.inl (Or.inl h)
        · exact Or.inl (Or.inr ⟨h, h'⟩)
        · exact Or.inr ⟨h, h'⟩

/-- After `setCurrGroup` two nodes have the same root in `pCurrGroup` exactly when they
are joined by arcs of `pCurrOptTarget`, taken in either direction. -/
theorem setCurrGroup_spec {n : Nat} {curr g : List Int} (hcl : curr.length = n)
    (hent : ∀ i < n, at1 curr i = NIL ∨ ∃ v < n, at1 curr i = (v : Int))
    (hs : setCurrGroup curr = some g) :
    GroupOK g ∧ g.length = n ∧
      ∀ a b, rt g a = rt g b ↔ Relation.EqvGen (fun u v => nx curr u = some v) a b := by
  unfold setCurrGroup at hs
  rw [hcl] at hs
  have h0 : ∀ a b, rt (range n) a = rt (range n) b ↔ Relation.EqvGen (fun _ _ => False) a b := by
    intro a b
    rw [rt_range, rt_range]
    constructor
    · intro e; rw [e]; exact Relation.EqvGen.refl _
    · intro hab
      induction hab with
      | rel _ _ h => exact h.elim
      | refl _ => rfl
      | symm _ _ _ ih => exact ih.symm
      | trans _ _ _ _ _ ih1 ih2 => exact ih1.trans ih2
  obtain ⟨t1, t2, t3⟩ := setCurrGroupLoop_spec hcl hent (List.range n) (range n) g _
    (groupOK_range n) (by simp [range]) (fun i hi => List.mem_range.1 hi) h0 hs
  refine ⟨t1, t2, fun a b => ?_⟩
  rw [t3 a b]
  apply eqvGen_congr
  intro u v
  constructor
  · rintro (h | ⟨_, h⟩)
    · exact h.elim
    · exact h
  · intro h
    refine Or.inr ⟨List.mem_range.2 ?_, h⟩
    unfold nx at h
    by_cases hc : u < curr.length ∧ at1 curr u ≠ NIL
    · rw [← hcl]; exact hc.1
    · rw [if_neg hc] at h; cases h

end Solver

end TspSolver

namespace TspSolver

namespace Solver

theorem at1_of_nx_none {curr : List Int} {a : Nat} (ha : a < curr.length)
    (h : nx curr a = none) : at1 curr a = NIL := by
  unfold nx at h
  by_cases hc : a < curr.length ∧ at1 curr a ≠ NIL
  · rw [if_pos hc] at h; cases h
  · by_contra hne
    exact hc ⟨ha, hne⟩

/-- After `setCurrGroup` two nodes have the same root exactly when their paths end in
the same node. -/
theorem rt_eq_iff {n : Nat} {curr g : List Int} (hc : CurrOK n curr)
    (hs : setCurrGroup curr = some g) (a b : Nat) :
    rt g a = rt g b ↔ ∃ x, Reach (nx curr) a x ∧ Reach (nx curr) b x ∧ nx curr x = none := by
  rw [(setCurrGroup_spec hc.1 hc.2.1 hs).2.2 a b]
  exact hc.2.2.eqvGen_iff a b

theorem rt_eq_row_iff {n : Nat} {curr g : List Int} (hc : CurrOK n curr)
    (hs : setCurrGroup curr = some g) {x : Nat} (hfx : nx curr x = none) (b : Nat) :
    rt g x = rt g b ↔ Reach (nx curr) b x := by
  rw [rt_eq_iff hc hs]
  constructor
  · rintro ⟨t, h1, h2, _⟩
    rw [h1.of_none hfx] at h2
    exact h2
  · intro h
    exact ⟨x, Relation.ReflTransGen.refl, h, hfx⟩

/-- `isArcSelectable` for the last node `x` of a path and the first node `y` of a path:
the arc is selectable exactly when `y` does not start the path that ends in `x`. -/
theorem isArcSelectable_spec {n : Nat} (hn : n ≤ 128) {s : Solver}
    (hc : CurrOK n s.pCurrOptTarget) (hs : setCurrGroup s.pCurrOptTarget = some s.pCurrGroup)
    {x y : Nat} (hx : x < n) (hfx : nx s.pCurrOptTarget x = none) (hy : y < n)
    (hfy : ∀ a, nx s.pCurrOptTarget a ≠ some y) {b : Bool}
    (h : isArcSelectable s (x : Int) (y : Int) = some b) :
    b = true ↔ ¬ Reach (nx s.pCurrOptTarget) y x := by
  obtain ⟨g1, g2, _⟩ := setCurrGroup_spec hc.1 hc.2.1 hs
  unfold isArcSelectable at h
  have hyN : (y : Int) ≠ NIL := by rw [NIL_eq]; omega
  rw [Int.toNat_ofNat, if_neg (by rw [not_not]; exact at1_of_nx_none (by rw [hc.1]; exact hx) hfx)]
    at h
  have hany : s.pCurrOptTarget.any (fun t => decide (t = (y : Int))) = false := by
    rw [Bool.eq_false_iff]
    intro hany
    rw [List.any_eq_true] at hany
    obtain ⟨t, ht, hty⟩ := hany
    obtain ⟨a, ha, rfl⟩ := List.getElem_of_mem ht
    have hat : at1 s.pCurrOptTarget a = (y : Int) := by
      unfold at1
      rw [List.getD_eq_getElem?_getD, List.getElem?_eq_getElem ha]
      simpa using hty
    exact hfy a (nx_some ha hat hyN)
  rw [if_neg (by rw [hany]; simp)] at h
  cases h1 : findGroup s.pCurrGroup (x : Int) with
  | none => rw [h1] at h; cases h
  | some ra =>
    cases h2 : findGroup s.pCurrGroup (y : Int) with
    | none => rw [h1, h2] at h; cases h
    | some rb =>
      rw [h1, h2] at h
      have e1 := findGroup_eq g1 (by omega) h1
      have e2 := findGroup_eq g1 (by omega) h2
      dsimp only at h
      cases h
      rw [← rt_eq_row_iff hc hs hfx y, e1, e2]
      simp

theorem groupTable_eq {g : List Int} (hg : GroupOK g) :
    ∀ (l : List Nat) (gs : List Int), (∀ i ∈ l, i < g.length) → groupTable g l = some gs →
      gs = l.map (fun (i : Nat) => ((rt g i : Nat) : Int)) := by
  intro l
  induction l with
  | nil =>
    intro gs _ h
    rw [groupTable] at h
    cases h
    rfl
  | cons i l ih =>
    intro gs hl h
    rw [groupTable] at h
    cases h1 : findGroup g (i : Int) with
    | none => rw [h1] at h; cases h
    | some r =>
      cases h2 : groupTable g l with
      | none => rw [h1, h2] at h; cases h
      | some gs' =>
        rw [h1, h2] at h
        dsimp only at h
        cases h
        rw [ih gs' (fun j hj => hl j (List.mem_cons_of_mem _ hj)) h2,
          findGroup_eq hg (hl i (List.mem_cons_self _ _)) h1]
        rfl

/-- `isArcSkippable` answers true when some path other than the one that ends in `x`
and the one that starts in `y` is left. -/
theorem isArcSkippable_spec {n : Nat} {s : Solver}
    (hc : CurrOK n s.pCurrOptTarget) (hs : setCurrGroup s.pCurrOptTarget = some s.pCurrGroup)
    {x y x2 : Nat} (hx : x < n) (hfx : nx s.pCurrOptTarget x = none) (hy : y < n)
    (hx2 : x2 < n) (hfx2 : nx s.pCurrOptTarget x2 = none) (hne : x2 ≠ x)
    (hr : ¬ Reach (nx s.pCurrOptTarget) y x2) {b : Bool}
    (h : isArcSkippable s (x : Int) (y : Int) = some b) : b = true := by
  obtain ⟨g1, g2, _⟩ := setCurrGroup_spec hc.1 hc.2.1 hs
  unfold isArcSkippable at h
  rw [hc.1] at h
  cases h1 : groupTable s.pCurrGroup (List.range n) with
  | none => rw [h1] at h; cases h
  | some group =>
    rw [h1] at h
    dsimp only at h
    cases h
    have hgrp := groupTable_eq g1 (List.range n) group
      (fun i hi => by rw [g2]; exact List.mem_range.1 hi) h1
    have hat : ∀ i < n, at1 group i = ((rt s.pCurrGroup i : Nat) : Int) := by
      intro i hi
      rw [hgrp]
      unfold at1
      rw [getD_map_range n i _ _ hi]
    rw [List.any_eq_true]
    refine ⟨x2, List.mem_range.2 hx2, ?_⟩
    rw [Int.toNat_ofNat, Int.toNat_ofNat, hat x2 hx2, hat x hx, hat y hy]
    have d1 : rt s.pCurrGroup x2 ≠ rt s.pCurrGroup x := by
      intro e
      have := (rt_eq_row_iff hc hs hfx2 x).1 e
      exact hne (this.of_none hfx)
    have d2 : rt s.pCurrGroup x2 ≠ rt s.pCurrGroup y := by
      intro e
      exact hr ((rt_eq_row_iff hc hs hfx2 y).1 e)
    have d3 : x2 ≠ y := fun e => hr (by rw [e]; exact Relation.ReflTransGen.refl)
    simp only [decide_eq_true_eq]
    refine ⟨by exact_mod_cast hne, by exact_mod_cast d3, by exact_mod_cast d1, by exact_mod_cast d2⟩

end Solver

end TspSolver

namespace TspSolver

/-! ## Sums over index ranges -/

theorem sumTo_sub (k : Nat) (a b c : Nat → Int) :
    sumTo k (fun i => a i - b i - c i) = sumTo k a - sumTo k b - sumTo k c := by
  induction k with
  | zero => simp [sumTo_zero]
  | succ k ih => rw [sumTo_succ, sumTo_succ, sumTo_succ, sumTo_succ, ih]; ring

theorem skipIdx_ne (r i : Nat) : skipIdx r i ≠ r := by
  unfold skipIdx; split <;> omega

theorem skipIdx_lt {k r i : Nat} (hi : i + 1 < k) : skipIdx r i < k := by
  unfold skipIdx; split <;> omega

theorem skipIdx_inj {r i j : Nat} (h : skipIdx r i = skipIdx r j) : i = j := by
  unfold skipIdx at h; split at h <;> split at h <;> omega

/-- A sum with the term of index `r` taken out. -/
theorem sumTo_split (h : Nat → Int) :
    ∀ (k r : Nat), r < k + 1 → sumTo (k + 1) h = h r + sumTo k (fun i => h (skipIdx r i)) := by
  intro k
  induction k with
  | zero =>
    intro r hr
    have : r = 0 := by omega
    rw [this, sumTo_succ, sumTo_zero, sumTo_zero]; ring
  | succ k ih =>
    intro r hr
    rw [sumTo_succ]
    by_cases hrk : r = k + 1
    · rw [hrk, sumTo_congr (k + 1) (fun i => h (skipIdx (k + 1) i)) h
        (fun i hi => by show h (skipIdx (k + 1) i) = h i; unfold skipIdx; rw [if_pos hi])]
      ring
    · rw [ih r (by omega), sumTo_succ]
      have : skipIdx r k = k + 1 := by unfold skipIdx; rw [if_neg (by omega)]
      rw [this]; ring

/-- A sum does not change when its terms are taken in the order of an injective map of
the index range into itself. -/
theorem sumTo_perm (k : Nat) (π : Nat → Nat) (γ : Nat → Int) (h1 : ∀ i < k, π i < k)
    (h2 : ∀ i < k, ∀ j < k, π i = π j → i = j) :
    sumTo k (fun i => γ (π i)) = sumTo k γ := by
  unfold sumTo
  have hnd : ((List.range k).map π).Nodup :=
    List.Nodup.map_on (fun x hx y hy e => h2 x (List.mem_range.1 hx) y (List.mem_range.1 hy) e)
      (List.nodup_range k)
  have hsub : (List.range k).map π ⊆ List.range k := by
    intro x hx
    rw [List.mem_map] at hx
    obtain ⟨i, hi, rfl⟩ := hx
    exact List.mem_range.2 (h1 i (List.mem_range.1 hi))
  have hperm : List.Perm ((List.range k).map π) (List.range k) :=
    (List.subperm_of_subset hnd hsub).perm_of_length_le (by simp)
  have := (hperm.map γ).sum_eq
  rw [List.map_map] at this
  exact this

/-! ## The vectors and the matrix of `chooseArc` -/

theorem getD_eraseIdx {α : Type} (l : List α) (r i : Nat) (d : α) :
    (l.eraseIdx r).getD i d = l.getD (skipIdx r i) d := by
  rw [List.getD_eq_getElem?_getD, List.getD_eq_getElem?_getD, List.getElem?_eraseIdx]
  unfold skipIdx
  split <;> rfl

theorem filter_ne_map_getD {α β : Type} (F : α → β) (d : α) :
    ∀ (l : List α) (r : Nat),
      ((List.range l.length).filter (fun i => decide (i ≠ r))).map (fun i => F (l.getD i d))
        = (l.eraseIdx r).map F := by
  intro l
  induction l with
  | nil => intro r; rfl
  | cons a l ih =>
    intro r
    rw [List.length_cons, List.range_succ_eq_map]
    cases r with
    | zero =>
      rw [List.filter_cons_of_neg (by simp), List.filter_map, List.map_map]
      have e : List.filter ((fun i => decide (i ≠ 0)) ∘ Nat.succ) (List.range l.length)
          = List.range l.length := by
        rw [List.filter_eq_self]
        intro i _
        simp
      rw [e]
      show _ = l.map F
      apply List.ext_getElem
      · simp
      · intro i h1 h2
        simp only [List.getElem_map, List.getElem_range, Function.comp, Nat.succ_eq_add_one,
          List.getD_cons_succ]
        rw [List.getD_eq_getElem _ _ (by simpa using h2)]
    | succ r =>
      rw [List.filter_cons_of_pos (by simp), List.filter_map, List.map_cons, List.map_map,
        List.eraseIdx_cons_succ, List.map_cons]
      have e1 : ((fun i => decide (i ≠ r + 1)) ∘ Nat.succ) = (fun i => decide (i ≠ r)) := by
        funext i; simp
      have e2 : ((fun i => F ((a :: l).getD i d)) ∘ Nat.succ) = fun i => F (l.getD i d) := by
        funext i; rfl
      rw [e1, e2, ih r]
      rfl

end TspSolver

namespace TspSolver

namespace Solver

theorem at1_map_cast (RN : List Nat) (i : Nat) :
    at1 (RN.map (fun (x : Nat) => (x : Int))) i = ((RN.getD i 0 : Nat) : Int) := by
  unfold at1
  rw [List.getD_eq_getElem?_getD, List.getD_eq_getElem?_getD, List.getElem?_map]
  cases RN[i]? <;> rfl

theorem chooseArcTitle_eq (RN : List Nat) (r : Nat) :
    chooseArcTitle (RN.map (fun (x : Nat) => (x : Int))) RN.length r
      = (RN.eraseIdx r).map (fun (x : Nat) => (x : Int)) := by
  unfold chooseArcTitle
  rw [← filter_ne_map_getD (fun (x : Nat) => (x : Int)) 0 RN r]
  apply List.map_congr_left
  intro i _
  exact at1_map_cast RN i

theorem chooseArcCosts_eq {k : Nat} {G : List (List Int)} (hsq : Square k G) (r c : Nat) :
    chooseArcCosts G r c = (G.eraseIdx r).map (fun row => row.eraseIdx c) := by
  unfold chooseArcCosts
  rw [← filter_ne_map_getD (fun row => row.eraseIdx c) [] G r]
  apply List.map_congr_left
  intro i hi
  have hi' : i < k := by
    have := (List.mem_filter.1 hi).1
    rw [List.mem_range, hsq.1] at this
    exact this
  have := filter_ne_map_getD (fun (x : Int) => x) 0 (G.getD i []) c
  rw [hsq.getD_length hi', List.map_id'] at this
  rw [← this, hsq.1]
  rfl

theorem at2_eraseIdx (G : List (List Int)) (r c i j : Nat) :
    at2 ((G.eraseIdx r).map (fun row => row.eraseIdx c)) i j
      = at2 G (skipIdx r i) (skipIdx c j) := by
  unfold at2
  have e : ((G.eraseIdx r).map (fun row => row.eraseIdx c)).getD i []
      = ((G.eraseIdx r).getD i []).eraseIdx c := by
    rw [List.getD_eq_getElem?_getD, List.getD_eq_getElem?_getD, List.getElem?_map]
    cases (G.eraseIdx r)[i]? <;> rfl
  rw [e, getD_eraseIdx, getD_eraseIdx]

theorem square_eraseIdx {k : Nat} {G : List (List Int)} (hsq : Square (k + 1) G) {r c : Nat}
    (hr : r < k + 1) (hc : c < k + 1) :
    Square k ((G.eraseIdx r).map (fun row => row.eraseIdx c)) := by
  refine ⟨?_, ?_⟩
  · rw [List.length_map, List.length_eraseIdx, hsq.1, if_pos hr]
    rfl
  · intro row hrow
    rw [List.mem_map] at hrow
    obtain ⟨row0, h0, rfl⟩ := hrow
    have := hsq.2 row0 ((List.eraseIdx_sublist G r).subset h0)
    rw [List.length_eraseIdx, this, if_pos hc]
    rfl

theorem bounded_eraseIdx {k : Nat} {G : List (List Int)} (hb : Bounded (k + 1) G) (r c : Nat) :
    Bounded k ((G.eraseIdx r).map (fun row => row.eraseIdx c)) := by
  intro i hi j hj
  rw [at2_eraseIdx]
  exact hb _ (skipIdx_lt (by omega)) _ (skipIdx_lt (by omega))

/-- The arc returned by `searchBestAdvantageArc`, when it has been initialised, is a
member of the candidate list. -/
theorem searchBestAdvantageArc_mem (costs : List (List Int)) (zs : List Arc) {r c : Nat}
    (hr : (searchBestAdvantageArc costs zs).row = some r)
    (hc : (searchBestAdvantageArc costs zs).col = some c) : Arc.mk r c ∈ zs := by
  unfold searchBestAdvantageArc at hr hc
  have key : ∀ (l : List Arc) (init : ArcInfo),
      ((l.foldl
        (fun bestArcInfo arc =>
          if wrapInt (minColCost costs costs.length arc + minRowCost costs costs.length arc)
              > bestArcInfo.opportunityCost then
            { row := some arc.row
              col := some arc.col
              opportunityCost :=
                wrapInt (minColCost costs costs.length arc + minRowCost costs costs.length arc) }
          else bestArcInfo) init).row = init.row ∧
       (l.foldl
        (fun bestArcInfo arc =>
          if wrapInt (minColCost costs costs.length arc + minRowCost costs costs.length arc)
              > bestArcInfo.opportunityCost then
            { row := some arc.row
              col := some arc.col
              opportunityCost :=
                wrapInt (minColCost costs costs.length arc + minRowCost costs costs.length arc) }
          else bestArcInfo) init).col = init.col) ∨
      ∃ a ∈ l, (l.foldl
        (fun bestArcInfo arc =>
          if wrapInt (minColCost costs costs.length arc + minRowCost costs costs.length arc)
              > bestArcInfo.opportunityCost then
            { row := some arc.row
              col := some arc.col
              opportunityCost :=
                wrapInt (minColCost costs costs.length arc + minRowCost costs costs.length arc) }
          else bestArcInfo) init).row = some a.row ∧
        (l.foldl
        (fun bestArcInfo arc =>
          if wrapInt (minColCost costs costs.length arc + minRowCost costs costs.length arc)
              > bestArcInfo.opportunityCost then
            { row := some arc.row
              col := some arc.col
              opportunityCost :=
                wrapInt (minColCost costs costs.length arc + minRowCost costs costs.length arc) }
          else bestArcInfo) init).col = some a.col := by
    intro l
    induction l with
    | nil => intro init; exact Or.inl ⟨rfl, rfl⟩
    | cons a l ih =>
      intro init
      rw [List.foldl_cons]
      rcases ih (if wrapInt (minColCost costs costs.length a + minRowCost costs costs.length a)
              > init.opportunityCost then
            { row := some a.row
              col := some a.col
              opportunityCost :=
                wrapInt (minColCost costs costs.length a + minRowCost costs costs.length a) }
          else init) with ⟨h1, h2⟩ | ⟨b, hb, h1, h2⟩
      · by_cases hgt : wrapInt (minColCost costs costs.length a + minRowCost costs costs.length a)
              > init.opportunityCost
        · rw [if_pos hgt] at h1 h2 ⊢
          exact Or.inr ⟨a, List.mem_cons_self _ _, h1, h2⟩
        · rw [if_neg hgt] at h1 h2 ⊢
          exact Or.inl ⟨h1, h2⟩
      · exact Or.inr ⟨b, List.mem_cons_of_mem _ hb, h1, h2⟩
  rcases key zs { row := none, col := none, opportunityCost := INT_MIN } with ⟨h1, _⟩ | ⟨a, ha, h1, h2⟩
  · rw [h1] at hr; cases hr
  · rw [h1] at hr
    rw [h2] at hc
    cases hr
    cases hc
    exact ha

end Solver

end TspSolver

namespace TspSolver

/-! ## The value of a completion in the working matrix -/

theorem getD_mem {l : List Nat} {i : Nat} (hi : i < l.length) : l.getD i 0 ∈ l := by
  rw [List.getD_eq_getElem _ _ hi]
  exact List.getElem_mem _

theorem getD_inj {l : List Nat} (hnd : l.Nodup) {i j : Nat} (hi : i < l.length)
    (hj : j < l.length) (h : l.getD i 0 = l.getD j 0) : i = j := by
  rw [List.getD_eq_getElem _ _ hi, List.getD_eq_getElem _ _ hj] at h
  exact (hnd.getElem_inj_iff).1 h

theorem getD_indexOf {l : List Nat} {x : Nat} (hx : x ∈ l) : l.getD (l.indexOf x) 0 = x := by
  rw [List.getD_eq_getElem _ _ (List.indexOf_lt_length.2 hx)]
  exact List.getElem_indexOf _

theorem indexOf_getD {l : List Nat} (hnd : l.Nodup) {i : Nat} (hi : i < l.length) :
    l.indexOf (l.getD i 0) = i := by
  rw [List.getD_eq_getElem _ _ hi]
  exact List.indexOf_getElem hnd i hi

theorem colIdx_lt {RN CN : List Nat} {σ : Nat → Nat} (hmap : ∀ x ∈ RN, σ x ∈ CN) {i : Nat}
    (hi : i < RN.length) : CN.indexOf (σ (RN.getD i 0)) < CN.length :=
  List.indexOf_lt_length.2 (hmap _ (getD_mem hi))

theorem colIdx_inj {RN CN : List Nat} {σ : Nat → Nat} (hnd : RN.Nodup)
    (hmap : ∀ x ∈ RN, σ x ∈ CN) (hinj : ∀ x ∈ RN, ∀ x' ∈ RN, σ x = σ x' → x = x') {i j : Nat}
    (hi : i < RN.length) (hj : j < RN.length)
    (h : CN.indexOf (σ (RN.getD i 0)) = CN.indexOf (σ (RN.getD j 0))) : i = j := by
  have e1 := getD_indexOf (hmap _ (getD_mem hi))
  have e2 := getD_indexOf (hmap _ (getD_mem hj))
  rw [h, e2] at e1
  exact getD_inj hnd hi hj (hinj _ (getD_mem hi) _ (getD_mem hj) e1.symm).symm.symm

/-- Reduction does not change the value of a completion. -/
theorem V_reduce {G G' : List (List Int)} {RN CN : List Nat} {σ : Nat → Nat} {ρ γ : Nat → Int}
    (lb : Int) (hnd : RN.Nodup) (hlen : CN.length = RN.length) (hmap : ∀ x ∈ RN, σ x ∈ CN)
    (hinj : ∀ x ∈ RN, ∀ x' ∈ RN, σ x = σ x' → x = x')
    (hG : ∀ i < RN.length, ∀ j < RN.length, at2 G' i j = at2 G i j - ρ i - γ j) :
    V G' RN CN (lb + (sumTo RN.length ρ + sumTo RN.length γ)) σ = V G RN CN lb σ := by
  unfold V
  have h1 : sumTo RN.length (fun i => at2 G' i (CN.indexOf (σ (RN.getD i 0))))
      = sumTo RN.length (fun i => at2 G i (CN.indexOf (σ (RN.getD i 0))) - ρ i
          - γ (CN.indexOf (σ (RN.getD i 0)))) :=
    sumTo_congr _ _ _ (fun i hi => hG i hi _ (by rw [← hlen]; exact colIdx_lt hmap hi))
  have h2 := sumTo_perm RN.length (fun i => CN.indexOf (σ (RN.getD i 0))) γ
    (fun i hi => by rw [← hlen]; exact colIdx_lt hmap hi)
    (fun i hi j hj e => colIdx_inj hnd hmap hinj hi hj e)
  rw [h1, sumTo_sub, h2]
  ring

theorem V_bounds {G : List (List Int)} {RN CN : List Nat} {σ : Nat → Nat} (lb : Int)
    (hb : Bounded RN.length G) (hlen : CN.length = RN.length) (hmap : ∀ x ∈ RN, σ x ∈ CN) :
    lb ≤ V G RN CN lb σ ∧ V G RN CN lb σ ≤ lb + RN.length * NIL := by
  unfold V
  have h1 := sumTo_nonneg RN.length (fun i => at2 G i (CN.indexOf (σ (RN.getD i 0))))
    (fun i hi => (hb i hi _ (by rw [← hlen]; exact colIdx_lt hmap hi)).1)
  have h2 := sumTo_le RN.length (fun i => at2 G i (CN.indexOf (σ (RN.getD i 0)))) NIL
    (fun i hi => (hb i hi _ (by rw [← hlen]; exact colIdx_lt hmap hi)).2)
  constructor <;> linarith

/-- Replacing one entry of the working matrix changes the value of the completions
through that entry. -/
theorem V_setCell {G : List (List Int)} {RN CN : List Nat} {σ : Nat → Nat} (lb : Int)
    (hsq : Square RN.length G) (hcnd : CN.Nodup) (hlen : CN.length = RN.length)
    (hmap : ∀ x ∈ RN, σ x ∈ CN) {r c : Nat} (hr : r < RN.length) (hc : c < RN.length) (v : Int) :
    V (setCell G r c v) RN CN lb σ
      = V G RN CN lb σ + (if σ (RN.getD r 0) = CN.getD c 0 then v - at2 G r c else 0) := by
  unfold V
  obtain ⟨k, hk⟩ : ∃ k, RN.length = k + 1 := ⟨RN.length - 1, by omega⟩
  rw [hk] at hsq hr hc ⊢
  rw [sumTo_split _ k r hr, sumTo_split (fun i => at2 G i (CN.indexOf (σ (RN.getD i 0)))) k r hr]
  have h1 : sumTo k (fun i => at2 (setCell G r c v) (skipIdx r i)
        (CN.indexOf (σ (RN.getD (skipIdx r i) 0))))
      = sumTo k (fun i => at2 G (skipIdx r i) (CN.indexOf (σ (RN.getD (skipIdx r i) 0)))) :=
    sumTo_congr _ _ _ (fun i _ => by
      show at2 (setCell G r c v) _ _ = at2 G _ _
      rw [at2_setCell hsq hr hc, if_neg (fun e => skipIdx_ne r i e.1)])
  rw [h1, at2_setCell hsq hr hc]
  have hiff : CN.indexOf (σ (RN.getD r 0)) = c ↔ σ (RN.getD r 0) = CN.getD c 0 := by
    constructor
    · intro e
      rw [← e, getD_indexOf (hmap _ (getD_mem (by omega)))]
    · intro e
      rw [e, indexOf_getD hcnd (by omega)]
  by_cases hcase : σ (RN.getD r 0) = CN.getD c 0
  · rw [if_pos ⟨rfl, hiff.2 hcase⟩, if_pos hcase, hiff.2 hcase]
    ring
  · rw [if_neg (fun e => hcase (hiff.1 e.2)), if_neg hcase]
    ring

/-- Removing the row and the column of an arc of the completion lowers its value by
the entry of that arc. -/
theorem V_eraseIdx {G : List (List Int)} {RN CN : List Nat} {σ : Nat → Nat} (lb : Int)
    (hrnd : RN.Nodup) (hcnd : CN.Nodup) (hlen : CN.length = RN.length)
    (hmap : ∀ x ∈ RN, σ x ∈ CN) (hinj : ∀ x ∈ RN, ∀ x' ∈ RN, σ x = σ x' → x = x')
    {r c : Nat} (hr : r < RN.length) (hc : c < RN.length)
    (hrc : σ (RN.getD r 0) = CN.getD c 0) :
    V ((G.eraseIdx r).map (fun row => row.eraseIdx c)) (RN.eraseIdx r) (CN.eraseIdx c) lb σ
      = V G RN CN lb σ - at2 G r c := by
  unfold V
  obtain ⟨k, hk⟩ : ∃ k, RN.length = k + 1 := ⟨RN.length - 1, by omega⟩
  have hl : (RN.eraseIdx r).length = k := by
    rw [List.length_eraseIdx, if_pos hr, hk]; rfl
  have hlc : (CN.eraseIdx c).length = k := by
    rw [List.length_eraseIdx, hlen, if_pos hc, hk]; rfl
  rw [hl, hk, sumTo_split (fun i => at2 G i (CN.indexOf (σ (RN.getD i 0)))) k r (by omega)]
  have hrc' : CN.indexOf (σ (RN.getD r 0)) = c := by
    rw [hrc, indexOf_getD hcnd (by omega)]
  have h1 : sumTo k (fun i => at2 ((G.eraseIdx r).map (fun row => row.eraseIdx c)) i
        ((CN.eraseIdx c).indexOf (σ ((RN.eraseIdx r).getD i 0))))
      = sumTo k (fun i => at2 G (skipIdx r i) (CN.indexOf (σ (RN.getD (skipIdx r i) 0)))) := by
    apply sumTo_congr
    intro i hi
    show at2 ((G.eraseIdx r).map (fun row => row.eraseIdx c)) i _ = at2 G _ _
    rw [Solver.at2_eraseIdx, getD_eraseIdx]
    have hsi : skipIdx r i < RN.length := by rw [hk]; exact skipIdx_lt (by omega)
    have hmem := hmap _ (getD_mem hsi)
    have hne : σ (RN.getD (skipIdx r i) 0) ≠ CN.getD c 0 := by
      intro e
      rw [← hrc] at e
      have := hinj _ (getD_mem hsi) _ (getD_mem hr) e
      exact skipIdx_ne r i (getD_inj hrnd hsi hr this)
    have hmem' : σ (RN.getD (skipIdx r i) 0) ∈ CN.eraseIdx c := by
      rw [List.mem_eraseIdx_iff_getElem]
      refine ⟨CN.indexOf (σ (RN.getD (skipIdx r i) 0)), List.indexOf_lt_length.2 hmem, ?_,
        List.getElem_indexOf _⟩
      intro e
      apply hne
      rw [← e, getD_indexOf hmem]
    have hj := List.indexOf_lt_length.2 hmem'
    have e1 := getD_indexOf hmem'
    rw [getD_eraseIdx] at e1
    have hsj : skipIdx c ((CN.eraseIdx c).indexOf (σ (RN.getD (skipIdx r i) 0))) < CN.length := by
      rw [hlen, hk]
      rw [hlc] at hj
      exact skipIdx_lt (by omega)
    have e2 := indexOf_getD hcnd hsj
    rw [e1] at e2
    rw [e2]
  rw [h1, hrc']
  ring

end TspSolver

namespace TspSolver

/-! ## The invariant of the branch and bound search -/

theorem trueCost_bounds {n : Nat} {W : List (List Int)}
    (hW : ∀ a < n, ∀ b < n, 0 ≤ at2 W a b ∧ at2 W a b ≤ NIL) {σ : Nat → Nat} (h : Ham n σ) :
    0 ≤ trueCost W n σ ∧ trueCost W n σ ≤ n * NIL := by
  unfold trueCost
  exact ⟨sumTo_nonneg _ _ (fun a ha => (hW a ha _ (h.1 a ha)).1),
    sumTo_le _ _ _ (fun a ha => (hW a ha _ (h.1 a ha)).2)⟩

theorem trueCost_congr {n : Nat} (W : List (List Int)) {σ τ : Nat → Nat}
    (h : ∀ a < n, σ a = τ a) : trueCost W n σ = trueCost W n τ := by
  unfold trueCost
  exact sumTo_congr _ _ _ (fun a ha => by rw [h a ha])

theorem nodup_length_le {n : Nat} {l : List Nat} (hnd : l.Nodup) (h : ∀ x ∈ l, x < n) :
    l.length ≤ n := by
  have := (List.subperm_of_subset hnd (fun x hx => List.mem_range.2 (h x hx))).length_le
  simpa using this

namespace Frame

variable {n : Nat} {W : List (List Int)} {curr : List Int} {ub : Int} {opt : List Int}
  {RN CN : List Nat} {G : List (List Int)} {lb : Int}

theorem hmap (F : Frame n W curr ub opt RN CN G lb) {σ : Nat → Nat} (h : Ham n σ)
    (he : Ext (nx curr) σ) : ∀ x ∈ RN, σ x ∈ CN := by
  intro x hx
  have hx' := (F.rmem x).1 hx
  exact (F.cmem _).2 (h.col_of_row F.ok.2.2.1 he hx'.1 hx'.2)

theorem hinj (F : Frame n W curr ub opt RN CN G lb) {σ : Nat → Nat} (h : Ham n σ) :
    ∀ x ∈ RN, ∀ x' ∈ RN, σ x = σ x' → x = x' :=
  fun x hx x' hx' e => h.2.1 x ((F.rmem x).1 hx).1 x' ((F.rmem x').1 hx').1 e

theorem len_le (F : Frame n W curr ub opt RN CN G lb) : RN.length ≤ n :=
  nodup_length_le F.rnd (fun x hx => ((F.rmem x).1 hx).1)

/-- Pruning is sound: when the bound has reached the best cost, no Hamiltonian cycle
through the arcs of `curr` is cheaper than the best cost. -/
theorem prune (F : Frame n W curr ub opt RN CN G lb) (h : ub ≤ lb) {σ : Nat → Nat}
    (hσ : Ham n σ) (he : Ext (nx curr) σ) : ub ≤ trueCost W n σ := by
  obtain ⟨_, h2⟩ := F.inv σ hσ he
  rcases h2 with h2 | h2
  · have := (V_bounds lb F.bd F.clen (F.hmap hσ he)).1
    omega
  · exact h2

theorem exists_compl (F : Frame n W curr ub opt RN CN G lb) :
    ∃ σ, Ham n σ ∧ Ext (nx curr) σ := by
  have h2 := F.two
  exact PathSys.exists_completion (RN.length - 1) (nx curr) RN CN F.ok.2.2 F.rnd F.cnd F.rmem
    F.cmem (by omega) (by rw [F.clen]; omega)

/-- Below the best cost the bound stays small: some completion has a value of at most
`2 * n` sentinels. -/
theorem value_le (F : Frame n W curr ub opt RN CN G lb)
    (hW : ∀ a < n, ∀ b < n, 0 ≤ at2 W a b ∧ at2 W a b ≤ NIL) (h : lb < ub) :
    ∃ σ, Ham n σ ∧ Ext (nx curr) σ ∧ V G RN CN lb σ ≤ 2 * n * NIL := by
  obtain ⟨σ, hσ, he⟩ := F.exists_compl
  refine ⟨σ, hσ, he, ?_⟩
  obtain ⟨_, h2⟩ := F.inv σ hσ he
  have hb := (trueCost_bounds hW hσ).2
  have hN : (0 : Int) ≤ NIL := by rw [NIL_eq]; omega
  have hnn : (0 : Int) ≤ (n : Int) * NIL := Int.mul_nonneg (by omega) hN
  rcases h2 with h2 | h2
  · rw [h2]; linarith
  · have hv := (V_bounds lb F.bd F.clen (F.hmap hσ he)).2
    have hl : (RN.length : Int) * NIL ≤ (n : Int) * NIL :=
      Int.mul_le_mul_of_nonneg_right (by have := F.len_le; omega) hN
    linarith

/-- The frame after `extractLowerBound`. -/
theorem reduce (F : Frame n W curr ub opt RN CN G lb) {G' : List (List Int)} {ρ γ : Nat → Int}
    (hsq : Square RN.length G') (hbd : Bounded RN.length G')
    (hG : ∀ i < RN.length, ∀ j < RN.length, at2 G' i j = at2 G i j - ρ i - γ j)
    (h0 : 0 ≤ sumTo RN.length ρ + sumTo RN.length γ) :
    Frame n W curr ub opt RN CN G' (lb + (sumTo RN.length ρ + sumTo RN.length γ)) where
  ok := F.ok
  rnd := F.rnd
  cnd := F.cnd
  rmem := F.rmem
  cmem := F.cmem
  clen := F.clen
  sq := hsq
  bd := hbd
  two := F.two
  lb0 := by have := F.lb0; omega
  best := F.best
  inv := by
    intro σ hσ he
    rw [V_reduce lb F.rnd F.clen (F.hmap hσ he) (F.hinj hσ) hG]
    exact F.inv σ hσ he

/-- The frame of the exclude branch: the entry of the arc from `x` to `y` becomes the
sentinel, after the Hamiltonian cycles through that arc have been dealt with. -/
theorem exclude (F : Frame n W curr ub opt RN CN G lb) {r c : Nat} (hr : r < RN.length)
    (hc : c < RN.length) (hz : at2 G r c = 0) {ub' : Int} {opt' : List Int} (hle : ub' ≤ ub)
    (hbest : ub' = INT_MAX ∨ BestOK n W opt' ub')
    (hall : ∀ σ, Ham n σ → Ext (nx curr) σ → σ (RN.getD r 0) = CN.getD c 0 →
      ub' ≤ trueCost W n σ) :
    Frame n W curr ub' opt' RN CN (setCell G r c NIL) lb where
  ok := F.ok
  rnd := F.rnd
  cnd := F.cnd
  rmem := F.rmem
  cmem := F.cmem
  clen := F.clen
  sq := F.sq.setCell r c NIL
  bd := by
    intro i hi j hj
    rw [at2_setCell F.sq hr hc]
    by_cases h : i = r ∧ j = c
    · rw [if_pos h, NIL_eq]; omega
    · rw [if_neg h]; exact F.bd i hi j hj
  two := F.two
  lb0 := F.lb0
  best := hbest
  inv := by
    intro σ hσ he
    rw [V_setCell lb F.sq F.cnd F.clen (F.hmap hσ he) hr hc, hz]
    obtain ⟨h1, h2⟩ := F.inv σ hσ he
    by_cases hxy : σ (RN.getD r 0) = CN.getD c 0
    · rw [if_pos hxy]
      refine ⟨by rw [NIL_eq]; omega, Or.inr (hall σ hσ he hxy)⟩
    · rw [if_neg hxy]
      refine ⟨by omega, ?_⟩
      rcases h2 with h2 | h2
      · exact Or.inl (by omega)
      · exact Or.inr (by omega)

end Frame

end TspSolver

namespace TspSolver

theorem nx_set {n : Nat} (hn : n ≤ 128) {curr : List Int} (hl : curr.length = n) {x y : Nat}
    (hx : x < n) (hy : y < n) : nx (curr.set x (y : Int)) = addArc (nx curr) x y := by
  funext a
  unfold nx addArc
  rw [List.length_set]
  by_cases hax : a = x
  · have hyN : (y : Int) ≠ NIL := by rw [NIL_eq]; omega
    rw [if_pos hax, hax, at1_set_self _ _ _ (by omega), if_pos ⟨by omega, hyN⟩, Int.toNat_ofNat]
  · rw [if_neg hax, at1_set_ne _ _ _ _ (fun e => hax e.symm)]

theorem CurrOK.set_arc {n : Nat} (hn : n ≤ 128) {curr : List Int} (h : CurrOK n curr) {x y : Nat}
    (hx : x < n) (hfx : nx curr x = none) (hy : y < n) (hfy : ∀ a, nx curr a ≠ some y)
    (hxy : ¬ Reach (nx curr) y x) : CurrOK n (curr.set x (y : Int)) := by
  refine ⟨by rw [List.length_set]; exact h.1, ?_, ?_⟩
  · intro i hi
    by_cases hix : i = x
    · rw [hix, at1_set_self _ _ _ (by rw [h.1]; exact hx)]
      exact Or.inr ⟨y, hy, rfl⟩
    · rw [at1_set_ne _ _ _ _ (fun e => hix e.symm)]
      exact h.2.1 i hi
  · rw [nx_set hn h.1 hx hy]
    exact h.2.2.join hx hfx hy hfy hxy

namespace Frame

variable {n : Nat} {W : List (List Int)} {curr : List Int} {ub : Int} {opt : List Int}
  {RN CN : List Nat} {G : List (List Int)} {lb : Int}

theorem row_node (F : Frame n W curr ub opt RN CN G lb) {r : Nat} (hr : r < RN.length) :
    RN.getD r 0 < n ∧ nx curr (RN.getD r 0) = none :=
  (F.rmem _).1 (getD_mem hr)

theorem col_node (F : Frame n W curr ub opt RN CN G lb) {c : Nat} (hc : c < RN.length) :
    CN.getD c 0 < n ∧ ∀ a, nx curr a ≠ some (CN.getD c 0) :=
  (F.cmem _).1 (getD_mem (by rw [F.clen]; exact hc))

/-- The frame of the include branch: the arc from `x = RN[r]` to `y = CN[c]`, whose
entry is zero, is added, and its row and column are removed. -/
theorem include_arc (F : Frame n W curr ub opt RN CN G lb) (hn : n ≤ 128) {r c : Nat}
    (hr : r < RN.length) (hc : c < RN.length) (hz : at2 G r c = 0) (h3 : 3 ≤ RN.length)
    (hxy : ¬ Reach (nx curr) (CN.getD c 0) (RN.getD r 0)) :
    Frame n W (curr.set (RN.getD r 0) ((CN.getD c 0 : Nat) : Int)) ub opt (RN.eraseIdx r)
      (CN.eraseIdx c) ((G.eraseIdx r).map (fun row => row.eraseIdx c)) lb := by
  obtain ⟨hx, hfx⟩ := F.row_node hr
  obtain ⟨hy, hfy⟩ := F.col_node hc
  have hcl : c < CN.length := by rw [F.clen]; exact hc
  obtain ⟨k, hk⟩ : ∃ k, RN.length = k + 1 := ⟨RN.length - 1, by omega⟩
  have hl : (RN.eraseIdx r).length = k := by
    rw [List.length_eraseIdx, if_pos hr, hk]; rfl
  have hlc : (CN.eraseIdx c).length = k := by
    rw [List.length_eraseIdx, if_pos hcl, F.clen, hk]; rfl
  have hnx := nx_set hn F.ok.1 hx hy
  have hself : addArc (nx curr) (RN.getD r 0) (CN.getD c 0) (RN.getD r 0) = some (CN.getD c 0) := by
    unfold addArc; rw [if_pos rfl]
  have hother : ∀ a, a ≠ RN.getD r 0 →
      addArc (nx curr) (RN.getD r 0) (CN.getD c 0) a = nx curr a := by
    intro a ha; unfold addArc; rw [if_neg ha]
  have hRe : RN.eraseIdx r = RN.erase (RN.getD r 0) := by
    rw [List.getD_eq_getElem _ _ hr, F.rnd.erase_getElem]
  have hCe : CN.eraseIdx c = CN.erase (CN.getD c 0) := by
    rw [List.getD_eq_getElem _ _ hcl, F.cnd.erase_getElem]
  refine ⟨CurrOK.set_arc hn F.ok hx hfx hy hfy hxy, F.rnd.sublist (List.eraseIdx_sublist _ _),
    F.cnd.sublist (List.eraseIdx_sublist _ _), ?_, ?_, by rw [hl, hlc], ?_, ?_, by omega, F.lb0,
    F.best, ?_⟩
  · intro a
    rw [hRe, F.rnd.mem_erase_iff, F.rmem a, hnx]
    constructor
    · rintro ⟨h1, h2, h3⟩
      exact ⟨h2, by rw [hother a h1]; exact h3⟩
    · rintro ⟨h1, h2⟩
      have hax : a ≠ RN.getD r 0 := fun e => by rw [e, hself] at h2; cases h2
      exact ⟨hax, h1, by rw [hother a hax] at h2; exact h2⟩
  · intro b
    rw [hCe, F.cnd.mem_erase_iff, F.cmem b, hnx]
    constructor
    · rintro ⟨h1, h2, h3⟩
      refine ⟨h2, fun a ha => ?_⟩
      by_cases hax : a = RN.getD r 0
      · rw [hax, hself] at ha
        cases ha
        exact h1 rfl
      · rw [hother a hax] at ha
        exact h3 a ha
    · rintro ⟨h1, h2⟩
      refine ⟨fun e => h2 (RN.getD r 0) (by rw [hself, e]), h1, fun a ha => ?_⟩
      have hax : a ≠ RN.getD r 0 := fun e => by rw [e, hfx] at ha; cases ha
      exact h2 a (by rw [hother a hax]; exact ha)
  · rw [hl]
    have := F.sq
    rw [hk] at this
    exact Solver.square_eraseIdx this (by omega) (by omega)
  · rw [hl]
    have := F.bd
    rw [hk] at this
    exact Solver.bounded_eraseIdx this r c
  · intro σ hσ he
    rw [hnx] at he
    have he0 : Ext (nx curr) σ := he.of_addArc hfx
    rw [V_eraseIdx lb F.rnd F.cnd F.clen (F.hmap hσ he0) (F.hinj hσ) hr hc he.addArc_self, hz,
      sub_zero]
    exact F.inv σ hσ he0

/-- No Hamiltonian cycle through the arcs of `curr` contains an arc from the last node
of a path to the first node of the same path. -/
theorem no_arc (F : Frame n W curr ub opt RN CN G lb) {r : Nat} (hr : r < RN.length) {y : Nat}
    (hxy : Reach (nx curr) y (RN.getD r 0)) {σ : Nat → Nat} (hσ : Ham n σ)
    (he : Ext (nx curr) σ) : σ (RN.getD r 0) ≠ y := by
  intro e
  obtain ⟨x2, hx2, hne⟩ := exists_mem_ne F.rnd F.two (RN.getD r 0)
  have h2 := (F.rmem x2).1 hx2
  exact hσ.no_closing he (F.row_node hr).1 h2.1 h2.2 hne (by rw [e]; exact hxy)

end Frame

end TspSolver

namespace TspSolver

theorem ext_succOf (l : List Int) : Ext (nx l) (succOf l) := by
  intro a b hab
  unfold nx at hab
  by_cases hc : a < l.length ∧ at1 l a ≠ NIL
  · rw [if_pos hc] at hab
    cases hab
    rfl
  · rw [if_neg hc] at hab; cases hab

theorem eq_singleton {l : List Nat} (h : l.length = 1) : l = [l.getD 0 0] := by
  match l, h with
  | [a], _ => rfl

theorem at1_of_nx_some {curr : List Int} {a b : Nat} (h : nx curr a = some b) :
    a < curr.length ∧ at1 curr a ≠ NIL ∧ b = (at1 curr a).toNat := by
  unfold nx at h
  by_cases hc : a < curr.length ∧ at1 curr a ≠ NIL
  · rw [if_pos hc] at h
    cases h
    exact ⟨hc.1, hc.2, rfl⟩
  · rw [if_neg hc] at h; cases h

namespace Frame

variable {n : Nat} {W : List (List Int)} {curr : List Int} {ub : Int} {opt : List Int}
  {RN CN : List Nat} {G : List (List Int)} {lb : Int}

theorem mem_rows_erase (F : Frame n W curr ub opt RN CN G lb) {r : Nat} (hr : r < RN.length)
    (a : Nat) : a ∈ RN.eraseIdx r ↔ a ∈ RN ∧ a ≠ RN.getD r 0 := by
  rw [List.getD_eq_getElem _ _ hr, ← F.rnd.erase_getElem r hr, F.rnd.mem_erase_iff]
  exact And.comm

theorem mem_cols_erase (F : Frame n W curr ub opt RN CN G lb) {c : Nat} (hc : c < RN.length)
    (b : Nat) : b ∈ CN.eraseIdx c ↔ b ∈ CN ∧ b ≠ CN.getD c 0 := by
  have hcl : c < CN.length := by rw [F.clen]; exact hc
  rw [List.getD_eq_getElem _ _ hcl, ← F.cnd.erase_getElem c hcl, F.cnd.mem_erase_iff]
  exact And.comm

/-- The leaf of the search: two rows are left and the selected arc joins two different
paths.  The vector recorded by the leaf is a Hamiltonian cycle through the arcs of
`curr`, its value is the bound plus the last entry, and every Hamiltonian cycle through
the arcs of `curr` has the same successors. -/
theorem leaf (F : Frame n W curr ub opt RN CN G lb) (hn : n ≤ 128) (h2 : RN.length = 2)
    {r c : Nat} (hr : r < RN.length) (hc : c < RN.length) (hz : at2 G r c = 0)
    (hxy : ¬ Reach (nx curr) (CN.getD c 0) (RN.getD r 0)) :
    ((curr.set (RN.getD r 0) ((CN.getD c 0 : Nat) : Int)).set ((RN.eraseIdx r).getD 0 0)
        (((CN.eraseIdx c).getD 0 0 : Nat) : Int)).length = n ∧
    (∀ a < n, ∃ b < n,
      at1 ((curr.set (RN.getD r 0) ((CN.getD c 0 : Nat) : Int)).set ((RN.eraseIdx r).getD 0 0)
        (((CN.eraseIdx c).getD 0 0 : Nat) : Int)) a = (b : Int)) ∧
    Ham n (succOf ((curr.set (RN.getD r 0) ((CN.getD c 0 : Nat) : Int)).set
      ((RN.eraseIdx r).getD 0 0) (((CN.eraseIdx c).getD 0 0 : Nat) : Int))) ∧
    Ext (nx curr) (succOf ((curr.set (RN.getD r 0) ((CN.getD c 0 : Nat) : Int)).set
      ((RN.eraseIdx r).getD 0 0) (((CN.eraseIdx c).getD 0 0 : Nat) : Int))) ∧
    V G RN CN lb (succOf ((curr.set (RN.getD r 0) ((CN.getD c 0 : Nat) : Int)).set
      ((RN.eraseIdx r).getD 0 0) (((CN.eraseIdx c).getD 0 0 : Nat) : Int)))
      = lb + at2 ((G.eraseIdx r).map (fun row => row.eraseIdx c)) 0 0 ∧
    ∀ σ, Ham n σ → Ext (nx curr) σ → ∀ a < n,
      σ a = succOf ((curr.set (RN.getD r 0) ((CN.getD c 0 : Nat) : Int)).set
        ((RN.eraseIdx r).getD 0 0) (((CN.eraseIdx c).getD 0 0 : Nat) : Int)) a := by
  obtain ⟨hx, hfx⟩ := F.row_node hr
  obtain ⟨hy, hfy⟩ := F.col_node hc
  have hcl : c < CN.length := by rw [F.clen]; exact hc
  have hl : (RN.eraseIdx r).length = 1 := by
    rw [List.length_eraseIdx, if_pos hr, h2]
  have hlc : (CN.eraseIdx c).length = 1 := by
    rw [List.length_eraseIdx, if_pos hcl, F.clen, h2]
  have hR1 := eq_singleton hl
  have hC1 := eq_singleton hlc
  generalize hxdef : RN.getD r 0 = x at *
  generalize hydef : CN.getD c 0 = y at *
  generalize hx'def : (RN.eraseIdx r).getD 0 0 = x' at *
  generalize hy'def : (CN.eraseIdx c).getD 0 0 = y' at *
  have hrows : ∀ a, a ∈ RN ↔ a = x ∨ a = x' := by
    intro a
    have := F.mem_rows_erase hr a
    rw [hR1, hxdef, List.mem_singleton] at this
    constructor
    · intro ha
      by_cases hax : a = x
      · exact Or.inl hax
      · exact Or.inr (this.2 ⟨ha, hax⟩)
    · rintro (ha | ha)
      · rw [ha, ← hxdef]; exact getD_mem hr
      · exact (this.1 ha).1
  have hcols : ∀ b, b ∈ CN ↔ b = y ∨ b = y' := by
    intro b
    have := F.mem_cols_erase hc b
    rw [hC1, hydef, List.mem_singleton] at this
    constructor
    · intro hb
      by_cases hby : b = y
      · exact Or.inl hby
      · exact Or.inr (this.2 ⟨hb, hby⟩)
    · rintro (hb | hb)
      · rw [hb, ← hydef]; exact getD_mem hcl
      · exact (this.1 hb).1
  have hxx' : x' ≠ x := by
    have := (F.mem_rows_erase hr x').1 (by rw [hR1]; exact List.mem_singleton.2 rfl)
    rw [hxdef] at this
    exact this.2
  have hyy' : y' ≠ y := by
    have := (F.mem_cols_erase hc y').1 (by rw [hC1]; exact List.mem_singleton.2 rfl)
    rw [hydef] at this
    exact this.2
  obtain ⟨hx', hfx'⟩ := (F.rmem x').1 ((hrows x').2 (Or.inr rfl))
  obtain ⟨hy', hfy'⟩ := (F.cmem y').1 ((hcols y').2 (Or.inr rfl))
  have hok1 := CurrOK.set_arc hn F.ok hx hfx hy hfy hxy
  have hnx1 := nx_set hn F.ok.1 hx hy
  have hnx2 := nx_set hn hok1.1 hx' hy'
  have hself : addArc (nx curr) x y x = some y := by unfold addArc; rw [if_pos rfl]
  have hother : ∀ a, a ≠ x → addArc (nx curr) x y a = nx curr a := by
    intro a ha; unfold addArc; rw [if_neg ha]
  have hf1x' : nx (curr.set x (y : Int)) x' = none := by
    rw [hnx1, hother x' hxx']; exact hfx'
  have hps1 : PathSys n (nx (curr.set x (y : Int))) := hok1.2.2
  have hext2 : Ext (addArc (nx (curr.set x (y : Int))) x' y')
      (succOf ((curr.set x (y : Int)).set x' (y' : Int))) := by
    rw [← hnx2]; exact ext_succOf _
  have hext1 : Ext (nx (curr.set x (y : Int))) (succOf ((curr.set x (y : Int)).set x' (y' : Int))) :=
    hext2.of_addArc hf1x'
  have hext0 : Ext (nx curr) (succOf ((curr.set x (y : Int)).set x' (y' : Int))) := by
    rw [hnx1] at hext1
    exact hext1.of_addArc hfx
  have hτx : succOf ((curr.set x (y : Int)).set x' (y' : Int)) x = y := by
    rw [hnx1] at hext1
    exact hext1.addArc_self
  have hτx' : succOf ((curr.set x (y : Int)).set x' (y' : Int)) x' = y' := hext2.addArc_self
  have hham : Ham n (succOf ((curr.set x (y : Int)).set x' (y' : Int))) := by
    refine hps1.close hf1x' ?_ hy' ?_ ?_ hext2
    · intro a ha hfa
      rw [hnx1] at hfa
      have hax : a ≠ x := fun e => by rw [e, hself] at hfa; cases hfa
      rw [hother a hax] at hfa
      rcases (hrows a).1 ((F.rmem a).2 ⟨ha, hfa⟩) with e | e
      · exact absurd e hax
      · exact e
    · intro a ha
      rw [hnx1] at ha
      by_cases hax : a = x
      · rw [hax, hself] at ha
        cases ha
        exact hyy' rfl
      · rw [hother a hax] at ha
        exact hfy' a ha
    · intro b hb hfb
      rw [hnx1] at hfb
      have hby : b ≠ y := fun e => hfb x (by rw [hself, e])
      have : ∀ a, nx curr a ≠ some b := by
        intro a ha
        have hax : a ≠ x := fun e => by rw [e, hfx] at ha; cases ha
        exact hfb a (by rw [hother a hax]; exact ha)
      rcases (hcols b).1 ((F.cmem b).2 ⟨hb, this⟩) with e | e
      · exact absurd e hby
      · exact e
  have hlen : ((curr.set x (y : Int)).set x' (y' : Int)).length = n := by
    rw [List.length_set, List.length_set]; exact F.ok.1
  refine ⟨hlen, ?_, hham, hext0, ?_, ?_⟩
  · intro a ha
    by_cases hax' : a = x'
    · rw [hax', at1_set_self _ _ _ (by rw [List.length_set, F.ok.1]; exact hx')]
      exact ⟨y', hy', rfl⟩
    · rw [at1_set_ne _ _ _ _ (fun e => hax' e.symm)]
      by_cases hax : a = x
      · rw [hax, at1_set_self _ _ _ (by rw [F.ok.1]; exact hx)]
        exact ⟨y, hy, rfl⟩
      · rw [at1_set_ne _ _ _ _ (fun e => hax e.symm)]
        rcases F.ok.2.1 a ha with e | e
        · exfalso
          have := (hrows a).1 ((F.rmem a).2 ⟨ha, Solver.nx_none e⟩)
          rcases this with e' | e'
          · exact hax e'
          · exact hax' e'
        · exact e
  · have hV := @V_eraseIdx G RN CN _ lb F.rnd F.cnd F.clen (F.hmap hham hext0) (F.hinj hham)
      r c hr hc (by rw [hxdef, hydef]; exact hτx)
    rw [hz, sub_zero] at hV
    rw [← hV]
    unfold V
    rw [hl, sumTo_succ, sumTo_zero, hx'def, hτx', ← hy'def, indexOf_getD
      (F.cnd.sublist (List.eraseIdx_sublist _ _)) (by rw [hlc]; omega)]
    ring
  · intro σ hσ he a ha
    have hmap := F.hmap hσ he
    have hinj := F.hinj hσ
    have hRx : x ∈ RN := (hrows x).2 (Or.inl rfl)
    have hRx' : x' ∈ RN := (hrows x').2 (Or.inr rfl)
    have hσx : σ x = y := by
      by_contra hne
      have h1 : σ x = y' := by
        rcases (hcols _).1 (hmap x hRx) with e | e
        · exact absurd e hne
        · exact e
      have h2' : σ x' = y := by
        rcases (hcols _).1 (hmap x' hRx') with e | e
        · exact e
        · exfalso
          rw [← h1] at e
          exact hxx' (hinj x' hRx' x hRx e)
      obtain ⟨t, ht, hft⟩ := F.ok.2.2.2.2.1 y
      have htn : t < n := ht.below F.ok.2.2.1 hy
      have htx' : t = x' := by
        rcases (hrows t).1 ((F.rmem t).2 ⟨htn, hft⟩) with e | e
        · exfalso
          rw [e] at ht
          exact hxy ht
        · exact e
      rw [htx'] at ht
      exact hσ.no_closing he hx' hx hfx (fun e => hxx' e.symm) (by rw [h2']; exact ht)
    by_cases hax : a = x
    · rw [hax, hσx, hτx]
    · by_cases hax' : a = x'
      · rw [hax', hτx']
        rcases (hcols _).1 (hmap x' hRx') with e | e
        · exfalso
          rw [← hσx] at e
          exact hxx' (hinj x' hRx' x hRx e)
        · exact e
      · cases hfa : nx curr a with
        | none =>
          exfalso
          rcases (hrows a).1 ((F.rmem a).2 ⟨ha, hfa⟩) with e | e
          · exact hax e
          · exact hax' e
        | some b => rw [he a b hfa, hext0 a b hfa]

end Frame

end TspSolver

namespace TspSolver

theorem Post.weaken {n : Nat} {W : List (List Int)} {curr : List Int} {ub ub' : Int}
    {s2 : Solver} (h : Post n W curr ub' s2) (hle : ub' ≤ ub) : Post n W curr ub s2 :=
  ⟨h.restored, le_trans h.le hle, h.best, h.all⟩

namespace Solver

/-- The exclude branch, given the guarantee of the recursive calls. -/
theorem solveExclude_post {n : Nat} {W : List (List Int)} {fuel : Nat}
    (hrec : ∀ (s : Solver) (RN CN : List Nat) (G : List (List Int)) (lb : Int)
      (r : Solver × List (List Int)),
      Frame n W s.pCurrOptTarget s.pUpperBound s.pOptTarget RN CN G lb →
      solve fuel s (RN.map (fun (x : Nat) => (x : Int))) (CN.map (fun (x : Nat) => (x : Int))) G lb
        = .ok r →
      r.1.pOriginalCosts = s.pOriginalCosts ∧ Post n W s.pCurrOptTarget s.pUpperBound r.1)
    {s : Solver} {RN CN : List Nat} {G : List (List Int)} {lb : Int} {row col : Nat}
    (F : Frame n W s.pCurrOptTarget s.pUpperBound s.pOptTarget RN CN (setCell G row col NIL) lb)
    {r : Solver × List (List Int)}
    (h : solveExclude (solve fuel) true s (RN.map (fun (x : Nat) => (x : Int)))
      (CN.map (fun (x : Nat) => (x : Int))) G row col lb = .ok r) :
    r.1.pOriginalCosts = s.pOriginalCosts ∧ Post n W s.pCurrOptTarget s.pUpperBound r.1 := by
  unfold solveExclude at h
  rw [if_pos rfl] at h
  cases hsol : solve fuel s (RN.map (fun (x : Nat) => (x : Int)))
      (CN.map (fun (x : Nat) => (x : Int))) (setCell G row col NIL) lb with
  | fail e => rw [hsol] at h; cases h
  | ok r2 =>
    rw [hsol] at h
    dsimp only [Outcome.andThen] at h
    cases h
    exact hrec s RN CN _ lb r2 F hsol

end Solver

end TspSolver

namespace TspSolver

theorem exists_mem_ne2 {l : List Nat} (hnd : l.Nodup) (hlen : 3 ≤ l.length) (z1 z2 : Nat) :
    ∃ x ∈ l, x ≠ z1 ∧ x ≠ z2 := by
  match l, hnd, hlen with
  | a :: b :: c :: _, hnd, _ =>
    have hab : a ≠ b := fun e => by rw [e] at hnd; simp at hnd
    have hac : a ≠ c := fun e => by rw [e] at hnd; simp at hnd
    have hbc : b ≠ c := fun e => by rw [e] at hnd; simp at hnd
    by_cases h1 : a ≠ z1 ∧ a ≠ z2
    · exact ⟨a, by simp, h1⟩
    · by_cases h2 : b ≠ z1 ∧ b ≠ z2
      · exact ⟨b, by simp, h2⟩
      · refine ⟨c, by simp, ?_⟩
        constructor <;> intro e <;> omega

namespace Solver

theorem solveLeaf_cases (s : Solver) (from_ to_ lastFrom lastTo lastCost lowerBound : Int) :
    (wrapInt (lowerBound + lastCost) ≥ s.pUpperBound ∧
      solveLeaf s from_ to_ lastFrom lastTo lastCost lowerBound = s) ∨
    (wrapInt (lowerBound + lastCost) < s.pUpperBound ∧
      (solveLeaf s from_ to_ lastFrom lastTo lastCost lowerBound).pUpperBound
        = wrapInt (lowerBound + lastCost) ∧
      (solveLeaf s from_ to_ lastFrom lastTo lastCost lowerBound).pOptTarget
        = (s.pCurrOptTarget.set from_.toNat to_).set lastFrom.toNat lastTo ∧
      (solveLeaf s from_ to_ lastFrom lastTo lastCost lowerBound).pCurrOptTarget
        = s.pCurrOptTarget ∧
      (solveLeaf s from_ to_ lastFrom lastTo lastCost lowerBound).pOriginalCosts
        = s.pOriginalCosts) := by
  unfold solveLeaf
  by_cases h : wrapInt (lowerBound + lastCost) ≥ s.pUpperBound
  · rw [if_pos h]; exact Or.inl ⟨h, rfl⟩
  · rw [if_neg h]; exact Or.inr ⟨by omega, rfl, rfl, rfl, rfl⟩

/-- The guarantee of `Solver::solve`: started in a state that satisfies the invariant,
a call that returns leaves the path vector as it was, and the best cost it leaves is
the cost of the recorded Hamiltonian cycle and at most the cost of every Hamiltonian
cycle through the arcs of the path vector. -/
theorem solve_post {n : Nat} {W : List (List Int)} (hn : n ≤ 127)
    (hW : ∀ a < n, ∀ b < n, 0 ≤ at2 W a b ∧ at2 W a b ≤ NIL) :
    ∀ (fuel : Nat) (s : Solver) (RN CN : List Nat) (G : List (List Int)) (lb : Int)
      (r : Solver × List (List Int)),
      Frame n W s.pCurrOptTarget s.pUpperBound s.pOptTarget RN CN G lb →
      solve fuel s (RN.map (fun (x : Nat) => (x : Int))) (CN.map (fun (x : Nat) => (x : Int))) G lb
        = .ok r →
      r.1.pOriginalCosts = s.pOriginalCosts ∧ Post n W s.pCurrOptTarget s.pUpperBound r.1 := by
  intro fuel
  induction fuel with
  | zero =>
    intro s RN CN G lb r _ h
    rw [solve] at h
    cases h
  | succ fuel ih =>
    intro s RN CN G lb r F h
    rw [solve] at h
    by_cases h1 : lb ≥ s.pUpperBound
    · rw [if_pos h1] at h
      cases h
      exact ⟨rfl, rfl, le_refl _, F.best, fun σ hσ he => F.prune h1 hσ he⟩
    · rw [if_neg h1] at h
      dsimp only at h
      have hk : RN.length ≤ 128 := by have := F.len_le; omega
      have hn128 : n ≤ 128 := by omega
      obtain ⟨ρ, γ, hρ, hγ, rsq, rbd, rcell, rlb, _, rz⟩ := extractLowerBound_spec F.sq F.bd hk
      have hlen : (extractLowerBound G).costs.length = RN.length := rsq.1
      rw [hlen] at h
      generalize extractLowerBound G = red at h rsq rbd rcell rlb rz
      have hs0 : 0 ≤ sumTo RN.length ρ + sumTo RN.length γ := by
        have := sumTo_nonneg RN.length ρ (fun i _ => hρ i)
        have := sumTo_nonneg RN.length γ (fun i _ => hγ i)
        omega
      have F' := F.reduce rsq rbd rcell hs0
      obtain ⟨σ0, hσ0, he0, hV0⟩ := F.value_le hW (by omega)
      have hVeq := V_reduce lb F.rnd F.clen (F.hmap hσ0 he0) (F.hinj hσ0) rcell
      have hVlb := (V_bounds (lb + (sumTo RN.length ρ + sumTo RN.length γ)) rbd F.clen
        (F.hmap hσ0 he0)).1
      have hnN : (2 : Int) * n * NIL ≤ 2130706178 := by
        rw [NIL_eq]; omega
      have hlb0 := F.lb0
      have hlbw : wrapInt (lb + red.lowerBound)
          = lb + (sumTo RN.length ρ + sumTo RN.length γ) := by
        rw [rlb]
        apply wrapInt_eq <;> omega
      rw [hlbw] at h
      have hlbub : lb + (sumTo RN.length ρ + sumTo RN.length γ) ≤ 2130706178 := by omega
      generalize lb + (sumTo RN.length ρ + sumTo RN.length γ) = lb' at h F' hlbub
      clear hVeq hVlb hlbw
      by_cases h2 : lb' ≥ s.pUpperBound
      · rw [if_pos h2] at h
        cases h
        exact ⟨rfl, rfl, le_refl _, F'.best, fun σ hσ he => F'.prune h2 hσ he⟩
      · rw [if_neg h2] at h
        cases hg : setCurrGroup s.pCurrOptTarget with
        | none => rw [hg] at h; cases h
        | some g =>
          rw [hg] at h
          dsimp only [Outcome.ofOption, Outcome.andThen] at h
          cases hrow : (searchBestAdvantageArc red.costs red.zeroCostArcs).row with
          | none => rw [hrow] at h; cases h
          | some r0 =>
            rw [hrow] at h
            dsimp only [Outcome.ofOption, Outcome.andThen] at h
            cases hcol : (searchBestAdvantageArc red.costs red.zeroCostArcs).col with
            | none => rw [hcol] at h; cases h
            | some c0 =>
              rw [hcol] at h
              dsimp only [Outcome.ofOption, Outcome.andThen] at h
              obtain ⟨hr0, hc0, hz⟩ := (rz _).1 (searchBestAdvantageArc_mem _ _ hrow hcol)
              dsimp only at hr0 hc0 hz
              rw [at1_map_cast, at1_map_cast, Int.toNat_ofNat] at h
              obtain ⟨hx, hfx⟩ := F.row_node hr0
              obtain ⟨hy, hfy⟩ := F.col_node hc0
              obtain ⟨s2, hs2⟩ : ∃ s2 : Solver, s2 =
                  { pUpperBound := s.pUpperBound, pOriginalCosts := s.pOriginalCosts,
                    pOptTarget := s.pOptTarget, pCurrOptTarget := s.pCurrOptTarget,
                    pCurrGroup := g, zeroCostArcs := red.zeroCostArcs } := ⟨_, rfl⟩
              rw [← hs2] at h
              have e1 : s2.pCurrOptTarget = s.pCurrOptTarget := by rw [hs2]
              have e2 : s2.pUpperBound = s.pUpperBound := by rw [hs2]
              have e3 : s2.pOptTarget = s.pOptTarget := by rw [hs2]
              have e4 : s2.pOriginalCosts = s.pOriginalCosts := by rw [hs2]
              have e5 : s2.pCurrGroup = g := by rw [hs2]
              have hok2 : CurrOK n s2.pCurrOptTarget := by rw [e1]; exact F.ok
              have hg2 : setCurrGroup s2.pCurrOptTarget = some s2.pCurrGroup := by
                rw [e1, e5]; exact hg
              cases hsel : isArcSelectable s2 ((RN.getD r0 0 : Nat) : Int)
                  ((CN.getD c0 0 : Nat) : Int) with
              | none => rw [hsel] at h; cases h
              | some sel =>
                rw [hsel] at h
                dsimp only at h
                cases hskp : isArcSkippable s2 ((RN.getD r0 0 : Nat) : Int)
                    ((CN.getD c0 0 : Nat) : Int) with
                | none => rw [hskp] at h; cases h
                | some skp =>
                  rw [hskp] at h
                  dsimp only at h
                  have hselspec := isArcSelectable_spec hn128 hok2 hg2 hx (by rw [e1]; exact hfx) hy
                    (by rw [e1]; exact hfy) hsel
                  rw [e1] at hselspec
                  have hct := chooseArcTitle_eq CN c0
                  rw [F.clen] at hct
                  rw [chooseArcTitle_eq RN r0, hct, chooseArcCosts_eq rsq r0 c0] at h
                  obtain ⟨k, hk1⟩ : ∃ k, RN.length = k + 1 :=
                    ⟨RN.length - 1, by have := F.two; omega⟩
                  have hsqe : Square k ((red.costs.eraseIdx r0).map (fun row => row.eraseIdx c0)) :=
                    square_eraseIdx (by rw [← hk1]; exact rsq) (by omega) (by omega)
                  have hbde : Bounded k ((red.costs.eraseIdx r0).map (fun row => row.eraseIdx c0)) :=
                    bounded_eraseIdx (by rw [← hk1]; exact rbd) r0 c0
                  have htwo := F.two
                  have hNILat := at1_of_nx_none (by rw [F.ok.1]; exact hx) hfx
                  rw [hsqe.1] at h
                  by_cases hs : sel = true
                  · rw [if_pos hs] at h
                    have hxy := hselspec.1 hs
                    by_cases hleaf : k = 1
                    · rw [if_pos hleaf] at h
                      cases h
                      obtain ⟨L1, L2, L3, L4, L5, L6⟩ := F'.leaf hn128 (by omega) hr0 hc0 hz hxy
                      have hlast := hbde 0 (by omega) 0 (by omega)
                      obtain ⟨J1, J2⟩ := F'.inv _ L3 L4
                      rw [L5] at J1 J2
                      have hw : wrapInt (lb' + at2 ((red.costs.eraseIdx r0).map
                          (fun row => row.eraseIdx c0)) 0 0)
                          = lb' + at2 ((red.costs.eraseIdx r0).map (fun row => row.eraseIdx c0)) 0 0 := by
                        have := F'.lb0
                        rw [NIL_eq] at hlast
                        apply wrapInt_eq <;> omega
                      show (solveLeaf s2 _ _ _ _ _ _).pOriginalCosts = _ ∧
                        Post n W _ _ (solveLeaf s2 _ _ _ _ _ _)
                      rw [at1_map_cast, at1_map_cast]
                      rcases solveLeaf_cases s2 ((RN.getD r0 0 : Nat) : Int) ((CN.getD c0 0 : Nat) : Int)
                        (((RN.eraseIdx r0).getD 0 0 : Nat) : Int)
                        (((CN.eraseIdx c0).getD 0 0 : Nat) : Int)
                        (at2 ((red.costs.eraseIdx r0).map (fun row => row.eraseIdx c0)) 0 0) lb'
                        with ⟨hge, hres⟩ | ⟨hlt, hu, ho, hcu, hco⟩
                      · rw [hres]
                        rw [hw, e2] at hge
                        refine ⟨e4, e1, by rw [e2], by rw [e2, e3]; exact F.best, fun σ hσ he => ?_⟩
                        rw [e2, trueCost_congr W (L6 σ hσ he)]
                        rcases J2 with J2 | J2 <;> omega
                      · rw [hw, e2] at hlt
                        rw [hw] at hu
                        rw [Int.toNat_ofNat, Int.toNat_ofNat, e1] at ho
                        have hub : lb' + at2 ((red.costs.eraseIdx r0).map
                            (fun row => row.eraseIdx c0)) 0 0
                            = trueCost W n (succOf ((s.pCurrOptTarget.set (RN.getD r0 0)
                                ((CN.getD c0 0 : Nat) : Int)).set ((RN.eraseIdx r0).getD 0 0)
                                (((CN.eraseIdx c0).getD 0 0 : Nat) : Int))) := by
                          rcases J2 with J2 | J2 <;> omega
                        refine ⟨by rw [hco, e4], by rw [hcu, e1], by rw [hu]; omega,
                          Or.inr (by rw [hu, ho]; exact ⟨L1, L2, L3, hub⟩), fun σ hσ he => ?_⟩
                        rw [hu, trueCost_congr W (L6 σ hσ he), hub]
                    · rw [if_neg hleaf] at h
                      have Finc := F'.include_arc hn128 hr0 hc0 hz (by omega) hxy
                      cases hinc : solve fuel
                          { pUpperBound := s.pUpperBound, pOriginalCosts := s.pOriginalCosts,
                            pOptTarget := s.pOptTarget,
                            pCurrOptTarget := s.pCurrOptTarget.set (RN.getD r0 0)
                              ((CN.getD c0 0 : Nat) : Int),
                            pCurrGroup := g, zeroCostArcs := red.zeroCostArcs }
                          ((RN.eraseIdx r0).map (fun (x : Nat) => (x : Int)))
                          ((CN.eraseIdx c0).map (fun (x : Nat) => (x : Int)))
                          ((red.costs.eraseIdx r0).map (fun row => row.eraseIdx c0)) lb' with
                      | fail e => rw [hinc] at h; cases h
                      | ok r1 =>
                        rw [hinc] at h
                        dsimp only at h
                        obtain ⟨c1, P1⟩ := ih _ _ _ _ _ _ Finc hinc
                        dsimp only at c1 P1
                        obtain ⟨t, ht, hft⟩ := F.ok.2.2.2.2.1 (CN.getD c0 0)
                        obtain ⟨x3, hx3, hx3a, hx3b⟩ := exists_mem_ne2 F.rnd (by omega) (RN.getD r0 0) t
                        have hx3' := (F.rmem x3).1 hx3
                        have hnr : ¬ Reach (nx s.pCurrOptTarget) (CN.getD c0 0) x3 :=
                          fun hr' => hx3b (hr'.end_unique hx3'.2 ht hft)
                        have hskpt := isArcSkippable_spec hok2 hg2 hx (by rw [e1]; exact hfx) hy
                          hx3'.1 (by rw [e1]; exact hx3'.2) hx3a (by rw [e1]; exact hnr) hskp
                        rw [hskpt] at h
                        have hrestore : r1.1.pCurrOptTarget.set (RN.getD r0 0) NIL
                            = s.pCurrOptTarget := by
                          rw [P1.restored]
                          exact set_set_restore _ _ _ _ hNILat
                        have Fex := F'.exclude hr0 hc0 hz P1.le P1.best
                          (fun σ hσ he hxy' => P1.all σ hσ
                            (by rw [nx_set hn128 F.ok.1 hx hy]; exact he.with_arc hxy'))
                        rw [← hrestore] at Fex
                        obtain ⟨c2, P2⟩ := solveExclude_post ih Fex h
                        dsimp only at c2 P2
                        rw [hrestore] at P2
                        exact ⟨by rw [c2, c1], P2.weaken P1.le⟩
                  · rw [if_neg hs] at h
                    have hreach : Reach (nx s.pCurrOptTarget) (CN.getD c0 0) (RN.getD r0 0) := by
                      by_contra hcon
                      exact hs (hselspec.2 hcon)
                    obtain ⟨x2, hx2, hne⟩ := exists_mem_ne F.rnd F.two (RN.getD r0 0)
                    have hx2' := (F.rmem x2).1 hx2
                    have hnr : ¬ Reach (nx s.pCurrOptTarget) (CN.getD c0 0) x2 :=
                      fun hr' => hne (hr'.end_unique hx2'.2 hreach hfx)
                    have hskpt := isArcSkippable_spec hok2 hg2 hx (by rw [e1]; exact hfx) hy
                      hx2'.1 (by rw [e1]; exact hx2'.2) hne (by rw [e1]; exact hnr) hskp
                    rw [hskpt] at h
                    have Fex := F'.exclude hr0 hc0 hz (le_refl _) F.best
                      (fun σ hσ he hxy' => absurd hxy' (F.no_arc hr0 hreach hσ he))
                    rw [← e1, ← e2, ← e3] at Fex
                    obtain ⟨c2, P2⟩ := solveExclude_post ih Fex h
                    rw [e1, e2] at P2
                    exact ⟨by rw [c2, e4], P2⟩

end Solver

end TspSolver

namespace TspSolver

/-! ## Hamiltonian cycles as successor functions and as visiting orders -/

theorem Ham.iterate_lt {n : Nat} {σ : Nat → Nat} (h : Ham n σ) {a : Nat} (ha : a < n) (m : Nat) :
    σ^[m] a < n := by
  induction m with
  | zero => exact ha
  | succ m ih => rw [Function.iterate_succ_apply']; exact h.1 _ ih

theorem Ham.iterate_cancel {n : Nat} {σ : Nat → Nat} (h : Ham n σ) {a : Nat} (ha : a < n) :
    ∀ (i j : Nat), σ^[i] a = σ^[i + j] a → a = σ^[j] a := by
  intro i
  induction i with
  | zero => intro j e; rw [Nat.zero_add] at e; exact e
  | succ i ih =>
    intro j e
    rw [show i + 1 + j = (i + j) + 1 by omega, Function.iterate_succ_apply',
      Function.iterate_succ_apply'] at e
    exact ih j (h.2.1 _ (h.iterate_lt ha _) _ (h.iterate_lt ha _) e)

theorem iterate_mod {σ : Nat → Nat} {a d : Nat} (hd : 0 < d) (h : σ^[d] a = a) (m : Nat) :
    σ^[m] a = σ^[m % d] a := by
  induction m using Nat.strong_induction_on with
  | _ m ih =>
    by_cases hm : m < d
    · rw [Nat.mod_eq_of_lt hm]
    · have e : m = (m - d) + d := by omega
      have e2 : m % d = (m - d) % d := by
        conv_lhs => rw [e]
        exact Nat.add_mod_right _ _
      rw [e2, ← ih (m - d) (by omega)]
      conv_lhs => rw [e]
      rw [Function.iterate_add_apply, h]

/-- The first `n` nodes on a Hamiltonian cycle are different. -/
theorem Ham.orbit_inj {n : Nat} {σ : Nat → Nat} (h : Ham n σ) (hn : 0 < n) :
    ∀ i < n, ∀ j < n, σ^[i] 0 = σ^[j] 0 → i = j := by
  have key : ∀ i j, i < j → j < n → σ^[i] 0 ≠ σ^[j] 0 := by
    intro i j hij hj e
    have e' : σ^[i] 0 = σ^[i + (j - i)] 0 := by
      rw [show i + (j - i) = j by omega]; exact e
    have hd := (h.iterate_cancel hn i (j - i) e').symm
    have hsub : List.range n ⊆ (List.range (j - i)).map (fun m => σ^[m] 0) := by
      intro x hx
      obtain ⟨m, hm⟩ := h.2.2 0 hn x (List.mem_range.1 hx)
      rw [iterate_mod (by omega) hd m] at hm
      exact List.mem_map.2 ⟨m % (j - i), List.mem_range.2 (Nat.mod_lt _ (by omega)), hm⟩
    have := (List.subperm_of_subset (List.nodup_range n) hsub).length_le
    simp at this
    omega
  intro i hi j hj e
  by_contra hne
  rcases Nat.lt_or_gt_of_ne hne with hlt | hlt
  · exact key i j hlt hj e
  · exact key j i hlt hi e.symm

theorem Ham.orbit_perm {n : Nat} {σ : Nat → Nat} (h : Ham n σ) (hn : 0 < n) :
    List.Perm ((List.range n).map (fun i => σ^[i] 0)) (List.range n) := by
  have hnd : ((List.range n).map (fun i => σ^[i] 0)).Nodup :=
    List.Nodup.map_on (fun x hx y hy e =>
      h.orbit_inj hn x (List.mem_range.1 hx) y (List.mem_range.1 hy) e) (List.nodup_range n)
  have hsub : (List.range n).map (fun i => σ^[i] 0) ⊆ List.range n := by
    intro x hx
    rw [List.mem_map] at hx
    obtain ⟨i, _, rfl⟩ := hx
    exact List.mem_range.2 (h.iterate_lt hn i)
  exact (List.subperm_of_subset hnd hsub).perm_of_length_le (by simp)

theorem Ham.orbit_surj {n : Nat} {σ : Nat → Nat} (h : Ham n σ) (hn : 0 < n) {x : Nat}
    (hx : x < n) : ∃ i < n, σ^[i] 0 = x := by
  have := (h.orbit_perm hn).mem_iff.2 (List.mem_range.2 hx)
  rw [List.mem_map] at this
  obtain ⟨i, hi, e⟩ := this
  exact ⟨i, List.mem_range.1 hi, e⟩

theorem Ham.orbit_closed {n : Nat} {σ : Nat → Nat} (h : Ham n σ) (hn : 0 < n) : σ^[n] 0 = 0 := by
  obtain ⟨j, hj, e⟩ := h.orbit_surj hn (h.iterate_lt hn n)
  cases j with
  | zero => exact e.symm
  | succ j =>
    exfalso
    have e' : σ^[j + 1] 0 = σ^[j + 1 + (n - (j + 1))] 0 := by
      rw [show j + 1 + (n - (j + 1)) = n by omega]; exact e
    have hd := (h.iterate_cancel hn (j + 1) (n - (j + 1)) e').symm
    have := h.orbit_inj hn (n - (j + 1)) (by omega) 0 hn hd
    omega

/-- A sum of costs along a walk given by a function of the position. -/
theorem walkCost_map_range (W : List (List Int)) :
    ∀ (m : Nat) (p : Nat → Nat),
      walkCost W ((List.range (m + 1)).map p) = sumTo m (fun i => at2 W (p i) (p (i + 1))) := by
  intro m
  induction m with
  | zero => intro p; rfl
  | succ m ih =>
    intro p
    have e : (List.range (m + 1 + 1)).map p
        = p 0 :: p 1 :: (List.range m).map (fun i => p (i + 2)) := by
      rw [List.range_succ_eq_map, List.map_cons, List.map_map, List.range_succ_eq_map,
        List.map_cons, List.map_map]
      rfl
    have e' : (List.range (m + 1)).map (fun i => p (i + 1))
        = p 1 :: (List.range m).map (fun i => p (i + 2)) := by
      rw [List.range_succ_eq_map, List.map_cons, List.map_map]
      rfl
    have := ih (fun i => p (i + 1))
    rw [e'] at this
    rw [e, walkCost, this, sumTo_split _ m 0 (by omega)]
    rfl

theorem walkFinite_map_range (W : List (List Int)) :
    ∀ (m : Nat) (p : Nat → Nat),
      walkFinite W ((List.range (m + 1)).map p)
        = (List.range m).all (fun i => decide (at2 W (p i) (p (i + 1)) ≠ NIL)) := by
  intro m
  induction m with
  | zero => intro p; rfl
  | succ m ih =>
    intro p
    have e : (List.range (m + 1 + 1)).map p
        = p 0 :: p 1 :: (List.range m).map (fun i => p (i + 2)) := by
      rw [List.range_succ_eq_map, List.map_cons, List.map_map, List.range_succ_eq_map,
        List.map_cons, List.map_map]
      rfl
    have e' : (List.range (m + 1)).map (fun i => p (i + 1))
        = p 1 :: (List.range m).map (fun i => p (i + 2)) := by
      rw [List.range_succ_eq_map, List.map_cons, List.map_map]
      rfl
    have := ih (fun i => p (i + 1))
    rw [e'] at this
    rw [e, walkFinite, this, List.range_succ_eq_map, List.all_cons, List.all_map]
    rfl

end TspSolver

namespace TspSolver

theorem getCycleLoop_iterate {n : Nat} {opt : List Int} (hl : opt.length = n)
    (hent : ∀ a < n, ∃ b < n, at1 opt a = (b : Int)) :
    ∀ (m a : Nat), a < n →
      getCycleLoop opt m (a : Int)
        = some ((List.range m).map (fun i => (((succOf opt)^[i] a : Nat) : Int))) := by
  intro m
  induction m with
  | zero => intro a _; rfl
  | succ m ih =>
    intro a ha
    obtain ⟨b, hb, e⟩ := hent a ha
    have hs : succOf opt a = b := by unfold succOf; rw [e, Int.toNat_ofNat]
    rw [getCycleLoop, atInt_cast opt a (by rw [hl]; exact ha), e]
    dsimp only
    rw [ih b hb]
    dsimp only
    rw [List.range_succ_eq_map, List.map_cons, List.map_map]
    refine congrArg some (congrArg₂ List.cons rfl ?_)
    apply List.map_congr_left
    intro i _
    show _ = (((succOf opt)^[i + 1] a : Nat) : Int)
    rw [Function.iterate_succ_apply, hs]

theorem tourNodes_orderOf {n : Nat} {σ : Nat → Nat} (h : Ham n σ) (hn : 0 < n) :
    tourNodes (orderOf n σ) = (List.range (n + 1)).map (fun i => σ^[i] 0) := by
  unfold tourNodes orderOf
  have e1 : List.range (n + 1) = 0 :: (List.range (n - 1)).map Nat.succ ++ [n] := by
    obtain ⟨k, rfl⟩ : ∃ k, n = k + 1 := ⟨n - 1, by omega⟩
    rw [List.range_succ, List.range_succ_eq_map]
    rfl
  rw [e1, List.map_append, List.map_cons, List.map_map, List.map_cons, List.map_nil,
    h.orbit_closed hn]
  rfl

theorem isTour_orderOf {n : Nat} {σ : Nat → Nat} (h : Ham n σ) (hn : 0 < n) :
    IsTour n (orderOf n σ) := by
  unfold orderOf
  refine ⟨?_, fun x => ?_⟩
  · exact List.Nodup.map_on (fun i hi j hj e => by
      have := h.orbit_inj hn (i + 1) (by have := List.mem_range.1 hi; omega) (j + 1)
        (by have := List.mem_range.1 hj; omega) e
      omega) (List.nodup_range _)
  · rw [List.mem_map]
    constructor
    · rintro ⟨i, hi, rfl⟩
      have hi' := List.mem_range.1 hi
      refine ⟨?_, h.iterate_lt hn _⟩
      by_contra h0
      have e : σ^[i + 1] 0 = σ^[0] 0 := by
        have : σ^[i + 1] 0 = 0 := by omega
        rw [this]; rfl
      have := h.orbit_inj hn (i + 1) (by omega) 0 hn e
      omega
    · rintro ⟨h0, hx⟩
      obtain ⟨i, hi, e⟩ := h.orbit_surj hn hx
      cases i with
      | zero =>
        exfalso
        have : σ^[0] 0 = 0 := rfl
        omega
      | succ i => exact ⟨i, List.mem_range.2 (by omega), e⟩

theorem trueCost_orderOf {n : Nat} (W : List (List Int)) {σ : Nat → Nat} (h : Ham n σ)
    (hn : 0 < n) : trueCost W n σ = tourCost W (orderOf n σ) := by
  unfold tourCost
  rw [tourNodes_orderOf h hn, walkCost_map_range]
  unfold trueCost
  have := sumTo_perm n (fun i => σ^[i] 0) (fun a => at2 W a (σ a))
    (fun i _ => h.iterate_lt hn i) (h.orbit_inj hn)
  rw [← this]
  apply sumTo_congr
  intro i _
  show at2 W (σ^[i] 0) (σ (σ^[i] 0)) = at2 W (σ^[i] 0) (σ^[i + 1] 0)
  rw [Function.iterate_succ_apply']

theorem walkFinite_orderOf {n : Nat} (W : List (List Int)) {σ : Nat → Nat} (h : Ham n σ)
    (hn : 0 < n) :
    walkFinite W (tourNodes (orderOf n σ))
      = (List.range n).all (fun a => decide (at2 W a (σ a) ≠ NIL)) := by
  rw [tourNodes_orderOf h hn, walkFinite_map_range, Bool.eq_iff_iff, List.all_eq_true,
    List.all_eq_true]
  constructor
  · intro hall x hx
    obtain ⟨i, hi, e⟩ := h.orbit_surj hn (List.mem_range.1 hx)
    have := hall i (List.mem_range.2 hi)
    rw [Function.iterate_succ_apply', e] at this
    exact this
  · intro hall i _
    have := hall (σ^[i] 0) (List.mem_range.2 (h.iterate_lt hn i))
    rw [Function.iterate_succ_apply']
    exact this

end TspSolver

namespace TspSolver

theorem succ_mod_inj {n i j : Nat} (hi : i < n) (hj : j < n) (h : (i + 1) % n = (j + 1) % n) :
    i = j := by
  by_cases h1 : i + 1 < n
  · rw [Nat.mod_eq_of_lt h1] at h
    by_cases h2 : j + 1 < n
    · rw [Nat.mod_eq_of_lt h2] at h; omega
    · have : j + 1 = n := by omega
      rw [this, Nat.mod_self] at h; omega
  · have e1 : i + 1 = n := by omega
    rw [e1, Nat.mod_self] at h
    by_cases h2 : j + 1 < n
    · rw [Nat.mod_eq_of_lt h2] at h; omega
    · omega

/-- The successor function of a visiting order is a Hamiltonian cycle, and the sum of
the entries along its arcs is the cost of the tour. -/
theorem ham_succOfOrder {n : Nat} {q : List Nat} (h : IsTour n q) (hn : 0 < n)
    (W : List (List Int)) :
    Ham n (succOfOrder n q) ∧ trueCost W n (succOfOrder n q) = tourCost W q := by
  have hnd : (0 :: q).Nodup := h.nodup_cons
  have hmem : ∀ x, x ∈ 0 :: q ↔ x < n := h.mem_cons hn
  have hlen : (0 :: q).length = n := by
    rw [List.length_cons, h.tour_length]; omega
  generalize hL : 0 :: q = L at hnd hmem hlen
  have hσ : ∀ a, succOfOrder n q a = L.getD ((L.indexOf a + 1) % n) 0 := by
    intro a; unfold succOfOrder; rw [hL]
  have hp_lt : ∀ i, L.getD (i % n) 0 < n := fun i =>
    (hmem _).1 (getD_mem (by rw [hlen]; exact Nat.mod_lt _ hn))
  have hidx : ∀ i, L.indexOf (L.getD (i % n) 0) = i % n := fun i =>
    indexOf_getD hnd (by rw [hlen]; exact Nat.mod_lt _ hn)
  have hstep : ∀ i, succOfOrder n q (L.getD (i % n) 0) = L.getD ((i + 1) % n) 0 := by
    intro i
    rw [hσ, hidx, Nat.mod_add_mod]
  have hiter : ∀ m i, (succOfOrder n q)^[m] (L.getD (i % n) 0) = L.getD ((i + m) % n) 0 := by
    intro m
    induction m with
    | zero => intro i; rfl
    | succ m ih =>
      intro i
      rw [Function.iterate_succ_apply', ih, hstep]
      rfl
  have hrep : ∀ a < n, ∃ i < n, L.getD (i % n) 0 = a := by
    intro a ha
    have hma := (hmem a).2 ha
    have hi : L.indexOf a < n := by rw [← hlen]; exact List.indexOf_lt_length.2 hma
    exact ⟨L.indexOf a, hi, by rw [Nat.mod_eq_of_lt hi]; exact getD_indexOf hma⟩
  have hham : Ham n (succOfOrder n q) := by
    refine ⟨?_, ?_, ?_⟩
    · intro a ha
      obtain ⟨i, _, rfl⟩ := hrep a ha
      rw [hstep]
      exact hp_lt _
    · intro a ha b hb e
      obtain ⟨i, hi, rfl⟩ := hrep a ha
      obtain ⟨j, hj, rfl⟩ := hrep b hb
      rw [hstep, hstep] at e
      have := getD_inj hnd (by rw [hlen]; exact Nat.mod_lt _ hn)
        (by rw [hlen]; exact Nat.mod_lt _ hn) e
      rw [succ_mod_inj hi hj this]
    · intro a ha b hb
      obtain ⟨i, hi, rfl⟩ := hrep a ha
      obtain ⟨j, hj, rfl⟩ := hrep b hb
      refine ⟨j + (n - i), ?_⟩
      rw [hiter, show i + (j + (n - i)) = j + n by omega, Nat.add_mod_right]
  refine ⟨hham, ?_⟩
  have hperm := sumTo_perm n (fun i => L.getD (i % n) 0)
    (fun a => at2 W a (succOfOrder n q a)) (fun i _ => hp_lt i)
    (fun i hi j hj e => by
      have := getD_inj hnd (by rw [hlen]; exact Nat.mod_lt _ hn)
        (by rw [hlen]; exact Nat.mod_lt _ hn) e
      rw [Nat.mod_eq_of_lt hi, Nat.mod_eq_of_lt hj] at this
      exact this)
  unfold trueCost
  rw [← hperm]
  have hnodes : tourNodes q = (List.range (n + 1)).map (fun i => L.getD (i % n) 0) := by
    unfold tourNodes
    rw [List.range_succ, List.map_append, List.map_cons, List.map_nil, Nat.mod_self]
    have e0 : L.getD 0 0 = 0 := by rw [← hL]; rfl
    have e1 : (List.range n).map (fun i => L.getD (i % n) 0) = L := by
      apply List.ext_getElem
      · simp [hlen]
      · intro i h1 h2
        simp only [List.getElem_map, List.getElem_range]
        rw [Nat.mod_eq_of_lt (by rw [← hlen]; exact h2), List.getD_eq_getElem _ _ h2]
    rw [e0, e1, ← hL]
    rfl
  unfold tourCost
  rw [hnodes, walkCost_map_range]
  apply sumTo_congr
  intro i _
  show at2 W _ (succOfOrder n q (L.getD (i % n) 0)) = _
  rw [hstep]

end TspSolver

namespace TspSolver

/-! ## The branch and bound solver on valid matrices of at most 127 nodes -/

theorem nx_replicate (n a : Nat) : nx (List.replicate n NIL) a = none := by
  unfold nx
  by_cases ha : a < (List.replicate n NIL).length
  · rw [if_neg (fun h => h.2 (BruteForceSolver.at1_replicate_NIL n a (by simpa using ha)))]
  · rw [if_neg (fun h => ha h.1)]

theorem currOK_replicate (n : Nat) : CurrOK n (List.replicate n NIL) := by
  refine ⟨by simp, fun i hi => Or.inl (BruteForceSolver.at1_replicate_NIL n i hi), ?_, ?_, ?_, ?_⟩
  · intro a b h; rw [nx_replicate] at h; cases h
  · intro a a' b h; rw [nx_replicate] at h; cases h
  · intro a; exact ⟨a, Relation.ReflTransGen.refl, nx_replicate n a⟩
  · intro b
    exact ⟨b, Relation.ReflTransGen.refl, fun a h => by rw [nx_replicate] at h; cases h⟩

theorem V_initial {n : Nat} (W : List (List Int)) {σ : Nat → Nat} (h : Ham n σ) :
    V W (List.range n) (List.range n) 0 σ = trueCost W n σ := by
  unfold V trueCost
  rw [List.length_range, zero_add]
  apply sumTo_congr
  intro i hi
  show at2 W i _ = at2 W i (σ i)
  have e1 : (List.range n).getD i 0 = i := by
    rw [List.getD_eq_getElem _ _ (by simpa using hi)]; simp
  have e2 : (List.range n).indexOf (σ i) = σ i := by
    have hs := h.1 i hi
    have := indexOf_getD (List.nodup_range n) (show σ i < (List.range n).length by simpa using hs)
    rw [List.getD_eq_getElem _ _ (by simpa using hs)] at this
    simpa using this
  rw [e1, e2]

/-- The invariant holds at the top-level call of `Solver::solve`. -/
theorem initial_frame {costs : List (List Int)} (hv : ValidMatrix costs) :
    Frame costs.length costs (List.replicate costs.length NIL) INT_MAX
      (List.replicate costs.length NIL) (List.range costs.length) (List.range costs.length)
      costs 0 where
  ok := currOK_replicate _
  rnd := List.nodup_range _
  cnd := List.nodup_range _
  rmem := fun a => by
    rw [List.mem_range]
    exact ⟨fun h => ⟨h, nx_replicate _ _⟩, fun h => h.1⟩
  cmem := fun b => by
    rw [List.mem_range]
    exact ⟨fun h => ⟨h, fun a ha => by rw [nx_replicate] at ha; cases ha⟩, fun h => h.1⟩
  clen := rfl
  sq := by rw [List.length_range]; exact ⟨rfl, hv.2.1⟩
  bd := by
    rw [List.length_range]
    intro i hi j hj
    exact hv.entry_bounds hi hj
  two := by rw [List.length_range]; exact hv.1
  lb0 := le_refl _
  best := Or.inl rfl
  inv := fun σ hσ _ => by
    rw [V_initial costs hσ]
    exact ⟨le_refl _, Or.inl rfl⟩

/-- For a valid matrix of at most 127 nodes, every answer of the branch and bound
solver is a Hamiltonian cycle of minimum total cost (sentinel entries counted with
their value), its cost, and status 0 exactly when that cycle has no sentinel edge. -/
theorem solve_of_ok {costs : List (List Int)} (hv : ValidMatrix costs)
    (hn : costs.length ≤ 127) {fuel : Nat} {a : Answer} (h : solve fuel costs = .ok a) :
    ∃ q, IsTour costs.length q ∧
      (∀ p, IsTour costs.length p → tourCost costs q ≤ tourCost costs p) ∧
      a = { status := if walkFinite costs (tourNodes q) then 0 else -1
            cyclePath := (tourNodes q).map (fun (x : Nat) => (x : Int))
            cost := tourCost costs q } := by
  have hn0 : 0 < costs.length := by have := hv.1; omega
  have hW : ∀ a < costs.length, ∀ b < costs.length, 0 ≤ at2 costs a b ∧ at2 costs a b ≤ NIL :=
    fun a ha b hb => hv.entry_bounds ha hb
  unfold solve Solver.construct at h
  rw [hv.assertCosts_ok] at h
  dsimp only at h
  cases hs : Solver.solve fuel (Solver.initOptPath costs) (range costs.length)
      (range costs.length) costs 0 with
  | fail e => rw [hs] at h; cases h
  | ok r =>
    rw [hs] at h
    dsimp only [Outcome.andThen] at h
    have hs' : Solver.solve fuel (Solver.initOptPath costs)
        ((List.range costs.length).map (fun (x : Nat) => (x : Int)))
        ((List.range costs.length).map (fun (x : Nat) => (x : Int))) costs 0 = .ok r := hs
    obtain ⟨hc, P⟩ := Solver.solve_post hn hW fuel (Solver.initOptPath costs) _ _ costs 0 r
      (initial_frame hv) hs'
    have hc' : r.1.pOriginalCosts = costs := hc
    obtain ⟨σ0, hσ0, _⟩ := (initial_frame hv).exists_compl
    have hub := P.all σ0 hσ0 (fun a b hab => by
      have : nx (List.replicate costs.length NIL) a = some b := hab
      rw [nx_replicate] at this; cases this)
    have hb0 := (trueCost_bounds hW hσ0).2
    have hbest : BestOK costs.length costs r.1.pOptTarget r.1.pUpperBound := by
      rcases P.best with e | e
      · exfalso
        rw [e, INT_MAX_eq] at hub
        rw [NIL_eq] at hb0
        have : (costs.length : Int) ≤ 127 := by omega
        omega
      · exact e
    obtain ⟨b1, b2, b3, b4⟩ := hbest
    have hcycle : Solver.getCycle r.1
        = some ((tourNodes (orderOf costs.length (succOf r.1.pOptTarget))).map
            (fun (x : Nat) => (x : Int))) := by
      unfold Solver.getCycle
      rw [b1]
      have := getCycleLoop_iterate b1 b2 (costs.length + 1) 0 hn0
      rw [Nat.cast_zero] at this
      rw [this, tourNodes_orderOf b3 hn0, List.map_map]
      rfl
    have hvalid : Solver.isValid r.1
        = some (walkFinite costs (tourNodes (orderOf costs.length (succOf r.1.pOptTarget)))) := by
      unfold Solver.isValid
      rw [b1, hc', isValidLoop_eq costs r.1.pOptTarget costs.length
        (fun i hi => hv.row_length i hi) (List.range costs.length)
        (fun i hi => ⟨List.mem_range.1 hi, by
          obtain ⟨b, hb, e⟩ := b2 i (List.mem_range.1 hi)
          exact ⟨b, hb, e⟩⟩), walkFinite_orderOf costs b3 hn0]
      rfl
    rw [hcycle, hvalid] at h
    dsimp only [Outcome.ofOption, Outcome.andThen] at h
    cases h
    refine ⟨orderOf costs.length (succOf r.1.pOptTarget), isTour_orderOf b3 hn0, fun p hp => ?_, ?_⟩
    · rw [← trueCost_orderOf costs b3 hn0, ← b4]
      obtain ⟨hp1, hp2⟩ := ham_succOfOrder hp hn0 costs
      rw [← hp2]
      exact P.all _ hp1 (fun a b hab => by
        have : nx (List.replicate costs.length NIL) a = some b := hab
        rw [nx_replicate] at this; cases this)
    · unfold Solver.getCost
      rw [b4, trueCost_orderOf costs b3 hn0]

end TspSolver

namespace TspSolver

namespace Solver

/-- The two ways in which the exclude branch returns. -/
theorem solveExclude_inv
    {recurse : Solver → List Int → List Int → List (List Int) → Int →
      Outcome (Solver × List (List Int))}
    {skp : Bool} {s : Solver} {rowTitle colTitle : List Int} {costs : List (List Int)}
    {row col : Nat} {lb : Int} {r : Solver × List (List Int)}
    (h : solveExclude recurse skp s rowTitle colTitle costs row col lb = .ok r) :
    (skp = false ∧ r = (s, costs)) ∨
    (skp = true ∧ ∃ r2, recurse s rowTitle colTitle (setCell costs row col NIL) lb = .ok r2 ∧
      r = (r2.1, setCell r2.2 row col (at2 costs row col))) := by
  unfold solveExclude at h
  cases skp with
  | false =>
    rw [if_neg (by decide)] at h
    cases h
    exact Or.inl ⟨rfl, rfl⟩
  | true =>
    rw [if_pos rfl] at h
    cases hsol : recurse s rowTitle colTitle (setCell costs row col NIL) lb with
    | fail e => rw [hsol] at h; cases h
    | ok r2 =>
      rw [hsol] at h
      dsimp only [Outcome.andThen] at h
      cases h
      exact Or.inr ⟨rfl, r2, rfl, rfl⟩

/-- The return paths of one call of `Solver::solve`: the two bound checks, the leaf,
the include branch followed by the exclude branch, and the exclude branch alone. -/
theorem solve_inv {fuel : Nat} {s : Solver} {rowTitle colTitle : List Int}
    {costs : List (List Int)} {lb : Int} {r : Solver × List (List Int)}
    (h : solve (fuel + 1) s rowTitle colTitle costs lb = .ok r) :
    (lb ≥ s.pUpperBound ∧ r = (s, costs)) ∨
    (¬ lb ≥ s.pUpperBound ∧
      wrapInt (lb + (extractLowerBound costs).lowerBound) ≥ s.pUpperBound ∧
      r = ({ s with zeroCostArcs := (extractLowerBound costs).zeroCostArcs },
        (extractLowerBound costs).costs)) ∨
    (¬ lb ≥ s.pUpperBound ∧
      ¬ wrapInt (lb + (extractLowerBound costs).lowerBound) ≥ s.pUpperBound ∧
      ∃ (g : List Int) (row col : Nat) (sel skp : Bool) (s2 : Solver),
        setCurrGroup s.pCurrOptTarget = some g ∧
        (searchBestAdvantageArc (extractLowerBound costs).costs
          (extractLowerBound costs).zeroCostArcs).row = some row ∧
        (searchBestAdvantageArc (extractLowerBound costs).costs
          (extractLowerBound costs).zeroCostArcs).col = some col ∧
        s2 = { s with zeroCostArcs := (extractLowerBound costs).zeroCostArcs, pCurrGroup := g } ∧
        isArcSelectable s2 (at1 rowTitle row) (at1 colTitle col) = some sel ∧
        isArcSkippable s2 (at1 rowTitle row) (at1 colTitle col) = some skp ∧
        ((sel = true ∧
            (chooseArcCosts (extractLowerBound costs).costs row col).length = 1 ∧
            r = (solveLeaf s2 (at1 rowTitle row) (at1 colTitle col)
                (at1 (chooseArcTitle rowTitle (extractLowerBound costs).costs.length row) 0)
                (at1 (chooseArcTitle colTitle (extractLowerBound costs).costs.length col) 0)
                (at2 (chooseArcCosts (extractLowerBound costs).costs row col) 0 0)
                (wrapInt (lb + (extractLowerBound costs).lowerBound)),
              (extractLowerBound costs).costs)) ∨
         (sel = true ∧
            (chooseArcCosts (extractLowerBound costs).costs row col).length ≠ 1 ∧
            ∃ r1,
              solve fuel
                { s2 with pCurrOptTarget :=
                    s2.pCurrOptTarget.set (at1 rowTitle row).toNat (at1 colTitle col) }
                (chooseArcTitle rowTitle (extractLowerBound costs).costs.length row)
                (chooseArcTitle colTitle (extractLowerBound costs).costs.length col)
                (chooseArcCosts (extractLowerBound costs).costs row col)
                (wrapInt (lb + (extractLowerBound costs).lowerBound)) = .ok r1 ∧
              solveExclude (solve fuel) skp
                { r1.1 with pCurrOptTarget :=
                    r1.1.pCurrOptTarget.set (at1 rowTitle row).toNat NIL }
                rowTitle colTitle (extractLowerBound costs).costs row col
                (wrapInt (lb + (extractLowerBound costs).lowerBound)) = .ok r) ∨
         (sel = false ∧
            solveExclude (solve fuel) skp s2 rowTitle colTitle (extractLowerBound costs).costs
              row col (wrapInt (lb + (extractLowerBound costs).lowerBound)) = .ok r))) := by
  rw [solve] at h
  by_cases h1 : lb ≥ s.pUpperBound
  · rw [if_pos h1] at h
    cases h
    exact Or.inl ⟨h1, rfl⟩
  · rw [if_neg h1] at h
    dsimp only at h
    by_cases h2 : wrapInt (lb + (extractLowerBound costs).lowerBound) ≥ s.pUpperBound
    · rw [if_pos h2] at h
      cases h
      exact Or.inr (Or.inl ⟨h1, h2, rfl⟩)
    · rw [if_neg h2] at h
      refine Or.inr (Or.inr ⟨h1, h2, ?_⟩)
      cases hg : setCurrGroup s.pCurrOptTarget with
      | none => rw [hg] at h; cases h
      | some g =>
        rw [hg] at h
        dsimp only [Outcome.ofOption, Outcome.andThen] at h
        cases hrow : (searchBestAdvantageArc (extractLowerBound costs).costs
            (extractLowerBound costs).zeroCostArcs).row with
        | none => rw [hrow] at h; cases h
        | some r0 =>
          rw [hrow] at h
          dsimp only [Outcome.ofOption, Outcome.andThen] at h
          cases hcol : (searchBestAdvantageArc (extractLowerBound costs).costs
              (extractLowerBound costs).zeroCostArcs).col with
          | none => rw [hcol] at h; cases h
          | some c0 =>
            rw [hcol] at h
            dsimp only [Outcome.ofOption, Outcome.andThen] at h
            cases hsel : isArcSelectable
                { pUpperBound := s.pUpperBound, pOriginalCosts := s.pOriginalCosts,
                  pOptTarget := s.pOptTarget, pCurrOptTarget := s.pCurrOptTarget,
                  pCurrGroup := g,
                  zeroCostArcs := (extractLowerBound costs).zeroCostArcs }
                (at1 rowTitle r0) (at1 colTitle c0) with
            | none => rw [hsel] at h; cases h
            | some sel =>
              rw [hsel] at h
              dsimp only at h
              cases hskp : isArcSkippable
                  { pUpperBound := s.pUpperBound, pOriginalCosts := s.pOriginalCosts,
                    pOptTarget := s.pOptTarget, pCurrOptTarget := s.pCurrOptTarget,
                    pCurrGroup := g,
                    zeroCostArcs := (extractLowerBound costs).zeroCostArcs }
                  (at1 rowTitle r0) (at1 colTitle c0) with
              | none => rw [hskp] at h; cases h
              | some skp =>
                rw [hskp] at h
                dsimp only at h
                refine ⟨g, r0, c0, sel, skp, _, rfl, rfl, rfl, rfl, hsel, hskp, ?_⟩
                cases sel with
                | false =>
                  rw [if_neg (by decide)] at h
                  exact Or.inr (Or.inr ⟨rfl, h⟩)
                | true =>
                  rw [if_pos rfl] at h
                  by_cases hlen : (chooseArcCosts (extractLowerBound costs).costs r0 c0).length = 1
                  · rw [if_pos hlen] at h
                    cases h
                    exact Or.inl ⟨rfl, hlen, rfl⟩
                  · rw [if_neg hlen] at h
                    cases hinc : solve fuel
                        { pUpperBound := s.pUpperBound, pOriginalCosts := s.pOriginalCosts,
                          pOptTarget := s.pOptTarget,
                          pCurrOptTarget :=
                            s.pCurrOptTarget.set (at1 rowTitle r0).toNat (at1 colTitle c0),
                          pCurrGroup := g,
                          zeroCostArcs := (extractLowerBound costs).zeroCostArcs }
                        (chooseArcTitle rowTitle (extractLowerBound costs).costs.length r0)
                        (chooseArcTitle colTitle (extractLowerBound costs).costs.length c0)
                        (chooseArcCosts (extractLowerBound costs).costs r0 c0)
                        (wrapInt (lb + (extractLowerBound costs).lowerBound)) with
                    | fail e => rw [hinc] at h; cases h
                    | ok r1 =>
                      rw [hinc] at h
                      dsimp only [Outcome.andThen] at h
                      exact Or.inr (Or.inl ⟨rfl, hlen, r1, rfl, h⟩)

end Solver

end TspSolver

namespace TspSolver

theorem set_set_back (l : List Int) (i : Nat) (v w : Int)
    (h : i < l.length → at1 l i = w) : (l.set i v).set i w = l := by
  by_cases hi : i < l.length
  · exact set_set_restore l i v w (h hi)
  · rw [List.set_set]
    exact List.set_eq_of_length_le (by omega)

namespace Solver

theorem isArcSelectable_free {s : Solver} {from_ to_ : Int}
    (h : isArcSelectable s from_ to_ = some true) : at1 s.pCurrOptTarget from_.toNat = NIL := by
  unfold isArcSelectable at h
  by_contra hne
  rw [if_pos hne] at h
  cases h

/-- The path vector at the return of `Solver::solve` is the path vector at entry. -/
theorem branch_keeps_path : ∀ (fuel : Nat) (s : Solver) (rowTitle colTitle : List Int)
    (costs : List (List Int)) (lb : Int) (r : Solver × List (List Int)),
    solve fuel s rowTitle colTitle costs lb = .ok r →
    r.1.pCurrOptTarget = s.pCurrOptTarget := by
  intro fuel
  induction fuel with
  | zero =>
    intro s rowTitle colTitle costs lb r h
    rw [solve] at h
    cases h
  | succ fuel ih =>
    intro s rowTitle colTitle costs lb r h
    have hex : ∀ (skp : Bool) (s3 : Solver) (G : List (List Int)) (row col : Nat) (lb2 : Int),
        solveExclude (solve fuel) skp s3 rowTitle colTitle G row col lb2 = .ok r →
        r.1.pCurrOptTarget = s3.pCurrOptTarget := by
      intro skp s3 G row col lb2 hx
      rcases solveExclude_inv hx with ⟨_, rfl⟩ | ⟨_, r2, hr2, rfl⟩
      · rfl
      · exact ih _ _ _ _ _ r2 hr2
    rcases solve_inv h with ⟨_, rfl⟩ | ⟨_, _, rfl⟩ |
      ⟨_, _, g, row, col, sel, skp, s2, _, _, _, hs2, hsel, _, hc⟩
    · rfl
    · rfl
    · have e1 : s2.pCurrOptTarget = s.pCurrOptTarget := by rw [hs2]
      rcases hc with ⟨_, _, rfl⟩ | ⟨hst, _, r1, hr1, hx⟩ | ⟨_, hx⟩
      · rcases solveLeaf_cases s2 (at1 rowTitle row) (at1 colTitle col)
          (at1 (chooseArcTitle rowTitle (extractLowerBound costs).costs.length row) 0)
          (at1 (chooseArcTitle colTitle (extractLowerBound costs).costs.length col) 0)
          (at2 (chooseArcCosts (extractLowerBound costs).costs row col) 0 0)
          (wrapInt (lb + (extractLowerBound costs).lowerBound)) with ⟨_, e⟩ | ⟨_, _, _, e, _⟩
        · show (solveLeaf s2 _ _ _ _ _ _).pCurrOptTarget = _
          rw [e, e1]
        · show (solveLeaf s2 _ _ _ _ _ _).pCurrOptTarget = _
          rw [e, e1]
      · rw [hst] at hsel
        have hfree := isArcSelectable_free hsel
        have e2 := ih _ _ _ _ _ _ hr1
        dsimp only at e2
        rw [hex _ _ _ _ _ _ hx]
        dsimp only
        rw [e2, set_set_back _ _ _ _ (fun _ => hfree), e1]
      · rw [hex _ _ _ _ _ _ hx, e1]

end Solver

namespace BruteForceSolver

theorem solveLeaf_curr (s : BruteForceSolver) (from_ : Nat) (lb : Int) :
    (solveLeaf s from_ lb).pCurrOptTarget = s.pCurrOptTarget := by
  unfold solveLeaf
  split <;> rfl

/-- The loop of `BruteForceSolver::solve` leaves the path vector as it found it, when
every recursive call does so for a node without a successor. -/
theorem loop_keeps_path
    {recurse : BruteForceSolver → Nat → Int → Nat → Option BruteForceSolver}
    (hrec : ∀ (s : BruteForceSolver) (to_ : Nat) (lb : Int) (pl : Nat) (s2 : BruteForceSolver),
      (to_ < s.pCurrOptTarget.length → at1 s.pCurrOptTarget to_ = NIL) →
      recurse s to_ lb pl = some s2 → s2.pCurrOptTarget = s.pCurrOptTarget)
    (from_ : Nat) (lb : Int) (pl : Nat) :
    ∀ (cands : List Nat) (s s2 : BruteForceSolver),
      (from_ < s.pCurrOptTarget.length → at1 s.pCurrOptTarget from_ = NIL) →
      solveLoop recurse from_ lb pl cands s = some s2 →
      s2.pCurrOptTarget = s.pCurrOptTarget := by
  intro cands
  induction cands with
  | nil =>
    intro s s2 _ h
    rw [solveLoop] at h
    cases h
    rfl
  | cons to_ rest ih =>
    intro s s2 hfrom h
    rw [solveLoop] at h
    by_cases h1 : to_ = from_
    · rw [if_pos h1] at h
      exact ih s s2 hfrom h
    · rw [if_neg h1] at h
      by_cases h2 : at1 s.pCurrOptTarget to_ ≠ NIL
      · rw [if_pos h2] at h
        exact ih s s2 hfrom h
      · rw [if_neg h2] at h
        have hto : at1 s.pCurrOptTarget to_ = NIL := not_not.1 h2
        cases hr : recurse { s with pCurrOptTarget := s.pCurrOptTarget.set from_ (to_ : Int) } to_
            (wrapInt (lb + at2 s.pOriginalCosts from_ to_)) (pl + 1) with
        | none => rw [hr] at h; cases h
        | some s3 =>
          rw [hr] at h
          dsimp only at h
          have e3 := hrec _ _ _ _ _ (fun _ => by
            show at1 (s.pCurrOptTarget.set from_ (to_ : Int)) to_ = NIL
            rw [at1_set_ne _ _ _ _ (fun e => h1 e.symm)]
            exact hto) hr
          dsimp only at e3
          have e4 : s3.pCurrOptTarget.set from_ NIL = s.pCurrOptTarget := by
            rw [e3]
            exact set_set_back _ _ _ _ hfrom
          have := ih _ s2 (by
            show from_ < (s3.pCurrOptTarget.set from_ NIL).length →
              at1 (s3.pCurrOptTarget.set from_ NIL) from_ = NIL
            rw [e4]; exact hfrom) h
          rw [this]
          exact e4

/-- The path vector at the return of `BruteForceSolver::solve` is the path vector at
entry, for a call on a node without a successor. -/
theorem search_keeps_path : ∀ (fuel : Nat) (s : BruteForceSolver) (from_ : Nat) (lb : Int) (pl : Nat)
    (s2 : BruteForceSolver),
    (from_ < s.pCurrOptTarget.length → at1 s.pCurrOptTarget from_ = NIL) →
    solve fuel s from_ lb pl = some s2 → s2.pCurrOptTarget = s.pCurrOptTarget := by
  intro fuel
  induction fuel with
  | zero =>
    intro s from_ lb pl s2 _ h
    rw [solve] at h
    cases h
  | succ fuel ih =>
    intro s from_ lb pl s2 hfrom h
    rw [solve] at h
    by_cases h1 : lb ≥ s.pUpperBound
    · rw [if_pos h1] at h
      cases h
      rfl
    · rw [if_neg h1] at h
      by_cases h2 : pl = sizeMinusOne s.pCurrOptTarget.length
      · rw [if_pos h2] at h
        cases h
        exact solveLeaf_curr s from_ lb
      · rw [if_neg h2] at h
        exact loop_keeps_path ih from_ lb pl _ s s2 hfrom h

end BruteForceSolver

end TspSolver

namespace TspSolver

theorem nodup_snoc {α : Type} {l : List α} {a : α} (hl : l.Nodup) (h : a ∉ l) :
    (l ++ [a]).Nodup := by
  rw [List.nodup_append]
  exact ⟨hl, List.nodup_singleton _, List.disjoint_singleton.2 h⟩

namespace Solver

/-! ## The reduction on a matrix of non-negative entries -/

theorem rowScan_succ (costs : List (List Int)) (i : Nat) (zs : List Arc) (t : Nat) :
    rowScan costs (t + 1) i zs
      = (if at2 costs i t = 0 then (rowScan costs t i zs).1 ++ [Arc.mk i t]
          else (rowScan costs t i zs).1,
         if at2 costs i t < (rowScan costs t i zs).2 then at2 costs i t
          else (rowScan costs t i zs).2) := by
  unfold rowScan
  rw [List.range_succ, List.foldl_append]
  rfl

theorem rowSubtract_succ (t i : Nat) (m : Int) (costs : List (List Int)) (zs : List Arc) :
    rowSubtract (t + 1) i m costs zs
      = (setCell (rowSubtract t i m costs zs).1 i t
           (wrapInt (at2 (rowSubtract t i m costs zs).1 i t - m)),
         if at2 (rowSubtract t i m costs zs).1 i t = m
           then (rowSubtract t i m costs zs).2 ++ [Arc.mk i t]
           else (rowSubtract t i m costs zs).2) := by
  unfold rowSubtract
  rw [List.range_succ, List.foldl_append]
  rfl

theorem colSubtract_succ (t j : Nat) (m : Int) (costs : List (List Int)) (zs : List Arc) :
    colSubtract (t + 1) j m costs zs
      = (setCell (colSubtract t j m costs zs).1 t j
           (wrapInt (at2 (colSubtract t j m costs zs).1 t j - m)),
         if at2 (colSubtract t j m costs zs).1 t j = m
           then (colSubtract t j m costs zs).2 ++ [Arc.mk t j]
           else (colSubtract t j m costs zs).2) := by
  unfold colSubtract
  rw [List.range_succ, List.foldl_append]
  rfl

/-- The first loop of the row pass records no arc twice. -/
theorem rowScan_nodup (costs : List (List Int)) (i : Nat) {zs : List Arc} (hnd : zs.Nodup)
    (hrow : ∀ a ∈ zs, a.row ≠ i) (t : Nat) : (rowScan costs t i zs).1.Nodup := by
  induction t with
  | zero => exact hnd
  | succ t ih =>
    rw [rowScan_succ]
    dsimp only
    by_cases hz : at2 costs i t = 0
    · rw [if_pos hz]
      apply nodup_snoc ih
      intro hmem
      rcases ((rowScan_spec costs i zs t).2.2 _).1 hmem with h | ⟨_, h, _⟩
      · exact hrow _ h rfl
      · exact absurd h (Nat.lt_irrefl t)
    · rw [if_neg hz]
      exact ih

/-- The second loop of the row pass records no arc twice. -/
theorem rowSubtract_nodup {k : Nat} {costs : List (List Int)} (hsq : Square k costs) {i : Nat}
    (hi : i < k) (m : Int) {zs : List Arc} (hnd : zs.Nodup) (hrow : ∀ a ∈ zs, a.row ≠ i)
    (t : Nat) (ht : t ≤ k) : (rowSubtract t i m costs zs).2.Nodup := by
  induction t with
  | zero => exact hnd
  | succ t ih =>
    rw [rowSubtract_succ]
    dsimp only
    by_cases hz : at2 (rowSubtract t i m costs zs).1 i t = m
    · rw [if_pos hz]
      apply nodup_snoc (ih (by omega))
      intro hmem
      rcases ((rowSubtract_spec hsq hi m zs t (by omega)).2.2 _).1 hmem with h | ⟨_, h, _⟩
      · exact hrow _ h rfl
      · exact absurd h (Nat.lt_irrefl t)
    · rw [if_neg hz]
      exact ih (by omega)

/-- The second loop of the column pass records no arc twice. -/
theorem colSubtract_nodup {k : Nat} {costs : List (List Int)} (hsq : Square k costs) {j : Nat}
    (hj : j < k) (m : Int) {zs : List Arc} (hnd : zs.Nodup)
    (hcol : ∀ a ∈ zs, a.col = j → at2 costs a.row j ≠ m)
    (t : Nat) (ht : t ≤ k) : (colSubtract t j m costs zs).2.Nodup := by
  induction t with
  | zero => exact hnd
  | succ t ih =>
    rw [colSubtract_succ]
    dsimp only
    have hcur : at2 (colSubtract t j m costs zs).1 t j = at2 costs t j := by
      rw [(colSubtract_spec hsq hj m zs t (by omega)).2.1, if_neg (by omega)]
    by_cases hz : at2 (colSubtract t j m costs zs).1 t j = m
    · rw [if_pos hz]
      apply nodup_snoc (ih (by omega))
      intro hmem
      rcases ((colSubtract_spec hsq hj m zs t (by omega)).2.2 _).1 hmem with h | ⟨_, h, _⟩
      · exact hcol _ h rfl (by rw [← hcur]; exact hz)
      · exact absurd h (Nat.lt_irrefl t)
    · rw [if_neg hz]
      exact ih (by omega)

/-- The body of the row pass keeps the shape of the matrix. -/
theorem reduceRow_square {k : Nat} {st : Reduction} (hsq : Square k st.costs) {i : Nat}
    (hi : i < k) : Square k (reduceRow k st i).costs := by
  unfold reduceRow
  dsimp only
  split
  · exact hsq
  · exact (rowSubtract_spec hsq hi _ _ k (le_refl _)).1

/-- The body of the column pass keeps the shape of the matrix. -/
theorem reduceCol_square {k : Nat} {st : Reduction} (hsq : Square k st.costs) {j : Nat}
    (hj : j < k) : Square k (reduceCol k st j).costs := by
  unfold reduceCol
  dsimp only
  split
  · exact hsq
  · exact (colSubtract_spec hsq hj _ _ k (le_refl _)).1

theorem rowPass_square {k : Nat} {st : Reduction} (hsq : Square k st.costs) (t : Nat)
    (ht : t ≤ k) : Square k ((List.range t).foldl (reduceRow k) st).costs := by
  induction t with
  | zero => exact hsq
  | succ t ih =>
    rw [List.range_succ, List.foldl_append]
    exact reduceRow_square (ih (by omega)) (by omega)

theorem colPass_square {k : Nat} {st : Reduction} (hsq : Square k st.costs) (t : Nat)
    (ht : t ≤ k) : Square k ((List.range t).foldl (reduceCol k) st).costs := by
  induction t with
  | zero => exact hsq
  | succ t ih =>
    rw [List.range_succ, List.foldl_append]
    exact reduceCol_square (ih (by omega)) (by omega)

/-- The reduction keeps the shape of the matrix, whatever its entries. -/
theorem extractLowerBound_square {k : Nat} {G : List (List Int)} (hsq : Square k G) :
    Square k (extractLowerBound G).costs := by
  unfold extractLowerBound
  rw [hsq.1]
  exact colPass_square (rowPass_square hsq k (le_refl _)) k (le_refl _)

end Solver

end TspSolver

namespace TspSolver

namespace Solver

/-- The body of the row pass on a matrix of non-negative entries: the other rows are
left alone, the arcs recorded are those of before and the zero entries of the reduced
row `i`, and none is recorded twice. -/
theorem reduceRow_zero {k : Nat} {st : Reduction} (hsq : Square k st.costs)
    (hb : NonNegative k st.costs) {i : Nat} (hi : i < k) :
    Square k (reduceRow k st i).costs ∧ NonNegative k (reduceRow k st i).costs ∧
      (∀ i' j', i' ≠ i → at2 (reduceRow k st i).costs i' j' = at2 st.costs i' j') ∧
      (∀ a, a ∈ (reduceRow k st i).zeroCostArcs ↔
        a ∈ st.zeroCostArcs ∨
          (a.row = i ∧ a.col < k ∧ at2 (reduceRow k st i).costs i a.col = 0)) ∧
      (st.zeroCostArcs.Nodup → (∀ a ∈ st.zeroCostArcs, a.row ≠ i) →
        (reduceRow k st i).zeroCostArcs.Nodup) := by
  obtain ⟨⟨_, h2⟩, h3, h4⟩ := rowScan_spec st.costs i st.zeroCostArcs k
  have hk : 0 < k := by omega
  have hm_ge : 0 ≤ (rowScan st.costs k i st.zeroCostArcs).2 := by
    rcases h3 with h3 | ⟨j, hj, h3⟩
    · rw [h3, INT_MAX_eq]; omega
    · rw [h3]; exact (hb i hi j hj).1
  unfold reduceRow
  by_cases hz : (rowScan st.costs k i st.zeroCostArcs).2 = 0
  · simp only [hz, if_true]
    refine ⟨hsq, hb, fun _ _ _ => trivial, fun a => ?_, fun hnd hrow => ?_⟩
    · rw [h4 a]
    · exact rowScan_nodup st.costs i hnd hrow k
  · simp only [hz, if_false]
    obtain ⟨g1, g2, g3⟩ := rowSubtract_spec hsq hi (rowScan st.costs k i st.zeroCostArcs).2
      (rowScan st.costs k i st.zeroCostArcs).1 k (le_refl _)
    have hcell : ∀ j', j' < k → at2 (rowSubtract k i (rowScan st.costs k i st.zeroCostArcs).2
        st.costs (rowScan st.costs k i st.zeroCostArcs).1).1 i j'
        = at2 st.costs i j' - (rowScan st.costs k i st.zeroCostArcs).2 := by
      intro j' hj'
      rw [g2, if_pos ⟨rfl, hj'⟩]
      have := hb i hi j' hj'
      have := h2 j' hj'
      rw [INT_MAX_eq] at *
      apply wrapInt_eq <;> omega
    have hother : ∀ i' j', i' ≠ i → at2 (rowSubtract k i (rowScan st.costs k i st.zeroCostArcs).2
        st.costs (rowScan st.costs k i st.zeroCostArcs).1).1 i' j' = at2 st.costs i' j' := by
      intro i' j' hne
      rw [g2, if_neg (fun h => hne h.1)]
    have hscan : ∀ a ∈ (rowScan st.costs k i st.zeroCostArcs).1, a ∈ st.zeroCostArcs := by
      intro a ha
      rcases (h4 a).1 ha with h | ⟨_, hb', hc⟩
      · exact h
      · exfalso
        have := h2 a.col hb'
        omega
    refine ⟨g1, ?_, hother, fun a => ?_, fun hnd hrow => ?_⟩
    · intro i' hi' j' hj'
      by_cases hii : i' = i
      · subst hii
        rw [hcell j' hj']
        have := hb i' hi' j' hj'
        have := h2 j' hj'
        omega
      · rw [hother i' j' hii]
        exact hb i' hi' j' hj'
    · rw [g3 a, h4 a]
      constructor
      · rintro ((h | ⟨ha, hb', hc⟩) | ⟨ha, hb', hc⟩)
        · exact Or.inl h
        · exfalso
          have := h2 a.col hb'
          omega
        · refine Or.inr ⟨ha, hb', ?_⟩
          rw [hcell a.col hb', hc]
          omega
      · rintro (h | ⟨ha, hb', hc⟩)
        · exact Or.inl (Or.inl h)
        · refine Or.inr ⟨ha, hb', ?_⟩
          rw [hcell a.col hb'] at hc
          omega
    · exact rowSubtract_nodup hsq hi _ (rowScan_nodup st.costs i hnd hrow k)
        (fun a ha => hrow a (hscan a ha)) k (le_refl _)

/-- The body of the column pass on a matrix of non-negative entries whose recorded arcs
are its zero cells: the recorded arcs are again the zero cells, none twice. -/
theorem reduceCol_zero {k : Nat} {st : Reduction} (hsq : Square k st.costs)
    (hb : NonNegative k st.costs) {j : Nat} (hj : j < k)
    (hzs : ∀ a, a ∈ st.zeroCostArcs ↔
      a.row < k ∧ a.col < k ∧ at2 st.costs a.row a.col = 0) :
    Square k (reduceCol k st j).costs ∧ NonNegative k (reduceCol k st j).costs ∧
      (∀ a, a ∈ (reduceCol k st j).zeroCostArcs ↔
        a.row < k ∧ a.col < k ∧ at2 (reduceCol k st j).costs a.row a.col = 0) ∧
      (st.zeroCostArcs.Nodup → (reduceCol k st j).zeroCostArcs.Nodup) := by
  obtain ⟨⟨_, h2⟩, h3⟩ := colScan_spec st.costs j k
  have hk : 0 < k := by omega
  have hm_ge : 0 ≤ colScan st.costs k j := by
    rcases h3 with h3 | ⟨i, hi, h3⟩
    · rw [h3, INT_MAX_eq]; omega
    · rw [h3]; exact (hb i hi j hj).1
  unfold reduceCol
  by_cases hz : colScan st.costs k j = 0
  · simp only [hz, if_true]
    exact ⟨hsq, hb, hzs, fun h => h⟩
  · simp only [hz, if_false]
    obtain ⟨g1, g2, g3⟩ := colSubtract_spec hsq hj (colScan st.costs k j) st.zeroCostArcs k
      (le_refl _)
    have hcell : ∀ i', i' < k → at2 (colSubtract k j (colScan st.costs k j)
        st.costs st.zeroCostArcs).1 i' j = at2 st.costs i' j - colScan st.costs k j := by
      intro i' hi'
      rw [g2, if_pos ⟨hi', rfl⟩]
      have := hb i' hi' j hj
      have := h2 i' hi'
      rw [INT_MAX_eq] at *
      apply wrapInt_eq <;> omega
    have hother : ∀ i' j', j' ≠ j → at2 (colSubtract k j (colScan st.costs k j)
        st.costs st.zeroCostArcs).1 i' j' = at2 st.costs i' j' := by
      intro i' j' hne
      rw [g2, if_neg (fun h => hne h.2)]
    refine ⟨g1, ?_, fun a => ?_, fun hnd => ?_⟩
    · intro i' hi' j' hj'
      by_cases hjj : j' = j
      · subst hjj
        rw [hcell i' hi']
        have := hb i' hi' j' hj'
        have := h2 i' hi'
        omega
      · rw [hother i' j' hjj]
        exact hb i' hi' j' hj'
    · rw [g3 a, hzs a]
      constructor
      · rintro (⟨ha, hb', hc⟩ | ⟨ha, hb', hc⟩)
        · refine ⟨ha, hb', ?_⟩
          by_cases hjj : a.col = j
          · exfalso
            rw [hjj] at hc
            have := h2 a.row ha
            omega
          · rw [hother _ _ hjj]; exact hc
        · refine ⟨hb', by omega, ?_⟩
          rw [ha, hcell a.row hb', hc]
          omega
      · rintro ⟨ha, hb', hc⟩
        by_cases hjj : a.col = j
        · right
          rw [hjj, hcell a.row ha] at hc
          exact ⟨hjj, ha, by omega⟩
        · left
          rw [hother _ _ hjj] at hc
          exact ⟨ha, hb', hc⟩
    · apply colSubtract_nodup hsq hj _ hnd _ k (le_refl _)
      intro a ha hcol hc
      have := ((hzs a).1 ha).2.2
      rw [hcol] at this
      omega

/-- The row pass on a matrix of non-negative entries: after `t` rows the recorded arcs
are the zero cells of the first `t` rows, none twice. -/
theorem rowPass_zero {k : Nat} {G : List (List Int)} (hsq : Square k G)
    (hb : NonNegative k G) :
    ∀ t ≤ k,
      Square k ((List.range t).foldl (reduceRow k) ⟨G, [], 0⟩).costs ∧
      NonNegative k ((List.range t).foldl (reduceRow k) ⟨G, [], 0⟩).costs ∧
      (∀ a, a ∈ ((List.range t).foldl (reduceRow k) ⟨G, [], 0⟩).zeroCostArcs ↔
        a.row < t ∧ a.col < k ∧
          at2 ((List.range t).foldl (reduceRow k) ⟨G, [], 0⟩).costs a.row a.col = 0) ∧
      ((List.range t).foldl (reduceRow k) ⟨G, [], 0⟩).zeroCostArcs.Nodup := by
  intro t
  induction t with
  | zero =>
    intro _
    refine ⟨hsq, hb, fun a => ?_, List.nodup_nil⟩
    show a ∈ ([] : List Arc) ↔ _
    simp
  | succ t ih =>
    intro ht
    obtain ⟨i1, i2, i3, i4⟩ := ih (by omega)
    rw [List.range_succ, List.foldl_append]
    show Square k (reduceRow k _ t).costs ∧ NonNegative k (reduceRow k _ t).costs ∧
      (∀ a, a ∈ (reduceRow k _ t).zeroCostArcs ↔ a.row < t + 1 ∧ a.col < k ∧
        at2 (reduceRow k _ t).costs a.row a.col = 0) ∧ (reduceRow k _ t).zeroCostArcs.Nodup
    generalize (List.range t).foldl (reduceRow k) ⟨G, [], 0⟩ = st at i1 i2 i3 i4 ⊢
    obtain ⟨r1, r2, r3, r4, r5⟩ := reduceRow_zero i1 i2 (show t < k by omega)
    refine ⟨r1, r2, fun a => ?_, r5 i4 (fun a ha => by have := ((i3 a).1 ha).1; omega)⟩
    rw [r4 a, i3 a]
    constructor
    · rintro (⟨ha, hb', hc⟩ | ⟨ha, hb', hc⟩)
      · refine ⟨by omega, hb', ?_⟩
        rw [r3 _ _ (by omega)]; exact hc
      · refine ⟨by omega, hb', ?_⟩
        rw [ha]; exact hc
    · rintro ⟨ha, hb', hc⟩
      by_cases hat : a.row = t
      · right
        rw [hat] at hc
        exact ⟨hat, hb', hc⟩
      · left
        rw [r3 _ _ hat] at hc
        exact ⟨by omega, hb', hc⟩

/-- The column pass on a matrix of non-negative entries whose recorded arcs are its zero
cells. -/
theorem colPass_zero {k : Nat} {st0 : Reduction} (hsq : Square k st0.costs)
    (hb : NonNegative k st0.costs)
    (hzs : ∀ a, a ∈ st0.zeroCostArcs ↔
      a.row < k ∧ a.col < k ∧ at2 st0.costs a.row a.col = 0)
    (hnd : st0.zeroCostArcs.Nodup) :
    ∀ t ≤ k,
      Square k ((List.range t).foldl (reduceCol k) st0).costs ∧
      NonNegative k ((List.range t).foldl (reduceCol k) st0).costs ∧
      (∀ a, a ∈ ((List.range t).foldl (reduceCol k) st0).zeroCostArcs ↔
        a.row < k ∧ a.col < k ∧
          at2 ((List.range t).foldl (reduceCol k) st0).costs a.row a.col = 0) ∧
      ((List.range t).foldl (reduceCol k) st0).zeroCostArcs.Nodup := by
  intro t
  induction t with
  | zero =>
    intro _
    exact ⟨hsq, hb, hzs, hnd⟩
  | succ t ih =>
    intro ht
    obtain ⟨i1, i2, i3, i4⟩ := ih (by omega)
    rw [List.range_succ, List.foldl_append]
    obtain ⟨r1, r2, r3, r4⟩ := reduceCol_zero i1 i2 (show t < k by omega) i3
    exact ⟨r1, r2, r3, r4 i4⟩

/-- The reduction of a square matrix of non-negative entries leaves a square matrix of
non-negative entries and records exactly its zero cells, each once. -/
theorem extractLowerBound_zero {k : Nat} {G : List (List Int)} (hsq : Square k G)
    (hb : NonNegative k G) :
    Square k (extractLowerBound G).costs ∧ NonNegative k (extractLowerBound G).costs ∧
      (∀ a, a ∈ (extractLowerBound G).zeroCostArcs ↔
        a.row < k ∧ a.col < k ∧ at2 (extractLowerBound G).costs a.row a.col = 0) ∧
      (extractLowerBound G).zeroCostArcs.Nodup := by
  obtain ⟨r1, r2, r3, r4⟩ := rowPass_zero hsq hb k (le_refl _)
  unfold extractLowerBound
  rw [hsq.1]
  exact colPass_zero r1 r2 r3 r4 k (le_refl _)

end Solver

end TspSolver

namespace TspSolver

namespace Solver

/-- The shape of the working matrix at the return of `Solver::solve`. -/
theorem solve_square {k : Nat} : ∀ (fuel : Nat) (s : Solver) (rowTitle colTitle : List Int)
    (costs : List (List Int)) (lb : Int) (r : Solver × List (List Int)),
    Square k costs → solve fuel s rowTitle colTitle costs lb = .ok r → Square k r.2 := by
  intro fuel
  induction fuel with
  | zero =>
    intro s rowTitle colTitle costs lb r _ h
    rw [solve] at h
    cases h
  | succ fuel ih =>
    intro s rowTitle colTitle costs lb r hsq h
    have hred := extractLowerBound_square hsq
    have hex : ∀ (skp : Bool) (s3 : Solver) (row col : Nat) (lb2 : Int),
        solveExclude (solve fuel) skp s3 rowTitle colTitle (extractLowerBound costs).costs
          row col lb2 = .ok r → Square k r.2 := by
      intro skp s3 row col lb2 hx
      rcases solveExclude_inv hx with ⟨_, rfl⟩ | ⟨_, r2, hr2, rfl⟩
      · exact hred
      · exact (ih _ _ _ _ _ r2 (hred.setCell _ _ _) hr2).setCell _ _ _
    rcases solve_inv h with ⟨_, rfl⟩ | ⟨_, _, rfl⟩ |
      ⟨_, _, g, row, col, sel, skp, s2, _, _, _, _, _, _, hc⟩
    · exact hsq
    · exact hred
    · rcases hc with ⟨_, _, rfl⟩ | ⟨_, _, r1, _, hx⟩ | ⟨_, hx⟩
      · exact hred
      · exact hex _ _ _ _ _ hx
      · exact hex _ _ _ _ _ hx

/-- A call of `Solver::solve` that passes the bound check at entry and returns at the
second bound check leaves the reduced matrix. -/
theorem solve_reduced {fuel : Nat} {s : Solver} {rowTitle colTitle : List Int}
    {costs : List (List Int)} {lb : Int} {r : Solver × List (List Int)}
    (h : solve (fuel + 1) s rowTitle colTitle costs lb = .ok r)
    (h1 : ¬ lb ≥ s.pUpperBound)
    (h2 : wrapInt (lb + (extractLowerBound costs).lowerBound) ≥ s.pUpperBound) :
    r.2 = (extractLowerBound costs).costs := by
  rcases solve_inv h with ⟨h3, _⟩ | ⟨_, _, rfl⟩ | ⟨_, h3, _⟩
  · exact absurd h3 h1
  · rfl
  · exact absurd h2 h3

/-- A call of `Solver::solve` that fails the bound check at entry leaves the matrix as
it is. -/
theorem solve_at_entry_check {fuel : Nat} {s : Solver} {rowTitle colTitle : List Int}
    {costs : List (List Int)} {lb : Int} {r : Solver × List (List Int)}
    (h : solve fuel s rowTitle colTitle costs lb = .ok r) (h1 : lb ≥ s.pUpperBound) :
    r = (s, costs) := by
  cases fuel with
  | zero => rw [solve] at h; cases h
  | succ fuel =>
    rcases solve_inv h with ⟨_, e⟩ | ⟨h3, _⟩ | ⟨h3, _⟩
    · exact e
    · exact absurd h1 h3
    · exact absurd h1 h3

/-- The exclude branch puts back the value that the excluded cell had. -/
theorem solveExclude_cell {k : Nat} {fuel : Nat} {skp : Bool} {s : Solver}
    {rowTitle colTitle : List Int} {costs : List (List Int)} {row col : Nat} {lb : Int}
    {r : Solver × List (List Int)} (hsq : Square k costs) (hrow : row < k) (hcol : col < k)
    (h : solveExclude (solve fuel) skp s rowTitle colTitle costs row col lb = .ok r) :
    Square k r.2 ∧ at2 r.2 row col = at2 costs row col := by
  rcases solveExclude_inv h with ⟨_, rfl⟩ | ⟨_, r2, hr2, rfl⟩
  · exact ⟨hsq, rfl⟩
  · have hsq2 := solve_square fuel _ _ _ _ _ r2 (hsq.setCell row col NIL) hr2
    refine ⟨hsq2.setCell _ _ _, ?_⟩
    show at2 (setCell r2.2 row col (at2 costs row col)) row col = _
    rw [at2_setCell hsq2 hrow hcol, if_pos ⟨rfl, rfl⟩]

end Solver

end TspSolver

namespace TspSolver

/-- With more fuel than the index of the node, the loop of `findGroup` returns the root
of the node. -/
theorem findGroupLoop_total {g : List Int} (h : GroupOK g) :
    ∀ (fuel z : Nat), z < g.length → z < fuel →
      Solver.findGroupLoop g fuel (z : Int) = some ((rt g z : Nat) : Int) := by
  intro fuel
  induction fuel with
  | zero => intro z _ hz; exact absurd hz (Nat.not_lt_zero z)
  | succ fuel ih =>
    intro z hz hf
    obtain ⟨p, hp, e⟩ := h z hz
    rw [Solver.findGroupLoop, Int.toNat_ofNat, e]
    by_cases hpz : (p : Int) ≠ (z : Int)
    · rw [if_pos hpz]
      have hne : p ≠ z := fun e' => hpz (by rw [e'])
      rw [ih p (by omega) (by omega), ← par_of_lt hz e, rt_par h z]
    · rw [if_neg hpz]
      rw [not_not] at hpz
      have hpz' : p = z := by exact_mod_cast hpz
      rw [rt_of_fix (by rw [par_of_lt hz e, hpz'])]

/-- `findGroup` returns the root of the node, for every node of the table. -/
theorem findGroup_total {g : List Int} (h : GroupOK g) {z : Nat} (hz : z < g.length) :
    Solver.findGroup g (z : Int) = some ((rt g z : Nat) : Int) :=
  findGroupLoop_total h _ z hz (by omega)

namespace Solver

theorem setCurrGroupStep_total {n : Nat} {curr g : List Int} {i : Nat}
    (hg : GroupOK g) (hgl : g.length = n) (hi : i < n)
    (hent : at1 curr i = NIL ∨ ∃ v < n, at1 curr i = (v : Int)) :
    ∃ g1, setCurrGroupStep curr g i = some g1 := by
  unfold setCurrGroupStep
  by_cases hnil : at1 curr i = NIL
  · rw [if_pos hnil]
    exact ⟨_, rfl⟩
  · rw [if_neg hnil]
    rcases hent with e | ⟨v, hv, e⟩
    · exact absurd e hnil
    · rw [e, ← Nat.cast_min, ← Nat.cast_max,
        findGroup_total hg (show min i v < g.length by omega),
        findGroup_total hg (show max i v < g.length by omega)]
      dsimp only
      split
      · exact ⟨_, rfl⟩
      · exact ⟨_, rfl⟩

theorem setCurrGroupLoop_total {n : Nat} {curr : List Int} (hcl : curr.length = n)
    (hent : ∀ i < n, at1 curr i = NIL ∨ ∃ v < n, at1 curr i = (v : Int)) :
    ∀ (l : List Nat) (g : List Int), GroupOK g → g.length = n → (∀ i ∈ l, i < n) →
      ∃ g1, setCurrGroupLoop curr l g = some g1 := by
  intro l
  induction l with
  | nil =>
    intro g _ _ _
    exact ⟨g, rfl⟩
  | cons i l ih =>
    intro g hg hgl hl
    have hi := hl i (List.mem_cons_self _ _)
    obtain ⟨g2, h2⟩ := setCurrGroupStep_total hg hgl hi (hent i hi)
    have h0 : ∀ a b, rt g a = rt g b ↔
        Relation.EqvGen (fun u v => rt g u = rt g v) a b := by
      intro a b
      constructor
      · intro e; exact Relation.EqvGen.rel a b e
      · intro hab
        induction hab with
        | rel _ _ h => exact h
        | refl _ => rfl
        | symm _ _ _ ih => exact ih.symm
        | trans _ _ _ _ _ ih1 ih2 => exact ih1.trans ih2
    obtain ⟨s1, s2, _⟩ := setCurrGroupStep_spec hg hgl hi hcl (hent i hi) h0 h2
    obtain ⟨g1, h1⟩ := ih g2 s1 s2 (fun j hj => hl j (List.mem_cons_of_mem _ hj))
    refine ⟨g1, ?_⟩
    rw [setCurrGroupLoop, h2]
    exact h1

/-- `setCurrGroup` returns a table for every partial assignment whose entries are the
sentinel or nodes. -/
theorem setCurrGroup_total {n : Nat} {curr : List Int} (hcl : curr.length = n)
    (hent : ∀ i < n, at1 curr i = NIL ∨ ∃ v < n, at1 curr i = (v : Int)) :
    ∃ g, setCurrGroup curr = some g := by
  unfold setCurrGroup
  rw [hcl]
  exact setCurrGroupLoop_total hcl hent (List.range n) (range n) (groupOK_range n)
    (by simp [range]) (fun i hi => List.mem_range.1 hi)

/-- The root of a node is joined to the node, and no node joined to it is smaller. -/
theorem rt_least {n : Nat} {curr g : List Int} (hcl : curr.length = n)
    (hent : ∀ i < n, at1 curr i = NIL ∨ ∃ v < n, at1 curr i = (v : Int))
    (hs : setCurrGroup curr = some g) (a : Nat) :
    Relation.EqvGen (fun u v => nx curr u = some v) a (rt g a) ∧
    ∀ b, Relation.EqvGen (fun u v => nx curr u = some v) a b → rt g a ≤ b := by
  obtain ⟨h1, _, h3⟩ := setCurrGroup_spec hcl hent hs
  constructor
  · rw [← h3]
    exact (rt_of_fix (rt_fix h1 a)).symm
  · intro b hab
    rw [(h3 a b).2 hab]
    exact rt_le h1 b

/-- An arc that `isArcSkippable` does not let skip lies on every Hamiltonian cycle
through the arcs of the partial assignment. -/
theorem forced_arc {n : Nat} {s : Solver}
    (hc : CurrOK n s.pCurrOptTarget) (hs : setCurrGroup s.pCurrOptTarget = some s.pCurrGroup)
    {x y : Nat} (hx : x < n) (hfx : nx s.pCurrOptTarget x = none) (hy : y < n)
    (hfy : ∀ a, nx s.pCurrOptTarget a ≠ some y)
    (h : isArcSkippable s (x : Int) (y : Int) = some false)
    {σ : Nat → Nat} (hσ : Ham n σ) (he : Ext (nx s.pCurrOptTarget) σ) : σ x = y := by
  obtain ⟨m, hm⟩ := hσ.2.2 (σ y) (hσ.1 y hy) y hy
  rw [← Function.iterate_succ_apply, Function.iterate_succ_apply'] at hm
  have hz : σ^[m] y < n := hσ.iterate_lt hy m
  generalize σ^[m] y = z at hm hz
  have hfz : nx s.pCurrOptTarget z = none := by
    cases hnz : nx s.pCurrOptTarget z with
    | none => rfl
    | some w =>
      exfalso
      have := he z w hnz
      rw [hm] at this
      rw [← this] at hnz
      exact hfy z hnz
  by_contra hne
  have hzx : z ≠ x := fun e => hne (by rw [← e]; exact hm)
  have hnr : ¬ Reach (nx s.pCurrOptTarget) y z := by
    have := hσ.no_closing he hz hx hfx (fun e => hzx e.symm)
    rw [hm] at this
    exact this
  have := isArcSkippable_spec hc hs hx hfx hy hz hfz hzx hnr h
  cases this

end Solver

end TspSolver

namespace TspSolver

theorem wrapInt_add_wrap (a b : Int) : wrapInt (wrapInt a + b) = wrapInt (a + b) := by
  unfold wrapInt
  omega

theorem sumTo_const (k : Nat) (c : Int) : sumTo k (fun _ => c) = k * c := by
  induction k with
  | zero => simp [sumTo_zero]
  | succ k ih => rw [sumTo_succ, ih]; push_cast; ring

namespace Solver

/-! ## The reduction in exact terms, for every size -/

/-- The body of the row pass on a matrix of non-negative entries: the minimum `m` of
row `i` is subtracted from that row, and it is added to the bound in `int`. -/
theorem reduceRow_exact {k : Nat} {st : Reduction} (hsq : Square k st.costs)
    (hb : NonNegative k st.costs) {i : Nat} (hi : i < k) :
    ∃ m : Int, 0 ≤ m ∧ (∀ j < k, m ≤ at2 st.costs i j) ∧ (∃ j < k, m = at2 st.costs i j) ∧
      Square k (reduceRow k st i).costs ∧ NonNegative k (reduceRow k st i).costs ∧
      (∀ i' j', j' < k → at2 (reduceRow k st i).costs i' j'
        = at2 st.costs i' j' - (if i' = i then m else 0)) ∧
      (∀ S : Int, st.lowerBound = wrapInt S → (reduceRow k st i).lowerBound = wrapInt (S + m)) := by
  obtain ⟨⟨_, h2⟩, h3, _⟩ := rowScan_spec st.costs i st.zeroCostArcs k
  obtain ⟨z1, z2, _⟩ := reduceRow_zero hsq hb hi
  have hk : 0 < k := by omega
  have hm_ge : 0 ≤ (rowScan st.costs k i st.zeroCostArcs).2 := by
    rcases h3 with h3 | ⟨j, hj, h3⟩
    · rw [h3, INT_MAX_eq]; omega
    · rw [h3]; exact (hb i hi j hj).1
  have hatt : ∃ j < k, (rowScan st.costs k i st.zeroCostArcs).2 = at2 st.costs i j := by
    rcases h3 with h3 | ⟨j, hj, h3⟩
    · refine ⟨0, hk, ?_⟩
      have := h2 0 hk
      have := (hb i hi 0 hk).2
      omega
    · exact ⟨j, hj, h3⟩
  refine ⟨(rowScan st.costs k i st.zeroCostArcs).2, hm_ge, h2, hatt, z1, z2, ?_⟩
  unfold reduceRow
  by_cases hz : (rowScan st.costs k i st.zeroCostArcs).2 = 0
  · simp only [hz, if_true]
    refine ⟨fun i' j' _ => by split <;> omega, fun S hS => ?_⟩
    rw [hS, add_zero]
  · simp only [hz, if_false]
    obtain ⟨_, g2, _⟩ := rowSubtract_spec hsq hi (rowScan st.costs k i st.zeroCostArcs).2
      (rowScan st.costs k i st.zeroCostArcs).1 k (le_refl _)
    refine ⟨fun i' j' hj' => ?_, fun S hS => ?_⟩
    · rw [g2]
      by_cases hii : i' = i
      · subst hii
        rw [if_pos ⟨rfl, hj'⟩, if_pos rfl]
        have := hb i' hi j' hj'
        have := h2 j' hj'
        rw [INT_MAX_eq] at *
        apply wrapInt_eq <;> omega
      · rw [if_neg (fun h => hii h.1), if_neg hii]
        omega
    · rw [hS, wrapInt_add_wrap]

/-- The body of the column pass on a matrix of non-negative entries: the minimum `m` of
column `j` is subtracted from that column, and it is added to the bound in `int`. -/
theorem reduceCol_exact {k : Nat} {st : Reduction} (hsq : Square k st.costs)
    (hb : NonNegative k st.costs) {j : Nat} (hj : j < k) :
    ∃ m : Int, 0 ≤ m ∧ (∀ i < k, m ≤ at2 st.costs i j) ∧ (∃ i < k, m = at2 st.costs i j) ∧
      Square k (reduceCol k st j).costs ∧ NonNegative k (reduceCol k st j).costs ∧
      (∀ i' j', i' < k → at2 (reduceCol k st j).costs i' j'
        = at2 st.costs i' j' - (if j' = j then m else 0)) ∧
      (∀ S : Int, st.lowerBound = wrapInt S → (reduceCol k st j).lowerBound = wrapInt (S + m)) := by
  obtain ⟨⟨_, h2⟩, h3⟩ := colScan_spec st.costs j k
  have hk : 0 < k := by omega
  have hm_ge : 0 ≤ colScan st.costs k j := by
    rcases h3 with h3 | ⟨i, hi, h3⟩
    · rw [h3, INT_MAX_eq]; omega
    · rw [h3]; exact (hb i hi j hj).1
  have hatt : ∃ i < k, colScan st.costs k j = at2 st.costs i j := by
    rcases h3 with h3 | ⟨i, hi, h3⟩
    · refine ⟨0, hk, ?_⟩
      have := h2 0 hk
      have := (hb 0 hk j hj).2
      omega
    · exact ⟨i, hi, h3⟩
  refine ⟨colScan st.costs k j, hm_ge, h2, hatt, reduceCol_square hsq hj, ?_⟩
  unfold reduceCol
  by_cases hz : colScan st.costs k j = 0
  · simp only [hz, if_true]
    refine ⟨hb, fun i' j' _ => by split <;> omega, fun S hS => ?_⟩
    rw [hS, add_zero]
  · simp only [hz, if_false]
    obtain ⟨_, g2, _⟩ := colSubtract_spec hsq hj (colScan st.costs k j) st.zeroCostArcs k
      (le_refl _)
    have hcell : ∀ i' j', i' < k → at2 (colSubtract k j (colScan st.costs k j)
        st.costs st.zeroCostArcs).1 i' j'
        = at2 st.costs i' j' - (if j' = j then colScan st.costs k j else 0) := by
      intro i' j' hi'
      rw [g2]
      by_cases hjj : j' = j
      · subst hjj
        rw [if_pos ⟨hi', rfl⟩, if_pos rfl]
        have := hb i' hi' j' hj
        have := h2 i' hi'
        rw [INT_MAX_eq] at *
        apply wrapInt_eq <;> omega
      · rw [if_neg (fun h => hjj h.2), if_neg hjj]
        omega
    refine ⟨fun i' hi' j' hj' => ?_, hcell, fun S hS => ?_⟩
    · rw [hcell i' j' hi']
      have := hb i' hi' j' hj'
      by_cases hjj : j' = j
      · subst hjj
        rw [if_pos rfl]
        have := h2 i' hi'
        omega
      · rw [if_neg hjj]; omega
    · rw [hS, wrapInt_add_wrap]

/-- The row pass of `extractLowerBound` on a matrix of non-negative entries, after `t`
rows: row `i` has been lowered by its minimum `ρ i`, and the bound is the sum of these
minima reduced into the range of `int`. -/
theorem rowPass_exact {k : Nat} {G : List (List Int)} (hsq : Square k G)
    (hb : NonNegative k G) :
    ∀ t ≤ k, ∃ ρ : Nat → Int, (∀ i, 0 ≤ ρ i) ∧
      Square k ((List.range t).foldl (reduceRow k) ⟨G, [], 0⟩).costs ∧
      NonNegative k ((List.range t).foldl (reduceRow k) ⟨G, [], 0⟩).costs ∧
      (∀ i' j', j' < k →
        at2 ((List.range t).foldl (reduceRow k) ⟨G, [], 0⟩).costs i' j'
          = at2 G i' j' - (if i' < t then ρ i' else 0)) ∧
      (∀ i < t, ∀ j < k, ρ i ≤ at2 G i j) ∧
      (∀ i < t, ∃ j < k, ρ i = at2 G i j) ∧
      ((List.range t).foldl (reduceRow k) ⟨G, [], 0⟩).lowerBound = wrapInt (sumTo t ρ) := by
  intro t
  induction t with
  | zero =>
    intro _
    refine ⟨fun _ => 0, fun _ => le_refl _, hsq, hb, ?_, ?_, ?_, rfl⟩
    · intro i' j' _
      show at2 G i' j' = _
      simp
    · intro i hi
      exact absurd hi (Nat.not_lt_zero i)
    · intro i hi
      exact absurd hi (Nat.not_lt_zero i)
  | succ t ih =>
    intro ht
    obtain ⟨ρ, hρ, h1, hbst, h2, h3, h3', h4⟩ := ih (by omega)
    rw [List.range_succ, List.foldl_append]
    generalize (List.range t).foldl (reduceRow k) ⟨G, [], 0⟩ = st at h1 hbst h2 h3 h3' h4 ⊢
    obtain ⟨m, hm0, hm2, hm3, g1, g1', g2, g3⟩ := reduceRow_exact h1 hbst (show t < k by omega)
    show ∃ ρ : Nat → Int, _ ∧ Square k (reduceRow k st t).costs ∧
      NonNegative k (reduceRow k st t).costs ∧
      (∀ i' j', j' < k → at2 (reduceRow k st t).costs i' j' = _) ∧ _ ∧ _ ∧
      (reduceRow k st t).lowerBound = _
    refine ⟨fun i => if i = t then m else ρ i, ?_, g1, g1', ?_, ?_, ?_, ?_⟩
    · intro i
      by_cases hit : i = t
      · simp only [hit, if_true]; exact hm0
      · simp only [hit, if_false]; exact hρ i
    · intro i' j' hj'
      rw [g2 i' j' hj', h2 i' j' hj']
      by_cases hit : i' = t
      · subst hit
        simp
      · simp only [hit, if_false]
        by_cases hlt : i' < t
        · rw [if_pos hlt, if_pos (by omega)]; omega
        · rw [if_neg hlt, if_neg (by omega)]; omega
    · intro i hi j hj
      by_cases hit : i = t
      · subst hit
        simp only [if_true]
        have := hm2 j hj
        rw [h2 i j hj, if_neg (by omega)] at this
        omega
      · simp only [hit, if_false]
        exact h3 i (by omega) j hj
    · intro i hi
      by_cases hit : i = t
      · subst hit
        simp only [if_true]
        obtain ⟨j, hj, e⟩ := hm3
        refine ⟨j, hj, ?_⟩
        rw [h2 i j hj, if_neg (by omega)] at e
        omega
      · simp only [hit, if_false]
        exact h3' i (by omega)
    · rw [g3 _ h4, sumTo_succ]
      simp only [if_true]
      rw [sumTo_congr t (fun i => if i = t then m else ρ i) ρ
        (fun i hi => by simp only [show i ≠ t by omega, if_false])]

/-- The column pass of `extractLowerBound` on a matrix of non-negative entries, after
`t` columns: column `j` has been lowered by its minimum `γ j`. -/
theorem colPass_exact {k : Nat} {st0 : Reduction} (hsq : Square k st0.costs)
    (hb : NonNegative k st0.costs) :
    ∀ t ≤ k, ∃ γ : Nat → Int, (∀ j, 0 ≤ γ j) ∧
      Square k ((List.range t).foldl (reduceCol k) st0).costs ∧
      NonNegative k ((List.range t).foldl (reduceCol k) st0).costs ∧
      (∀ i' j', i' < k →
        at2 ((List.range t).foldl (reduceCol k) st0).costs i' j'
          = at2 st0.costs i' j' - (if j' < t then γ j' else 0)) ∧
      (∀ j < t, ∀ i < k, γ j ≤ at2 st0.costs i j) ∧
      (∀ j < t, ∃ i < k, γ j = at2 st0.costs i j) ∧
      (∀ S : Int, st0.lowerBound = wrapInt S →
        ((List.range t).foldl (reduceCol k) st0).lowerBound = wrapInt (S + sumTo t γ)) := by
  intro t
  induction t with
  | zero =>
    intro _
    refine ⟨fun _ => 0, fun _ => le_refl _, hsq, hb, ?_, ?_, ?_, ?_⟩
    · intro i' j' _
      show at2 st0.costs i' j' = _
      simp
    · intro i hi
      exact absurd hi (Nat.not_lt_zero i)
    · intro i hi
      exact absurd hi (Nat.not_lt_zero i)
    · intro S hS
      show st0.lowerBound = _
      rw [sumTo_zero, add_zero]
      exact hS
  | succ t ih =>
    intro ht
    obtain ⟨γ, hγ, h1, hbst, h2, h3, h3', h4⟩ := ih (by omega)
    rw [List.range_succ, List.foldl_append]
    generalize (List.range t).foldl (reduceCol k) st0 = st at h1 hbst h2 h3 h3' h4 ⊢
    obtain ⟨m, hm0, hm2, hm3, g1, g1', g2, g3⟩ := reduceCol_exact h1 hbst (show t < k by omega)
    show ∃ γ : Nat → Int, _ ∧ Square k (reduceCol k st t).costs ∧
      NonNegative k (reduceCol k st t).costs ∧
      (∀ i' j', i' < k → at2 (reduceCol k st t).costs i' j' = _) ∧ _ ∧ _ ∧
      (∀ S : Int, st0.lowerBound = wrapInt S → (reduceCol k st t).lowerBound = _)
    refine ⟨fun j => if j = t then m else γ j, ?_, g1, g1', ?_, ?_, ?_, ?_⟩
    · intro j
      by_cases hjt : j = t
      · simp only [hjt, if_true]; exact hm0
      · simp only [hjt, if_false]; exact hγ j
    · intro i' j' hi'
      rw [g2 i' j' hi', h2 i' j' hi']
      by_cases hjt : j' = t
      · subst hjt
        simp
      · simp only [hjt, if_false]
        by_cases hlt : j' < t
        · rw [if_pos hlt, if_pos (by omega)]; omega
        · rw [if_neg hlt, if_neg (by omega)]; omega
    · intro j hj i hi
      by_cases hjt : j = t
      · subst hjt
        simp only [if_true]
        have := hm2 i hi
        rw [h2 i j hi, if_neg (by omega)] at this
        omega
      · simp only [hjt, if_false]
        exact h3 j (by omega) i hi
    · intro j hj
      by_cases hjt : j = t
      · subst hjt
        simp only [if_true]
        obtain ⟨i, hi, e⟩ := hm3
        refine ⟨i, hi, ?_⟩
        rw [h2 i j hi, if_neg (by omega)] at e
        omega
      · simp only [hjt, if_false]
        exact h3' j (by omega)
    · intro S hS
      rw [g3 _ (h4 S hS), sumTo_succ]
      simp only [if_true]
      rw [sumTo_congr t (fun j => if j = t then m else γ j) γ
        (fun i hi => by simp only [show i ≠ t by omega, if_false])]
      rw [add_assoc]

/-- What `extractLowerBound` computes on a square matrix of non-negative entries, for
every size: row `i` is lowered by its minimum `ρ i`, then column `j` by its minimum
`γ j`; no entry becomes negative, every row and every column of the result contains a
zero, and the returned bound is the sum of all `ρ i` and `γ j` reduced into the range
of `int`. -/
theorem extractLowerBound_exact {k : Nat} {G : List (List Int)} (hsq : Square k G)
    (hb : NonNegative k G) :
    ∃ ρ γ : Nat → Int, (∀ i, 0 ≤ ρ i) ∧ (∀ j, 0 ≤ γ j) ∧
      Square k (extractLowerBound G).costs ∧ NonNegative k (extractLowerBound G).costs ∧
      (∀ i < k, ∀ j < k, at2 (extractLowerBound G).costs i j = at2 G i j - ρ i - γ j) ∧
      (extractLowerBound G).lowerBound = wrapInt (sumTo k ρ + sumTo k γ) ∧
      (∀ i < k, ∃ j < k, ρ i = at2 G i j) ∧
      (∀ i < k, ∃ j < k, at2 (extractLowerBound G).costs i j = 0) ∧
      (∀ j < k, ∃ i < k, at2 (extractLowerBound G).costs i j = 0) := by
  obtain ⟨ρ, hρ, r1, r1', r2, r3, r3', r4⟩ := rowPass_exact hsq hb k (le_refl _)
  unfold extractLowerBound
  rw [hsq.1]
  generalize (List.range k).foldl (reduceRow k) ⟨G, [], 0⟩ = st0 at r1 r1' r2 r3 r3' r4 ⊢
  obtain ⟨γ, hγ, c1, c1', c2, c3, c3', c4⟩ := colPass_exact r1 r1' k (le_refl _)
  generalize (List.range k).foldl (reduceCol k) st0 = st at c1 c1' c2 c3 c3' c4 ⊢
  have hcell : ∀ i < k, ∀ j < k, at2 st.costs i j = at2 G i j - ρ i - γ j := by
    intro i hi j hj
    rw [c2 i j hi, if_pos hj, r2 i j hj, if_pos hi]
  refine ⟨ρ, γ, hρ, hγ, c1, c1', hcell, c4 _ r4, r3', ?_, ?_⟩
  · intro i hi
    obtain ⟨j, hj, e⟩ := r3' i hi
    refine ⟨j, hj, ?_⟩
    have h0 : at2 st0.costs i j = 0 := by rw [r2 i j hj, if_pos hi]; omega
    have := c3 j hj i hi
    have := hγ j
    rw [c2 i j hi, if_pos hj]
    omega
  · intro j hj
    obtain ⟨i, hi, e⟩ := c3' j hj
    refine ⟨i, hi, ?_⟩
    rw [c2 i j hi, if_pos hj]
    omega

end Solver

end TspSolver

namespace TspSolver

theorem uniformCosts_square (n : Nat) (c : Int) : Square n (uniformCosts n c) := by
  refine ⟨uniformCosts_length n c, ?_⟩
  intro row hrow
  unfold uniformCosts at hrow
  rw [List.mem_map] at hrow
  obtain ⟨i, _, rfl⟩ := hrow
  simp

theorem uniformCosts_sentinel_valid (n : Nat) (hn : 1 < n) : ValidMatrix (uniformCosts n NIL) := by
  refine ⟨by rw [uniformCosts_length]; exact hn, (uniformCosts_square n NIL).2 |> fun h => ?_, ?_, ?_⟩
  · intro row hrow
    rw [uniformCosts_length]
    exact h row hrow
  · intro i hi
    rw [uniformCosts_length] at hi
    rw [uniformCosts_at2 n NIL i i hi hi, if_pos rfl]
  · intro i hi j hj hij
    rw [uniformCosts_length] at hi hj
    rw [uniformCosts_at2 n NIL i j hi hj, if_neg hij]
    exact Or.inl rfl

theorem Bounded.nonNegative {k : Nat} {W : List (List Int)} (h : Bounded k W) :
    NonNegative k W := by
  intro i hi j hj
  have := h i hi j hj
  rw [NIL_eq] at this
  rw [INT_MAX_eq]
  omega

namespace Solver

/-- On the matrix of 257 rows whose entries are all the sentinel, `extractLowerBound`
subtracts the sentinel from every row and leaves the zero matrix; the bound it returns
is 257 times the sentinel reduced into the range of `int`. -/
theorem extractLowerBound_uniform_sentinel :
    (∀ i < 257, ∀ j < 257, at2 (uniformCosts 257 NIL) i j = NIL) ∧
    (∀ i < 257, ∀ j < 257, at2 (extractLowerBound (uniformCosts 257 NIL)).costs i j = 0) ∧
    (extractLowerBound (uniformCosts 257 NIL)).lowerBound = -2139095297 := by
  have hG : ∀ i < 257, ∀ j < 257, at2 (uniformCosts 257 NIL) i j = NIL := by
    intro i hi j hj
    rw [uniformCosts_at2 257 NIL i j hi hj]
    split <;> rfl
  have hnn : NonNegative 257 (uniformCosts 257 NIL) := by
    intro i hi j hj
    rw [hG i hi j hj, NIL_eq, INT_MAX_eq]
    omega
  obtain ⟨ρ, γ, _, hγ, _, rnn, rcell, rlb, ratt, _⟩ :=
    extractLowerBound_exact (uniformCosts_square 257 NIL) hnn
  have hρ : ∀ i < 257, ρ i = NIL := by
    intro i hi
    obtain ⟨j, hj, e⟩ := ratt i hi
    rw [e, hG i hi j hj]
  have hγ0 : ∀ j < 257, γ j = 0 := by
    intro j hj
    have h1 := (rnn 0 (by omega) j hj).1
    rw [rcell 0 (by omega) j hj, hG 0 (by omega) j hj, hρ 0 (by omega)] at h1
    have := hγ j
    omega
  refine ⟨hG, fun i hi j hj => ?_, ?_⟩
  · rw [rcell i hi j hj, hG i hi j hj, hρ i hi, hγ0 j hj]
    omega
  · rw [rlb, sumTo_congr 257 ρ (fun _ => NIL) hρ, sumTo_congr 257 γ (fun _ => 0) hγ0,
      sumTo_const, sumTo_const, NIL_eq]
    unfold wrapInt
    norm_num

end Solver

end TspSolver

namespace TspSolver

theorem Square.ext {k : Nat} {A B : List (List Int)} (hA : Square k A) (hB : Square k B)
    (h : ∀ i < k, ∀ j < k, at2 A i j = at2 B i j) : A = B := by
  apply List.ext_getElem (by rw [hA.1, hB.1])
  intro i h1 h2
  have hi : i < k := by rw [← hA.1]; exact h1
  have eA : A.getD i [] = A[i] := by
    rw [List.getD_eq_getElem?_getD, List.getElem?_eq_getElem h1, Option.getD_some]
  have eB : B.getD i [] = B[i] := by
    rw [List.getD_eq_getElem?_getD, List.getElem?_eq_getElem h2, Option.getD_some]
  have lA : A[i].length = k := hA.2 _ (List.getElem_mem _)
  have lB : B[i].length = k := hB.2 _ (List.getElem_mem _)
  apply List.ext_getElem (by rw [lA, lB])
  intro j h3 h4
  have hj : j < k := by rw [← lA]; exact h3
  have := h i hi j hj
  unfold at2 at this
  rw [eA, eB, List.getD_eq_getElem?_getD, List.getElem?_eq_getElem h3, Option.getD_some,
    List.getD_eq_getElem?_getD, List.getElem?_eq_getElem h4, Option.getD_some] at this
  exact this

theorem NonNegative.setCell_nonneg {k : Nat} {W : List (List Int)} (h : NonNegative k W)
    (hsq : Square k W) {i j : Nat} (hi : i < k) (hj : j < k) {v : Int} (h0 : 0 ≤ v)
    (h1 : v ≤ INT_MAX) : NonNegative k (setCell W i j v) := by
  intro i' hi' j' hj'
  rw [at2_setCell hsq hi hj]
  split
  · exact ⟨h0, h1⟩
  · exact h i' hi' j' hj'

namespace Solver

/-- The reduction lowers entries only. -/
theorem extractLowerBound_le {k : Nat} {G : List (List Int)} (hsq : Square k G)
    (hb : NonNegative k G) :
    ∀ i < k, ∀ j < k, at2 (extractLowerBound G).costs i j ≤ at2 G i j := by
  obtain ⟨ρ, γ, hρ, hγ, _, _, rcell, _⟩ := extractLowerBound_exact hsq hb
  intro i hi j hj
  rw [rcell i hi j hj]
  have := hρ i
  have := hγ j
  omega

/-- The arc that `Solver::solve` reads is a zero cell of the reduced matrix. -/
theorem bestArc_cell {k : Nat} {G : List (List Int)} (hsq : Square k G)
    (hb : NonNegative k G) {row col : Nat}
    (hrow : (searchBestAdvantageArc (extractLowerBound G).costs
      (extractLowerBound G).zeroCostArcs).row = some row)
    (hcol : (searchBestAdvantageArc (extractLowerBound G).costs
      (extractLowerBound G).zeroCostArcs).col = some col) :
    row < k ∧ col < k ∧ at2 (extractLowerBound G).costs row col = 0 :=
  ((extractLowerBound_zero hsq hb).2.2.1 _).1 (searchBestAdvantageArc_mem _ _ hrow hcol)

/-- The exclude branch on a matrix of non-negative entries, given what the recursive
call leaves. -/
theorem solveExclude_matrix {k : Nat} {fuel : Nat}
    (ih : ∀ (s : Solver) (rowTitle colTitle : List Int) (costs : List (List Int)) (lb : Int)
      (r : Solver × List (List Int)), Square k costs → NonNegative k costs →
      solve fuel s rowTitle colTitle costs lb = .ok r →
      Square k r.2 ∧ NonNegative k r.2 ∧ ∀ i < k, ∀ j < k, at2 r.2 i j ≤ at2 costs i j)
    {skp : Bool} {s : Solver} {rowTitle colTitle : List Int} {costs : List (List Int)}
    {row col : Nat} {lb : Int} {r : Solver × List (List Int)} (hsq : Square k costs)
    (hb : NonNegative k costs) (hrow : row < k) (hcol : col < k)
    (h : solveExclude (solve fuel) skp s rowTitle colTitle costs row col lb = .ok r) :
    Square k r.2 ∧ NonNegative k r.2 ∧ (∀ i < k, ∀ j < k, at2 r.2 i j ≤ at2 costs i j) ∧
    (r.2 = costs ∨ ∃ r2, solve fuel s rowTitle colTitle (setCell costs row col NIL) lb = .ok r2 ∧
      r.2 = setCell r2.2 row col (at2 costs row col)) := by
  rcases solveExclude_inv h with ⟨_, rfl⟩ | ⟨_, r2, hr2, rfl⟩
  · exact ⟨hsq, hb, fun _ _ _ _ => le_refl _, Or.inl rfl⟩
  · have hN : NonNegative k (setCell costs row col NIL) :=
      hb.setCell_nonneg hsq hrow hcol (by rw [NIL_eq]; omega) (by rw [NIL_eq, INT_MAX_eq]; omega)
    obtain ⟨q1, q2, q3⟩ := ih _ _ _ _ _ r2 (hsq.setCell row col NIL) hN hr2
    refine ⟨q1.setCell _ _ _, q2.setCell_nonneg q1 hrow hcol (hb row hrow col hcol).1
      (hb row hrow col hcol).2, fun i hi j hj => ?_, Or.inr ⟨r2, hr2, rfl⟩⟩
    show at2 (setCell r2.2 row col (at2 costs row col)) i j ≤ _
    rw [at2_setCell q1 hrow hcol]
    by_cases hc : i = row ∧ j = col
    · rw [if_pos hc, hc.1, hc.2]
    · rw [if_neg hc]
      have := q3 i hi j hj
      rw [at2_setCell hsq hrow hcol, if_neg hc] at this
      exact this

/-- The working matrix at the return of `Solver::solve` on a matrix of non-negative
entries: same shape, non-negative entries, no entry above its value at entry. -/
theorem solve_matrix {k : Nat} : ∀ (fuel : Nat) (s : Solver) (rowTitle colTitle : List Int)
    (costs : List (List Int)) (lb : Int) (r : Solver × List (List Int)),
    Square k costs → NonNegative k costs → solve fuel s rowTitle colTitle costs lb = .ok r →
    Square k r.2 ∧ NonNegative k r.2 ∧ ∀ i < k, ∀ j < k, at2 r.2 i j ≤ at2 costs i j := by
  intro fuel
  induction fuel with
  | zero =>
    intro s rowTitle colTitle costs lb r _ _ h
    rw [solve] at h
    cases h
  | succ fuel ih =>
    intro s rowTitle colTitle costs lb r hsq hb h
    obtain ⟨_, _, _, _, rsq, rnn, _⟩ := extractLowerBound_exact hsq hb
    have rle := extractLowerBound_le hsq hb
    have hred : Square k (extractLowerBound costs).costs ∧
        NonNegative k (extractLowerBound costs).costs ∧
        ∀ i < k, ∀ j < k, at2 (extractLowerBound costs).costs i j ≤ at2 costs i j :=
      ⟨rsq, rnn, rle⟩
    rcases solve_inv h with ⟨_, rfl⟩ | ⟨_, _, rfl⟩ |
      ⟨_, _, g, row, col, sel, skp, s2, _, hrow, hcol, _, _, _, hc⟩
    · exact ⟨hsq, hb, fun _ _ _ _ => le_refl _⟩
    · exact hred
    · obtain ⟨hr, hcl, _⟩ := bestArc_cell hsq hb hrow hcol
      have hex : ∀ (s3 : Solver) (lb2 : Int),
          solveExclude (solve fuel) skp s3 rowTitle colTitle (extractLowerBound costs).costs
            row col lb2 = .ok r →
          Square k r.2 ∧ NonNegative k r.2 ∧ ∀ i < k, ∀ j < k, at2 r.2 i j ≤ at2 costs i j := by
        intro s3 lb2 hx
        obtain ⟨q1, q2, q3, _⟩ := solveExclude_matrix ih rsq rnn hr hcl hx
        exact ⟨q1, q2, fun i hi j hj => le_trans (q3 i hi j hj) (rle i hi j hj)⟩
      rcases hc with ⟨_, _, rfl⟩ | ⟨_, _, r1, _, hx⟩ | ⟨_, hx⟩
      · exact hred
      · exact hex _ _ hx
      · exact hex _ _ hx

/-- What a call of `Solver::solve` that passes the bound check at entry leaves of a
matrix of non-negative entries: the reduced matrix, or the matrix left by the recursive
call of the exclude branch with the excluded cell, a zero of the reduced matrix, put
back; in both cases no entry is above its value in the reduced matrix. -/
theorem solve_matrix_passed {k : Nat} {fuel : Nat} {s : Solver} {rowTitle colTitle : List Int}
    {costs : List (List Int)} {lb : Int} {r : Solver × List (List Int)}
    (hsq : Square k costs) (hb : NonNegative k costs)
    (h : solve (fuel + 1) s rowTitle colTitle costs lb = .ok r) (h1 : ¬ lb ≥ s.pUpperBound) :
    (∀ i < k, ∀ j < k, at2 r.2 i j ≤ at2 (extractLowerBound costs).costs i j) ∧
    (r.2 = (extractLowerBound costs).costs ∨
      ∃ (row col : Nat) (s3 : Solver) (lb2 : Int) (r2 : Solver × List (List Int)),
        row < k ∧ col < k ∧ at2 (extractLowerBound costs).costs row col = 0 ∧
        solve fuel s3 rowTitle colTitle (setCell (extractLowerBound costs).costs row col NIL) lb2
          = .ok r2 ∧
        r.2 = setCell r2.2 row col (at2 (extractLowerBound costs).costs row col)) := by
  obtain ⟨_, _, _, _, rsq, rnn, _⟩ := extractLowerBound_exact hsq hb
  rcases solve_inv h with ⟨h0, _⟩ | ⟨_, _, rfl⟩ |
    ⟨_, _, g, row, col, sel, skp, s2, _, hrow, hcol, _, _, _, hc⟩
  · exact absurd h0 h1
  · exact ⟨fun _ _ _ _ => le_refl _, Or.inl rfl⟩
  · obtain ⟨hr, hcl, hz⟩ := bestArc_cell hsq hb hrow hcol
    have hex : ∀ (s3 : Solver) (lb2 : Int),
        solveExclude (solve fuel) skp s3 rowTitle colTitle (extractLowerBound costs).costs
          row col lb2 = .ok r →
        (∀ i < k, ∀ j < k, at2 r.2 i j ≤ at2 (extractLowerBound costs).costs i j) ∧
        (r.2 = (extractLowerBound costs).costs ∨
          ∃ (row col : Nat) (s3 : Solver) (lb2 : Int) (r2 : Solver × List (List Int)),
            row < k ∧ col < k ∧ at2 (extractLowerBound costs).costs row col = 0 ∧
            solve fuel s3 rowTitle colTitle
              (setCell (extractLowerBound costs).costs row col NIL) lb2 = .ok r2 ∧
            r.2 = setCell r2.2 row col (at2 (extractLowerBound costs).costs row col)) := by
      intro s3 lb2 hx
      obtain ⟨_, _, q3, q4⟩ := solveExclude_matrix (solve_matrix fuel) rsq rnn hr hcl hx
      refine ⟨q3, ?_⟩
      rcases q4 with e | ⟨r2, hr2, e⟩
      · exact Or.inl e
      · exact Or.inr ⟨row, col, s3, lb2, r2, hr, hcl, hz, hr2, e⟩
    rcases hc with ⟨_, _, rfl⟩ | ⟨_, _, r1, _, hx⟩ | ⟨_, hx⟩
    · exact ⟨fun _ _ _ _ => le_refl _, Or.inl rfl⟩
    · exact hex _ _ hx
    · exact hex _ _ hx

/-- A matrix that `Solver::solve` leaves as it was at entry, after passing the bound
check there, is a matrix that the reduction leaves as it is. -/
theorem solve_unchanged_reduced {k : Nat} {fuel : Nat} {s : Solver}
    {rowTitle colTitle : List Int} {costs : List (List Int)} {lb : Int}
    {r : Solver × List (List Int)} (hsq : Square k costs) (hb : NonNegative k costs)
    (h : solve (fuel + 1) s rowTitle colTitle costs lb = .ok r) (h1 : ¬ lb ≥ s.pUpperBound)
    (he : r.2 = costs) : (extractLowerBound costs).costs = costs := by
  obtain ⟨_, _, _, _, rsq, _⟩ := extractLowerBound_exact hsq hb
  have h2 := (solve_matrix_passed hsq hb h h1).1
  have h3 := extractLowerBound_le hsq hb
  apply rsq.ext hsq
  intro i hi j hj
  have a := h2 i hi j hj
  have b := h3 i hi j hj
  rw [he] at a
  omega

end Solver

/-- A valid matrix is square with non-negative entries. -/
theorem ValidMatrix.square_nonNegative {costs : List (List Int)} (hv : ValidMatrix costs) :
    Square costs.length costs ∧ NonNegative costs.length costs :=
  ⟨⟨rfl, hv.2.1⟩, Bounded.nonNegative (fun _ hi _ hj => hv.entry_bounds hi hj)⟩

end TspSolver

namespace TspSolver

set_option maxRecDepth 100000 in
/-- A call that passes both bound checks and leaves the matrix as it was at entry: the
two-node matrix with both edges at cost 0 is its own reduced matrix. -/
theorem Solver.solve_keeps_reduced_matrix :
    ∃ r, Solver.solve 2 (Solver.initOptPath [[NIL, 0], [0, NIL]]) (range 2) (range 2)
        [[NIL, 0], [0, NIL]] 0 = .ok r ∧
      r.2 = [[NIL, 0], [0, NIL]] ∧
      (Solver.extractLowerBound [[NIL, 0], [0, NIL]]).costs = [[NIL, 0], [0, NIL]] :=
  ⟨_, rfl, by decide, by decide⟩

end TspSolver

namespace TspSolver

namespace BruteForceSolver

/-- The loop of `BruteForceSolver::solve` in `int` arithmetic, whatever the size of the
sums: the best cycle after the loop is the one before it or a completion of the path,
recorded with its cost reduced to the range of `int`. -/
theorem solveLoop_sum {costs : List (List Int)} {n : Nat}
    (recurse : BruteForceSolver → Nat → Int → Nat → Option BruteForceSolver)
    (from_ : Nat) (L : Int) (pl : Nat) (curr : List Int) (hfromNIL : at1 curr from_ = NIL)
    (hrec : ∀ to_ ∈ unvisited n curr from_, ∀ s1 s2 : BruteForceSolver,
      s1.pCurrOptTarget = curr.set from_ (to_ : Int) → s1.pOriginalCosts = costs →
      recurse s1 to_ (wrapInt (L + at2 costs from_ to_)) (pl + 1) = some s2 →
      s2.pCurrOptTarget = s1.pCurrOptTarget ∧ s2.pOriginalCosts = costs ∧
      ((s2.pUpperBound = s1.pUpperBound ∧ s2.pOptTarget = s1.pOptTarget) ∨
        ∃ q, IsCompletion n s1.pCurrOptTarget to_ q ∧
          s2.pUpperBound = wrapInt (L + at2 costs from_ to_ + closeCost costs to_ q) ∧
          s2.pOptTarget = assignTour s1.pCurrOptTarget to_ q)) :
    ∀ (cands : List Nat), (∀ x ∈ cands, x < n) → ∀ s s' : BruteForceSolver,
      s.pCurrOptTarget = curr → s.pOriginalCosts = costs →
      solveLoop recurse from_ (wrapInt L) pl cands s = some s' →
      s'.pCurrOptTarget = curr ∧ s'.pOriginalCosts = costs ∧
      ((s'.pUpperBound = s.pUpperBound ∧ s'.pOptTarget = s.pOptTarget) ∨
        ∃ to_ q, to_ ∈ unvisited n curr from_ ∧
          IsCompletion n (curr.set from_ (to_ : Int)) to_ q ∧
          s'.pUpperBound = wrapInt (L + at2 costs from_ to_ + closeCost costs to_ q) ∧
          s'.pOptTarget = assignTour (curr.set from_ (to_ : Int)) to_ q) := by
  intro cands
  induction cands with
  | nil =>
    intro _ s s' hc ho h
    rw [solveLoop] at h
    cases h
    exact ⟨hc, ho, Or.inl ⟨rfl, rfl⟩⟩
  | cons to_ rest ih =>
    intro hcands s s' hc ho h
    have hrest : ∀ x ∈ rest, x < n := fun x hx => hcands x (List.mem_cons_of_mem _ hx)
    have hto_lt : to_ < n := hcands to_ (List.mem_cons_self _ _)
    rw [solveLoop] at h
    by_cases h1 : to_ = from_
    · rw [if_pos h1] at h
      exact ih hrest s s' hc ho h
    · rw [if_neg h1] at h
      by_cases h2 : at1 s.pCurrOptTarget to_ ≠ NIL
      · rw [if_pos h2] at h
        exact ih hrest s s' hc ho h
      · rw [if_neg h2] at h
        have h2' : at1 curr to_ = NIL := by
          rw [hc] at h2
          exact not_not.1 h2
        have htu : to_ ∈ unvisited n curr from_ := mem_unvisited.2 ⟨hto_lt, h1, h2'⟩
        have e : at2 s.pOriginalCosts from_ to_ = at2 costs from_ to_ := by rw [ho]
        rw [wrapInt_add_wrap, e] at h
        cases hr : recurse { s with pCurrOptTarget := s.pCurrOptTarget.set from_ (to_ : Int) } to_
            (wrapInt (L + at2 costs from_ to_)) (pl + 1) with
        | none => rw [hr] at h; cases h
        | some s2 =>
          rw [hr] at h
          dsimp only at h
          obtain ⟨hp1, hp2, hp5⟩ := hrec to_ htu
            { s with pCurrOptTarget := s.pCurrOptTarget.set from_ (to_ : Int) } s2
            (by simp [hc]) ho hr
          simp only at hp1 hp5
          have hc3 : s2.pCurrOptTarget.set from_ NIL = curr := by
            rw [hp1, hc]
            exact set_set_restore _ _ _ _ hfromNIL
          obtain ⟨hc', ho', hdisj⟩ :=
            ih hrest { s2 with pCurrOptTarget := s2.pCurrOptTarget.set from_ NIL } s' hc3
              (by simp [hp2]) h
          simp only at hdisj
          refine ⟨hc', ho', ?_⟩
          rcases hdisj with ⟨e1, e2⟩ | hx
          · rcases hp5 with ⟨e3, e4⟩ | ⟨q, hq1, hq2, hq3⟩
            · exact Or.inl ⟨e1.trans e3, e2.trans e4⟩
            · refine Or.inr ⟨to_, q, htu, ?_, ?_, ?_⟩
              · rw [← hc]; exact hq1
              · rw [e1, hq2]
              · rw [e2, hq3, hc]
          · exact Or.inr hx

/-- A call of `BruteForceSolver::solve` in `int` arithmetic, whatever the size of the
sums: the best cycle after the call is the one before it or a completion of the path,
recorded with its cost reduced to the range of `int`. -/
theorem solve_sum {costs : List (List Int)} {n : Nat} (hn0 : 0 < n) (hnN : n ≤ 8388607) :
    ∀ (fuel : Nat) (s : BruteForceSolver) (from_ : Nat) (L : Int) (pl : Nat)
      (s2 : BruteForceSolver),
      s.pOriginalCosts = costs → s.pCurrOptTarget.length = n → from_ < n →
      at1 s.pCurrOptTarget from_ = NIL →
      pl + (unvisited n s.pCurrOptTarget from_).length + 1 = n →
      solve fuel s from_ (wrapInt L) pl = some s2 →
      s2.pCurrOptTarget = s.pCurrOptTarget ∧ s2.pOriginalCosts = costs ∧
      ((s2.pUpperBound = s.pUpperBound ∧ s2.pOptTarget = s.pOptTarget) ∨
        ∃ q, IsCompletion n s.pCurrOptTarget from_ q ∧
          s2.pUpperBound = wrapInt (L + closeCost costs from_ q) ∧
          s2.pOptTarget = assignTour s.pCurrOptTarget from_ q) := by
  intro fuel
  induction fuel with
  | zero =>
    intro s from_ L pl s2 _ _ _ _ _ h
    rw [solve] at h
    cases h
  | succ fuel ih =>
    intro s from_ L pl s2 ho hlen hfrom hfromNIL hpl h
    rw [solve] at h
    by_cases h1 : wrapInt L ≥ s.pUpperBound
    · rw [if_pos h1] at h
      cases h
      exact ⟨rfl, ho, Or.inl ⟨rfl, rfl⟩⟩
    · rw [if_neg h1, hlen, sizeMinusOne_small hn0 hnN] at h
      by_cases h2 : pl = n - 1
      · rw [if_pos h2] at h
        cases h
        have hm : (unvisited n s.pCurrOptTarget from_).length = 0 := by omega
        have e : at2 s.pOriginalCosts from_ 0 = at2 costs from_ 0 := by rw [ho]
        unfold solveLeaf
        rw [wrapInt_add_wrap, e]
        by_cases h3 : wrapInt (L + at2 costs from_ 0) < s.pUpperBound
        · rw [if_pos h3]
          refine ⟨rfl, ho, Or.inr ⟨[], ⟨List.nodup_nil, fun x => ?_⟩, ?_, rfl⟩⟩
          · rw [List.length_eq_zero.1 hm]
          · simp only
            rw [closeCost_nil]
        · rw [if_neg h3]
          exact ⟨rfl, ho, Or.inl ⟨rfl, rfl⟩⟩
      · rw [if_neg h2] at h
        have hNILto : ∀ to_ ∈ unvisited n s.pCurrOptTarget from_, (to_ : Int) ≠ NIL := by
          intro to_ htu
          have := (mem_unvisited.1 htu).1
          rw [NIL_eq]; omega
        have hrec : ∀ to_ ∈ unvisited n s.pCurrOptTarget from_, ∀ s1 s3 : BruteForceSolver,
            s1.pCurrOptTarget = s.pCurrOptTarget.set from_ (to_ : Int) →
            s1.pOriginalCosts = costs →
            solve fuel s1 to_ (wrapInt (L + at2 costs from_ to_)) (pl + 1) = some s3 →
            s3.pCurrOptTarget = s1.pCurrOptTarget ∧ s3.pOriginalCosts = costs ∧
            ((s3.pUpperBound = s1.pUpperBound ∧ s3.pOptTarget = s1.pOptTarget) ∨
              ∃ q, IsCompletion n s1.pCurrOptTarget to_ q ∧
                s3.pUpperBound = wrapInt (L + at2 costs from_ to_ + closeCost costs to_ q) ∧
                s3.pOptTarget = assignTour s1.pCurrOptTarget to_ q) := by
          intro to_ htu s1 s3 hc1 ho1 hs3
          have hto := mem_unvisited.1 htu
          have hstep : (unvisited n s1.pCurrOptTarget to_).length + 1
              = (unvisited n s.pCurrOptTarget from_).length := by
            rw [hc1, unvisited_step hlen hfrom (hNILto to_ htu)]
            exact length_filter_ne (unvisited_nodup _ _ _) htu
          refine ih s1 to_ _ (pl + 1) s3 ho1 ?_ hto.1 ?_ ?_ hs3
          · rw [hc1, List.length_set]; exact hlen
          · rw [hc1, at1_set_ne _ _ _ _ (fun h => hto.2.1 h.symm)]
            exact hto.2.2
          · omega
        obtain ⟨hc', ho', hdisj⟩ :=
          solveLoop_sum (solve fuel) from_ L pl s.pCurrOptTarget hfromNIL hrec
            (List.range n) (fun x hx => List.mem_range.1 hx) s s2 rfl ho h
        refine ⟨hc', ho', ?_⟩
        rcases hdisj with e | ⟨to_, q, htu, hq, hub, hopt⟩
        · exact Or.inl e
        · refine Or.inr ⟨to_ :: q, (isCompletion_cons hlen hfrom (hNILto to_ htu)).2 ⟨htu, hq⟩,
            ?_, ?_⟩
          · rw [hub, closeCost_cons, add_assoc]
          · rw [hopt]; rfl

/-- The search of the brute force solver from node 0, whatever the number of nodes up
to the value of the sentinel: it records nothing, or a Hamiltonian cycle with its cost
reduced to the range of `int`. -/
theorem search_sum {costs : List (List Int)} (hn1 : 1 < costs.length)
    (hnN : costs.length ≤ 8388607) {s2 : BruteForceSolver}
    (h : solve (costs.length + 1) (initOptPath costs) 0 0 0 = some s2) :
    s2.pOriginalCosts = costs ∧
    ((s2.pUpperBound = INT_MAX ∧ s2.pOptTarget = List.replicate costs.length NIL) ∨
      ∃ q, IsTour costs.length q ∧ s2.pUpperBound = wrapInt (tourCost costs q) ∧
        s2.pOptTarget = assignTour (List.replicate costs.length NIL) 0 q) := by
  have hm : (unvisited costs.length (List.replicate costs.length NIL) 0).length
      = costs.length - 1 := by
    rw [← ((isCompletion_init _ _).2 (isTour_range costs.length)).completion_length,
      List.length_range']
  have h0 : (0 : Int) = wrapInt 0 := by decide
  rw [h0] at h
  obtain ⟨_, ho, hd⟩ := solve_sum (by omega) hnN (costs.length + 1) (initOptPath costs) 0 0 0 s2
    rfl (by simp [initOptPath]) (by omega)
    (at1_replicate_NIL costs.length 0 (by omega))
    (by simp only [initOptPath]; rw [hm]; omega) h
  refine ⟨ho, ?_⟩
  rcases hd with ⟨e1, e2⟩ | ⟨q, hq, hub, hopt⟩
  · exact Or.inl ⟨e1, e2⟩
  · refine Or.inr ⟨q, (isCompletion_init _ _).1 hq, ?_, hopt⟩
    rw [hub, zero_add]
    rfl

end BruteForceSolver

end TspSolver

namespace TspSolver

/-- With no cycle recorded `getCycle` leaves the vector at its second step. -/
theorem getCycle_unrecorded (n : Nat) (hn1 : 1 < n) (hnN : n ≤ 8388607) (ub : Int)
    (costs : List (List Int)) (curr : List Int) :
    BruteForceSolver.getCycle
      { pUpperBound := ub, pOriginalCosts := costs, pOptTarget := List.replicate n NIL,
        pCurrOptTarget := curr } = none := by
  obtain ⟨m, rfl⟩ : ∃ m, n = m + 2 := ⟨n - 2, by omega⟩
  unfold BruteForceSolver.getCycle
  simp only [List.length_replicate]
  have e0 : atInt (List.replicate (m + 2) NIL) 0 = some NIL := by
    unfold atInt
    simp [List.getElem?_replicate]
  have e1 : atInt (List.replicate (m + 2) NIL) NIL = none := by
    unfold atInt
    rw [NIL_eq]
    simp [List.getElem?_replicate]
    omega
  rw [getCycleLoop, e0]
  simp only
  rw [getCycleLoop, e1]

/-- The cost that the brute force solver reports on a valid matrix is the sum of the
original entries along the reported cycle, reduced to the range of `int`. -/
theorem bruteForceSolve_cost_mod {costs : List (List Int)} (hv : ValidMatrix costs)
    (hnN : costs.length ≤ 8388607) {a : Answer} (h : bruteForceSolve costs = .ok a) :
    ∃ q, IsTour costs.length q ∧
      a = { status := if walkFinite costs (tourNodes q) then 0 else -1
            cyclePath := (tourNodes q).map (fun (x : Nat) => (x : Int))
            cost := wrapInt (tourCost costs q) } := by
  cases hs : BruteForceSolver.solve (costs.length + 1) (BruteForceSolver.initOptPath costs) 0 0 0 with
  | none =>
    unfold bruteForceSolve BruteForceSolver.construct at h
    rw [hv.bruteForce_assertCosts_ok, hs] at h
    simp [Outcome.ofOption, Outcome.andThen] at h
  | some s2 =>
    obtain ⟨ho, hd⟩ := BruteForceSolver.search_sum hv.1 hnN hs
    rcases hd with ⟨e1, e2⟩ | ⟨q, hq, hub, hopt⟩
    · exfalso
      have hg : BruteForceSolver.getCycle s2 = none := by
        have := getCycle_unrecorded costs.length hv.1 hnN s2.pUpperBound s2.pOriginalCosts
          s2.pCurrOptTarget
        rw [← e2] at this
        exact this
      unfold bruteForceSolve BruteForceSolver.construct at h
      rw [hv.bruteForce_assertCosts_ok, hs] at h
      simp [Outcome.ofOption, Outcome.andThen, hg] at h
    · have := bruteForceSolve_of_tour hv hs hq hopt ho
      rw [this] at h
      cases h
      exact ⟨q, hq, by rw [hub]⟩

/-- Up to 71582 nodes a cycle without sentinel edge costs at most `INT_MAX`: the brute
force solver reports with status 0 the sum of the original entries along the reported
cycle. -/
theorem bruteForceSolve_cost_of_status_zero {costs : List (List Int)} (hv : ValidMatrix costs)
    (hn : costs.length ≤ 71582) {a : Answer} (h : bruteForceSolve costs = .ok a)
    (h0 : a.status = 0) : a.cost = cycleCost costs a.cyclePath := by
  obtain ⟨q, hq, rfl⟩ := bruteForceSolve_cost_mod hv (by omega) h
  have hn0 : 0 < costs.length := by have := hv.1; omega
  simp only at h0 ⊢
  rw [cycleCost_tourNodes]
  have hf : walkFinite costs (tourNodes q) = true := by
    by_contra hc
    rw [if_neg hc] at h0
    omega
  have hlt := hq.tourNodes_lt hn0
  have h1 := walkCost_nonneg hv (tourNodes q) hlt
  have h2 := walkCost_finite_le hv (tourNodes q) hlt hf
  rw [hq.tourNodes_length hn0] at h2
  have h3 : walkCost costs (tourNodes q) ≤ 30000 * (((costs.length + 1 : Nat) : Int) - 1) := by
    rcases h2 with h2 | h2
    · exact h2
    · unfold tourNodes at h2; cases h2
  unfold tourCost
  apply wrapInt_eq
  · omega
  · push_cast at h3
    have : (costs.length : Int) ≤ 71582 := by exact_mod_cast hn
    omega

end TspSolver

namespace TspSolver

/-! ## The claims -/

set_option maxRecDepth 100000 in
/-- C1 (fails on the code): on the valid three-node matrix `ringCosts` the brute force
solver returns status 0 and cost 0, while the branch and bound solver returns nothing:
in its second call both candidate arcs get the opportunity cost `INT_MAX + 1`, which
wraps to `INT_MIN`, so no candidate beats the initial value and the arc that `solve`
reads has no row and no column. -/
theorem solve_disagrees_with_bruteForce :
    ValidMatrix ringCosts ∧
    (∀ fuel, solve (fuel + 2) ringCosts = .fail .uninitialisedArc) ∧
    bruteForceSolve ringCosts = .ok { status := 0, cyclePath := [0, 2, 1, 0], cost := 0 } :=
  ⟨by decide, fun _ => rfl, by decide⟩

set_option maxRecDepth 100000 in
/-- C2 (fails on the code): the valid matrix `denseCosts` has the Hamiltonian cycle
0, 3, 2, 1, 0 of cost 15 without a sentinel edge, and the branch and bound solver
reports no cost at all, whatever the depth allowed to its recursion: the third nested
call reads an arc that `searchBestAdvantageArc` left without a value. -/
theorem solve_reports_no_cost :
    ValidMatrix denseCosts ∧ IsTour 4 [3, 2, 1] ∧ FeasibleTour denseCosts [3, 2, 1] ∧
    tourCost denseCosts [3, 2, 1] = 15 ∧
    (∀ fuel, solve (fuel + 3) denseCosts = .fail .uninitialisedArc) ∧
    (∀ fuel, (solve fuel denseCosts).cost? = none) :=
  ⟨by decide, by decide, by decide, by decide, fun _ => rfl, fun fuel =>
    match fuel with
    | 0 => rfl
    | 1 => rfl
    | 2 => rfl
    | _ + 3 => rfl⟩

set_option maxRecDepth 100000 in
/-- C3 (fails on the code): the valid matrix `smallCosts` has a Hamiltonian cycle
without a sentinel edge, and the branch and bound solver returns neither status 0 nor
status -1, whatever the depth allowed to its recursion. -/
theorem solve_returns_no_status :
    ValidMatrix smallCosts ∧ IsTour 4 [3, 2, 1] ∧ FeasibleTour smallCosts [3, 2, 1] ∧
    (∀ fuel, solve (fuel + 3) smallCosts = .fail .uninitialisedArc) ∧
    (∀ fuel, (solve fuel smallCosts).status? = none) :=
  ⟨by decide, by decide, by decide, fun _ => rfl, fun fuel =>
    match fuel with
    | 0 => rfl
    | 1 => rfl
    | 2 => rfl
    | _ + 3 => rfl⟩

set_option maxRecDepth 100000 in
/-- C4 (fails on the code): on the valid matrix `sparseCosts` the branch and bound
solver outputs no cycle: already its first call reads an arc without a value.  The
brute force solver outputs the cycle 0, 1, 2, 3, 0 there. -/
theorem solve_outputs_no_cycle :
    ValidMatrix sparseCosts ∧
    (∀ fuel, solve (fuel + 1) sparseCosts = .fail .uninitialisedArc) ∧
    (∀ fuel a, solve fuel sparseCosts ≠ .ok a) ∧
    bruteForceSolve sparseCosts = .ok { status := 0, cyclePath := [0, 1, 2, 3, 0], cost := 0 } := by
  refine ⟨by decide, fun _ => rfl, ?_, by decide⟩
  intro fuel a h
  cases fuel with
  | zero =>
    have h2 : solve 0 sparseCosts = .fail .fuelExhausted := rfl
    rw [h2] at h
    cases h
  | succ k =>
    have h2 : solve (k + 1) sparseCosts = .fail .uninitialisedArc := rfl
    rw [h2] at h
    cases h

end TspSolver

namespace TspSolver

/-- A Hamiltonian cycle without a sentinel edge costs at most 30000 per node. -/
theorem FeasibleTour.cost_le {costs : List (List Int)} (hv : ValidMatrix costs) {q : List Nat}
    (hq : IsTour costs.length q) (hf : FeasibleTour costs q) :
    tourCost costs q ≤ 30000 * costs.length := by
  have hn : 0 < costs.length := by have := hv.1; omega
  rcases walkCost_finite_le hv (tourNodes q) (hq.tourNodes_lt hn) hf with h | h
  · rw [hq.tourNodes_length hn] at h
    unfold tourCost
    push_cast at h
    omega
  · cases h

/-- A Hamiltonian cycle with a sentinel edge costs at least the sentinel. -/
theorem infeasible_cost_ge {costs : List (List Int)} (hv : ValidMatrix costs) {q : List Nat}
    (hq : IsTour costs.length q) (hf : ¬ FeasibleTour costs q) :
    NIL ≤ tourCost costs q := by
  have hn : 0 < costs.length := by have := hv.1; omega
  apply walkCost_infinite_ge hv (tourNodes q) (hq.tourNodes_lt hn)
  unfold FeasibleTour at hf
  simpa using hf

/-- The cost of a Hamiltonian cycle is below `INT_MAX` when there are at most 256 nodes. -/
theorem tourCost_lt_INT_MAX {costs : List (List Int)} (hv : ValidMatrix costs)
    (hsmall : costs.length ≤ 256) {q : List Nat} (hq : IsTour costs.length q) :
    tourCost costs q < INT_MAX := by
  have hn : 0 < costs.length := by have := hv.1; omega
  have h := (BruteForceSolver.closeCost_bounds hv q 0 hn
    (fun x hx => ((hq.2 x).1 hx).2)).2
  rw [hq.tour_length, NIL_eq] at h
  have e : tourCost costs q = BruteForceSolver.closeCost costs 0 q := rfl
  rw [e, INT_MAX_eq]
  have : ((costs.length - 1 : Nat) : Int) + 1 ≤ 256 := by omega
  nlinarith

/-- C6, amended to at most 256 nodes: for every valid matrix of at most 256 nodes that
has a Hamiltonian cycle without a sentinel edge, `bruteForceSolve` returns status 0 and
the cost of such a cycle, and no Hamiltonian cycle without a sentinel edge is cheaper. -/
theorem bruteForceSolve_optimal (costs : List (List Int)) (hv : ValidMatrix costs)
    (hsmall : costs.length ≤ 256)
    (hfeas : ∃ p, IsTour costs.length p ∧ FeasibleTour costs p) :
    ∃ a q, bruteForceSolve costs = .ok a ∧ a.status = 0 ∧
      IsTour costs.length q ∧ FeasibleTour costs q ∧ a.cost = tourCost costs q ∧
      ∀ p, IsTour costs.length p → FeasibleTour costs p → a.cost ≤ tourCost costs p := by
  obtain ⟨q, hq, hmin, hres⟩ := bruteForceSolve_spec hv hsmall
  obtain ⟨p, hp, hpf⟩ := hfeas
  have hqf : FeasibleTour costs q := by
    by_contra hnf
    have h1 := infeasible_cost_ge hv hq hnf
    have h2 := hpf.cost_le hv hp
    have h3 := hmin p hp
    rw [NIL_eq] at h1
    have : (costs.length : Int) ≤ 256 := by omega
    omega
  refine ⟨_, q, hres, ?_, hq, hqf, rfl, fun p' hp' _ => hmin p' hp'⟩
  unfold FeasibleTour at hqf
  simp [hqf]

/-- Witness of `bruteForceSolve_optimal`: the four-node example of the specification. -/
theorem bruteForceSolve_optimal_witness :
    ∃ a q, bruteForceSolve sampleCosts = .ok a ∧ a.status = 0 ∧
      IsTour sampleCosts.length q ∧ FeasibleTour sampleCosts q ∧
      a.cost = tourCost sampleCosts q ∧
      ∀ p, IsTour sampleCosts.length p → FeasibleTour sampleCosts p →
        a.cost ≤ tourCost sampleCosts p :=
  bruteForceSolve_optimal sampleCosts (by decide) (by decide) ⟨[1, 3, 2], by decide, by decide⟩

/-- C6 (fails as stated): the valid matrix `longRingCosts` of 257 nodes has the
Hamiltonian cycle 0, 256, 255, ..., 1, 0 of cost 257 without a sentinel edge, and
`bruteForceSolve` returns status -1 with a negative cost: the first complete path
0, 1, ..., 256, 0 consists of 257 sentinel edges, whose sum exceeds `INT_MAX` and wraps
to -2139095297, after which every other path is pruned. -/
theorem bruteForceSolve_fails_at_257_nodes :
    ValidMatrix longRingCosts ∧ longRingCosts.length = 257 ∧
    IsTour 257 longRingTour ∧ FeasibleTour longRingCosts longRingTour ∧
    tourCost longRingCosts longRingTour = 257 ∧
    (bruteForceSolve longRingCosts).status? = some (-1) ∧
    (bruteForceSolve longRingCosts).cost? = some (-2139095297) := by
  refine ⟨longRingCosts_valid, longRingCosts_length, longRingTour_isTour,
    longRingTour_feasible, longRingTour_cost, ?_, ?_⟩
  · rw [longRing_answer]; rfl
  · rw [longRing_answer]; rfl

/-- C7 (fails on the code): the matrix `overLimitCosts` is square of size 2, has the
sentinel on the diagonal and no negative entry, and its other entries are 30001; both
validators accept it, because the bound they test is `INT_MAX >> 16 = 32767`, and both
solvers return status 0 with cost 60002. -/
theorem validation_accepts_30001 :
    pMaxCost = 32767 ∧
    Solver.assertCosts overLimitCosts = .ok () ∧
    BruteForceSolver.assertCosts overLimitCosts = .ok () ∧
    (∀ fuel, solve (fuel + 1) overLimitCosts
      = .ok { status := 0, cyclePath := [0, 1, 0], cost := 60002 }) ∧
    bruteForceSolve overLimitCosts
      = .ok { status := 0, cyclePath := [0, 1, 0], cost := 60002 } :=
  ⟨by decide, rfl, rfl, fun _ => rfl, by decide⟩

/-- C8 (fails on the code): in `mixedCosts` the first offending condition in scan order
is the entry 30001 of row 0, which exceeds 30000, so the failure kind named by the
specification is `CostTooLarge`, for either solver.  Both validators compare with
`pMaxCost = 32767`, pass over that entry and fail at the entry -1 of row 1, with the
exception of `CostNegative`; and on `overLimitCosts`, where the entry 30001 is the only
offence, validation succeeds although an offence exists. -/
theorem validation_reports_later_offence :
    firstOffence mixedCosts = some .CostTooLarge ∧
    firstOffenceBruteForce mixedCosts = some .CostTooLarge ∧
    Solver.assertCosts mixedCosts = .error (FailureKind.thrown .CostNegative) ∧
    BruteForceSolver.assertCosts mixedCosts = .error (FailureKind.thrown .CostNegative) ∧
    FailureKind.thrown .CostTooLarge ≠ FailureKind.thrown .CostNegative ∧
    firstOffence overLimitCosts = some .CostTooLarge ∧
    firstOffenceBruteForce overLimitCosts = some .CostTooLarge ∧
    Solver.assertCosts overLimitCosts = .ok () ∧
    BruteForceSolver.assertCosts overLimitCosts = .ok () :=
  ⟨by decide, by decide, rfl, rfl, by decide, by decide, by decide, rfl, rfl⟩

/-- C9 (fails as stated): in the valid matrix `unreachableCosts` the only Hamiltonian
cycle uses sentinel edges, and `bruteForceSolve` does update its best solution: the
reported cost is twice the sentinel, not `INT_MAX`; the status is -1. -/
theorem bruteForceSolve_updates_without_feasible_cycle :
    ValidMatrix unreachableCosts ∧
    (∀ q, IsTour unreachableCosts.length q → ¬ FeasibleTour unreachableCosts q) ∧
    bruteForceSolve unreachableCosts
      = .ok { status := -1, cyclePath := [0, 1, 0], cost := 16777214 } ∧
    (16777214 : Int) ≠ INT_MAX := by
  refine ⟨by decide, ?_, by decide, by decide⟩
  intro q hq hf
  have hlen := hq.tour_length
  have hmem := (hq.2 1).2 (by decide)
  match q, hlen, hmem with
  | [x], _, hmem =>
    have : x = 1 := (List.mem_singleton.1 hmem).symm
    subst this
    exact absurd hf (by decide)

/-- C9, amended: for every valid matrix of at most 256 nodes in which every Hamiltonian
cycle contains a sentinel edge, `bruteForceSolve` returns status -1 together with a
cycle of the right shape, and the reported cost is the sum of the entries along that
cycle, sentinels included: at least the sentinel and below `INT_MAX`. -/
theorem bruteForceSolve_without_feasible_cycle (costs : List (List Int))
    (hv : ValidMatrix costs) (hsmall : costs.length ≤ 256)
    (hnone : ∀ q, IsTour costs.length q → ¬ FeasibleTour costs q) :
    ∃ a, bruteForceSolve costs = .ok a ∧ a.status = -1 ∧
      IsCyclePath costs.length a.cyclePath ∧
      a.cost = cycleCost costs a.cyclePath ∧ NIL ≤ a.cost ∧ a.cost < INT_MAX := by
  obtain ⟨q, hq, _, hres⟩ := bruteForceSolve_spec hv hsmall
  have hn : 0 < costs.length := by have := hv.1; omega
  have hqf := hnone q hq
  refine ⟨_, hres, ?_, hq.isCyclePath hn, (cycleCost_tourNodes costs q).symm,
    infeasible_cost_ge hv hq hqf, tourCost_lt_INT_MAX hv hsmall hq⟩
  unfold FeasibleTour at hqf
  simp [hqf]

/-- Witness of `bruteForceSolve_without_feasible_cycle`: two nodes without any edge. -/
theorem bruteForceSolve_without_feasible_cycle_witness :
    ∃ a, bruteForceSolve unreachableCosts = .ok a ∧ a.status = -1 ∧
      IsCyclePath unreachableCosts.length a.cyclePath ∧
      a.cost = cycleCost unreachableCosts a.cyclePath ∧ NIL ≤ a.cost ∧ a.cost < INT_MAX :=
  bruteForceSolve_without_feasible_cycle unreachableCosts (by decide) (by decide)
    (fun q hq hf => by
      have hlen := hq.tour_length
      have hmem := (hq.2 1).2 (by decide)
      match q, hlen, hmem with
      | [x], _, hmem =>
        have : x = 1 := (List.mem_singleton.1 hmem).symm
        subst this
        exact absurd hf (by decide))

set_option maxRecDepth 100000 in
/-- C10: on the four-node example of the specification both solvers return status 0,
cost 35 and the cycle 0, 1, 3, 2, 0, which has the shape of a Hamiltonian cycle through
node 0 and whose entries in the original matrix sum to 35; for the branch and bound
solver a recursion depth of 3 is enough. -/
theorem sample_solved :
    (∀ fuel, solve (fuel + 3) sampleCosts
      = .ok { status := 0, cyclePath := [0, 1, 3, 2, 0], cost := 35 }) ∧
    bruteForceSolve sampleCosts
      = .ok { status := 0, cyclePath := [0, 1, 3, 2, 0], cost := 35 } ∧
    IsCyclePath 4 [0, 1, 3, 2, 0] ∧ cycleCost sampleCosts [0, 1, 3, 2, 0] = 35 :=
  ⟨fun _ => rfl, by decide, by decide, by decide⟩

end TspSolver

namespace TspSolver

end TspSolver

namespace TspSolver

/-- Where no sum of entries can exceed `INT_MAX` the reported cost is the sum of the
original entries along the reported cycle: for every valid matrix, whenever the branch
and bound solver returns an answer on at most 127 nodes, and whenever the brute force
solver returns an answer on at most 256 nodes, for status 0 and for status -1 alike. -/
theorem reported_cost_is_cycle_sum (costs : List (List Int)) (hv : ValidMatrix costs) :
    (costs.length ≤ 127 → ∀ (fuel : Nat) (a : Answer), solve fuel costs = .ok a →
      a.cost = cycleCost costs a.cyclePath) ∧
    (costs.length ≤ 256 → ∀ (a : Answer), bruteForceSolve costs = .ok a →
      a.cost = cycleCost costs a.cyclePath) := by
  constructor
  · intro hn fuel a h
    obtain ⟨q, _, _, rfl⟩ := solve_of_ok hv hn h
    exact (cycleCost_tourNodes costs q).symm
  · intro hn a h
    obtain ⟨q, _, _, hres⟩ := bruteForceSolve_spec hv hn
    rw [hres] at h
    cases h
    exact (cycleCost_tourNodes costs q).symm

set_option maxRecDepth 100000 in
/-- Witness of `reported_cost_is_cycle_sum`: the four-node example of the
specification, for both solvers. -/
theorem reported_cost_is_cycle_sum_witness :
    ValidMatrix sampleCosts ∧
    (35 : Int) = cycleCost sampleCosts [0, 1, 3, 2, 0] ∧
    (35 : Int) = cycleCost sampleCosts [0, 1, 3, 2, 0] :=
  ⟨by decide,
   (reported_cost_is_cycle_sum sampleCosts (by decide)).1 (by decide) 3
     { status := 0, cyclePath := [0, 1, 3, 2, 0], cost := 35 } rfl,
   (reported_cost_is_cycle_sum sampleCosts (by decide)).2 (by decide)
     { status := 0, cyclePath := [0, 1, 3, 2, 0], cost := 35 } (by decide)⟩

end TspSolver

namespace TspSolver

set_option maxRecDepth 100000 in
/-- C14 (fails on the code): `tailCosts` is a reduced matrix (the reduction leaves it
unchanged) and arises in the second call of `Solver::solve` on the valid matrix
`ringCosts`; its candidate list has the two zero cells (0,0) and (1,1).  For each of
them one of the two minima stays at `INT_MAX` and the other is 1, the sum
`INT_MAX + 1` wraps to `INT_MIN`, which is not greater than the initial opportunity
cost, and the arc returned by `searchBestAdvantageArc` has no row and no column: it is
no member of the candidate list. -/
theorem searchBestAdvantageArc_returns_no_candidate :
    Solver.chooseArcCosts (Solver.extractLowerBound ringCosts).costs 0 2 = tailCosts ∧
    (Solver.extractLowerBound tailCosts).costs = tailCosts ∧
    (Solver.extractLowerBound tailCosts).zeroCostArcs = [⟨0, 0⟩, ⟨1, 1⟩] ∧
    Solver.minRowCost tailCosts 2 ⟨0, 0⟩ = INT_MAX ∧ Solver.minColCost tailCosts 2 ⟨0, 0⟩ = 1 ∧
    Solver.minRowCost tailCosts 2 ⟨1, 1⟩ = 1 ∧ Solver.minColCost tailCosts 2 ⟨1, 1⟩ = INT_MAX ∧
    wrapInt (1 + INT_MAX) = INT_MIN ∧
    Solver.searchBestAdvantageArc tailCosts [⟨0, 0⟩, ⟨1, 1⟩] =
      { row := none, col := none, opportunityCost := INT_MIN } := by
  decide

set_option maxRecDepth 100000 in
/-- C19 (fails on the code): on the valid three-node matrix `backRingCosts` the first
call of `Solver::solve` includes the arc 0 -> 1 and recurses on the submatrix
`[[1, 0], [0, NIL]]`; there `searchBestAdvantageArc` returns an arc without row and
column, and `solve` reads it before any tour has been recorded: the branch and bound
solver returns no answer, whatever the depth allowed to its recursion. -/
theorem solve_reads_arc_without_value :
    ValidMatrix backRingCosts ∧
    Solver.searchBestAdvantageArc (Solver.extractLowerBound backRingCosts).costs
      (Solver.extractLowerBound backRingCosts).zeroCostArcs =
      { row := some 0, col := some 1, opportunityCost := 2 } ∧
    Solver.chooseArcCosts (Solver.extractLowerBound backRingCosts).costs 0 1 =
      [[1, 0], [0, NIL]] ∧
    (Solver.searchBestAdvantageArc (Solver.extractLowerBound [[1, 0], [0, NIL]]).costs
      (Solver.extractLowerBound [[1, 0], [0, NIL]]).zeroCostArcs).row = none ∧
    (∀ fuel, solve (fuel + 2) backRingCosts = .fail .uninitialisedArc) ∧
    (∀ fuel a, solve fuel backRingCosts ≠ .ok a) := by
  refine ⟨by decide, by decide, by decide, by decide, fun _ => rfl, ?_⟩
  intro fuel a h
  match fuel, h with
  | 0, h =>
    have h2 : solve 0 backRingCosts = .fail .fuelExhausted := rfl
    rw [h2] at h
    cases h
  | 1, h =>
    have h2 : solve 1 backRingCosts = .fail .fuelExhausted := rfl
    rw [h2] at h
    cases h
  | k + 2, h =>
    have h2 : solve (k + 2) backRingCosts = .fail .uninitialisedArc := rfl
    rw [h2] at h
    cases h

set_option maxRecDepth 100000 in
/-- C20 (fails on the code): `BruteForceSolver::assertCosts` accepts the empty matrix,
the search returns at once, and `getCycle` then reads `pOptTarget[0]` of the empty
vector `pOptTarget`: `bruteForceSolve` indexes outside the assignment array.  With one
node every index stays inside: the answer is status -1 with the cycle 0, 0. -/
theorem bruteForceSolve_reads_outside_empty_assignment :
    BruteForceSolver.assertCosts [] = .ok () ∧
    BruteForceSolver.construct [] = .ok (BruteForceSolver.initOptPath []) ∧
    (BruteForceSolver.initOptPath []).pOptTarget = [] ∧
    BruteForceSolver.getCycle (BruteForceSolver.initOptPath []) = none ∧
    bruteForceSolve [] = .fail .indexOutOfRange ∧
    BruteForceSolver.assertCosts singleCosts = .ok () ∧
    bruteForceSolve singleCosts = .ok { status := -1, cyclePath := [0, 0], cost := NIL } :=
  ⟨rfl, by decide, rfl, by decide, by decide, rfl, by decide⟩

/-- C12 (fails as stated): `sentinelCosts`, the valid matrix of 257 nodes without any
edge, is the matrix of the first call of `Solver::solve` on it: square, every entry
the sentinel.  `extractLowerBound` subtracts the sentinel from each of its 257 rows and
leaves the zero matrix; the sum of the 257 minima, 2155871999, exceeds `INT_MAX` and
wraps, so the value returned is -2139095297, while every assignment costs 2155871999
in the original matrix and 0 in the reduced one. -/
theorem extractLowerBound_wraps_at_257_rows :
    ValidMatrix sentinelCosts ∧ Square 257 sentinelCosts ∧
    (∀ i < 257, ∀ j < 257, at2 sentinelCosts i j = NIL) ∧
    (∀ i < 257, ∀ j < 257, at2 (Solver.extractLowerBound sentinelCosts).costs i j = 0) ∧
    (Solver.extractLowerBound sentinelCosts).lowerBound = -2139095297 ∧
    sumTo 257 (fun i => at2 sentinelCosts i i) = 2155871999 ∧
    sumTo 257 (fun i => at2 sentinelCosts i i) ≠
      (Solver.extractLowerBound sentinelCosts).lowerBound +
        sumTo 257 (fun i => at2 (Solver.extractLowerBound sentinelCosts).costs i i) := by
  have e : sentinelCosts = uniformCosts 257 NIL := rfl
  rw [e]
  obtain ⟨h1, h2, h3⟩ := Solver.extractLowerBound_uniform_sentinel
  have s1 : sumTo 257 (fun i => at2 (uniformCosts 257 NIL) i i) = 2155871999 := by
    rw [sumTo_congr 257 _ (fun _ => NIL) (fun i hi => h1 i hi i hi), sumTo_const, NIL_eq]
    norm_num
  have s2 : sumTo 257 (fun i => at2 (Solver.extractLowerBound (uniformCosts 257 NIL)).costs i i)
      = 0 := by
    rw [sumTo_congr 257 _ (fun _ => 0) (fun i hi => h2 i hi i hi), sumTo_const]
    norm_num
  refine ⟨uniformCosts_sentinel_valid 257 (by norm_num), uniformCosts_square 257 NIL, h1, h2, h3,
    s1, ?_⟩
  rw [s1, s2, h3]
  norm_num

set_option maxRecDepth 100000 in
/-- C18 (fails as stated): the top-level call of `Solver::solve` on the four-node
example `sampleCosts` returns with the working matrix reduced, not with its contents
at call entry: the entry `costs[0][1]`, 10 at entry, is 0 at return. -/
theorem solve_returns_reduced_matrix :
    ∃ r, Solver.solve 3 (Solver.initOptPath sampleCosts) (range 4) (range 4) sampleCosts 0
        = .ok r ∧
      r.2 = [[8388597, 0, 4, 5], [0, 8388602, 3, 0], [0, 7, 8388600, 1], [0, 0, 0, 8388594]] ∧
      r.2 ≠ sampleCosts ∧ at2 sampleCosts 0 1 = 10 ∧ at2 r.2 0 1 = 0 :=
  ⟨_, rfl, by decide, by decide, by decide, by decide⟩

end TspSolver

namespace TspSolver

/-- C11: let the partial assignment `pCurrOptTarget` be a set of node-disjoint directed
paths on the `n` nodes and `pCurrGroup` the table that `setCurrGroup` builds from it,
let `x` have no assigned successor and `y` no assigned predecessor.  If
`isArcSkippable(x, y)` answers false, then every Hamiltonian cycle that contains the
arcs of the partial assignment contains the arc `x -> y`. -/
theorem unskippable_arc_on_every_cycle (n : Nat) (s : Solver)
    (hc : CurrOK n s.pCurrOptTarget)
    (hg : Solver.setCurrGroup s.pCurrOptTarget = some s.pCurrGroup)
    (x y : Nat) (hx : x < n) (hfx : nx s.pCurrOptTarget x = none) (hy : y < n)
    (hfy : ∀ a, nx s.pCurrOptTarget a ≠ some y)
    (hskip : Solver.isArcSkippable s (x : Int) (y : Int) = some false) :
    ∀ σ : Nat → Nat, Ham n σ → Ext (nx s.pCurrOptTarget) σ → σ x = y :=
  fun _ hσ he => Solver.forced_arc hc hg hx hfx hy hfy hskip hσ he

set_option maxRecDepth 100000 in
/-- Witness of `unskippable_arc_on_every_cycle`: three nodes with the arc 0 -> 1
assigned; the arc 1 -> 2 cannot be skipped, and the cycle 0, 1, 2, 0 contains it. -/
theorem unskippable_arc_on_every_cycle_witness :
    Solver.isArcSkippable
      { pUpperBound := INT_MAX, pOriginalCosts := backRingCosts, pOptTarget := [NIL, NIL, NIL],
        pCurrOptTarget := [1, NIL, NIL], pCurrGroup := [0, 0, 2], zeroCostArcs := [] }
      1 2 = some false ∧
    succOfOrder 3 [1, 2] 1 = 2 := by
  have hc : CurrOK 3 [1, NIL, NIL] :=
    (currOK_replicate 3).set_arc (by decide) (x := 0) (y := 1) (by decide) (nx_replicate 3 0)
      (by decide) (fun a h => by rw [nx_replicate] at h; cases h)
      (fun h => absurd (h.of_none (nx_replicate 3 1)) (by decide))
  have hfy : ∀ a, nx [1, NIL, NIL] a ≠ some 2 := by
    intro a h
    have ha := (hc.2.2.1 a 2 h).1
    interval_cases a
    · exact absurd h (by decide)
    · exact absurd h (by decide)
    · exact absurd h (by decide)
  have e1 : nx [1, NIL, NIL] 1 = none := by decide
  have e2 : nx [1, NIL, NIL] 2 = none := by decide
  have he : Ext (nx [1, NIL, NIL]) (succOfOrder 3 [1, 2]) := by
    intro a b h
    have ha := (hc.2.2.1 a b h).1
    interval_cases a
    · have e : nx [1, NIL, NIL] 0 = some 1 := by decide
      rw [e] at h
      cases h
      decide
    · rw [e1] at h; cases h
    · rw [e2] at h; cases h
  exact ⟨by decide,
    unskippable_arc_on_every_cycle 3
      { pUpperBound := INT_MAX, pOriginalCosts := backRingCosts, pOptTarget := [NIL, NIL, NIL],
        pCurrOptTarget := [1, NIL, NIL], pCurrGroup := [0, 0, 2], zeroCostArcs := [] }
      hc (by decide) 1 2 (by decide) (by decide) (by decide) hfy (by decide)
      (succOfOrder 3 [1, 2]) (ham_succOfOrder (by decide) (by decide) backRingCosts).1 he⟩

/-- C12, amended by the range of `int`: for every square matrix with non-negative
entries `extractLowerBound` subtracts an amount `ρ i ≥ 0` from every row `i` and an
amount `γ j ≥ 0` from every column `j` and leaves a matrix with non-negative entries
that has a zero in every row and in every column, so that with the total `T` of these
amounts, for every permutation `π` of the indices, the sum of `original[i][π i]` is `T`
plus the sum of `reduced[i][π i]`.  The value returned is `T` reduced to the range of
`int`; it is `T` exactly when `T` is at most `INT_MAX`.  So whenever some complete
assignment costs at most `INT_MAX`, as every one does in a matrix of at most 256 rows
with entries up to the sentinel, the identity holds with the returned value, which is
then at most the cost of every complete assignment. -/
theorem extractLowerBound_splits_assignment (k : Nat) (costs : List (List Int))
    (hsq : Square k costs) (hb : NonNegative k costs) :
    (∀ i < k, ∀ j < k, 0 ≤ at2 (Solver.extractLowerBound costs).costs i j) ∧
    (∀ i < k, ∃ j < k, at2 (Solver.extractLowerBound costs).costs i j = 0) ∧
    (∀ j < k, ∃ i < k, at2 (Solver.extractLowerBound costs).costs i j = 0) ∧
    (∃ (ρ γ : Nat → Int) (T : Int), (∀ i, 0 ≤ ρ i) ∧ (∀ j, 0 ≤ γ j) ∧
      T = sumTo k ρ + sumTo k γ ∧
      (∀ i < k, ∀ j < k,
        at2 (Solver.extractLowerBound costs).costs i j = at2 costs i j - ρ i - γ j) ∧
      (Solver.extractLowerBound costs).lowerBound = wrapInt T ∧
      ((Solver.extractLowerBound costs).lowerBound = T ↔ T ≤ INT_MAX) ∧
      ∀ π : Nat → Nat, (∀ i < k, π i < k) → (∀ i < k, ∀ j < k, π i = π j → i = j) →
        sumTo k (fun i => at2 costs i (π i))
          = T + sumTo k (fun i => at2 (Solver.extractLowerBound costs).costs i (π i))) ∧
    (∀ π0 : Nat → Nat, (∀ i < k, π0 i < k) → (∀ i < k, ∀ j < k, π0 i = π0 j → i = j) →
      sumTo k (fun i => at2 costs i (π0 i)) ≤ INT_MAX →
      ∀ π : Nat → Nat, (∀ i < k, π i < k) → (∀ i < k, ∀ j < k, π i = π j → i = j) →
        sumTo k (fun i => at2 costs i (π i))
          = (Solver.extractLowerBound costs).lowerBound
            + sumTo k (fun i => at2 (Solver.extractLowerBound costs).costs i (π i)) ∧
        (Solver.extractLowerBound costs).lowerBound ≤ sumTo k (fun i => at2 costs i (π i))) ∧
    (Bounded k costs → k ≤ 256 →
      ∀ π : Nat → Nat, (∀ i < k, π i < k) → (∀ i < k, ∀ j < k, π i = π j → i = j) →
        sumTo k (fun i => at2 costs i (π i))
          = (Solver.extractLowerBound costs).lowerBound
            + sumTo k (fun i => at2 (Solver.extractLowerBound costs).costs i (π i)) ∧
        (Solver.extractLowerBound costs).lowerBound ≤ sumTo k (fun i => at2 costs i (π i))) := by
  obtain ⟨ρ, γ, hρ, hγ, _, rnn, rcell, rlb, _, rz1, rz2⟩ :=
    Solver.extractLowerBound_exact hsq hb
  obtain ⟨T, hT⟩ : ∃ T, T = sumTo k ρ + sumTo k γ := ⟨_, rfl⟩
  have hT0 : 0 ≤ T := by
    have := sumTo_nonneg k ρ (fun i _ => hρ i)
    have := sumTo_nonneg k γ (fun i _ => hγ i)
    omega
  have hlb : (Solver.extractLowerBound costs).lowerBound = wrapInt T := by rw [hT]; exact rlb
  have hsum : ∀ π : Nat → Nat, (∀ i < k, π i < k) → (∀ i < k, ∀ j < k, π i = π j → i = j) →
      sumTo k (fun i => at2 costs i (π i))
        = T + sumTo k (fun i => at2 (Solver.extractLowerBound costs).costs i (π i)) := by
    intro π h1 h2
    have e1 : sumTo k (fun i => at2 (Solver.extractLowerBound costs).costs i (π i))
        = sumTo k (fun i => at2 costs i (π i) - ρ i - γ (π i)) :=
      sumTo_congr _ _ _ (fun i hi => rcell i hi (π i) (h1 i hi))
    rw [e1, sumTo_sub k (fun i => at2 costs i (π i)) ρ (fun i => γ (π i)),
      sumTo_perm k π γ h1 h2, hT]
    ring
  have hred : ∀ π : Nat → Nat, (∀ i < k, π i < k) →
      0 ≤ sumTo k (fun i => at2 (Solver.extractLowerBound costs).costs i (π i)) :=
    fun π h1 => sumTo_nonneg k _ (fun i hi => (rnn i hi (π i) (h1 i hi)).1)
  have hfit : T ≤ INT_MAX → ∀ π : Nat → Nat, (∀ i < k, π i < k) →
      (∀ i < k, ∀ j < k, π i = π j → i = j) →
      sumTo k (fun i => at2 costs i (π i))
        = (Solver.extractLowerBound costs).lowerBound
          + sumTo k (fun i => at2 (Solver.extractLowerBound costs).costs i (π i)) ∧
      (Solver.extractLowerBound costs).lowerBound ≤ sumTo k (fun i => at2 costs i (π i)) := by
    intro hTm π h1 h2
    rw [INT_MAX_eq] at hTm
    have e := hsum π h1 h2
    have := hred π h1
    rw [hlb, wrapInt_eq (by omega) hTm]
    exact ⟨e, by omega⟩
  refine ⟨fun i hi j hj => (rnn i hi j hj).1, rz1, rz2,
    ⟨ρ, γ, T, hρ, hγ, hT, rcell, hlb, ⟨fun e => ?_, fun hTm => ?_⟩, hsum⟩,
    fun π0 h1 h2 hle => ?_, fun hbd hk => ?_⟩
  · rw [hlb] at e
    rw [INT_MAX_eq]
    unfold wrapInt at e
    omega
  · rw [INT_MAX_eq] at hTm
    rw [hlb, wrapInt_eq (by omega) hTm]
  · have e := hsum π0 h1 h2
    have := hred π0 h1
    exact hfit (by omega)
  · have e := hsum (fun i => i) (fun i hi => hi) (fun i _ j _ e => e)
    dsimp only at e
    have := hred (fun i => i) (fun i hi => hi)
    dsimp only at this
    have hG : sumTo k (fun i => at2 costs i i) ≤ k * NIL :=
      sumTo_le k _ NIL (fun i hi => (hbd i hi i hi).2)
    have hk2 : (k : Int) ≤ 256 := by exact_mod_cast hk
    rw [NIL_eq] at hG
    exact hfit (by rw [INT_MAX_eq]; omega)

set_option maxRecDepth 100000 in
/-- Witness of `extractLowerBound_splits_assignment`: the four-node example and the
assignment 0 -> 1, 1 -> 2, 2 -> 3, 3 -> 0, which costs 45 there. -/
theorem extractLowerBound_splits_assignment_witness :
    Square 4 sampleCosts ∧ NonNegative 4 sampleCosts ∧ Bounded 4 sampleCosts ∧
    sumTo 4 (fun i => at2 sampleCosts i ((i + 1) % 4)) ≤ INT_MAX ∧
    (sumTo 4 (fun i => at2 sampleCosts i ((i + 1) % 4))
        = (Solver.extractLowerBound sampleCosts).lowerBound
          + sumTo 4 (fun i => at2 (Solver.extractLowerBound sampleCosts).costs i ((i + 1) % 4)) ∧
      (Solver.extractLowerBound sampleCosts).lowerBound
        ≤ sumTo 4 (fun i => at2 sampleCosts i ((i + 1) % 4))) ∧
    (sumTo 4 (fun i => at2 sampleCosts i ((i + 1) % 4))
        = (Solver.extractLowerBound sampleCosts).lowerBound
          + sumTo 4 (fun i => at2 (Solver.extractLowerBound sampleCosts).costs i ((i + 1) % 4)) ∧
      (Solver.extractLowerBound sampleCosts).lowerBound
        ≤ sumTo 4 (fun i => at2 sampleCosts i ((i + 1) % 4))) := by
  have hsq : Square 4 sampleCosts := ⟨rfl, by decide⟩
  have hbd : Bounded 4 sampleCosts := by unfold Bounded; decide
  have hb : NonNegative 4 sampleCosts := by unfold NonNegative; decide
  have hle : sumTo 4 (fun i => at2 sampleCosts i ((i + 1) % 4)) ≤ INT_MAX := by decide
  exact ⟨hsq, hb, hbd, hle,
    (extractLowerBound_splits_assignment 4 sampleCosts hsq hb).2.2.2.2.1
      (fun i => (i + 1) % 4) (by decide) (by decide) hle
      (fun i => (i + 1) % 4) (by decide) (by decide),
    (extractLowerBound_splits_assignment 4 sampleCosts hsq hb).2.2.2.2.2 hbd (by decide)
      (fun i => (i + 1) % 4) (by decide) (by decide)⟩

/-- C13: after `extractLowerBound` has run on a square matrix whose entries are
non-negative `int`s, the list `zeroCostArcs` holds exactly the cells `(i, j)` whose
value in the reduced matrix is 0, and it holds no cell twice. -/
theorem zeroCostArcs_are_the_zero_cells (k : Nat) (costs : List (List Int))
    (hsq : Square k costs) (hb : NonNegative k costs) :
    (∀ a : Arc, a ∈ (Solver.extractLowerBound costs).zeroCostArcs ↔
      a.row < k ∧ a.col < k ∧ at2 (Solver.extractLowerBound costs).costs a.row a.col = 0) ∧
    (Solver.extractLowerBound costs).zeroCostArcs.Nodup ∧
    ∀ i < k, ∀ j < k, (Solver.extractLowerBound costs).zeroCostArcs.count ⟨i, j⟩
      = if at2 (Solver.extractLowerBound costs).costs i j = 0 then 1 else 0 := by
  obtain ⟨_, _, h3, h4⟩ := Solver.extractLowerBound_zero hsq hb
  refine ⟨h3, h4, fun i hi j hj => ?_⟩
  by_cases hz : at2 (Solver.extractLowerBound costs).costs i j = 0
  · rw [if_pos hz]
    exact List.count_eq_one_of_mem h4 ((h3 ⟨i, j⟩).2 ⟨hi, hj, hz⟩)
  · rw [if_neg hz]
    exact List.count_eq_zero_of_not_mem (fun hm => hz ((h3 ⟨i, j⟩).1 hm).2.2)

set_option maxRecDepth 100000 in
/-- Witness of `zeroCostArcs_are_the_zero_cells`: the matrix `smallCosts`, which has
zero entries before the reduction and gets more from the row pass. -/
theorem zeroCostArcs_are_the_zero_cells_witness :
    (∀ a : Arc, a ∈ (Solver.extractLowerBound smallCosts).zeroCostArcs ↔
      a.row < 4 ∧ a.col < 4 ∧ at2 (Solver.extractLowerBound smallCosts).costs a.row a.col = 0) ∧
    (Solver.extractLowerBound smallCosts).zeroCostArcs.Nodup ∧
    ∀ i < 4, ∀ j < 4, (Solver.extractLowerBound smallCosts).zeroCostArcs.count ⟨i, j⟩
      = if at2 (Solver.extractLowerBound smallCosts).costs i j = 0 then 1 else 0 :=
  zeroCostArcs_are_the_zero_cells 4 smallCosts ⟨rfl, by decide⟩ (by unfold NonNegative; decide)

/-- C15: for every partial assignment `curr` of `n` entries, each the sentinel or a
node below `n`, `setCurrGroup` builds a group table, and on it `findGroup(a)` returns,
for every node `a`, the smallest node connected to `a` by assigned edges taken as
undirected; so `findGroup(a) = findGroup(b)` exactly when `a` and `b` are connected. -/
theorem findGroup_least_of_component (n : Nat) (curr : List Int) (hcl : curr.length = n)
    (hent : ∀ i < n, at1 curr i = NIL ∨ ∃ v < n, at1 curr i = (v : Int)) :
    ∃ g, Solver.setCurrGroup curr = some g ∧
      (∀ a < n, ∃ m : Nat, Solver.findGroup g (a : Int) = some (m : Int) ∧
        Connected curr a m ∧ ∀ b, Connected curr a b → m ≤ b) ∧
      (∀ a < n, ∀ b < n,
        Solver.findGroup g (a : Int) = Solver.findGroup g (b : Int) ↔ Connected curr a b) := by
  obtain ⟨g, hg⟩ := Solver.setCurrGroup_total hcl hent
  obtain ⟨h1, h2, h3⟩ := Solver.setCurrGroup_spec hcl hent hg
  refine ⟨g, hg, fun a ha => ?_, fun a ha b hb => ?_⟩
  · exact ⟨rt g a, findGroup_total h1 (by omega), (Solver.rt_least hcl hent hg a).1,
      (Solver.rt_least hcl hent hg a).2⟩
  · rw [findGroup_total h1 (show a < g.length by omega),
      findGroup_total h1 (show b < g.length by omega)]
    unfold Connected
    rw [← h3 a b]
    constructor
    · intro e
      have e2 := Option.some.inj e
      exact_mod_cast e2
    · intro e
      rw [e]

set_option maxRecDepth 100000 in
/-- Witness of `findGroup_least_of_component`: four nodes with the arcs 3 -> 1 and
1 -> 2. -/
theorem findGroup_least_of_component_witness :
    ∃ g, Solver.setCurrGroup [NIL, 2, NIL, 1] = some g ∧
      (∀ a : Nat, a < 4 → ∃ m : Nat, Solver.findGroup g (a : Int) = some (m : Int) ∧
        Connected [NIL, 2, NIL, 1] a m ∧ ∀ b, Connected [NIL, 2, NIL, 1] a b → m ≤ b) ∧
      (∀ a : Nat, a < 4 → ∀ b : Nat, b < 4 →
        (Solver.findGroup g (a : Int) = Solver.findGroup g (b : Int) ↔
          Connected [NIL, 2, NIL, 1] a b)) :=
  findGroup_least_of_component 4 [NIL, 2, NIL, 1] rfl (by decide)

/-- C17: a call of the branch and bound `Solver::solve` that returns leaves
`pCurrOptTarget` equal to its value at entry, and so does a call of
`BruteForceSolver::solve` for a node `from` whose entry is the sentinel, which is the
case at the top-level call and at every call that the loop makes (it calls `solve` for
a node `to` only after reading the sentinel in `pCurrOptTarget[to]`). -/
theorem pCurrOptTarget_restored :
    (∀ (fuel : Nat) (s : Solver) (rowTitle colTitle : List Int) (costs : List (List Int))
      (lowerBound : Int) (r : Solver × List (List Int)),
      Solver.solve fuel s rowTitle colTitle costs lowerBound = .ok r →
      r.1.pCurrOptTarget = s.pCurrOptTarget) ∧
    (∀ (fuel : Nat) (s : BruteForceSolver) (from_ : Nat) (lowerBound : Int) (pathLength : Nat)
      (s2 : BruteForceSolver),
      (from_ < s.pCurrOptTarget.length → at1 s.pCurrOptTarget from_ = NIL) →
      BruteForceSolver.solve fuel s from_ lowerBound pathLength = some s2 →
      s2.pCurrOptTarget = s.pCurrOptTarget) ∧
    (∀ (costs : List (List Int)) (s2 : BruteForceSolver),
      BruteForceSolver.construct costs = .ok s2 →
      s2.pCurrOptTarget = List.replicate costs.length NIL) := by
  refine ⟨Solver.branch_keeps_path, BruteForceSolver.search_keeps_path, ?_⟩
  intro costs s2 h
  unfold BruteForceSolver.construct at h
  cases ha : BruteForceSolver.assertCosts costs with
  | error e => rw [ha] at h; cases h
  | ok u =>
    rw [ha] at h
    dsimp only at h
    cases hs : BruteForceSolver.solve (costs.length + 1) (BruteForceSolver.initOptPath costs) 0 0 0 with
    | none => rw [hs] at h; cases h
    | some s3 =>
      rw [hs] at h
      cases h
      exact BruteForceSolver.search_keeps_path _ _ 0 0 0 _
        (fun h0 => BruteForceSolver.at1_replicate_NIL costs.length 0 (by simpa [BruteForceSolver.initOptPath] using h0)) hs

set_option maxRecDepth 100000 in
/-- Witness of `pCurrOptTarget_restored`: the top-level calls of both solvers on the
four-node example, and a call of the branch and bound solver with the arc 0 -> 1
assigned. -/
theorem pCurrOptTarget_restored_witness :
    (∃ r, Solver.solve 3
        { Solver.initOptPath sampleCosts with pCurrOptTarget := [1, NIL, NIL, NIL] }
        [1, 2, 3] [0, 2, 3] [[5, 9, 10], [6, NIL, 12], [8, 9, NIL]] 10 = .ok r ∧
      r.1.pCurrOptTarget = [1, NIL, NIL, NIL]) ∧
    (∃ s2, BruteForceSolver.solve 5 (BruteForceSolver.initOptPath sampleCosts) 0 0 0 = some s2 ∧
      s2.pCurrOptTarget = [NIL, NIL, NIL, NIL]) := by
  refine ⟨⟨_, rfl, ?_⟩, ⟨_, rfl, ?_⟩⟩
  · exact pCurrOptTarget_restored.1 3
      { Solver.initOptPath sampleCosts with pCurrOptTarget := [1, NIL, NIL, NIL] }
      [1, 2, 3] [0, 2, 3] [[5, 9, 10], [6, NIL, 12], [8, 9, NIL]] 10 _ rfl
  · exact pCurrOptTarget_restored.2.1 5 (BruteForceSolver.initOptPath sampleCosts) 0 0 0 _
      (fun _ => rfl) rfl

/-- C18, amended: a call of `Solver::solve` that returns leaves the working matrix with
the shape it had at entry; a call that returns at the bound check at entry leaves the
contents as they were, and a call that returns at the bound check after the reduction
leaves the reduced matrix.  On a matrix of non-negative entries, as every valid matrix
is, the call leaves non-negative entries, none above its value at entry; if it passes
the check at entry, none is above its value in the reduced matrix, so that the contents
are those at entry only if the reduction changes nothing, and the matrix left is the
reduced matrix, or the matrix left by the recursive call of the exclude branch on the
reduced matrix with one of its zero cells set to the sentinel, with that cell set back
to its value: the reduction made in place is not undone.  What the exclude branch
restores is the cell that it had set to the sentinel. -/
theorem working_matrix_at_return (k : Nat) :
    (∀ (fuel : Nat) (s : Solver) (rowTitle colTitle : List Int) (costs : List (List Int))
      (lowerBound : Int) (r : Solver × List (List Int)),
      Square k costs → Solver.solve fuel s rowTitle colTitle costs lowerBound = .ok r →
      Square k r.2 ∧
      (lowerBound ≥ s.pUpperBound → r.2 = costs) ∧
      (¬ lowerBound ≥ s.pUpperBound →
        wrapInt (lowerBound + (Solver.extractLowerBound costs).lowerBound) ≥ s.pUpperBound →
        r.2 = (Solver.extractLowerBound costs).costs)) ∧
    (∀ costs : List (List Int), ValidMatrix costs →
      Square costs.length costs ∧ NonNegative costs.length costs) ∧
    (∀ (fuel : Nat) (s : Solver) (rowTitle colTitle : List Int) (costs : List (List Int))
      (lowerBound : Int) (r : Solver × List (List Int)),
      Square k costs → NonNegative k costs →
      Solver.solve (fuel + 1) s rowTitle colTitle costs lowerBound = .ok r →
      NonNegative k r.2 ∧
      (∀ i < k, ∀ j < k, at2 r.2 i j ≤ at2 costs i j) ∧
      (¬ lowerBound ≥ s.pUpperBound →
        (∀ i < k, ∀ j < k, at2 r.2 i j ≤ at2 (Solver.extractLowerBound costs).costs i j) ∧
        (r.2 = costs → (Solver.extractLowerBound costs).costs = costs) ∧
        (r.2 = (Solver.extractLowerBound costs).costs ∨
          ∃ (row col : Nat) (s3 : Solver) (lb2 : Int) (r2 : Solver × List (List Int)),
            row < k ∧ col < k ∧ at2 (Solver.extractLowerBound costs).costs row col = 0 ∧
            Solver.solve fuel s3 rowTitle colTitle
              (setCell (Solver.extractLowerBound costs).costs row col NIL) lb2 = .ok r2 ∧
            r.2 = setCell r2.2 row col (at2 (Solver.extractLowerBound costs).costs row col)))) ∧
    (∀ (fuel : Nat) (arcSkippable : Bool) (s : Solver) (rowTitle colTitle : List Int)
      (costs : List (List Int)) (row col : Nat) (lowerBound : Int)
      (r : Solver × List (List Int)),
      Square k costs → row < k → col < k →
      Solver.solveExclude (Solver.solve fuel) arcSkippable s rowTitle colTitle costs row col
        lowerBound = .ok r →
      Square k r.2 ∧ at2 r.2 row col = at2 costs row col) := by
  refine ⟨?_, fun _ hv => hv.square_nonNegative, ?_, ?_⟩
  · intro fuel s rowTitle colTitle costs lowerBound r hsq h
    refine ⟨Solver.solve_square fuel _ _ _ _ _ r hsq h, fun h1 => ?_, fun h1 h2 => ?_⟩
    · rw [Solver.solve_at_entry_check h h1]
    · cases fuel with
      | zero => rw [Solver.solve] at h; cases h
      | succ fuel => exact Solver.solve_reduced h h1 h2
  · intro fuel s rowTitle colTitle costs lowerBound r hsq hb h
    obtain ⟨_, q2, q3⟩ := Solver.solve_matrix (fuel + 1) _ _ _ _ _ r hsq hb h
    refine ⟨q2, q3, fun h1 => ?_⟩
    obtain ⟨p1, p2⟩ := Solver.solve_matrix_passed hsq hb h h1
    exact ⟨p1, Solver.solve_unchanged_reduced hsq hb h h1, p2⟩
  · intro fuel arcSkippable s rowTitle colTitle costs row col lowerBound r hsq hrow hcol h
    exact Solver.solveExclude_cell hsq hrow hcol h

set_option maxRecDepth 100000 in
/-- Witness of `working_matrix_at_return`: the top-level call on the four-node example,
which passes the check at entry, and the exclude branch for the cell (0, 1) of its
reduced matrix. -/
theorem working_matrix_at_return_witness :
    (∃ r, Solver.solve 3 (Solver.initOptPath sampleCosts) (range 4) (range 4) sampleCosts 0
        = .ok r ∧ Square 4 r.2) ∧
    (ValidMatrix sampleCosts ∧ Square 4 sampleCosts ∧ NonNegative 4 sampleCosts) ∧
    (∃ r, Solver.solve (2 + 1) (Solver.initOptPath sampleCosts) (range 4) (range 4)
        sampleCosts 0 = .ok r ∧
      ¬ (0 : Int) ≥ (Solver.initOptPath sampleCosts).pUpperBound ∧
      (∀ i < 4, ∀ j < 4, at2 r.2 i j ≤ at2 (Solver.extractLowerBound sampleCosts).costs i j) ∧
      (r.2 = sampleCosts → (Solver.extractLowerBound sampleCosts).costs = sampleCosts)) ∧
    (∃ r, Solver.solveExclude (Solver.solve 4) true (Solver.initOptPath sampleCosts)
        (range 4) (range 4) (Solver.extractLowerBound sampleCosts).costs 0 1 35 = .ok r ∧
      at2 r.2 0 1 = at2 (Solver.extractLowerBound sampleCosts).costs 0 1) := by
  have hv : ValidMatrix sampleCosts := by decide
  have hsq : Square 4 sampleCosts := ⟨rfl, by decide⟩
  have hb : NonNegative 4 sampleCosts := ((working_matrix_at_return 4).2.1 sampleCosts hv).2
  have h1 : ¬ (0 : Int) ≥ (Solver.initOptPath sampleCosts).pUpperBound := by decide
  refine ⟨⟨_, rfl, ?_⟩, ⟨hv, hsq, hb⟩, ⟨_, rfl, h1, ?_, ?_⟩, ⟨_, rfl, ?_⟩⟩
  · exact ((working_matrix_at_return 4).1 3 (Solver.initOptPath sampleCosts) (range 4) (range 4)
      sampleCosts 0 _ ⟨rfl, by decide⟩ rfl).1
  · exact (((working_matrix_at_return 4).2.2.1 2 (Solver.initOptPath sampleCosts) (range 4)
      (range 4) sampleCosts 0 _ hsq hb rfl).2.2 h1).1
  · exact (((working_matrix_at_return 4).2.2.1 2 (Solver.initOptPath sampleCosts) (range 4)
      (range 4) sampleCosts 0 _ hsq hb rfl).2.2 h1).2.1
  · exact ((working_matrix_at_return 4).2.2.2 4 true (Solver.initOptPath sampleCosts) (range 4)
      (range 4) (Solver.extractLowerBound sampleCosts).costs 0 1 35 _ ⟨rfl, by decide⟩
      (by decide) (by decide) rfl).2

end TspSolver
